import Mathlib

/-! # The front end of `clear`: the lexer (Source/Parsing/Parser.cpp) and the lowering of the syntax tree (Source/AST/ASTNode.cpp)

The first part is a shallow embedding of the state-machine lexer.  Every member function of
`clear::Parser` becomes a function on the record `Parser` below; a function
that can halt (`CLEAR_VERIFY`, `CLEAR_HALT`, an uncaught `std::out_of_range`)
or loop returns a `Res`.  Strings are lists of characters, `char` is `Char`
and the NUL sentinel is `Char.ofNat 0`.  The second part embeds `Codegen` of
the node classes; the properties of both parts follow the definitions.
-/

namespace clear

/-! ## Tokens and states -/

/-- Token kinds.  The closed set of section 6 of the specification, followed by
the keyword tokens of the primitive type names and of `return`. -/
inductive TokenType where
  | None | VariableName | VariableReference | FunctionName | FunctionCall
  | FunctionType | StructName | Lambda | RValueNumber | RValueString | RValueChar
  | OpenBracket | CloseBracket | StartIndentation | EndIndentation
  | StartFunctionParameters | EndFunctionParameters | Comma | EndLine
  | IndexOperator | PointerDef | StaticArrayDef | DynamicArrayDef | DereferenceOp
  | MulOp | SubOp | AddOp | DivOp | ModOp | EqOp | LessOp | LessEqOp | GreaterOp
  | GreaterEqOp | Assign | Arrow
  | Int8Type | Int16Type | Int32Type | Int64Type
  | UInt8Type | UInt16Type | UInt32Type | UInt64Type
  | Float32Type | Float64Type | BoolType | StringType | ReturnKeyword
  deriving DecidableEq, Repr

/-- A token: its kind and the lexeme it carries (`""` when none is given). -/
structure Token where
  TokenType : TokenType
  Data : List Char
  deriving DecidableEq, Repr

/-- The states of the lexer, the keys of `m_StateMap`. -/
inductive ParserState where
  | Default | VariableName | RValue | Operator | Indentation | FunctionName
  | FunctionParameters | ArrowState | FunctionTypeState | StructName
  | FunctionParamaters | Comment | MultilineComment | IndexOperator
  | AsterisksOperator
  deriving DecidableEq, Repr

/-- An entry of the keyword and operator tables. -/
structure ParserMapValue where
  NextState : ParserState
  TokenToPush : TokenType
  deriving DecidableEq, Repr

/-- What `Parser.cpp` uses from `Parser.h` and `Core/Utils.h`, which are not
among the sources: the character classes, the number check, the two tables
(`contains` is `isSome`, `at` is the value), the set of data-type names, and the
number of value bits of the integer returned by the literal converters. -/
structure Env where
  IsSpace : Char → Bool
  IsVarNameChar : Char → Bool
  IsValidNumber : List Char → Bool
  OperatorMap : List Char → Option ParserMapValue
  KeyWordMap : List Char → Option ParserMapValue
  DataTypes : List Char → Bool
  intBits : Nat

/-- The outcome of a member function: it returns, it halts the process, or the
fuel given to one of its loops ran out. -/
inductive Res (α : Type) where
  | ok (a : α)
  | halt
  | outOfFuel
  deriving DecidableEq, Repr

/-- Sequencing of outcomes. -/
def Res.bind {α β : Type} (x : Res α) (f : α → Res β) : Res β :=
  match x with
  | .ok a => f a
  | .halt => .halt
  | .outOfFuel => .outOfFuel

instance : Monad Res where
  pure := Res.ok
  bind := Res.bind

/-- The NUL character `_GetNextChar` returns past the end of the buffer. -/
def NUL : Char := Char.ofNat 0

/-- The function `std::isdigit` on the characters `0` to `9`. -/
def isdigit (c : Char) : Bool := c.isDigit

/-- The function `std::isalnum` in the C locale. -/
def isalnum (c : Char) : Bool := c.isAlphanum

/-- The function `std::isspace` in the C locale: space, `\t`, `\n`, `\v`, `\f`, `\r`. -/
def isspace (c : Char) : Bool :=
  c = ' ' || c = '\t' || c = '\n' || c = Char.ofNat 11 || c = Char.ofNat 12 || c = '\r'

/-- The helper `Str`: the one-character string. -/
def Str (c : Char) : List Char := [c]

/-- The decimal text of a number, `std::to_string`. -/
def to_string (n : Nat) : List Char := Nat.toDigits 10 n

/-- The value of one hexadecimal digit. -/
def hexDigitValue (c : Char) : Nat :=
  if '0' ≤ c ∧ c ≤ '9' then c.toNat - '0'.toNat
  else if 'a' ≤ c ∧ c ≤ 'f' then c.toNat - 'a'.toNat + 10
  else if 'A' ≤ c ∧ c ≤ 'F' then c.toNat - 'A'.toNat + 10
  else 0

/-- Modelled from the spec: `HexStringToInteger` of `Core/Utils.h` is not among
the sources.  The specification calls its result `hex_value(h)`; the digits are
accumulated most significant first and the result is kept in an integer of
`bits` value bits. -/
def HexStringToInteger (bits : Nat) (str : List Char) : Nat :=
  (str.foldl (fun acc c => 16 * acc + hexDigitValue c) 0) % 2 ^ bits

/-- Modelled from the spec: `BinaryStringToInteger` of `Core/Utils.h` is not among
the sources.  The specification calls its result `binary_value(b)`. -/
def BinaryStringToInteger (bits : Nat) (str : List Char) : Nat :=
  (str.foldl (fun acc c => 2 * acc + (if c = '1' then 1 else 0)) 0) % 2 ^ bits

/-! ## The lexer object -/

/-- The members of `clear::Parser` the lexer reads and writes.  `Tokens` is
`m_ProgramInfo.Tokens`; the cursor `CurrentTokenIndex` is a `size_t`. -/
structure Parser where
  Tokens : List Token
  Buffer : List Char
  CurrentTokenIndex : Nat
  Indents : Nat
  CurrentState : ParserState
  CurrentString : List Char
  BracketStack : List Char
  deriving DecidableEq, Repr

namespace Parser

/-- A newly constructed `Parser`. -/
def new : Parser :=
  { Tokens := [], Buffer := [], CurrentTokenIndex := 0, Indents := 0,
    CurrentState := .Default, CurrentString := [], BracketStack := [] }

/-- The member `_PushToken`. -/
def _PushToken (s : Parser) (tok : TokenType) (data : List Char) : Parser :=
  { s with Tokens := s.Tokens ++ [{ TokenType := tok, Data := data }] }

/-- The member `_GetLastToken`: an `EndLine` token when nothing was emitted yet. -/
def _GetLastToken (s : Parser) : Token :=
  match s.Tokens.getLast? with
  | none => { TokenType := .EndLine, Data := [] }
  | some t => t

/-- The member `_GetNextChar`: the character under the cursor and the parser
with the cursor advanced, or NUL and the parser unchanged past the end. -/
def _GetNextChar (s : Parser) : Char × Parser :=
  if s.CurrentTokenIndex < s.Buffer.length then
    (s.Buffer.getD s.CurrentTokenIndex NUL,
      { s with CurrentTokenIndex := s.CurrentTokenIndex + 1 })
  else (NUL, s)

/-- Subtraction on `size_t` (64 bits): it wraps around below zero. -/
def subSizeT (a b : Nat) : Nat :=
  if b ≤ a then a - b else (a + 2 ^ 64 - b % 2 ^ 64) % 2 ^ 64

/-- The member `_Backtrack`: `m_CurrentTokenIndex--`. -/
def _Backtrack (s : Parser) : Parser :=
  { s with CurrentTokenIndex := subSizeT s.CurrentTokenIndex 1 }

/-- The member `_IsLineClosed`. -/
def _IsLineClosed (s : Parser) : Bool :=
  if s.Tokens = [] then true
  else !(s._GetLastToken.TokenType = .CloseBracket)

/-- The member `InitParser`.  The bracket stack is not among the members it resets. -/
def InitParser (s : Parser) : Parser :=
  { s with Tokens := [], CurrentTokenIndex := 0, Indents := 0,
           CurrentState := .Default, Buffer := [], CurrentString := [] }

/-- Fuel for a loop that reads the buffer: every loop of the lexer that ends at
all ends within one iteration per remaining character plus a constant. -/
def loopFuel (s : Parser) : Nat := s.Buffer.length + 2

/-! ## Literals -/

/-- The loop of `_SkipSpaces`. -/
def _SkipSpaces.loop (E : Env) : Nat → Char → Parser → Res (Char × Parser)
  | 0, _, _ => .outOfFuel
  | n + 1, current, s =>
    if E.IsSpace current then loop E n s._GetNextChar.1 s._GetNextChar.2
    else .ok (current, s)

/-- The member `_SkipSpaces`: re-reads the last character and skips spaces. -/
def _SkipSpaces (E : Env) (s : Parser) : Res (Char × Parser) :=
  let s := s._Backtrack
  _SkipSpaces.loop E s.loopFuel s._GetNextChar.1 s._GetNextChar.2

/-- The characters `_ParseHexLiteral` accepts: `0`-`9`, `A`-`F`, `a`-`f`. -/
def isHexChar (current : Char) : Bool :=
  current = '0' || current = '1' || current = '2' || current = '3' || current = '4'
    || current = '5' || current = '6' || current = '7' || current = '8' || current = '9'
    || current = 'A' || current = 'B' || current = 'C' || current = 'D' || current = 'E'
    || current = 'F' || current = 'a' || current = 'b' || current = 'c' || current = 'd'
    || current = 'e' || current = 'f'

/-- The loop of `_ParseHexLiteral`. -/
def _ParseHexLiteral.loop (E : Env) : Nat → Char → Parser → Res (Char × Parser)
  | 0, _, _ => .outOfFuel
  | n + 1, current, s =>
    if !isspace current && !(E.OperatorMap (Str current)).isSome then
      if isHexChar current then
        let s := { s with CurrentString := s.CurrentString ++ [current] }
        loop E n s._GetNextChar.1 s._GetNextChar.2
      else .halt
    else .ok (current, s)

/-- The member `_ParseHexLiteral`. -/
def _ParseHexLiteral (E : Env) (s : Parser) : Res Parser :=
  let s := { s with CurrentString := [] }
  (_ParseHexLiteral.loop E s.loopFuel s._GetNextChar.1 s._GetNextChar.2).bind fun r =>
    let current := r.1
    let s := r.2
    let s := if !E.IsSpace current then s._Backtrack else s
    let s := s._PushToken .RValueNumber (to_string (HexStringToInteger E.intBits s.CurrentString))
    .ok { s with CurrentString := [] }

/-- The characters `_ParseBinaryLiteral` accepts. -/
def isBinChar (current : Char) : Bool := current = '0' || current = '1'

/-- The loop of `_ParseBinaryLiteral`. -/
def _ParseBinaryLiteral.loop (E : Env) : Nat → Char → Parser → Res (Char × Parser)
  | 0, _, _ => .outOfFuel
  | n + 1, current, s =>
    if !isspace current && !(E.OperatorMap (Str current)).isSome then
      if isBinChar current then
        let s := { s with CurrentString := s.CurrentString ++ [current] }
        loop E n s._GetNextChar.1 s._GetNextChar.2
      else .halt
    else .ok (current, s)

/-- The member `_ParseBinaryLiteral`. -/
def _ParseBinaryLiteral (E : Env) (s : Parser) : Res Parser :=
  let s := { s with CurrentString := [] }
  (_ParseBinaryLiteral.loop E s.loopFuel s._GetNextChar.1 s._GetNextChar.2).bind fun r =>
    let current := r.1
    let s := r.2
    let s := if !E.IsSpace current then s._Backtrack else s
    let s := s._PushToken .RValueNumber (to_string (BinaryStringToInteger E.intBits s.CurrentString))
    .ok { s with CurrentString := [] }

/-- The `while (std::isalnum(current))` loop of `_ParseNumber`; `usedDecimal` is
the flag of the same name. -/
def _ParseNumber.loop : Nat → Char → Bool → Parser → Res (Char × Parser)
  | 0, _, _, _ => .outOfFuel
  | n + 1, current, usedDecimal, s =>
    if isalnum current then
      let s := { s with CurrentString := s.CurrentString ++ [current] }
      if current = '.' ∧ usedDecimal then .halt
      else
        let usedDecimal := if current = '.' then true else usedDecimal
        loop n s._GetNextChar.1 usedDecimal s._GetNextChar.2
    else .ok (current, s)

/-- The member `_ParseNumber`. -/
def _ParseNumber (E : Env) (s : Parser) : Res Parser :=
  let current := s._GetNextChar.1
  let s := s._GetNextChar.2
  if current = NUL then
    let s := s._PushToken .RValueNumber s.CurrentString
    .ok { s with CurrentString := [] }
  else if current = 'b' then
    if s.CurrentString = ['0'] then _ParseBinaryLiteral E s else .halt
  else if current = 'x' then
    if s.CurrentString = ['0'] then _ParseHexLiteral E s else .halt
  else
    (_ParseNumber.loop s.loopFuel current false s).bind fun r =>
      let current := r.1
      let s := r.2
      if E.IsValidNumber s.CurrentString then
        let s :=
          if s.CurrentString = ['-'] then s._PushToken .SubOp ['-']
          else s._PushToken .RValueNumber s.CurrentString
        let s := { s with CurrentString := [] }
        .ok (if !E.IsSpace current then s._Backtrack else s)
      else .halt

/-- The escape branch of `_ParseChar`, after the backslash: the character
denoted, the value left in `current`, and the parser. -/
def _ParseChar.escape (s : Parser) : Res (Char × Char × Parser) :=
  let current := s._GetNextChar.1
  let s := s._GetNextChar.2
  if current = '\'' then .ok ('\'', NUL, s)
  else if current = 'n' then .ok ('\n', current, s)
  else if current = '\\' then .ok ('\\', current, s)
  else if current = 't' then .ok ('\t', current, s)
  else if current = 'r' then .ok ('\r', current, s)
  else if current = 'b' then .ok (Char.ofNat 8, current, s)
  else .halt

/-- The member `_ParseChar`. -/
def _ParseChar (s : Parser) : Res Parser :=
  let current := s._GetNextChar.1
  let s := s._GetNextChar.2
  (if current = '\\' then _ParseChar.escape s else .ok (current, current, s)).bind fun r =>
    let data := r.1
    let current := r.2.1
    let s := r.2.2
    if current = '\'' then .halt
    else
      let s := s._PushToken .RValueChar (Str data)
      let current := s._GetNextChar.1
      let s := s._GetNextChar.2
      if current = '\'' then .ok s else .halt

/-- The escape branch of `_ParseString`: what is appended to the lexeme for the
character after a backslash. -/
def _ParseString.escape (current : Char) : List Char :=
  if current = '"' then ['"']
  else if current = 'n' then ['\n']
  else if current = '\\' then ['\\']
  else if current = 't' then ['\t']
  else if current = 'r' then ['\r']
  else if current = 'b' then [Char.ofNat 8]
  else ['\\', current]

/-- The loop of `_ParseString`. -/
def _ParseString.loop : Nat → Char → Parser → Res Parser
  | 0, _, _ => .outOfFuel
  | n + 1, current, s =>
    if current ≠ '"' then
      if current = '\n' ∨ current = NUL then .halt
      else if current = '\\' then
        let current := s._GetNextChar.1
        let s := s._GetNextChar.2
        let s := { s with CurrentString := s.CurrentString ++ _ParseString.escape current }
        loop n s._GetNextChar.1 s._GetNextChar.2
      else
        let s := { s with CurrentString := s.CurrentString ++ [current] }
        loop n s._GetNextChar.1 s._GetNextChar.2
    else .ok s

/-- The member `_ParseString`. -/
def _ParseString (s : Parser) : Res Parser :=
  (_ParseString.loop s.loopFuel s._GetNextChar.1 s._GetNextChar.2).bind fun s =>
    let s := s._PushToken .RValueString s.CurrentString
    .ok { s with CurrentString := [] }

/-- The loop of `_ParseOther`; the `break` is the inner exit. -/
def _ParseOther.loop (E : Env) : Nat → Char → Parser → Res (Char × Parser)
  | 0, _, _ => .outOfFuel
  | n + 1, current, s =>
    if E.IsVarNameChar current ∧ current ≠ NUL then
      let s := { s with CurrentString := s.CurrentString ++ [current] }
      let current := s._GetNextChar.1
      let s := s._GetNextChar.2
      if current = '\n' ∨ current = NUL ∨ E.IsSpace current then .ok (current, s)
      else loop E n current s
    else .ok (current, s)

/-- The member `_ParseOther`. -/
def _ParseOther (E : Env) (s : Parser) : Res Parser :=
  let current := s._GetNextChar.1
  let s := s._GetNextChar.2
  let s := { s with CurrentString := [] }
  (_ParseOther.loop E s.loopFuel current s).bind fun r =>
    let current := r.1
    let s := r.2
    if current = '(' then
      .ok (if s.CurrentString ≠ [] then s._Backtrack else s)
    else
      let s :=
        match E.KeyWordMap s.CurrentString with
        | some value => s._PushToken value.TokenToPush s.CurrentString
        | none => s._PushToken .VariableReference s.CurrentString
      let s := { s with CurrentString := [] }
      let s := { s with CurrentState := .Default }
      .ok s._Backtrack

/-! ## Declarators -/

/-- The first loop of `_ParseArrayDecleration`: the text between `[` and `]`. -/
def _ParseArrayDecleration.body : Nat → Char → Parser → Res (Char × Parser)
  | 0, _, _ => .outOfFuel
  | n + 1, current, s =>
    if current ≠ ']' ∧ current ≠ '\n' ∧ current ≠ NUL then
      if isdigit current then
        let s := { s with CurrentString := s.CurrentString ++ [current] }
        body n s._GetNextChar.1 s._GetNextChar.2
      else if '.' = current ∧ s.CurrentString = [] then
        let s := { s with CurrentString := s.CurrentString ++ [current] }
        let s := { s._GetNextChar.2 with
                    CurrentString := s._GetNextChar.2.CurrentString ++ [s._GetNextChar.1] }
        let s := { s._GetNextChar.2 with
                    CurrentString := s._GetNextChar.2.CurrentString ++ [s._GetNextChar.1] }
        if s.CurrentString = ['.', '.', '.'] then body n s._GetNextChar.1 s._GetNextChar.2
        else .halt
      else .halt
    else .ok (current, s)

/-- The member `_ParseArrayDecleration`; the fuel bounds its recursion on a
following `[`. -/
def _ParseArrayDecleration (E : Env) : Nat → Parser → Res Parser
  | 0, _ => .outOfFuel
  | n + 1, s =>
    (_ParseArrayDecleration.body s.loopFuel s._GetNextChar.1 s._GetNextChar.2).bind fun r =>
      let s := r.2
      let s :=
        if s.CurrentString = [] then s._PushToken .DynamicArrayDef []
        else s._PushToken .StaticArrayDef s.CurrentString
      let s := { s with CurrentString := [] }
      (_SkipSpaces.loop E s.loopFuel s._GetNextChar.1 s._GetNextChar.2).bind fun r =>
        let current := r.1
        let s := r.2
        if current = ']' then .halt
        else if current = '[' then _ParseArrayDecleration E n s
        else .ok (if current ≠ NUL then s._Backtrack else s)

/-- The `while (current == '*')` loop of `_ParsePointerDecleration`. -/
def _ParsePointerDecleration.loop : Nat → Char → Parser → Res (Char × Parser)
  | 0, _, _ => .outOfFuel
  | n + 1, current, s =>
    if current = '*' then
      let current := s._GetNextChar.1
      let s := s._GetNextChar.2
      let s := s._PushToken .PointerDef ['*']
      loop n current s
    else .ok (current, s)

/-- The member `_ParsePointerDecleration`. -/
def _ParsePointerDecleration (E : Env) (s : Parser) : Res Parser :=
  (_ParsePointerDecleration.loop s.loopFuel s._GetNextChar.1 s._GetNextChar.2).bind fun r =>
    (_SkipSpaces E r.2).bind fun r =>
      let current := r.1
      let s := r.2
      if current = '*' then .halt
      else .ok (if !E.IsSpace current ∧ current ≠ NUL then s._Backtrack else s)

/-- The locals of the identifier-list loop of `_VariableNameState`. -/
structure VarListLocals where
  current : Char
  commas : Nat
  vars : Nat
  s : Parser

/-- The identifier-list loop of `_VariableNameState`.  Its first condition,
`current != 0 || current != newline`, holds of every character. -/
def _VariableNameState.loop (E : Env) : Nat → VarListLocals → Res VarListLocals
  | 0, _ => .outOfFuel
  | n + 1, l =>
    if (l.current ≠ NUL ∨ l.current ≠ '\n') ∧ (E.IsVarNameChar l.current ∨ E.IsSpace l.current) then
      let s := l.s
      let s := if !E.IsSpace l.current then { s with CurrentString := s.CurrentString ++ [l.current] } else s
      let current := s._GetNextChar.1
      let s := s._GetNextChar.2
      if current = ',' then
        if s.CurrentString = [] then .halt
        else
          let s := s._PushToken .VariableName s.CurrentString
          let s := s._PushToken .Comma []
          let s := { s with CurrentString := [] }
          let current := s._GetNextChar.1
          let s := s._GetNextChar.2
          let commas := l.commas + 1
          let commas := if current = ',' then commas + 1 else commas
          let vars := l.vars + 1
          if current = ',' then .halt
          else loop E n { current := current, commas := commas, vars := vars, s := s }
      else loop E n { current := current, commas := l.commas, vars := l.vars, s := s }
    else .ok l

/-- The member `_VariableNameState`. -/
def _VariableNameState (E : Env) (s : Parser) : Res Parser :=
  let s := s._GetNextChar.2
  (_SkipSpaces E s).bind fun r =>
    let current := r.1
    let s := r.2
    if (current = ':' ∨ (E.OperatorMap (Str current)).isSome) ∧ current ≠ '*' then
      let s := s._Backtrack
      .ok { s with CurrentState := .Default }
    else if current = '(' then
      let s := s._Backtrack
      .ok { s with CurrentState := .Default }
    else
      (if current = '*' then
          (_ParsePointerDecleration E s._Backtrack).bind fun s =>
            Res.ok (s._GetNextChar.1, s._GetNextChar.2)
        else Res.ok (current, s)).bind fun r =>
      let current := r.1
      let s := { r.2 with CurrentString := [] }
      (if current = '[' then
          (_ParseArrayDecleration E s.loopFuel s).bind fun s =>
            Res.ok (s._GetNextChar.1, s._GetNextChar.2)
        else Res.ok (current, s)).bind fun r =>
      let current := r.1
      let s := { r.2 with CurrentString := [] }
      if current = '\n' ∨ current = NUL then
        let s := { s with CurrentState := .Default }
        .ok s._Backtrack
      else
        (_VariableNameState.loop E s.loopFuel
            { current := current, commas := 0, vars := 0, s := s }).bind fun l =>
          let s := l.s
          let vars := if s.CurrentString ≠ [] then l.vars + 1 else l.vars
          let s := if s.CurrentString ≠ [] then s._PushToken .VariableName s.CurrentString else s
          if l.commas < vars then
            let s := if !E.IsSpace l.current then s._Backtrack else s
            let s := { s with CurrentString := [] }
            .ok { s with CurrentState := .Default }
          else .halt

/-! ## Sub-lexers -/

/-- A sub-lexer run: a new `Parser`, `InitParser`, the text followed by one space
as its buffer, and the tokens `ParseProgram` (passed as `run`) returns. -/
def subLex (run : Parser → Res Parser) (text : List Char) : Res (List Token) :=
  (run { Parser.new.InitParser with Buffer := text ++ [' '] }).bind fun p => .ok p.Tokens

/-- The `for` loop over `argList` in `_FunctionParamaterState`: the tokens of
each argument, then a `Comma`. -/
def pushCallArgs (run : Parser → Res Parser) : List (List Char) → Parser → Res Parser
  | [], s => .ok s
  | arg :: rest, s =>
    (subLex run arg).bind fun toks =>
      let s := { s with Tokens := s.Tokens ++ toks }
      let s := s._PushToken .Comma []
      pushCallArgs run rest s

/-- The `for` loop over `argList` in `_FunctionParameterState`. -/
def pushDeclArgs (run : Parser → Res Parser) : List (List Char) → Parser → Res Parser
  | [], s => .ok s
  | arg :: rest, s =>
    (subLex run arg).bind fun toks =>
      pushDeclArgs run rest { s with Tokens := s.Tokens ++ toks }

/-- The locals of the argument-splitting loops. -/
structure ArgLocals where
  current : Char
  opens : Int
  detectedEnd : Bool
  argList : List (List Char)
  s : Parser

/-- The splitting loop of `_FunctionParamaterState` (call arguments). -/
def _FunctionParamaterState.loop : Nat → ArgLocals → Res ArgLocals
  | 0, _ => .outOfFuel
  | n + 1, l =>
    if l.opens ≠ 0 ∧ l.current ≠ NUL then
      let current := l.s._GetNextChar.1
      let s := l.s._GetNextChar.2
      let opens := if current = '(' then l.opens + 1 else l.opens
      let opens := if current = ')' then opens - 1 else opens
      if (current = ')' ∧ opens = 0) ∨ (current = ',' ∧ opens = 1) ∨ current = NUL then
        let detectedEnd := if current = ')' then true else l.detectedEnd
        if s.CurrentString ≠ [] then
          loop n { current := current, opens := opens, detectedEnd := detectedEnd,
                   argList := l.argList ++ [s.CurrentString],
                   s := { s with CurrentString := [] } }
        else if current = ',' then .halt
        else
          loop n { current := current, opens := opens, detectedEnd := detectedEnd,
                   argList := l.argList, s := { s with CurrentString := [] } }
      else
        let s := if !(isspace current ∧ s.CurrentString = [])
                 then { s with CurrentString := s.CurrentString ++ [current] } else s
        loop n { current := current, opens := opens, detectedEnd := l.detectedEnd,
                 argList := l.argList, s := s }
    else .ok l

/-- The member `_FunctionParamaterState`: the arguments of a call. -/
def _FunctionParamaterState (E : Env) (run : Parser → Res Parser) (s : Parser) : Res Parser :=
  let s := s._GetNextChar.2
  (_SkipSpaces E s).bind fun r =>
    let current := r.1
    let s := { r.2 with CurrentString := [] }
    if current ≠ '(' then .halt
    else
      (_FunctionParamaterState.loop s.loopFuel
          { current := current, opens := 1, detectedEnd := false, argList := [], s := s }).bind fun l =>
        if l.detectedEnd = false then .halt
        else
          let s := { l.s with CurrentState := .Default }
          (pushCallArgs run l.argList s).bind fun s =>
            let s := if s._GetLastToken.TokenType = .Comma
                     then { s with Tokens := s.Tokens.dropLast } else s
            let s := s._PushToken .CloseBracket [')']
            let s := s._GetNextChar.2
            (_SkipSpaces E s).bind fun r => .ok r.2._Backtrack

/-- The loop of `_MultiLineCommentState`; `true` in the result is the `return`
taken at the closing `*\`. -/
def _MultiLineCommentState.loop : Nat → Char → Parser → Res (Bool × Parser)
  | 0, _, _ => .outOfFuel
  | n + 1, current, s =>
    if current ≠ NUL then
      let current := s._GetNextChar.1
      let s := s._GetNextChar.2
      if current = '*' then
        let current := s._GetNextChar.1
        let s := s._GetNextChar.2
        if current = '\\' then .ok (true, { s with CurrentState := .Default })
        else loop n current s._Backtrack
      else loop n current s
    else .ok (false, s)

/-- The member `_MultiLineCommentState`. -/
def _MultiLineCommentState (s : Parser) : Res Parser :=
  (_MultiLineCommentState.loop s.loopFuel s._GetNextChar.1 s._GetNextChar.2).bind fun r =>
    .ok r.2

/-- The loop of `_CommentState`. -/
def _CommentState.loop : Nat → Char → Parser → Res (Char × Parser)
  | 0, _, _ => .outOfFuel
  | n + 1, current, s =>
    if current ≠ '\n' ∧ current ≠ NUL then loop n s._GetNextChar.1 s._GetNextChar.2
    else .ok (current, s)

/-- The member `_CommentState`. -/
def _CommentState (s : Parser) : Res Parser :=
  (_CommentState.loop s.loopFuel s._GetNextChar.1 s._GetNextChar.2).bind fun r =>
    let current := r.1
    let s := { r.2 with CurrentState := .Default }
    .ok (if current = '\n' then s._Backtrack else s)

/-- The loop of `_IndexOperatorState`; `detectedEnd` is set at the `break`. -/
def _IndexOperatorState.loop (E : Env) : Nat → ArgLocals → Res ArgLocals
  | 0, _ => .outOfFuel
  | n + 1, l =>
    if l.opens ≠ 0 ∧ l.current ≠ NUL then
      let current := l.s._GetNextChar.1
      let s := l.s._GetNextChar.2
      let opens := if current = '[' then l.opens + 1 else l.opens
      let opens := if current = ']' then opens - 1 else opens
      if opens = 0 ∧ current = ']' then
        .ok { current := current, opens := opens, detectedEnd := true,
              argList := l.argList, s := s }
      else
        let s := if !(E.IsSpace current ∧ s.CurrentString = []) ∧ current ≠ '\n'
                 then { s with CurrentString := s.CurrentString ++ [current] } else s
        loop E n { current := current, opens := opens, detectedEnd := l.detectedEnd,
                   argList := l.argList, s := s }
    else .ok l

/-- The member `_IndexOperatorState`. -/
def _IndexOperatorState (E : Env) (run : Parser → Res Parser) (s : Parser) : Res Parser :=
  let current := s._GetNextChar.1
  let s := s._GetNextChar.2
  if current ≠ '[' then .halt
  else
    (_IndexOperatorState.loop E s.loopFuel
        { current := current, opens := 1, detectedEnd := false, argList := [], s := s }).bind fun l =>
      if l.detectedEnd = false then .halt
      else
        let s := l.s
        (subLex run s.CurrentString).bind fun toks =>
          let s := { s with Tokens := s.Tokens ++ toks }
          let s := { s with CurrentString := [] }
          let s := { s with CurrentState := .Default }
          .ok (s._PushToken .CloseBracket [']'])

/-- The member `_ArrowState`. -/
def _ArrowState (s : Parser) : Res Parser :=
  if s.Tokens.length > 1 ∧
      (s.Tokens.getD (s.Tokens.length - 2) { TokenType := .None, Data := [] }).TokenType
        = .EndFunctionParameters then
    .ok { s with CurrentState := .FunctionTypeState }
  else .ok { s with CurrentState := .Default }

/-- The loop of `_FunctionTypeState`. -/
def _FunctionTypeState.loop : Nat → Char → Parser → Res (Char × Parser)
  | 0, _, _ => .outOfFuel
  | n + 1, current, s =>
    if current ≠ '\n' ∧ current ≠ NUL ∧ current ≠ ':' then
      let s := { s with CurrentString := s.CurrentString ++ [current] }
      loop n s._GetNextChar.1 s._GetNextChar.2
    else .ok (current, s)

/-- The member `_FunctionTypeState`. -/
def _FunctionTypeState (E : Env) (run : Parser → Res Parser) (s : Parser) : Res Parser :=
  let s := s._GetNextChar.2
  (_SkipSpaces E s).bind fun r =>
    let current := r.1
    let s := { r.2 with CurrentString := [] }
    (_FunctionTypeState.loop s.loopFuel current s).bind fun r =>
      let s := r.2
      let s := s._PushToken .FunctionType s.CurrentString
      (subLex run s.CurrentString).bind fun toks =>
        let s := { s with Tokens := s.Tokens ++ toks }
        let s := s._Backtrack
        let s := { s with CurrentString := [] }
        .ok { s with CurrentState := .Default }

/-- The `while (IsVarNameChar(current))` loop of `_StructNameState` and of
`_FunctionNameState`. -/
def readName (E : Env) : Nat → Char → Parser → Res (Char × Parser)
  | 0, _, _ => .outOfFuel
  | n + 1, current, s =>
    if E.IsVarNameChar current then
      let s := { s with CurrentString := s.CurrentString ++ [current] }
      readName E n s._GetNextChar.1 s._GetNextChar.2
    else .ok (current, s)

/-- The member `_StructNameState`. -/
def _StructNameState (E : Env) (s : Parser) : Res Parser :=
  let s := s._GetNextChar.2
  (_SkipSpaces E s).bind fun r =>
    let current := r.1
    let s := r.2
    if current = ':' then .halt
    else
      let s := { s with CurrentString := [] }
      (readName E s.loopFuel current s).bind fun r =>
        let s := r.2
        let s := s._PushToken .StructName s.CurrentString
        let s := { s with CurrentString := [] }
        let s := s._Backtrack
        .ok { s with CurrentState := .Default }

/-! ## The dispatcher state and the expression states -/

/-- The end of `_DefaultState`, from the test for `:` and the newline on. -/
def _DefaultState.rest (E : Env) (current : Char) (s : Parser) : Res Parser :=
  if current = ':' ∨ current = '\n' then
    let s : Parser := { s with CurrentState := .Indentation }
    let s : Parser := { s with CurrentString := [] }
    .ok (if current = '\n' ∧ s.BracketStack = [] then s._PushToken .EndLine [] else s)
  else
    let s := if (E.OperatorMap (Str current)).isSome
             then { s with CurrentState := .Operator, CurrentString := [] } else s
    let s := if current = '[' then
               let s := { s with CurrentState := .IndexOperator }
               let s := s._PushToken .IndexOperator []
               let s := s._PushToken .OpenBracket ['[']
               s._Backtrack
             else s
    if current = ')' then
      if s.BracketStack ≠ [] ∧ s.BracketStack.getLast? = some '(' then
        let s := { s with BracketStack := s.BracketStack.dropLast }
        .ok (s._PushToken .CloseBracket [')'])
      else .halt
    else .ok s

/-- The member `_DefaultState`. -/
def _DefaultState (E : Env) (s : Parser) : Res Parser :=
  let current := s._GetNextChar.1
  let s := s._GetNextChar.2
  if current = '(' then
    if s.CurrentString ≠ [] ∨ s._IsLineClosed = false then
      (if s.CurrentString ≠ [] then
          if E.IsValidNumber s.CurrentString then Res.halt
          else Res.ok (s._PushToken .VariableReference s.CurrentString)
        else Res.ok s).bind fun s =>
      let s := s._PushToken .FunctionCall s.CurrentString
      let s := { s with CurrentState := .FunctionParamaters }
      let s := s._Backtrack
      .ok (s._PushToken .OpenBracket ['('])
    else
      let s := { s with BracketStack := s.BracketStack ++ ['('] }
      .ok (s._PushToken .OpenBracket ['('])
  else
    (if current = '"' then
        if s.CurrentString = [] then _ParseString s else Res.halt
      else Res.ok s).bind fun s =>
    (if current = '\'' then
        if s.CurrentString = [] then _ParseChar s else Res.halt
      else Res.ok s).bind fun s =>
    if isdigit current ∧ s.CurrentString = [] then
      _ParseNumber E { s with CurrentString := s.CurrentString ++ [current] }
    else
      let s := if E.IsVarNameChar current
               then { s with CurrentString := s.CurrentString ++ [current] } else s
      if s.CurrentString ≠ [] ∧ E.IsVarNameChar current = false then
        if ((E.OperatorMap (Str current)).isSome = false ∧ current ≠ '\n' ∧ current ≠ ')') ∨
            (E.DataTypes s.CurrentString ∧ (current = '*' ∨ current = '&')) then
          let s :=
            match E.KeyWordMap s.CurrentString with
            | some value =>
              let s := { s with CurrentState := value.NextState }
              let s := if value.TokenToPush ≠ .None
                       then s._PushToken value.TokenToPush s.CurrentString else s
              { s with CurrentString := [] }
            | none =>
              let s := s._PushToken .VariableReference s.CurrentString
              let s := { s with CurrentState := .VariableName }
              { s with CurrentString := [] }
          .ok (if !E.IsSpace current then s._Backtrack else s)
        else
          let s := s._PushToken .VariableReference s.CurrentString
          _DefaultState.rest E current { s with CurrentString := [] }
      else _DefaultState.rest E current s

/-- The member `_ParsingRValueState`. -/
def _ParsingRValueState (E : Env) (s : Parser) : Res Parser :=
  let s := s._GetNextChar.2
  (_SkipSpaces E s).bind fun r =>
    let current := r.1
    let s := { r.2 with CurrentString := [] }
    if (E.OperatorMap (Str current)).isSome then
      .ok { s with CurrentState := .Operator }
    else if current = '(' then
      let s := { s with BracketStack := s.BracketStack ++ ['('] }
      let s := s._PushToken .OpenBracket ['(']
      .ok { s with CurrentState := .RValue }
    else if current = ')' then
      let s := s._PushToken .CloseBracket [')']
      let s : Parser := { s with CurrentState := .RValue }
      if s.BracketStack ≠ [] ∧ s.BracketStack.getLast? = some '(' then
        .ok { s with BracketStack := s.BracketStack.dropLast }
      else .halt
    else
      (if current = '"' then _ParseString s
        else if isdigit current ∨ current = '-' then
          _ParseNumber E { s with CurrentString := s.CurrentString ++ [current] }
        else if current = '\'' then _ParseChar s
        else
          let s := { s with CurrentString := s.CurrentString ++ [current] }
          _ParseOther E s._Backtrack).bind fun s =>
      .ok { s with CurrentState := .Default }

/-! ## Function headers -/

/-- The splitting loop of `_FunctionParameterState` (declared parameters). -/
def _FunctionParameterState.loop (E : Env) : Nat → ArgLocals → Res ArgLocals
  | 0, _ => .outOfFuel
  | n + 1, l =>
    if l.current ≠ ')' ∧ l.current ≠ NUL then
      let current := l.s._GetNextChar.1
      let s := l.s._GetNextChar.2
      if current = ',' ∨ current = ')' ∨ current = NUL then
        let detectedEnd := if current = ')' then true else l.detectedEnd
        let argList := if s.CurrentString ≠ [] then l.argList ++ [s.CurrentString] else l.argList
        loop E n { current := current, opens := l.opens, detectedEnd := detectedEnd,
                   argList := argList, s := { s with CurrentString := [] } }
      else
        let s := if !(E.IsSpace current ∧ s.CurrentString = [])
                 then { s with CurrentString := s.CurrentString ++ [current] } else s
        loop E n { current := current, opens := l.opens, detectedEnd := l.detectedEnd,
                   argList := l.argList, s := s }
    else .ok l

/-- The member `_FunctionParameterState`: the parameters of a declaration. -/
def _FunctionParameterState (E : Env) (run : Parser → Res Parser) (s : Parser) : Res Parser :=
  let s := s._GetNextChar.2
  (_SkipSpaces E s).bind fun r =>
    let current := r.1
    let s := { r.2 with CurrentString := [] }
    if current ≠ '(' then .halt
    else
      (_FunctionParameterState.loop E s.loopFuel
          { current := current, opens := 0, detectedEnd := false, argList := [], s := s }).bind fun l =>
        if l.detectedEnd = false then .halt
        else
          let s := l.s._PushToken .StartFunctionParameters []
          (pushDeclArgs run l.argList s).bind fun s =>
            let s := s._PushToken .EndFunctionParameters []
            let s := { s with CurrentState := .Default }
            .ok (if l.current ≠ ')' then s._Backtrack else s)

/-- The member `_FunctionNameState`. -/
def _FunctionNameState (E : Env) (s : Parser) : Res Parser :=
  let s := s._GetNextChar.2
  (_SkipSpaces E s).bind fun r =>
    let current := r.1
    let s := { r.2 with CurrentString := [] }
    if current = '(' then
      let s := s._Backtrack
      let s := { s with CurrentState := .FunctionParameters }
      .ok (s._PushToken .Lambda [])
    else
      (readName E s.loopFuel current s).bind fun r =>
        let current := r.1
        let s := r.2
        let s := if current = '(' then s._Backtrack else s
        let s := s._PushToken .FunctionName s.CurrentString
        let s := { s with CurrentString := [] }
        if current = '\n' then .halt
        else .ok { s with CurrentState := .FunctionParameters }

/-! ## Operators and indentation -/

/-- The loop of `_OperatorState`: `h` grows while operator characters follow. -/
def _OperatorState.loop (E : Env) : Nat → Char → List Char → Parser → Res (List Char × Parser)
  | 0, _, _, _ => .outOfFuel
  | n + 1, current, h, s =>
    if (E.OperatorMap (Str current)).isSome then
      let current := s._GetNextChar.1
      let s := s._GetNextChar.2
      if (E.OperatorMap (Str current)).isSome = false then .ok (h, s)
      else loop E n current (h ++ [current]) s
    else .ok (h, s)

/-- The member `_OperatorState`.  `g_OperatorMap.at` throws on a missing key. -/
def _OperatorState (E : Env) (s : Parser) : Res Parser :=
  let s := s._Backtrack
  let before := Str s._GetNextChar.1
  let s := s._GetNextChar.2
  (_OperatorState.loop E s.loopFuel (before.headD NUL) before s).bind fun r =>
    let h := r.1
    let s := r.2._Backtrack
    (match E.OperatorMap h with
      | some value => Res.ok (value, h, s)
      | none =>
        match E.OperatorMap before with
        | some value =>
          Res.ok (value, before,
            { s with CurrentTokenIndex := subSizeT s.CurrentTokenIndex (h.length - 1) })
        | none => Res.halt).bind fun r =>
      let value := r.1
      let data := r.2.1
      let s := r.2.2
      let s := if value.TokenToPush ≠ .None then s._PushToken value.TokenToPush data else s
      .ok { s with CurrentState := value.NextState }

/-- The member `_AsterisksState`. -/
def _AsterisksState (s : Parser) : Res Parser :=
  let tok := s._GetLastToken.TokenType
  let s :=
    if tok = .VariableReference ∨ tok = .RValueChar ∨ tok = .RValueNumber ∨ tok = .RValueString
    then s._PushToken .MulOp ['*']
    else s._PushToken .DereferenceOp []
  .ok { s with CurrentState := .Default }

/-- The inner loop of `_IndentationState`, `while (next == ' ' && spaceCounter < 4)`;
it runs at most three times from `spaceCounter = 1`. -/
def _IndentationState.spaces : Nat → Char → Nat → Parser → Char × Nat × Parser
  | 0, next, spaceCounter, s => (next, spaceCounter, s)
  | n + 1, next, spaceCounter, s =>
    if next = ' ' ∧ spaceCounter < 4 then
      spaces n s._GetNextChar.1 (spaceCounter + 1) s._GetNextChar.2
    else (next, spaceCounter, s)

/-- The `while (indenting)` loop of `_IndentationState`: the units counted and
the parser after the characters read. -/
def _IndentationState.count : Nat → Char → Nat → Parser → Res (Nat × Parser)
  | 0, _, _, _ => .outOfFuel
  | n + 1, next, localIndents, s =>
    if next = '\t' then
      count n s._GetNextChar.1 (localIndents + 1) s._GetNextChar.2
    else
      let r := if next = ' ' then _IndentationState.spaces 3 next 1 s else (next, 0, s)
      if r.2.1 = 4 then count n r.1 (localIndents + 1) r.2.2
      else .ok (localIndents, r.2.2)

/-- The `while (m_Indents > localIndents)` loop: one `EndIndentation` per level. -/
def closeIndents (localIndents : Nat) (s : Parser) : Parser :=
  { s with
    Tokens := s.Tokens ++
      List.replicate (s.Indents - localIndents) { TokenType := .EndIndentation, Data := [] },
    Indents := if s.Indents > localIndents then localIndents else s.Indents }

/-- The first part of `_IndentationState`: one newline is skipped if present and
the indentation units of the line are counted; the result is `localIndents`
and the parser after the characters read. -/
def _IndentationState.scan (s : Parser) : Res (Nat × Parser) :=
  let next := s._GetNextChar.1
  let s := s._GetNextChar.2
  let r := if next = '\n' then s._GetNextChar else (next, s)
  _IndentationState.count r.2.loopFuel r.1 0 r.2

/-- The member `_IndentationState`. -/
def _IndentationState (s : Parser) : Res Parser :=
  (_IndentationState.scan s).bind fun r =>
    let localIndents := r.1
    let s := r.2
    let s := if localIndents > s.Indents then
               { s._PushToken .StartIndentation [] with Indents := localIndents }
             else s
    let s := closeIndents localIndents s
    let s := { s with CurrentState := .Default }
    .ok s._Backtrack

/-! ## The driver -/

/-- The call `m_StateMap.at(m_CurrentState)()`. -/
def dispatch (E : Env) (run : Parser → Res Parser) (s : Parser) : Res Parser :=
  match s.CurrentState with
  | .Default => _DefaultState E s
  | .VariableName => _VariableNameState E s
  | .RValue => _ParsingRValueState E s
  | .Operator => _OperatorState E s
  | .Indentation => _IndentationState s
  | .FunctionName => _FunctionNameState E s
  | .FunctionParameters => _FunctionParameterState E run s
  | .ArrowState => _ArrowState s
  | .FunctionTypeState => _FunctionTypeState E run s
  | .StructName => _StructNameState E s
  | .FunctionParamaters => _FunctionParamaterState E run s
  | .Comment => _CommentState s
  | .MultilineComment => _MultiLineCommentState s
  | .IndexOperator => _IndexOperatorState E run s
  | .AsterisksOperator => _AsterisksState s

/-- The first loop of `ParseProgram`: one state handler per iteration while the
cursor is inside the buffer. -/
def mainLoop (step : Parser → Res Parser) : Nat → Parser → Res Parser
  | 0, _ => .outOfFuel
  | n + 1, s =>
    if s.CurrentTokenIndex < s.Buffer.length then (step s).bind (mainLoop step n)
    else .ok s

/-- The second loop of `ParseProgram`: one `EndIndentation` per open level. -/
def unwindIndents (s : Parser) : Parser :=
  { s with
    Tokens := s.Tokens ++
      List.replicate s.Indents { TokenType := .EndIndentation, Data := [] },
    Indents := 0 }

/-- The member `ParseProgram`.  The fuel bounds the handler invocations of this
run and is passed, less one, to the sub-lexers it starts. -/
def ParseProgram (E : Env) : Nat → Parser → Res Parser
  | 0, _ => .outOfFuel
  | fuel + 1, s =>
    (mainLoop (dispatch E (ParseProgram E fuel)) fuel s).bind fun s => .ok (unwindIndents s)

/-- The member `CreateTokensFromFile` on a file that opened with the given
content, called on a newly constructed `Parser`. -/
def CreateTokensFromFile (E : Env) (fuel : Nat) (content : List Char) : Res Parser :=
  ParseProgram E fuel { Parser.new.InitParser with Buffer := content ++ ['\n'] }

/-- The member `CreateTokensFromFile` called on the parser object `s`, whatever
it tokenized before.  The stream `m_File` of the object is `none` while no file
is open, and else holds the characters of the open file that are not read yet;
`file` is the content of the file at the path, `none` when it cannot be opened.
The call `m_File.open(path)` fails on a stream that is open, which stays on its
file; when no file is open the member returns the token list `InitParser` has
emptied; else what is left to read of the open file, followed by a newline, is
the buffer of `ParseProgram`.  The member closes the stream nowhere.  The result
is the parser and the stream after the call. -/
def CreateTokensFromFileOn (E : Env) (fuel : Nat) (s : Parser)
    (m_File : Option (List Char)) (file : Option (List Char)) :
    Res (Parser × Option (List Char)) :=
  let s := s.InitParser
  let m_File :=
    match m_File with
    | some rest => some rest
    | none => file
  match m_File with
  | none => .ok (s, none)
  | some rest =>
    (ParseProgram E fuel { s with Buffer := rest ++ ['\n'] }).bind fun r => .ok (r, some [])

end Parser

/-! ## The tables of the specification -/

/-- Modelled from the spec: the operator table of `Parser.h` is not among the
sources.  Section 4.3 lists its keys; each pushes its token of section 6 and
leads to the state that reads an operand, `->` leads to `ArrowState` and `*` to
`AsterisksOperator`, which pushes the token itself.  The comment introducers,
whose text the specification does not give, are left out. -/
def specOperatorTable : List (List Char × ParserMapValue) :=
  [ ("=".toList, { NextState := .RValue, TokenToPush := .Assign }),
    ("+".toList, { NextState := .RValue, TokenToPush := .AddOp }),
    ("-".toList, { NextState := .RValue, TokenToPush := .SubOp }),
    ("*".toList, { NextState := .AsterisksOperator, TokenToPush := .None }),
    ("/".toList, { NextState := .RValue, TokenToPush := .DivOp }),
    ("%".toList, { NextState := .RValue, TokenToPush := .ModOp }),
    ("==".toList, { NextState := .RValue, TokenToPush := .EqOp }),
    ("<".toList, { NextState := .RValue, TokenToPush := .LessOp }),
    ("<=".toList, { NextState := .RValue, TokenToPush := .LessEqOp }),
    (">".toList, { NextState := .RValue, TokenToPush := .GreaterOp }),
    (">=".toList, { NextState := .RValue, TokenToPush := .GreaterEqOp }),
    ("->".toList, { NextState := .ArrowState, TokenToPush := .Arrow }) ]

/-- Modelled from the spec: the type names of `g_DataTypes`, written as the
specification writes `int32`, each with its keyword token. -/
def specTypeTable : List (List Char × TokenType) :=
  [ ("int8".toList, .Int8Type), ("int16".toList, .Int16Type), ("int32".toList, .Int32Type),
    ("int64".toList, .Int64Type), ("uint8".toList, .UInt8Type), ("uint16".toList, .UInt16Type),
    ("uint32".toList, .UInt32Type), ("uint64".toList, .UInt64Type),
    ("float32".toList, .Float32Type), ("float64".toList, .Float64Type),
    ("bool".toList, .BoolType), ("string".toList, .StringType) ]

/-- Modelled from the spec: the keyword table of `Parser.h` is not among the
sources.  Section 4.3: `function` leads to `FunctionName`, `struct` to
`StructName`, a data-type keyword pushes its type token and leads to
`VariableName`; `return` pushes `ReturnKeyword` (scenario 6). -/
def specKeyWordTable : List (List Char × ParserMapValue) :=
  [ ("function".toList, { NextState := .FunctionName, TokenToPush := .None }),
    ("struct".toList, { NextState := .StructName, TokenToPush := .None }),
    ("return".toList, { NextState := .RValue, TokenToPush := .ReturnKeyword }) ] ++
  specTypeTable.map fun e => (e.1, { NextState := .VariableName, TokenToPush := e.2 })

/-- Modelled from the spec: a number is an optional `-` followed by digits with
at most one decimal point among them (section 4.2, number parsing). -/
def specIsValidNumber (str : List Char) : Bool :=
  let body := if str.head? = some '-' then str.tail else str
  body.all (fun c => c.isDigit || c = '.') && decide ((body.filter (· = '.')).length ≤ 1)

/-- Modelled from the spec: the declarations of `Core/Utils.h` and the tables of
`Parser.h`.  A space is the blank, an identifier character is a letter, a digit
or `_`, and the integer of the literal converters has 64 value bits. -/
def specEnv : Env :=
  { IsSpace := fun c => c = ' '
    IsVarNameChar := fun c => c.isAlphanum || c = '_'
    IsValidNumber := specIsValidNumber
    OperatorMap := fun key => specOperatorTable.lookup key
    KeyWordMap := fun key => specKeyWordTable.lookup key
    DataTypes := fun key => (specTypeTable.lookup key).isSome
    intBits := 64 }

/-- The kinds and lexemes of a finished run, for comparison with an expected stream. -/
def Res.tokens (r : Res Parser) : Option (List Token) :=
  match r with
  | .ok p => some p.Tokens
  | _ => none

/-- Shorthand for a token from its kind and the text of its lexeme. -/
def tk (t : TokenType) (data : String) : Token := { TokenType := t, Data := data.toList }

/-! ## Vocabulary of the properties -/

/-- A property of the value a function returns; it says nothing of a run that
halts or is out of fuel. -/
def Res.Sat {α : Type} (P : α → Prop) : Res α → Prop
  | .ok a => P a
  | .halt => True
  | .outOfFuel => True

/-- The number of tokens of kind `k` in a stream. -/
def countTok (k : TokenType) (ts : List Token) : Nat :=
  ts.countP (fun t => t.TokenType = k)

/-- Every prefix of the stream has at least as many `OpenBracket` as
`CloseBracket` tokens. -/
def PrefixOK (ts : List Token) : Prop :=
  ∀ pre, pre <+: ts → countTok .CloseBracket pre ≤ countTok .OpenBracket pre

/-- The token kinds that count for brackets and indentation. -/
def structural : TokenType → Bool
  | .OpenBracket => true
  | .CloseBracket => true
  | .StartIndentation => true
  | .EndIndentation => true
  | _ => false

/-- The states entered with a bracket open that the handler itself closes. -/
def pend : ParserState → Nat
  | .FunctionParamaters => 1
  | .IndexOperator => 1
  | _ => 0

/-- The tables push keyword and operator tokens only, and lead to no state that
closes a bracket. -/
def Env.WF (E : Env) : Prop :=
  ∀ key v, E.OperatorMap key = some v ∨ E.KeyWordMap key = some v →
    structural v.TokenToPush = false ∧ pend v.NextState = 0

/-- What a finished run guarantees of its stream. -/
def Good (ts : List Token) : Prop :=
  PrefixOK ts ∧ countTok .StartIndentation ts ≤ countTok .EndIndentation ts

/-- The invariant of a run in progress: `p` brackets are open beyond those of
the bracket stack. -/
def Inv (p : Nat) (s : Parser) : Prop :=
  PrefixOK s.Tokens ∧
  countTok .CloseBracket s.Tokens + s.BracketStack.length + p ≤ countTok .OpenBracket s.Tokens ∧
  countTok .StartIndentation s.Tokens ≤ countTok .EndIndentation s.Tokens + s.Indents

/-- The parser `r` was reached from `s` by steps that keep the invariant. -/
def Keeps (s r : Parser) : Prop := ∀ p, Inv p s → Inv p r

/-- A helper's effect: it keeps the invariant and the state. -/
def Neutral (s r : Parser) : Prop := Keeps s r ∧ r.CurrentState = s.CurrentState

/-- A handler's effect: it keeps the invariant and enters no state that has a
bracket to close. -/
def Step (s r : Parser) : Prop := Keeps s r ∧ pend r.CurrentState ≤ pend s.CurrentState

/-- The effect of `_DefaultState`: a bracket it opens for a call or an index is
counted with the state it enters. -/
def StepD (s r : Parser) : Prop := ∀ p, Inv p s → Inv (p + pend r.CurrentState) r

/-- The parser `r` is `s` with the cursor moved. -/
def OnlyCursor (s r : Parser) : Prop := r = { s with CurrentTokenIndex := r.CurrentTokenIndex }

/-- The number of characters of the buffer from the cursor on. -/
def restLen (s : Parser) : Nat := s.Buffer.length - s.CurrentTokenIndex

/-- The blanks are no identifier characters and no operator keys. -/
def Env.BlankOK (E : Env) : Prop :=
  ∀ c : Char, c = ' ' ∨ c = '\t' ∨ c = '\n' →
    E.IsVarNameChar c = false ∧ E.OperatorMap (Str c) = none

/-- The invariant of a run on a buffer of blanks: nothing is accumulated, the
state is Default or Indentation, and only layout tokens were emitted. -/
def BlankRun (s : Parser) : Prop :=
  s.CurrentString = [] ∧
  (s.CurrentState = .Default ∨ s.CurrentState = .Indentation) ∧
  (∀ c ∈ s.Buffer, c = ' ' ∨ c = '\t' ∨ c = '\n') ∧
  ∀ t ∈ s.Tokens, t.TokenType = .EndLine ∨ t.TokenType = .StartIndentation ∨
    t.TokenType = .EndIndentation

/-- The invariant of a run on a buffer of newlines: nothing is accumulated, the
state is Default or Indentation, no block is open and only `EndLine` was emitted. -/
def NewlineRun (s : Parser) : Prop :=
  s.CurrentString = [] ∧
  (s.CurrentState = .Default ∨ s.CurrentState = .Indentation) ∧
  (∀ c ∈ s.Buffer, c = '\n') ∧
  (∀ t ∈ s.Tokens, t.TokenType = .EndLine) ∧
  s.Indents = 0

/-- A state at the start of a line after a finished one: the last emitted token
is `EndLine` and nothing is accumulated. -/
def c3AfterEndLine : Parser :=
  ⟨[tk .EndLine ""], "(".toList, 0, 0, .Default, [], []⟩

/-- A state right after a closed call: the last emitted token is `CloseBracket`
and nothing is accumulated. -/
def c3AfterClose : Parser :=
  ⟨[tk .VariableReference "f", tk .FunctionCall "f", tk .OpenBracket "(",
      tk .CloseBracket ")"], "f()(".toList, 3, 0, .Default, [], []⟩

/-- A state with the lexeme `f` accumulated before the parenthesis. -/
def c3AfterName : Parser :=
  ⟨[], "f(".toList, 1, 0, .Default, ['f'], []⟩

/-- The parser `r` has the stream, the buffer and the state of `s`: at most the
cursor and the accumulated lexeme differ. -/
def SameStream (s r : Parser) : Prop :=
  r.Tokens = s.Tokens ∧ r.Buffer = s.Buffer ∧ r.CurrentState = s.CurrentState

/-- The cursor of `s` stands after the character `c` just read, and the last
character of the buffer is not read yet unless `c` is a newline. -/
def BeforeEnd (c : Char) (s : Parser) : Prop :=
  1 ≤ s.CurrentTokenIndex ∧ s.CurrentTokenIndex ≤ s.Buffer.length ∧
    (s.CurrentTokenIndex < s.Buffer.length ∨ c = '\n')

/-- A character of an identifier of a variable list: `IsVarNameChar` holds of
it, it is no space and no comma. -/
def IdChar (E : Env) (c : Char) : Prop :=
  E.IsVarNameChar c = true ∧ E.IsSpace c = false ∧ c ≠ ','

/-- The text of the further identifiers of a list, a comma before each. -/
def sepText : List (List Char) → List Char
  | [] => []
  | id :: rest => ',' :: id ++ sepText rest

/-- The tokens of a list of identifiers: a `VariableName` for each, a `Comma`
between two. -/
def varListTokens : List (List Char) → List Token
  | [] => []
  | [id] => [{ TokenType := .VariableName, Data := id }]
  | id :: rest =>
    { TokenType := .VariableName, Data := id } :: { TokenType := .Comma, Data := [] }
      :: varListTokens rest

/-- The tokens of the identifiers of a list that a comma follows. -/
def doneTokens : List Char → List (List Char) → List Token
  | _, [] => []
  | cur, id :: rest =>
    { TokenType := .VariableName, Data := cur } :: { TokenType := .Comma, Data := [] }
      :: doneTokens id rest

/-- The last identifier of a list. -/
def lastId : List Char → List (List Char) → List Char
  | cur, [] => cur
  | _, id :: rest => lastId id rest

/-- The first character of a variable list: none of the characters on which
`_VariableNameState` leaves before its loop. -/
def ListHead (E : Env) (c : Char) : Prop :=
  c ≠ ':' ∧ (E.OperatorMap (Str c)).isSome = false ∧ c ≠ '(' ∧ c ≠ '*' ∧ c ≠ '[' ∧
    c ≠ '\n' ∧ c ≠ NUL

/-- A character that ends a variable list: `IsVarNameChar` does not hold of it,
it is no space and no comma. -/
def ListEnd (E : Env) (t : Char) : Prop :=
  E.IsVarNameChar t = false ∧ E.IsSpace t = false ∧ t ≠ ','

/-- The text of a list of identifiers, single commas between them. -/
def listText : List (List Char) → List Char
  | [] => []
  | id :: rest => id ++ sepText rest

/-- The depth of parentheses after a piece of the text of a call read at depth
`d`, as the loop of `_FunctionParamaterState` counts it; `none` when the piece
holds a character at which the loop ends an argument: a `)` that closes the
call, a comma at depth 1, or a NUL. -/
def depthAfter : Int → List Char → Option Int
  | d, [] => some d
  | d, c :: rest =>
    let opens := if c = '(' then d + 1 else d
    let opens := if c = ')' then opens - 1 else opens
    if (c = ')' ∧ opens = 0) ∨ (c = ',' ∧ opens = 1) ∨ c = NUL then none
    else depthAfter opens rest

/-- What the loop of `_FunctionParamaterState` adds to `m_CurrentString` for a
piece: every character but the blanks read while the string is empty. -/
def takeArg : List Char → List Char → List Char
  | acc, [] => acc
  | acc, c :: rest =>
    takeArg (if !(isspace c ∧ acc = []) then acc ++ [c] else acc) rest

/-- The text of the arguments of a call after the opening parenthesis: the
pieces with commas between them and the closing parenthesis. -/
def argsText : List (List Char) → List Char
  | [] => [')']
  | [raw] => raw ++ [')']
  | raw :: rest => raw ++ ',' :: argsText rest

/-- The tokens of the arguments of a call: the tokens of each argument, a
`Comma` between two. -/
def joinArgs : List (List Token) → List Token
  | [] => []
  | [o] => o
  | o :: rest => o ++ { TokenType := .Comma, Data := [] } :: joinArgs rest

/-- A piece of the text of a call that is one argument: it has no comma at
depth 1, its parentheses match, it holds no NUL, and it is not only blanks. -/
def ArgPiece (raw : List Char) : Prop :=
  depthAfter 1 raw = some 1 ∧ raw.dropWhile isspace ≠ []

/-- The tokens the loop over the arguments pushes: the tokens of each
argument and a `Comma` after each. -/
def commaAfterEach : List (List Token) → List Token
  | [] => []
  | o :: rest => o ++ { TokenType := .Comma, Data := [] } :: commaAfterEach rest

/-- A piece of the text of a string literal: a character on its own, or a
backslash and the character after it. -/
inductive StringItem where
  | plain (c : Char)
  | escaped (c : Char)
  deriving DecidableEq, Repr

/-- The source text of the piece. -/
def StringItem.text : StringItem → List Char
  | .plain c => [c]
  | .escaped c => ['\\', c]

/-- What `_ParseString` appends to the lexeme for the piece. -/
def StringItem.data : StringItem → List Char
  | .plain c => [c]
  | .escaped c => Parser._ParseString.escape c

/-- A character on its own is no quote, no backslash, no newline and no NUL. -/
def StringItem.wellFormed : StringItem → Prop
  | .plain c => c ≠ '"' ∧ c ≠ '\\' ∧ c ≠ '\n' ∧ c ≠ NUL
  | .escaped _ => True

/-- The source text of a list of pieces. -/
def stringText : List StringItem → List Char
  | [] => []
  | i :: rest => i.text ++ stringText rest

/-- The lexeme of a list of pieces. -/
def stringData : List StringItem → List Char
  | [] => []
  | i :: rest => i.data ++ stringData rest

/-! ## Vocabulary of the identifier list and of the cursor -/

/-- A character the loop of the variable list goes on at, other than a comma: a
character of an identifier or a space. -/
def ListChar (E : Env) (c : Char) : Prop :=
  (E.IsVarNameChar c = true ∨ E.IsSpace c = true) ∧ c ≠ ','

/-- The characters of a text that are not spaces. -/
def withoutSpaces (E : Env) (x : List Char) : List Char :=
  x.filter fun a => !E.IsSpace a

/-- A property of an outcome: the value returned has the property `P`; a halt
is allowed, and a run out of fuel is allowed only when `total` is false. -/
def Res.Holds {α : Type} (total : Bool) (P : α → Prop) : Res α → Prop
  | .ok a => P a
  | .halt => True
  | .outOfFuel => total = false

/-- The parser `r` has the buffer of `s`, and its cursor is not before the
position `lo` and not after the end of the buffer. -/
def Cursor (lo : Nat) (s r : Parser) : Prop :=
  r.Buffer = s.Buffer ∧ lo ≤ r.CurrentTokenIndex ∧ r.CurrentTokenIndex ≤ s.Buffer.length

/-- The fuel `n` is enough for a loop that reads the buffer from the cursor of
`s` on, `c` being the character read last: two more than the characters left,
or one when the end of the buffer was read. -/
def FuelFor (n : Nat) (c : Char) (s : Parser) : Prop :=
  restLen s + 2 ≤ n ∨ (c = NUL ∧ 1 ≤ n)

/-- What the cursor needs of the character classes and of the tables: NUL is no
space, no identifier character and no operator, `[` is no identifier character,
the blank and the newline are no operators, a keyword leads to none of the
states Operator, ArrowState and FunctionTypeState, and an operator leads to
none of Operator, FunctionTypeState and IndexOperator, and to ArrowState only
when it has two characters or more. -/
structure Env.CursorOK (E : Env) : Prop where
  space_NUL : E.IsSpace NUL = false
  name_NUL : E.IsVarNameChar NUL = false
  op_NUL : E.OperatorMap [NUL] = none
  name_bracket : E.IsVarNameChar '[' = false
  op_blank : E.OperatorMap [' '] = none ∧ E.OperatorMap ['\n'] = none
  keyword_next : ∀ key v, E.KeyWordMap key = some v →
    v.NextState ≠ .Operator ∧ v.NextState ≠ .ArrowState ∧ v.NextState ≠ .FunctionTypeState
  operator_next : ∀ key v, E.OperatorMap key = some v →
    v.NextState ≠ .Operator ∧ v.NextState ≠ .FunctionTypeState ∧
      v.NextState ≠ .IndexOperator ∧ (v.NextState = .ArrowState → 2 ≤ key.length)

/-- The rank of a state: a handler that leaves the cursor where it was leads
to a state of lower rank, or empties the accumulated lexeme. -/
def rank : ParserState → Nat
  | .Operator => 4
  | .ArrowState => 3
  | .FunctionName => 3
  | .Default => 1
  | .FunctionParamaters => 0
  | .IndexOperator => 0
  | .MultilineComment => 0
  | _ => 2

/-- The measure of a run: ten for each character from the cursor on, five for
an accumulated lexeme, and the rank of the state. -/
def weight (s : Parser) : Nat :=
  10 * restLen s + (if s.CurrentString = [] then 0 else 5) + rank s.CurrentState

/-- The invariant of the cursor: it is not after the end of the buffer, and in
the Operator state, which starts with a step back, it is not at the start. -/
def CursorInv (s : Parser) : Prop :=
  s.CurrentTokenIndex ≤ s.Buffer.length ∧ (s.CurrentState = .Operator → 1 ≤ s.CurrentTokenIndex)

/-- In the states that read the return type of a function, two characters or
more were read. -/
def ArrowInv (s : Parser) : Prop :=
  s.CurrentState = .ArrowState ∨ s.CurrentState = .FunctionTypeState → 2 ≤ s.CurrentTokenIndex

/-- The last character of the buffer is no operator. -/
def LastOK (E : Env) (s : Parser) : Prop :=
  ∀ c, s.Buffer.getLast? = some c → E.OperatorMap (Str c) = none

/-- The IndexOperator state is entered with no accumulated lexeme. -/
def IndexInv (s : Parser) : Prop :=
  s.CurrentState = .IndexOperator → s.CurrentString = []

/-- The effect of a state handler on the run: the buffer is the same, the
invariants hold again, and the measure is smaller. -/
def Stepped (s r : Parser) : Prop :=
  r.Buffer = s.Buffer ∧ CursorInv r ∧ ArrowInv r ∧ IndexInv r ∧ weight r < weight s

/-- The sub-lexer `run` ends on every text that, with the space added, is
shorter than `len`; this says nothing when `total` is false. -/
def SubEnds (total : Bool) (run : Parser → Res Parser) (len : Nat) : Prop :=
  ∀ text : List Char, text.length + 1 < len →
    (run { Parser.new.InitParser with Buffer := text ++ [' '] }).Holds total (fun _ => True)

/-- The invariant of the loops that split arguments, from the position `q` on:
the accumulated text and the arguments taken are shorter than what was read,
and the closing parenthesis is found only as the character read last. -/
def ArgsInv (q : Nat) (s : Parser) (l : Parser.ArgLocals) : Prop :=
  Cursor q s l.s ∧ l.s.CurrentString.length + q ≤ l.s.CurrentTokenIndex ∧
  (l.current ≠ NUL → ∀ a ∈ l.argList, a.length + q + 1 ≤ l.s.CurrentTokenIndex) ∧
  (l.detectedEnd = true → l.current = ')' ∧ q + 1 ≤ l.s.CurrentTokenIndex)

/-- The invariants of a run: those of the cursor, of the states that read a
return type, and of the IndexOperator state. -/
def RunInv (s : Parser) : Prop := CursorInv s ∧ ArrowInv s ∧ IndexInv s

/-- The parser after at most `k` turns of the first loop of `ParseProgram`: the
state handler of the current state is called while the cursor is inside the
buffer. -/
def turns (step : Parser → Res Parser) : Nat → Parser → Res Parser
  | 0, s => .ok s
  | k + 1, s =>
    if s.CurrentTokenIndex < s.Buffer.length then (step s).bind (turns step k) else .ok s

/-! # The lowering of the syntax tree (Source/AST/ASTNode.cpp)

A shallow embedding of `Codegen` of every node class.  The four static maps of
`ASTNode.cpp` and the back end (`LLVM::Backend`: module, builder, context) are
the record `Lowering`; a node is a value, and `Codegen` returns the handle, the
node as the call leaves it (`PushChild` changes nodes) and the new state.
-/

/-! ## Types and values -/

/-- Modelled from the spec: the type tags `VariableType` of `Core/Types.h`, which
is not among the sources (section 3); `ASTNode.cpp` names all of them but
`String`. -/
inductive VariableType where
  | Int8 | Int16 | Int32 | Int64 | Uint8 | Uint16 | Uint32 | Uint64
  | Float32 | Float64 | Bool | String | None | UserDefinedType
  deriving DecidableEq, Repr

/-- Modelled from the spec: the qualifier `TypeKind` of an `AbstractType`
(section 3). -/
inductive TypeKind where
  | LValue | RValue
  deriving DecidableEq, Repr

/-- Modelled from the spec: what `ASTNode.cpp` reads of an `AbstractType` of
`Core/Types.h`: `Get()`, `GetKind()` and `GetUserDefinedType()`. -/
structure AbstractType where
  Get : VariableType
  GetKind : TypeKind
  GetUserDefinedType : String
  deriving DecidableEq, Repr

/-- Modelled from the spec: the operators `BinaryExpressionType` of `ASTNode.h`,
which is not among the sources, in the order of their values: the math
operators, then the comparisons, then `Assignment` (section 3; `Codegen`
compares the values with those of `Mod` and `Eq`). -/
inductive BinaryExpressionType where
  | Add | Sub | Mul | Div | Mod | Less | LessEq | Greater | GreaterEq | Eq | Assignment
  deriving DecidableEq, Repr

/-- Modelled from the spec: the integer value of an operator,
`(int)m_Expression`. -/
def BinaryExpressionType.toInt : BinaryExpressionType → Nat
  | .Add => 0 | .Sub => 1 | .Mul => 2 | .Div => 3 | .Mod => 4
  | .Less => 5 | .LessEq => 6 | .Greater => 7 | .GreaterEq => 8 | .Eq => 9
  | .Assignment => 10

/-- Modelled from the spec: the types of the intermediate code, `llvm::Type*`; a record type is known by
its number in the module. -/
inductive IRType where
  | i1 | i8 | i16 | i32 | i64 | float | double | void | ptr
  | struct (id : Nat)
  deriving DecidableEq, Repr

/-- Modelled from the spec: the test `isFloatingPointTy`. -/
def IRType.isFloatingPointTy : IRType → Bool
  | .float => true
  | .double => true
  | _ => false

/-- Modelled from the spec: the test `isVoidTy`. -/
def IRType.isVoidTy : IRType → Bool
  | .void => true
  | _ => false

/-- Modelled from the spec: `GetLLVMVariableType` of `Core/Types.h` is not among
the sources.  Section 3: integers of 8 to 64 bits, floats of 32 and 64 bits, a
boolean, a string with pointer-to-byte semantics, `None` is void. -/
def GetLLVMVariableType : VariableType → IRType
  | .Int8 => .i8 | .Int16 => .i16 | .Int32 => .i32 | .Int64 => .i64
  | .Uint8 => .i8 | .Uint16 => .i16 | .Uint32 => .i32 | .Uint64 => .i64
  | .Float32 => .float | .Float64 => .double | .Bool => .i1
  | .String => .ptr | .None => .void | .UserDefinedType => .void

/-- The member `AbstractType::GetLLVMType`. -/
def AbstractType.GetLLVMType (t : AbstractType) : IRType := GetLLVMVariableType t.Get

/-- Modelled from the spec: a value handle, `llvm::Value*` when it is not null: a constant, the result
of an instruction, a stack slot (`llvm::AllocaInst`), an argument of a function
or a function. -/
inductive Value where
  | constant (type : IRType) (data : String)
  | instruction (id : Nat) (type : IRType)
  | allocaInst (id : Nat) (allocatedType : IRType)
  | argument (function : String) (index : Nat) (type : IRType)
  | function (name : String)
  deriving DecidableEq, Repr

/-- Modelled from the spec: the test `llvm::isa<llvm::AllocaInst>`. -/
def Value.isAlloca : Value → Bool
  | .allocaInst _ _ => true
  | _ => false

/-- Modelled from the spec: the member `getAllocatedType` of a slot. -/
def Value.getAllocatedType : Value → IRType
  | .allocaInst _ t => t
  | _ => .void

/-- Modelled from the spec: the member `getType`; a slot and a function are pointers. -/
def Value.getType : Value → IRType
  | .constant t _ => t
  | .instruction _ t => t
  | .allocaInst _ _ => .ptr
  | .argument _ _ t => t
  | .function _ => .ptr

/-- Modelled from the spec: the operations of the builder that compute from two operands. -/
inductive Opcode where
  | Add | FAdd | Sub | FSub | Mul | FMul | SDiv | FDiv | SRem
  | ICmpSLT | FCmpOLT | ICmpSLE | FCmpOLE | ICmpSGT | FCmpOGT | ICmpSGE | FCmpOGE
  | ICmpEQ | FCmpOEQ
  deriving DecidableEq, Repr

/-- Modelled from the spec: an instruction the builder was asked for, with the handle of its result. -/
inductive Instr where
  | alloca (result : Value) (name : String)
  | load (result : Value) (pointer : Value)
  | store (result : Value) (value : Value) (pointer : Value)
  | binary (result : Value) (opcode : Opcode) (lhs : Value) (rhs : Value)
  | cast (result : Value) (value : Value) (target : AbstractType)
  | ret (result : Value) (value : Option Value)
  | call (result : Value) (callee : String) (args : List Value)
  deriving DecidableEq, Repr

/-- Modelled from the spec: the test for a terminator instruction. -/
def Instr.isTerminator : Instr → Bool
  | .ret _ _ => true
  | _ => false

/-! ## The back end and the static maps -/

/-- Modelled from the spec: a function of the module. -/
structure IRFunction where
  name : String
  returnType : IRType
  paramTypes : List IRType
  paramNames : List String
  deriving DecidableEq, Repr

/-- Modelled from the spec: an insertion point of the builder, `llvm::IRBuilderBase::InsertPoint`: the
end of a block, known by its number, or none. -/
abbrev InsertPoint := Option Nat

/-- Modelled from the spec: the back end `LLVM::Backend` (module, builder and
context) is an external collaborator (sections 1 and 6).  It records the
functions, the blocks (each with its function and name), the record types, every
instruction it was asked for, in order, with the block it was inserted into, and
the insertion point of the builder. -/
structure Backend where
  functions : List IRFunction
  blocks : List (String × String)
  structs : List (List IRType)
  emitted : List (InsertPoint × Instr)
  insertPoint : InsertPoint
  nextId : Nat
  deriving DecidableEq, Repr

/-- A parameter of a function, `Paramater`. -/
structure Paramater where
  Name : String
  Type_ : AbstractType
  deriving DecidableEq, Repr

/-- A member of a record, `Member`. -/
structure Member where
  Name : String
  Field : AbstractType
  deriving DecidableEq, Repr

/-- An argument of a call, `Argument`. -/
structure Argument where
  Field : AbstractType
  Data : String
  deriving DecidableEq, Repr

/-- The descriptor of a record, `ObjectReferenceInfo`: the record type (null
until it is created) and the ordinal of each field. -/
structure ObjectReferenceInfo where
  Struct : Option Nat
  Indices : List (String × Nat)
  deriving DecidableEq, Repr

/-- The state the lowering works on: the four static maps of `ASTNode.cpp` and
the back end. -/
structure Lowering where
  s_VariableMap : List (String × Value)
  s_StructTypes : List (String × ObjectReferenceInfo)
  s_InsertPoints : List InsertPoint
  s_FunctionToExpectedTypes : List (String × List Paramater)
  backend : Backend
  deriving DecidableEq, Repr

/-- The outcome of a lowering call: it returns, it halts the process
(`CLEAR_VERIFY`, an uncaught exception), its behaviour is undefined (a null
handle dereferenced, a vector or stack read past its end), or the fuel of the
model ran out. -/
inductive Out (α : Type) where
  | ok (a : α)
  | halt
  | undefined
  | outOfFuel
  deriving DecidableEq, Repr

/-- Sequencing of outcomes. -/
def Out.bind {α β : Type} (x : Out α) (f : α → Out β) : Out β :=
  match x with
  | .ok a => f a
  | .halt => .halt
  | .undefined => .undefined
  | .outOfFuel => .outOfFuel

/-- The member `contains` of a `std::map`. -/
def mapContains {α : Type} (m : List (String × α)) (key : String) : Bool :=
  (m.lookup key).isSome

/-- The member `at` of a `std::map`: `none` is the exception it throws. -/
def mapAt {α : Type} (m : List (String × α)) (key : String) : Option α :=
  m.lookup key

/-- The assignment `m[key] = value` of a `std::map`. -/
def mapSet {α : Type} : List (String × α) → String → α → List (String × α)
  | [], key, value => [(key, value)]
  | (k, v) :: rest, key, value =>
    if k = key then (k, value) :: rest else (k, v) :: mapSet rest key value

/-- The member `erase` of a `std::map`. -/
def mapErase {α : Type} (m : List (String × α)) (key : String) : List (String × α) :=
  m.filter fun e => e.1 ≠ key

namespace Backend

/-- Modelled from the spec: the builder inserts an instruction at its insertion point. -/
def Insert (b : Backend) (i : Instr) : Backend :=
  { b with emitted := b.emitted ++ [(b.insertPoint, i)], nextId := b.nextId + 1 }

/-- Modelled from the spec: the operation `CreateAlloca`. -/
def CreateAlloca (b : Backend) (type : IRType) (name : String) : Value × Backend :=
  (.allocaInst b.nextId type, b.Insert (.alloca (.allocaInst b.nextId type) name))

/-- Modelled from the spec: the operation `CreateLoad`. -/
def CreateLoad (b : Backend) (type : IRType) (pointer : Value) : Value × Backend :=
  (.instruction b.nextId type, b.Insert (.load (.instruction b.nextId type) pointer))

/-- Modelled from the spec: the operation `CreateStore`. -/
def CreateStore (b : Backend) (value : Value) (pointer : Value) : Value × Backend :=
  (.instruction b.nextId .void, b.Insert (.store (.instruction b.nextId .void) value pointer))

/-- Modelled from the spec: an arithmetic operation of the builder; its result has the type of the
left operand. -/
def CreateBinary (b : Backend) (opcode : Opcode) (lhs rhs : Value) : Value × Backend :=
  (.instruction b.nextId lhs.getType,
    b.Insert (.binary (.instruction b.nextId lhs.getType) opcode lhs rhs))

/-- Modelled from the spec: a comparison of the builder; its result is a boolean. -/
def CreateCmp (b : Backend) (opcode : Opcode) (lhs rhs : Value) : Value × Backend :=
  (.instruction b.nextId .i1, b.Insert (.binary (.instruction b.nextId .i1) opcode lhs rhs))

/-- Modelled from the spec: the operation `CreateRet`; a null handle gives the return of nothing. -/
def CreateRet (b : Backend) (value : Option Value) : Value × Backend :=
  (.instruction b.nextId .void, b.Insert (.ret (.instruction b.nextId .void) value))

/-- Modelled from the spec: the operation `CreateRetVoid`. -/
def CreateRetVoid (b : Backend) : Value × Backend := b.CreateRet none

/-- Modelled from the spec: the operation `CreateCall`. -/
def CreateCall (b : Backend) (callee : IRFunction) (args : List Value) : Value × Backend :=
  (.instruction b.nextId callee.returnType,
    b.Insert (.call (.instruction b.nextId callee.returnType) callee.name args))

/-- Modelled from the spec: the member `getFunction` of the module. -/
def getFunction (b : Backend) (name : String) : Option IRFunction :=
  b.functions.find? fun f => f.name = name

/-- Modelled from the spec: the call `llvm::Function::Create` with external linkage. -/
def CreateFunction (b : Backend) (f : IRFunction) : Backend :=
  { b with functions := b.functions ++ [f] }

/-- Modelled from the spec: the member `getOrInsertFunction` of the module. -/
def getOrInsertFunction (b : Backend) (f : IRFunction) : Backend :=
  match b.getFunction f.name with
  | some _ => b
  | none => b.CreateFunction f

/-- Modelled from the spec: the call `llvm::BasicBlock::Create`: the number of the new block. -/
def CreateBasicBlock (b : Backend) (name : String) (function : String) : Nat × Backend :=
  (b.blocks.length, { b with blocks := b.blocks ++ [(function, name)] })

/-- Modelled from the spec: the call `llvm::StructType::create`: the number of the new record type. -/
def CreateStructType (b : Backend) (types : List IRType) : Nat × Backend :=
  (b.structs.length, { b with structs := b.structs ++ [types] })

/-- Modelled from the spec: the instructions of a block, in order. -/
def blockInstructions (b : Backend) (block : Nat) : List Instr :=
  (b.emitted.filter fun e => e.1 = some block).map fun e => e.2

/-- Modelled from the spec: the member `getTerminator` of a block is not null. -/
def hasTerminator (b : Backend) (block : Nat) : Bool :=
  match (b.blockInstructions block).getLast? with
  | some i => i.isTerminator
  | none => false

end Backend

/-- Modelled from the spec: `GetLLVMConstant` of `Core/Types.h` is not among the
sources.  It gives the constant of the given type parsed from the text
(section 4.4, Literal); no instruction is emitted. -/
def GetLLVMConstant (type : AbstractType) (data : String) : Value :=
  .constant type.GetLLVMType data

/-- Modelled from the spec: `AbstractType::CastValue` is not among the sources.
It issues the conversion of the value to the target type (section 4.5); a cast
to `None` is a program error. -/
def AbstractType.CastValue (b : Backend) (value : Value) (target : AbstractType) :
    Out (Value × Backend) :=
  if target.Get = .None then .halt
  else .ok (.instruction b.nextId target.GetLLVMType,
    b.Insert (.cast (.instruction b.nextId target.GetLLVMType) value target))

/-! ## The nodes -/

/-- Modelled from the spec: the kinds of node, `ASTNodeType` of `ASTNode.h`, which
is not among the sources (section 3); `ASTNode.cpp` names `Literal`,
`VariableExpression` and `ReturnStatement`. -/
inductive ASTNodeType where
  | Base | Literal | BinaryExpression | VariableExpression | VariableDecleration
  | FunctionDecleration | ReturnStatement | Expression | Struct | FunctionCall
  deriving DecidableEq, Repr

/-- The class of a node with the members of that class. -/
inductive ASTKind where
  | Base
  | Literal (m_Data : String) (m_Type : AbstractType)
  | BinaryExpression (m_Expression : BinaryExpressionType) (m_ExpectedType : AbstractType)
  | VariableExpression (m_Name : String)
  | VariableDecleration (m_Name : String) (m_Type : AbstractType)
  | FunctionDecleration (m_Name : String) (m_ReturnType : VariableType)
      (m_Paramaters : List Paramater)
  | ReturnStatement
  | Expression
  | Struct (m_Name : String) (m_Members : List Member)
  | FunctionCall (m_Name : String) (m_Arguments : List Argument)
  deriving DecidableEq, Repr

/-- A node: its class and its ordered list of children.  Nodes are values here:
a child attached by `PushChild` is the node as it is at that moment, and a call
that changes a node gives the changed node back. -/
inductive ASTNode where
  | mk (kind : ASTKind) (m_Children : List ASTNode)
  deriving Repr

mutual
/-- Equality of nodes is decidable. -/
def ASTNode.decEq : (a b : ASTNode) → Decidable (a = b)
  | .mk k1 c1, .mk k2 c2 =>
    if hk : k1 = k2 then
      match ASTNode.decEqList c1 c2 with
      | isTrue h => isTrue (by rw [hk, h])
      | isFalse h => isFalse (fun e => h (by cases e; rfl))
    else isFalse (fun e => hk (by cases e; rfl))
/-- Equality of lists of nodes is decidable. -/
def ASTNode.decEqList : (a b : List ASTNode) → Decidable (a = b)
  | [], [] => isTrue rfl
  | [], _ :: _ => isFalse (fun e => by cases e)
  | _ :: _, [] => isFalse (fun e => by cases e)
  | a :: as, b :: bs =>
    match ASTNode.decEq a b with
    | isTrue h =>
      match ASTNode.decEqList as bs with
      | isTrue h2 => isTrue (by rw [h, h2])
      | isFalse h2 => isFalse (fun e => h2 (by cases e; rfl))
    | isFalse h => isFalse (fun e => h (by cases e; rfl))
end

instance : DecidableEq ASTNode := ASTNode.decEq

namespace ASTNode

/-- The class of the node. -/
def kind : ASTNode → ASTKind
  | .mk k _ => k

/-- The member `GetChildren`. -/
def GetChildren : ASTNode → List ASTNode
  | .mk _ cs => cs

/-- The member `GetType`. -/
def GetType (n : ASTNode) : ASTNodeType :=
  match n.kind with
  | .Base => .Base
  | .Literal _ _ => .Literal
  | .BinaryExpression _ _ => .BinaryExpression
  | .VariableExpression _ => .VariableExpression
  | .VariableDecleration _ _ => .VariableDecleration
  | .FunctionDecleration _ _ _ => .FunctionDecleration
  | .ReturnStatement => .ReturnStatement
  | .Expression => .Expression
  | .Struct _ _ => .Struct
  | .FunctionCall _ _ => .FunctionCall

/-- The member `PushChild`. -/
def PushChild (n : ASTNode) (child : ASTNode) : ASTNode :=
  .mk n.kind (n.GetChildren ++ [child])

end ASTNode

/-- What a call of `Codegen` leaves: the handle it returns (`none` is the null
handle), the node after the call, and the state. -/
structure Lowered where
  value : Option Value
  node : ASTNode
  state : Lowering
  deriving DecidableEq

/-- The virtual call `child->Codegen()` as the node classes see it. -/
abbrev Lower := ASTNode → Lowering → Out Lowered

/-- The state with another back end. -/
def Lowering.withBackend (s : Lowering) (b : Backend) : Lowering :=
  { s with backend := b }

/-! ## ASTNodeBase and ASTNodeLiteral -/

/-- The loop of `ASTNodeBase::Codegen`: every child in order. -/
def ASTNodeBase.Codegen.loop (cg : Lower) : List ASTNode → Lowering →
    Out (List ASTNode × Lowering)
  | [], s => .ok ([], s)
  | child :: rest, s =>
    (cg child s).bind fun r =>
    (ASTNodeBase.Codegen.loop cg rest r.state).bind fun p =>
    .ok (r.node :: p.1, p.2)

/-- The function `ASTNodeBase::Codegen`. -/
def ASTNodeBase.Codegen (cg : Lower) (kind : ASTKind) (children : List ASTNode)
    (s : Lowering) : Out Lowered :=
  (ASTNodeBase.Codegen.loop cg children s).bind fun p =>
  .ok { value := none, node := .mk kind p.1, state := p.2 }

/-- The function `ASTNodeLiteral::Codegen`. -/
def ASTNodeLiteral.Codegen (m_Data : String) (m_Type : AbstractType)
    (children : List ASTNode) (s : Lowering) : Out Lowered :=
  .ok { value := some (GetLLVMConstant m_Type m_Data),
        node := .mk (.Literal m_Data m_Type) children, state := s }

/-! ## ASTBinaryExpression -/

namespace ASTBinaryExpression

/-- The function `_IsMathExpression`. -/
def _IsMathExpression (m_Expression : BinaryExpressionType) : Bool :=
  decide (m_Expression.toInt ≤ BinaryExpressionType.Mod.toInt)

/-- The function `_IsCmpExpression`. -/
def _IsCmpExpression (m_Expression : BinaryExpressionType) : Bool :=
  decide (m_Expression.toInt ≤ BinaryExpressionType.Eq.toInt) &&
    !_IsMathExpression m_Expression

/-- A handle that is not null. -/
def handle (p : Value × Backend) : Option Value × Backend := (some p.1, p.2)

/-- The function `_CreateMathExpression`. -/
def _CreateMathExpression (m_Expression : BinaryExpressionType) (b : Backend)
    (LHS RHS : Value) : Option Value × Backend :=
  let isFloat := LHS.getType.isFloatingPointTy
  match m_Expression with
  | .Add => handle (if isFloat then b.CreateBinary .FAdd LHS RHS
      else b.CreateBinary .Add LHS RHS)
  | .Sub => handle (if isFloat then b.CreateBinary .FSub LHS RHS
      else b.CreateBinary .Sub LHS RHS)
  | .Mul => handle (if isFloat then b.CreateBinary .FMul LHS RHS
      else b.CreateBinary .Mul LHS RHS)
  | .Div => handle (if isFloat then b.CreateBinary .FDiv LHS RHS
      else b.CreateBinary .SDiv LHS RHS)
  | .Mod => if !isFloat then handle (b.CreateBinary .SRem LHS RHS) else (none, b)
  | _ => (none, b)

/-- The function `_CreateCmpExpression`. -/
def _CreateCmpExpression (m_Expression : BinaryExpressionType) (b : Backend)
    (LHS RHS : Value) : Option Value × Backend :=
  let isFloat := LHS.getType.isFloatingPointTy
  match m_Expression with
  | .Less => handle (if isFloat then b.CreateCmp .FCmpOLT LHS RHS
      else b.CreateCmp .ICmpSLT LHS RHS)
  | .LessEq => handle (if isFloat then b.CreateCmp .FCmpOLE LHS RHS
      else b.CreateCmp .ICmpSLE LHS RHS)
  | .Greater => handle (if isFloat then b.CreateCmp .FCmpOGT LHS RHS
      else b.CreateCmp .ICmpSGT LHS RHS)
  | .GreaterEq => handle (if isFloat then b.CreateCmp .FCmpOGE LHS RHS
      else b.CreateCmp .ICmpSGE LHS RHS)
  | .Eq => handle (if isFloat then b.CreateCmp .FCmpOEQ LHS RHS
      else b.CreateCmp .ICmpEQ LHS RHS)
  | _ => (none, b)

/-- The function `_CreateLoadStoreExpression`. -/
def _CreateLoadStoreExpression (m_Expression : BinaryExpressionType) (b : Backend)
    (LHS RHS : Value) : Option Value × Backend :=
  match m_Expression with
  | .Assignment => handle (b.CreateStore RHS LHS)
  | _ => (none, b)

/-- The function `_CreateExpression`. -/
def _CreateExpression (m_Expression : BinaryExpressionType) (b : Backend)
    (LHS _RHS LHSRawValue RHSRawValue : Value) : Option Value × Backend :=
  if _IsMathExpression m_Expression then
    _CreateMathExpression m_Expression b LHSRawValue RHSRawValue
  else if _IsCmpExpression m_Expression then
    _CreateCmpExpression m_Expression b LHSRawValue RHSRawValue
  else _CreateLoadStoreExpression m_Expression b LHS RHSRawValue

/-- One statement of the switch of `Codegen`: the cast of a raw value whose
type is not the expected one. -/
def castRaw (m_ExpectedType : AbstractType) (b : Backend) (raw : Value) :
    Out (Value × Backend) :=
  if raw.getType ≠ m_ExpectedType.GetLLVMType then
    AbstractType.CastValue b raw m_ExpectedType
  else .ok (raw, b)

/-- A case of the switch of `Codegen`: the left raw value, then the right. -/
def castBoth (m_ExpectedType : AbstractType) (b : Backend) (LHSRawValue RHSRawValue : Value) :
    Out (Value × Value × Backend) :=
  (castRaw m_ExpectedType b LHSRawValue).bind fun l =>
  (castRaw m_ExpectedType l.2 RHSRawValue).bind fun r =>
  .ok (l.1, r.1, r.2)

/-- The switch of `Codegen` on the expected type. -/
def castSwitch (m_ExpectedType : AbstractType) (b : Backend) (LHSRawValue RHSRawValue : Value) :
    Out (Value × Value × Backend) :=
  match m_ExpectedType.Get with
  | .Int8 | .Int16 | .Int32 | .Int64 | .Uint8 | .Uint16 | .Uint32 | .Uint64 =>
    castBoth m_ExpectedType b LHSRawValue RHSRawValue
  | .Float32 | .Float64 => castBoth m_ExpectedType b LHSRawValue RHSRawValue
  | .Bool => castBoth m_ExpectedType b LHSRawValue RHSRawValue
  | _ => .ok (LHSRawValue, RHSRawValue, b)

/-- The part of `Codegen` after the two children: loads, casts and the
instruction of the operator. -/
def operands (m_Expression : BinaryExpressionType) (m_ExpectedType : AbstractType)
    (b : Backend) (LHS RHS : Value) : Out (Option Value × Backend) :=
  let r := if RHS.isAlloca then b.CreateLoad RHS.getAllocatedType RHS else (RHS, b)
  let RHSRawValue := r.1
  if LHS.isAlloca && m_Expression != .Assignment then
    let l := r.2.CreateLoad LHS.getAllocatedType LHS
    (castSwitch m_ExpectedType l.2 l.1 RHSRawValue).bind fun c =>
    .ok (_CreateExpression m_Expression c.2.2 LHS RHS c.1 c.2.1)
  else if LHS.isAlloca && m_Expression == .Assignment then
    .ok (_CreateExpression m_Expression r.2 LHS RHS LHS RHSRawValue)
  else
    (castSwitch m_ExpectedType r.2 LHS RHSRawValue).bind fun c =>
    .ok (_CreateExpression m_Expression c.2.2 LHS RHS c.1 c.2.1)

/-- The function `ASTBinaryExpression::Codegen`. -/
def Codegen (cg : Lower) (m_Expression : BinaryExpressionType)
    (m_ExpectedType : AbstractType) (children : List ASTNode) (s : Lowering) :
    Out Lowered :=
  match children with
  | [c0, c1] =>
    (cg c1 s).bind fun l =>
    (cg c0 l.state).bind fun r =>
    match l.value, r.value with
    | some LHS, some RHS =>
      (operands m_Expression m_ExpectedType r.state.backend LHS RHS).bind fun o =>
      .ok { value := o.1,
            node := .mk (.BinaryExpression m_Expression m_ExpectedType) [r.node, l.node],
            state := r.state.withBackend o.2 }
    | _, _ => .halt
  | _ => .ok { value := none,
               node := .mk (.BinaryExpression m_Expression m_ExpectedType) children,
               state := s }

end ASTBinaryExpression

/-! ## ASTVariableExpression and ASTVariableDecleration -/

/-- The function `ASTVariableExpression::Codegen`. -/
def ASTVariableExpression.Codegen (m_Name : String) (children : List ASTNode)
    (s : Lowering) : Out Lowered :=
  if !mapContains s.s_VariableMap m_Name then
    .ok { value := none, node := .mk (.VariableExpression m_Name) children, state := s }
  else
    match mapAt s.s_VariableMap m_Name with
    | some value =>
      .ok { value := some value, node := .mk (.VariableExpression m_Name) children, state := s }
    | none => .halt

/-- The function `ASTVariableDecleration::Codegen`. -/
def ASTVariableDecleration.Codegen (m_Name : String) (m_Type : AbstractType)
    (children : List ASTNode) (s : Lowering) : Out Lowered :=
  if mapContains s.s_VariableMap m_Name then
    .ok { value := none, node := .mk (.VariableDecleration m_Name m_Type) children, state := s }
  else if m_Type.Get = .UserDefinedType then
    match mapAt s.s_StructTypes m_Type.GetUserDefinedType with
    | some info =>
      match info.Struct with
      | some id =>
        let a := s.backend.CreateAlloca (.struct id) m_Name
        .ok { value := some a.1, node := .mk (.VariableDecleration m_Name m_Type) children,
              state := { s with s_VariableMap := mapSet s.s_VariableMap m_Name a.1,
                                backend := a.2 } }
      | none => .undefined
    | none => .undefined
  else
    let a := s.backend.CreateAlloca (GetLLVMVariableType m_Type.Get) m_Name
    .ok { value := some a.1, node := .mk (.VariableDecleration m_Name m_Type) children,
          state := { s with s_VariableMap := mapSet s.s_VariableMap m_Name a.1,
                            backend := a.2 } }

/-! ## ASTFunctionDecleration -/

namespace ASTFunctionDecleration

/-- The constructor `ASTFunctionDecleration::ASTFunctionDecleration`: the node
and the registration of the parameters. -/
def new (name : String) (returnType : VariableType) (Paramaters : List Paramater)
    (s : Lowering) : ASTNode × Lowering :=
  let m := mapSet s.s_FunctionToExpectedTypes name Paramaters
  let m := if !mapContains m "_sleep" then
      mapSet m "_sleep" [{ Name := "time", Type_ := { Get := .Int32, GetKind := .RValue,
                                                       GetUserDefinedType := "" } }]
    else m
  (.mk (.FunctionDecleration name returnType Paramaters) [],
    { s with s_FunctionToExpectedTypes := m })

/-- The loop of `Codegen` over the parameters: a slot, the store of the incoming
argument, and the entry of the variable map. -/
def Codegen.paramaters (m_Name : String) : List Paramater → Nat → Lowering → Lowering
  | [], _, s => s
  | Paramater :: rest, k, s =>
    let type := GetLLVMVariableType Paramater.Type_.Get
    let argAlloc := s.backend.CreateAlloca type Paramater.Name
    let st := argAlloc.2.CreateStore (.argument m_Name k type) argAlloc.1
    Codegen.paramaters m_Name rest (k + 1)
      { s with s_VariableMap := mapSet s.s_VariableMap (m_Name ++ "::" ++ Paramater.Name)
                 argAlloc.1,
               backend := st.2 }

/-- The loop of `Codegen` over the children: it stops after a return
statement. -/
def Codegen.children (cg : Lower) : List ASTNode → Lowering →
    Out (List ASTNode × Lowering)
  | [], s => .ok ([], s)
  | child :: rest, s =>
    (cg child s).bind fun r =>
    if child.GetType = .ReturnStatement then .ok (r.node :: rest, r.state)
    else
      (Codegen.children cg rest r.state).bind fun p =>
      .ok (r.node :: p.1, p.2)

/-- The loop of `Codegen` that erases the entries of the parameters. -/
def Codegen.erase (m_Name : String) : List Paramater → List (String × Value) →
    List (String × Value)
  | [], m => m
  | Paramater :: rest, m =>
    Codegen.erase m_Name rest (mapErase m (m_Name ++ "::" ++ Paramater.Name))

/-- The start of `Codegen`: the function is created with the names of its
arguments, and the builder is set at the end of its new block `entry`. -/
def Codegen.enter (m_Name : String) (m_ReturnType : VariableType)
    (m_Paramaters : List Paramater) (s : Lowering) : Lowering :=
  let returnType := GetLLVMVariableType m_ReturnType
  let ParamaterTypes := m_Paramaters.map fun Paramater =>
    GetLLVMVariableType Paramater.Type_.Get
  let b := s.backend.CreateFunction
    { name := m_Name, returnType := returnType, paramTypes := ParamaterTypes,
      paramNames := m_Paramaters.map fun Paramater => Paramater.Name }
  let entry := b.CreateBasicBlock "entry" m_Name
  s.withBackend { entry.2 with insertPoint := some entry.1 }

/-- The return that `Codegen` adds to a function of no value whose block has no
terminator; a builder without a block is undefined. -/
def Codegen.terminate (returnType : IRType) (s : Lowering) : Out Lowering :=
  if returnType.isVoidTy then
    match s.backend.insertPoint with
    | some block =>
      if !s.backend.hasTerminator block then .ok (s.withBackend s.backend.CreateRetVoid.2)
      else .ok s
    | none => .undefined
  else .ok s

/-- The end of `Codegen`: the insertion point on top of the stack is restored
and popped; the top of an empty stack is undefined. -/
def Codegen.leave (s : Lowering) : Out Lowering :=
  match s.s_InsertPoints with
  | ip :: rest =>
    .ok { s with s_InsertPoints := rest, backend := { s.backend with insertPoint := ip } }
  | [] => .undefined

/-- The function `ASTFunctionDecleration::Codegen`. -/
def Codegen (cg : Lower) (m_Name : String) (m_ReturnType : VariableType)
    (m_Paramaters : List Paramater) (children : List ASTNode) (s : Lowering) :
    Out Lowered :=
  let s := { s with s_InsertPoints := s.backend.insertPoint :: s.s_InsertPoints }
  match s.backend.getFunction m_Name with
  | some _ => .halt
  | none =>
    let s := Codegen.paramaters m_Name m_Paramaters 0
      (Codegen.enter m_Name m_ReturnType m_Paramaters s)
    (Codegen.children cg children s).bind fun p =>
    let s := { p.2 with s_VariableMap := Codegen.erase m_Name m_Paramaters p.2.s_VariableMap }
    (Codegen.terminate (GetLLVMVariableType m_ReturnType) s).bind fun s =>
    (Codegen.leave s).bind fun s =>
    .ok { value := some (.function m_Name),
          node := .mk (.FunctionDecleration m_Name m_ReturnType m_Paramaters) p.1,
          state := s }

end ASTFunctionDecleration

/-! ## ASTReturnStatement and ASTExpression -/

/-- The function `ASTReturnStatement::Codegen`. -/
def ASTReturnStatement.Codegen (cg : Lower) (children : List ASTNode) (s : Lowering) :
    Out Lowered :=
  match children with
  | child :: rest =>
    (cg child s).bind fun r =>
    let i := r.state.backend.CreateRet r.value
    .ok { value := some i.1, node := .mk .ReturnStatement (r.node :: rest),
          state := r.state.withBackend i.2 }
  | [] =>
    let i := s.backend.CreateRetVoid
    .ok { value := some i.1, node := .mk .ReturnStatement [], state := s.withBackend i.2 }

namespace ASTExpression

/-- The loop of `Codegen` over the children: the children as the loop leaves
them, in order, and the stack, its top first. -/
def Codegen.loop : List ASTNode → List ASTNode → Out (List ASTNode × List ASTNode)
  | [], stack => .ok ([], stack)
  | child :: rest, stack =>
    if child.GetType = .Literal ∨ child.GetType = .VariableExpression then
      (Codegen.loop rest (child :: stack)).bind fun p => .ok (child :: p.1, p.2)
    else
      match child.kind with
      | .BinaryExpression _ _ =>
        match stack with
        | first :: second :: stack =>
          let binExp := (child.PushChild first).PushChild second
          (Codegen.loop rest (binExp :: stack)).bind fun p => .ok (binExp :: p.1, p.2)
        | _ => .undefined
      | _ => .undefined

/-- The function `ASTExpression::Codegen`.  The top of the stack is the last
child, so the node the call leaves takes the place of the last child. -/
def Codegen (cg : Lower) (children : List ASTNode) (s : Lowering) : Out Lowered :=
  (Codegen.loop children []).bind fun p =>
  match p.2 with
  | top :: _ =>
    (cg top s).bind fun r =>
    .ok { value := r.value, node := .mk .Expression (p.1.dropLast ++ [r.node]),
          state := r.state }
  | [] => .undefined

end ASTExpression

/-! ## ASTStruct and ASTFunctionCall -/

namespace ASTStruct

/-- The loop of `Codegen` over the members: the types, the ordinals and the
counter. -/
def Codegen.members (s_StructTypes : List (String × ObjectReferenceInfo)) :
    List Member → List (Option IRType) → List (String × Nat) → Nat →
    Out (List (Option IRType) × List (String × Nat))
  | [], types, Indices, _ => .ok (types, Indices)
  | member :: rest, types, Indices, k =>
    if member.Field.Get = .UserDefinedType then
      if mapContains s_StructTypes member.Field.GetUserDefinedType then
        match mapAt s_StructTypes member.Field.GetUserDefinedType with
        | some info =>
          Codegen.members s_StructTypes rest
            (types ++ [info.Struct.map IRType.struct])
            (mapSet Indices member.Name k) (k + 1)
        | none => .halt
      else .halt
    else
      Codegen.members s_StructTypes rest
        (types ++ [some (GetLLVMVariableType member.Field.Get)])
        (mapSet Indices member.Name k) (k + 1)

/-- The function `ASTStruct::Codegen`; a null element type given to
`StructType::create` is undefined. -/
def Codegen (m_Name : String) (m_Members : List Member) (children : List ASTNode)
    (s : Lowering) : Out Lowered :=
  (Codegen.members s.s_StructTypes m_Members [] [] 0).bind fun p =>
  if p.1.all Option.isSome then
    let t := s.backend.CreateStructType (p.1.filterMap id)
    .ok { value := none, node := .mk (.Struct m_Name m_Members) children,
          state := { s with s_StructTypes := mapSet s.s_StructTypes m_Name
                                { Struct := some t.1, Indices := p.2 },
                            backend := t.2 } }
  else .undefined

end ASTStruct

namespace ASTFunctionCall

/-- The cast of an argument whose type is not the expected one; the read
`expected[k]` past the end of the vector is undefined. -/
def Codegen.cast (expected : List Paramater) (k : Nat) (variableType : AbstractType)
    (b : Backend) (value : Value) : Out (Value × Backend) :=
  match expected.get? k with
  | some e =>
    if variableType.Get ≠ e.Type_.Get then AbstractType.CastValue b value e.Type_
    else .ok (value, b)
  | none => .undefined

/-- The loop of `Codegen` over the arguments. -/
def Codegen.arguments (s_VariableMap : List (String × Value)) (expected : List Paramater) :
    List Argument → Nat → List Value → Backend → Out (List Value × Backend)
  | [], _, args, b => .ok (args, b)
  | argument :: rest, k, args, b =>
    if argument.Field.GetKind = .RValue then
      (Codegen.cast expected k argument.Field b
        (GetLLVMConstant argument.Field argument.Data)).bind fun v =>
      Codegen.arguments s_VariableMap expected rest (k + 1) (args ++ [v.1]) v.2
    else
      match mapAt s_VariableMap argument.Data with
      | some variable_ =>
        let value := b.CreateLoad variable_.getAllocatedType variable_
        (Codegen.cast expected k argument.Field value.2 value.1).bind fun v =>
        Codegen.arguments s_VariableMap expected rest (k + 1) (args ++ [v.1]) v.2
      | none => .halt

/-- The declaration the three sleep routines get: an `i32` from an `i32`. -/
def sleepFunction (name : String) : IRFunction :=
  { name := name, returnType := .i32, paramTypes := [.i32], paramNames := [] }

/-- The function `ASTFunctionCall::Codegen`. -/
def Codegen (m_Name : String) (m_Arguments : List Argument) (children : List ASTNode)
    (s : Lowering) : Out Lowered :=
  match mapAt s.s_FunctionToExpectedTypes m_Name with
  | none => .halt
  | some expected =>
    (Codegen.arguments s.s_VariableMap expected m_Arguments 0 [] s.backend).bind fun a =>
    let b :=
      if m_Name = "_sleep" then a.2.getOrInsertFunction (sleepFunction "_sleep")
      else if m_Name = "sleep" then a.2.getOrInsertFunction (sleepFunction "sleep")
      else if m_Name = "nanosleep" then a.2.getOrInsertFunction (sleepFunction "nanosleep")
      else a.2
    match b.getFunction m_Name with
    | some callee =>
      let c := b.CreateCall callee a.1
      .ok { value := some c.1, node := .mk (.FunctionCall m_Name m_Arguments) children,
            state := s.withBackend c.2 }
    | none => .halt

end ASTFunctionCall

/-! ## The virtual call -/

/-- The virtual call `Codegen` of a node; the fuel bounds the depth of the
calls. -/
def Codegen : Nat → ASTNode → Lowering → Out Lowered
  | 0, _, _ => .outOfFuel
  | fuel + 1, .mk kind children, s =>
    match kind with
    | .Base => ASTNodeBase.Codegen (Codegen fuel) .Base children s
    | .Literal m_Data m_Type => ASTNodeLiteral.Codegen m_Data m_Type children s
    | .BinaryExpression m_Expression m_ExpectedType =>
      ASTBinaryExpression.Codegen (Codegen fuel) m_Expression m_ExpectedType children s
    | .VariableExpression m_Name => ASTVariableExpression.Codegen m_Name children s
    | .VariableDecleration m_Name m_Type =>
      ASTVariableDecleration.Codegen m_Name m_Type children s
    | .FunctionDecleration m_Name m_ReturnType m_Paramaters =>
      ASTFunctionDecleration.Codegen (Codegen fuel) m_Name m_ReturnType m_Paramaters children s
    | .ReturnStatement => ASTReturnStatement.Codegen (Codegen fuel) children s
    | .Expression => ASTExpression.Codegen (Codegen fuel) children s
    | .Struct m_Name m_Members => ASTStruct.Codegen m_Name m_Members children s
    | .FunctionCall m_Name m_Arguments =>
      ASTFunctionCall.Codegen m_Name m_Arguments children s

/-- The state at the start of lowering: empty maps, an empty module and no
insertion point. -/
def Lowering.start : Lowering :=
  { s_VariableMap := [], s_StructTypes := [], s_InsertPoints := [],
    s_FunctionToExpectedTypes := [],
    backend := { functions := [], blocks := [], structs := [], emitted := [],
                 insertPoint := none, nextId := 0 } }

/-! ## Vocabulary of the lowering properties -/

/-- The children of a function up to and including the first return
statement. -/
def throughReturn : List ASTNode → List ASTNode
  | [] => []
  | child :: rest =>
    if child.GetType = .ReturnStatement then [child] else child :: throughReturn rest

/-- The children of a function after the first return statement. -/
def afterReturn : List ASTNode → List ASTNode
  | [] => []
  | child :: rest =>
    if child.GetType = .ReturnStatement then rest else afterReturn rest

/-- The expected types for which `Codegen` of a binary expression casts: the
integers, the floats and the boolean. -/
def castingType (t : VariableType) : Bool :=
  match t with
  | .Int8 | .Int16 | .Int32 | .Int64 | .Uint8 | .Uint16 | .Uint32 | .Uint64
  | .Float32 | .Float64 | .Bool => true
  | _ => false

/-- The raw value of a handle: the load of a slot, the handle itself
otherwise. -/
def loadIfSlot (b : Backend) (v : Value) : Value × Backend :=
  if v.isAlloca then b.CreateLoad v.getAllocatedType v else (v, b)

/-- Modelled from the spec: a raw value whose type differs from the expected
type is cast to it, another one is left as it is (section 4.4). -/
def castIfDiffers (expected : AbstractType) (b : Backend) (raw : Value) : Value × Backend :=
  if raw.getType = expected.GetLLVMType then (raw, b)
  else (.instruction b.nextId expected.GetLLVMType,
    b.Insert (.cast (.instruction b.nextId expected.GetLLVMType) raw expected))

/-- The raw value of the right operand, which `Codegen` takes first. -/
def rawRight (b : Backend) (RHS : Value) : Value × Backend := loadIfSlot b RHS

/-- The raw value of the left operand of an operator that is no assignment. -/
def rawLeft (b : Backend) (LHS RHS : Value) : Value × Backend :=
  loadIfSlot (rawRight b RHS).2 LHS

/-- The left raw value after the cast it may need. -/
def castLeft (expected : AbstractType) (b : Backend) (LHS RHS : Value) : Value × Backend :=
  castIfDiffers expected (rawLeft b LHS RHS).2 (rawLeft b LHS RHS).1

/-- The right raw value after the cast it may need. -/
def castRight (expected : AbstractType) (b : Backend) (LHS RHS : Value) : Value × Backend :=
  castIfDiffers expected (castLeft expected b LHS RHS).2 (rawRight b RHS).1

/-- Modelled from the spec: a binary expression tree over literals and variable
expressions, the tree an `Expression` node holds in reverse-polish form
(section 4.4). -/
inductive ExprTree where
  | literal (m_Data : String) (m_Type : AbstractType)
  | name (m_Name : String)
  | binary (m_Expression : BinaryExpressionType) (m_ExpectedType : AbstractType)
      (left right : ExprTree)
  deriving DecidableEq, Repr

namespace ExprTree

/-- The height of the tree. -/
def depth : ExprTree → Nat
  | literal _ _ => 0
  | name _ => 0
  | binary _ _ l r => max l.depth r.depth + 1

/-- The post-order sequence of the tree: the children of the `Expression` node,
the operator nodes still without children. -/
def postorder : ExprTree → List ASTNode
  | literal d t => [.mk (.Literal d t) []]
  | name n => [.mk (.VariableExpression n) []]
  | binary e t l r => l.postorder ++ r.postorder ++ [.mk (.BinaryExpression e t) []]

/-- The node of the tree with the operands attached as the claim says: the
right operand is child 0, the left operand is child 1. -/
def assembled : ExprTree → ASTNode
  | literal d t => .mk (.Literal d t) []
  | name n => .mk (.VariableExpression n) []
  | binary e t l r => .mk (.BinaryExpression e t) [r.assembled, l.assembled]

/-- The post-order sequence with every operator node assembled. -/
def linked : ExprTree → List ASTNode
  | literal d t => [.mk (.Literal d t) []]
  | name n => [.mk (.VariableExpression n) []]
  | binary e t l r => l.linked ++ r.linked ++ [(binary e t l r).assembled]

/-- Modelled from the spec: the lowering of the tree itself, each operator on
the handles of its own left and right operand, the left one lowered first
(section 4.4, BinaryExpression). -/
def lower : ExprTree → Lowering → Out (Option Value × Lowering)
  | literal d t, s => .ok (some (GetLLVMConstant t d), s)
  | name n, s => (ASTVariableExpression.Codegen n [] s).bind fun r => .ok (r.value, r.state)
  | binary e t l r, s =>
    (l.lower s).bind fun a =>
    (r.lower a.2).bind fun b =>
    match a.1, b.1 with
    | some LHS, some RHS =>
      (ASTBinaryExpression.operands e t b.2.backend LHS RHS).bind fun o =>
      .ok (o.1, b.2.withBackend o.2)
    | _, _ => .halt

end ExprTree

/-- The module has the same functions and the builder the same insertion
point. -/
def Steady (b c : Backend) : Prop :=
  c.functions = b.functions ∧ c.insertPoint = b.insertPoint

/-- What a lowering call keeps of the state it starts from: the functions of
the module stay and others may follow them, the stack of saved insertion points
and the insertion point are the same, and an entry of the variable map stays
unless its key is the key of a parameter of one of the new functions. -/
def Frame (s r : Lowering) : Prop :=
  ∃ fs : List IRFunction,
    r.backend.functions = s.backend.functions ++ fs ∧
    r.s_InsertPoints = s.s_InsertPoints ∧
    r.backend.insertPoint = s.backend.insertPoint ∧
    ∀ k v, mapAt s.s_VariableMap k = some v →
      (∀ g ∈ fs, ∀ q ∈ g.paramNames, k ≠ g.name ++ "::" ++ q) →
      mapAt r.s_VariableMap k = some v

/-- Every child call keeps the frame. -/
def Framing (cg : Lower) : Prop :=
  ∀ n s r, cg n s = .ok r → Frame s r.state

namespace ExprTree

/-- The node of the tree after the loop of `ASTExpression::Codegen` has run a
second time: every operator node has kept the two children of the first run and
has got two more. -/
def relinked : ExprTree → ASTNode
  | literal d t => .mk (.Literal d t) []
  | name n => .mk (.VariableExpression n) []
  | binary e t l r =>
    .mk (.BinaryExpression e t) [r.assembled, l.assembled, r.relinked, l.relinked]

/-- The children of the `Expression` node after the second run of the loop. -/
def relinkedList : ExprTree → List ASTNode
  | literal d t => [.mk (.Literal d t) []]
  | name n => [.mk (.VariableExpression n) []]
  | binary e t l r => l.relinkedList ++ r.relinkedList ++ [(binary e t l r).relinked]

end ExprTree

/-- The IR type of a member of a record: the recorded layout of a user-defined
type, the primitive IR type otherwise; `none` when the user-defined type is not
recorded or has no layout. -/
def memberType (records : List (String × ObjectReferenceInfo)) (m : Member) : Option IRType :=
  if m.Field.Get = .UserDefinedType then
    (mapAt records m.Field.GetUserDefinedType).bind fun info => info.Struct.map IRType.struct
  else some (GetLLVMVariableType m.Field.Get)

/-- The ordinals the loop of `ASTStruct::Codegen` gives to the members, from the
ordinal `k` on. -/
def indexMembers : List (String × Nat) → List Member → Nat → List (String × Nat)
  | Indices, [], _ => Indices
  | Indices, m :: rest, k => indexMembers (mapSet Indices m.Name k) rest (k + 1)

/-! ## Vocabulary of the declaration of a function -/

/-- The class is `ASTFunctionDecleration`. -/
def ASTKind.isFunctionDecleration : ASTKind → Bool
  | .FunctionDecleration _ _ _ => true
  | _ => false

mutual
/-- A function is declared by the node or by a node below it. -/
def ASTNode.declaresFunction : ASTNode → Bool
  | .mk kind children => kind.isFunctionDecleration || ASTNode.declaresFunctionIn children
/-- A function is declared by a node of the list or by a node below one. -/
def ASTNode.declaresFunctionIn : List ASTNode → Bool
  | [] => false
  | child :: rest => child.declaresFunction || ASTNode.declaresFunctionIn rest
end

/-- Every entry of the variable map of `s` is in the variable map of `r` with
the same slot. -/
def Retains (s r : Lowering) : Prop :=
  ∀ k v, mapAt s.s_VariableMap k = some v → mapAt r.s_VariableMap k = some v

/-- Every call on a node that declares no function retains the entries. -/
def Retaining (cg : Lower) : Prop :=
  ∀ n s r, n.declaresFunction = false → cg n s = .ok r → Retains s r.state

/-! # Properties -/

set_option linter.unnecessarySeqFocus false
set_option linter.unusedTactic false
set_option linter.unreachableTactic false

section basics

variable {α β : Type}

@[simp] theorem Res.bind_ok (a : α) (f : α → Res β) : (Res.ok a).bind f = f a := rfl

@[simp] theorem Res.bind_halt (f : α → Res β) : (Res.halt : Res α).bind f = .halt := rfl

@[simp] theorem Res.bind_outOfFuel (f : α → Res β) :
    (Res.outOfFuel : Res α).bind f = .outOfFuel := rfl

@[simp] theorem Res.Sat_ok (P : α → Prop) (a : α) : (Res.ok a).Sat P ↔ P a := Iff.rfl

@[simp] theorem Res.Sat_halt (P : α → Prop) : (Res.halt : Res α).Sat P := trivial

@[simp] theorem Res.Sat_outOfFuel (P : α → Prop) : (Res.outOfFuel : Res α).Sat P := trivial

theorem Res.Sat_bind (P : β → Prop) (x : Res α) (f : α → Res β) :
    (x.bind f).Sat P ↔ x.Sat (fun a => (f a).Sat P) := by
  cases x <;> simp [Res.Sat]

theorem Res.Sat.mono {P Q : α → Prop} {x : Res α} (h : x.Sat P) (hPQ : ∀ a, P a → Q a) :
    x.Sat Q := by
  cases x <;> simp_all [Res.Sat]

theorem Res.Sat_iff (P : α → Prop) (x : Res α) : x.Sat P ↔ ∀ a, x = .ok a → P a := by
  cases x <;> simp [Res.Sat]

theorem Res.Sat.bind {P : α → Prop} {Q : β → Prop} {x : Res α} {f : α → Res β}
    (h : x.Sat P) (hf : ∀ a, P a → (f a).Sat Q) : (x.bind f).Sat Q :=
  (Res.Sat_bind Q x f).2 (h.mono hf)

end basics

open Parser

/-! ## Streams -/

@[simp] theorem countTok_nil (k : TokenType) : countTok k [] = 0 := rfl

@[simp] theorem countTok_append (k : TokenType) (a b : List Token) :
    countTok k (a ++ b) = countTok k a + countTok k b := by
  simp [countTok, List.countP_append]

@[simp] theorem countTok_singleton (k : TokenType) (t : Token) :
    countTok k [t] = if t.TokenType = k then 1 else 0 := by
  simp [countTok, List.countP_cons]

theorem countTok_replicate (k : TokenType) (n : Nat) (t : Token) :
    countTok k (List.replicate n t) = if t.TokenType = k then n else 0 := by
  induction n with
  | zero => simp
  | succ n ih =>
    rw [List.replicate_succ', countTok_append, ih, countTok_singleton]
    split <;> simp

theorem PrefixOK_nil : PrefixOK [] := by
  intro pre h
  have : pre = [] := List.prefix_nil.mp h
  simp [this]

theorem PrefixOK.le {ts : List Token} (h : PrefixOK ts) :
    countTok .CloseBracket ts ≤ countTok .OpenBracket ts := h ts (List.prefix_refl ts)

theorem PrefixOK_concat (ts : List Token) (t : Token) :
    PrefixOK (ts ++ [t]) ↔
      PrefixOK ts ∧ countTok .CloseBracket (ts ++ [t]) ≤ countTok .OpenBracket (ts ++ [t]) := by
  constructor
  · intro h
    exact ⟨fun pre hp => h pre (hp.trans (List.prefix_append ts [t])), h _ (List.prefix_refl _)⟩
  · rintro ⟨h1, h2⟩ pre hp
    rcases List.prefix_concat_iff.mp hp with rfl | hp
    · exact h2
    · exact h1 pre hp

theorem PrefixOK_append {a b : List Token} (ha : PrefixOK a) (hb : PrefixOK b) :
    PrefixOK (a ++ b) := by
  intro pre hp
  rcases List.prefix_or_prefix_of_prefix hp (List.prefix_append a b) with h | h
  · exact ha pre h
  · obtain ⟨c, rfl⟩ := h
    have hc : c <+: b := (List.prefix_append_right_inj a).mp hp
    have := hb c hc
    have := ha.le
    simp only [countTok_append]
    omega

theorem PrefixOK.dropLast {ts : List Token} (h : PrefixOK ts) : PrefixOK ts.dropLast :=
  fun pre hp => h pre (hp.trans (List.dropLast_prefix ts))

theorem countTok_dropLast (k : TokenType) (ts : List Token) (t : Token)
    (h : ts.getLast? = some t) (hk : t.TokenType ≠ k) :
    countTok k ts.dropLast = countTok k ts := by
  rcases List.eq_nil_or_concat ts with rfl | ⟨l, a, rfl⟩
  · simp
  · simp at h
    subst h
    simp [hk]

theorem Good_nil : Good [] := ⟨PrefixOK_nil, by simp⟩

theorem Good_append {a b : List Token} (ha : Good a) (hb : Good b) : Good (a ++ b) :=
  ⟨PrefixOK_append ha.1 hb.1, by have := ha.2; have := hb.2; simp only [countTok_append]; omega⟩

/-! ## The primitives and the invariant -/

@[simp] theorem getNext_Tokens (s : Parser) : s._GetNextChar.2.Tokens = s.Tokens := by
  unfold _GetNextChar; split <;> rfl

@[simp] theorem getNext_Indents (s : Parser) : s._GetNextChar.2.Indents = s.Indents := by
  unfold _GetNextChar; split <;> rfl

@[simp] theorem getNext_BracketStack (s : Parser) :
    s._GetNextChar.2.BracketStack = s.BracketStack := by
  unfold _GetNextChar; split <;> rfl

@[simp] theorem getNext_CurrentState (s : Parser) :
    s._GetNextChar.2.CurrentState = s.CurrentState := by
  unfold _GetNextChar; split <;> rfl

@[simp] theorem getNext_Buffer (s : Parser) : s._GetNextChar.2.Buffer = s.Buffer := by
  unfold _GetNextChar; split <;> rfl

@[simp] theorem getNext_CurrentString (s : Parser) :
    s._GetNextChar.2.CurrentString = s.CurrentString := by
  unfold _GetNextChar; split <;> rfl

theorem Keeps.refl (s : Parser) : Keeps s s := fun _ h => h

theorem Keeps.trans {a b c : Parser} (h1 : Keeps a b) (h2 : Keeps b c) : Keeps a c :=
  fun p h => h2 p (h1 p h)

theorem Keeps.of_eq {s r : Parser} (h1 : r.Tokens = s.Tokens) (h2 : r.Indents = s.Indents)
    (h3 : r.BracketStack = s.BracketStack) : Keeps s r := by
  intro p h
  simpa [Inv, h1, h2, h3] using h

theorem Keeps.push {s r : Parser} {k : TokenType} {d : List Char} (hk : structural k = false)
    (h1 : r.Tokens = s.Tokens ++ [{ TokenType := k, Data := d }]) (h2 : r.Indents = s.Indents)
    (h3 : r.BracketStack = s.BracketStack) : Keeps s r := by
  intro p h
  have h4 : k ≠ .OpenBracket := by rintro rfl; simp [structural] at hk
  have h5 : k ≠ .CloseBracket := by rintro rfl; simp [structural] at hk
  have h6 : k ≠ .StartIndentation := by rintro rfl; simp [structural] at hk
  have h7 : k ≠ .EndIndentation := by rintro rfl; simp [structural] at hk
  obtain ⟨ha, hb, hc⟩ := h
  refine ⟨?_, ?_, ?_⟩
  · rw [h1, PrefixOK_concat]
    refine ⟨ha, ?_⟩
    simp [h4, h5]
    omega
  · rw [h1, h3]; simp [h4, h5]; omega
  · rw [h1, h2]; simp [h6, h7]; omega

theorem Keeps.append {s r : Parser} {ts : List Token} (hg : Good ts)
    (h1 : r.Tokens = s.Tokens ++ ts) (h2 : r.Indents = s.Indents)
    (h3 : r.BracketStack = s.BracketStack) : Keeps s r := by
  intro p h
  obtain ⟨ha, hb, hc⟩ := h
  have := hg.1.le
  have := hg.2
  refine ⟨?_, ?_, ?_⟩
  · rw [h1]; exact PrefixOK_append ha hg.1
  · rw [h1, h3]; simp; omega
  · rw [h1, h2]; simp; omega

theorem Neutral.neutral_refl (s : Parser) : Neutral s s := ⟨Keeps.refl s, rfl⟩

theorem Neutral.neutral_trans {a b c : Parser} (h1 : Neutral a b) (h2 : Neutral b c) : Neutral a c :=
  ⟨h1.1.trans h2.1, h2.2.trans h1.2⟩

theorem Neutral.neutral_of_eq {s r : Parser} (h1 : r.Tokens = s.Tokens) (h2 : r.Indents = s.Indents)
    (h3 : r.BracketStack = s.BracketStack) (h4 : r.CurrentState = s.CurrentState) :
    Neutral s r := ⟨Keeps.of_eq h1 h2 h3, h4⟩

theorem Neutral.neutral_push {s r : Parser} {k : TokenType} {d : List Char} (hk : structural k = false)
    (h1 : r.Tokens = s.Tokens ++ [{ TokenType := k, Data := d }]) (h2 : r.Indents = s.Indents)
    (h3 : r.BracketStack = s.BracketStack) (h4 : r.CurrentState = s.CurrentState) :
    Neutral s r := ⟨Keeps.push hk h1 h2 h3, h4⟩

/-! ## Helpers keep the invariant -/

theorem skipLoop_neutral (E : Env) (n : Nat) (c : Char) (s : Parser) :
    (_SkipSpaces.loop E n c s).Sat (fun r => Neutral s r.2) := by
  induction n generalizing c s with
  | zero => simp [_SkipSpaces.loop]
  | succ n ih =>
    unfold _SkipSpaces.loop
    split
    · exact (ih _ _).mono fun r hr => (Neutral.neutral_of_eq (by simp) (by simp) (by simp) (by simp)).neutral_trans hr
    · simp [Neutral.neutral_refl]

theorem skipSpaces_neutral (E : Env) (s : Parser) :
    (_SkipSpaces E s).Sat (fun r => Neutral s r.2) := by
  unfold _SkipSpaces
  exact (skipLoop_neutral E _ _ _).mono fun r hr =>
    (Neutral.neutral_of_eq (by simp [_Backtrack]) (by simp [_Backtrack]) (by simp [_Backtrack])
      (by simp [_Backtrack])).neutral_trans hr

@[simp] theorem ite_Tokens (c : Prop) [Decidable c] (a b : Parser) :
    (if c then a else b).Tokens = if c then a.Tokens else b.Tokens := by split <;> rfl

@[simp] theorem ite_Indents (c : Prop) [Decidable c] (a b : Parser) :
    (if c then a else b).Indents = if c then a.Indents else b.Indents := by split <;> rfl

@[simp] theorem ite_BracketStack (c : Prop) [Decidable c] (a b : Parser) :
    (if c then a else b).BracketStack = if c then a.BracketStack else b.BracketStack := by
  split <;> rfl

@[simp] theorem ite_CurrentState (c : Prop) [Decidable c] (a b : Parser) :
    (if c then a else b).CurrentState = if c then a.CurrentState else b.CurrentState := by
  split <;> rfl

@[simp] theorem backtrack_Tokens (s : Parser) : s._Backtrack.Tokens = s.Tokens := rfl

@[simp] theorem backtrack_Indents (s : Parser) : s._Backtrack.Indents = s.Indents := rfl

@[simp] theorem backtrack_BracketStack (s : Parser) :
    s._Backtrack.BracketStack = s.BracketStack := rfl

@[simp] theorem backtrack_CurrentState (s : Parser) :
    s._Backtrack.CurrentState = s.CurrentState := rfl

@[simp] theorem backtrack_Buffer (s : Parser) : s._Backtrack.Buffer = s.Buffer := rfl

@[simp] theorem backtrack_CurrentString (s : Parser) :
    s._Backtrack.CurrentString = s.CurrentString := rfl

@[simp] theorem push_Tokens (s : Parser) (k : TokenType) (d : List Char) :
    (s._PushToken k d).Tokens = s.Tokens ++ [{ TokenType := k, Data := d }] := rfl

@[simp] theorem push_Indents (s : Parser) (k : TokenType) (d : List Char) :
    (s._PushToken k d).Indents = s.Indents := rfl

@[simp] theorem push_BracketStack (s : Parser) (k : TokenType) (d : List Char) :
    (s._PushToken k d).BracketStack = s.BracketStack := rfl

@[simp] theorem push_CurrentState (s : Parser) (k : TokenType) (d : List Char) :
    (s._PushToken k d).CurrentState = s.CurrentState := rfl

@[simp] theorem push_Buffer (s : Parser) (k : TokenType) (d : List Char) :
    (s._PushToken k d).Buffer = s.Buffer := rfl

@[simp] theorem push_CurrentString (s : Parser) (k : TokenType) (d : List Char) :
    (s._PushToken k d).CurrentString = s.CurrentString := rfl

theorem neutral_leaf {s r : Parser} (hst : r.CurrentState = s.CurrentState)
    (h : ∀ p, PrefixOK s.Tokens →
      countTok .CloseBracket s.Tokens + s.BracketStack.length + p
        ≤ countTok .OpenBracket s.Tokens →
      countTok .StartIndentation s.Tokens ≤ countTok .EndIndentation s.Tokens + s.Indents →
      Inv p r) : Neutral s r := ⟨fun p hp => h p hp.1 hp.2.1 hp.2.2, hst⟩

theorem Res.Sat.after {x : Res Parser} {a b : Parser} (h : x.Sat (Neutral b))
    (hab : Neutral a b) : x.Sat (Neutral a) := h.mono fun _ hr => hab.neutral_trans hr

theorem Res.Sat.after2 {α : Type} {x : Res (α × Parser)} {a b : Parser}
    (h : x.Sat (fun r => Neutral b r.2)) (hab : Neutral a b) :
    x.Sat (fun r => Neutral a r.2) := h.mono fun _ hr => hab.neutral_trans hr

theorem hexLoop_neutral (E : Env) (n : Nat) (c : Char) (s : Parser) :
    (_ParseHexLiteral.loop E n c s).Sat (fun r => Neutral s r.2) := by
  induction n generalizing c s with
  | zero => simp [_ParseHexLiteral.loop]
  | succ n ih =>
    unfold _ParseHexLiteral.loop
    split
    · split
      · exact (ih _ _).after2 (Neutral.neutral_of_eq (by simp) (by simp) (by simp) (by simp))
      · simp
    · simp [Neutral.neutral_refl]

theorem binLoop_neutral (E : Env) (n : Nat) (c : Char) (s : Parser) :
    (_ParseBinaryLiteral.loop E n c s).Sat (fun r => Neutral s r.2) := by
  induction n generalizing c s with
  | zero => simp [_ParseBinaryLiteral.loop]
  | succ n ih =>
    unfold _ParseBinaryLiteral.loop
    split
    · split
      · exact (ih _ _).after2 (Neutral.neutral_of_eq (by simp) (by simp) (by simp) (by simp))
      · simp
    · simp [Neutral.neutral_refl]

theorem parseHex_neutral (E : Env) (s : Parser) :
    (_ParseHexLiteral E s).Sat (Neutral s) := by
  unfold _ParseHexLiteral
  refine (hexLoop_neutral E _ _ _).bind fun r hr => ?_
  simp only [Res.Sat_ok]
  refine (Neutral.neutral_of_eq (by simp) (by simp) (by simp) (by simp)).neutral_trans (hr.neutral_trans ?_)
  exact neutral_leaf (by simp) fun p h1 h2 h3 => by
    simp [-List.append_assoc, Inv, PrefixOK_concat, h1] <;> omega

theorem parseBin_neutral (E : Env) (s : Parser) :
    (_ParseBinaryLiteral E s).Sat (Neutral s) := by
  unfold _ParseBinaryLiteral
  refine (binLoop_neutral E _ _ _).bind fun r hr => ?_
  simp only [Res.Sat_ok]
  refine (Neutral.neutral_of_eq (by simp) (by simp) (by simp) (by simp)).neutral_trans (hr.neutral_trans ?_)
  exact neutral_leaf (by simp) fun p h1 h2 h3 => by
    simp [-List.append_assoc, Inv, PrefixOK_concat, h1] <;> omega

theorem numberLoop_neutral (n : Nat) (c : Char) (u : Bool) (s : Parser) :
    (_ParseNumber.loop n c u s).Sat (fun r => Neutral s r.2) := by
  induction n generalizing c u s with
  | zero => simp [_ParseNumber.loop]
  | succ n ih =>
    unfold _ParseNumber.loop
    split
    · simp only []
      split
      · simp
      · exact (ih _ _ _).after2 (Neutral.neutral_of_eq (by simp) (by simp) (by simp) (by simp))
    · simp [Neutral.neutral_refl]

theorem parseNumber_neutral (E : Env) (s : Parser) :
    (_ParseNumber E s).Sat (Neutral s) := by
  unfold _ParseNumber
  try simp only []
  split
  · simp only [Res.Sat_ok]
    exact neutral_leaf (by simp) fun p h1 h2 h3 => by
      simp [-List.append_assoc, Inv, PrefixOK_concat, h1] <;> omega
  · split
    · split
      · exact (parseBin_neutral E _).after (Neutral.neutral_of_eq (by simp) (by simp) (by simp) (by simp))
      · simp
    · split
      · split
        · exact (parseHex_neutral E _).after
            (Neutral.neutral_of_eq (by simp) (by simp) (by simp) (by simp))
        · simp
      · refine (numberLoop_neutral _ _ _ _).bind fun r hr => ?_
        split
        · simp only [Res.Sat_ok]
          refine (Neutral.neutral_of_eq (by simp) (by simp) (by simp) (by simp)).neutral_trans (hr.neutral_trans ?_)
          exact neutral_leaf (by simp) fun p h1 h2 h3 => by
            split_ifs <;> simp [-List.append_assoc, Inv, PrefixOK_concat, h1] <;> omega
        · simp

theorem charEscape_neutral (s : Parser) :
    (_ParseChar.escape s).Sat (fun r => Neutral s r.2.2) := by
  unfold _ParseChar.escape
  have n1 : Neutral s s._GetNextChar.2 := Neutral.neutral_of_eq (by simp) (by simp) (by simp) (by simp)
  try simp only []
  split_ifs <;> simp [n1]

theorem parseChar_neutral (s : Parser) : (_ParseChar s).Sat (Neutral s) := by
  unfold _ParseChar
  have n1 : Neutral s s._GetNextChar.2 := Neutral.neutral_of_eq (by simp) (by simp) (by simp) (by simp)
  have h0 : (if s._GetNextChar.1 = '\\' then _ParseChar.escape s._GetNextChar.2
      else Res.ok (s._GetNextChar.1, s._GetNextChar.1, s._GetNextChar.2)).Sat
        (fun r => Neutral s r.2.2) := by
    split
    · exact (charEscape_neutral _).mono fun r hr => n1.neutral_trans hr
    · simpa using n1
  refine h0.bind fun r hr => ?_
  try simp only []
  split
  · simp
  · split
    · simp only [Res.Sat_ok]
      refine hr.neutral_trans ?_
      exact neutral_leaf (by simp) fun p h1 h2 h3 => by
        simp [-List.append_assoc, Inv, PrefixOK_concat, h1] <;> omega
    · simp

theorem stringLoop_neutral (n : Nat) (c : Char) (s : Parser) :
    (_ParseString.loop n c s).Sat (Neutral s) := by
  induction n generalizing c s with
  | zero => simp [_ParseString.loop]
  | succ n ih =>
    unfold _ParseString.loop
    split
    · split
      · simp
      · split
        · exact (ih _ _).after (Neutral.neutral_of_eq (by simp) (by simp) (by simp) (by simp))
        · exact (ih _ _).after (Neutral.neutral_of_eq (by simp) (by simp) (by simp) (by simp))
    · simp [Neutral.neutral_refl]

theorem parseString_neutral (s : Parser) : (_ParseString s).Sat (Neutral s) := by
  unfold _ParseString
  refine (stringLoop_neutral _ _ _).bind fun r hr => ?_
  simp only [Res.Sat_ok]
  refine (Neutral.neutral_of_eq (by simp) (by simp) (by simp) (by simp)).neutral_trans (hr.neutral_trans ?_)
  exact neutral_leaf (by simp) fun p h1 h2 h3 => by
    simp [-List.append_assoc, Inv, PrefixOK_concat, h1] <;> omega

theorem otherLoop_neutral (E : Env) (n : Nat) (c : Char) (s : Parser) :
    (_ParseOther.loop E n c s).Sat (fun r => Neutral s r.2) := by
  induction n generalizing c s with
  | zero => simp [_ParseOther.loop]
  | succ n ih =>
    unfold _ParseOther.loop
    have n1 : Neutral s
        ({ s with CurrentString := s.CurrentString ++ [c] } : Parser)._GetNextChar.2 :=
      Neutral.neutral_of_eq (by simp) (by simp) (by simp) (by simp)
    split
    · simp only []
      split
      · simpa using n1
      · exact (ih _ _).after2 n1
    · simp [Neutral.neutral_refl]

theorem parseOther_keeps (E : Env) (hE : E.WF) (s : Parser) :
    (_ParseOther E s).Sat (fun r => Keeps s r ∧ pend r.CurrentState ≤ pend s.CurrentState) := by
  unfold _ParseOther
  refine (otherLoop_neutral E _ _ _).bind fun r hr => ?_
  have n1 : Neutral s r.2 :=
    (Neutral.neutral_of_eq (by simp) (by simp) (by simp) (by simp)).neutral_trans hr
  try simp only []
  split
  · simp only [Res.Sat_ok]
    have n2 : Neutral r.2 (if r.2.CurrentString ≠ [] then r.2._Backtrack else r.2) :=
      Neutral.neutral_of_eq (by simp) (by simp) (by simp) (by simp)
    exact ⟨(n1.neutral_trans n2).1, by rw [(n1.neutral_trans n2).2]⟩
  · simp only [Res.Sat_ok]
    refine ⟨n1.1.trans ?_, by simp [pend]⟩
    intro p hp
    obtain ⟨h1, h2, h3⟩ := hp
    split
    · rename_i value hv
      have hs := (hE _ value (Or.inr hv)).1
      have h4 : value.TokenToPush ≠ .OpenBracket := by intro h; simp [h, structural] at hs
      have h5 : value.TokenToPush ≠ .CloseBracket := by intro h; simp [h, structural] at hs
      have h6 : value.TokenToPush ≠ .StartIndentation := by intro h; simp [h, structural] at hs
      have h7 : value.TokenToPush ≠ .EndIndentation := by intro h; simp [h, structural] at hs
      simp [-List.append_assoc, Inv, PrefixOK_concat, h1, h4, h5, h6, h7] <;> omega
    · simp [-List.append_assoc, Inv, PrefixOK_concat, h1] <;> omega

theorem arrayBody_neutral (n : Nat) (c : Char) (s : Parser) :
    (_ParseArrayDecleration.body n c s).Sat (fun r => Neutral s r.2) := by
  induction n generalizing c s with
  | zero => simp [_ParseArrayDecleration.body]
  | succ n ih =>
    unfold _ParseArrayDecleration.body
    split
    · split
      · exact (ih _ _).after2 (Neutral.neutral_of_eq (by simp) (by simp) (by simp) (by simp))
      · split
        · simp only []
          split
          · exact (ih _ _).after2 (Neutral.neutral_of_eq (by simp) (by simp) (by simp) (by simp))
          · simp
        · simp
    · simp [Neutral.neutral_refl]

theorem parseArray_neutral (E : Env) (n : Nat) (s : Parser) :
    (_ParseArrayDecleration E n s).Sat (Neutral s) := by
  induction n generalizing s with
  | zero => simp [_ParseArrayDecleration]
  | succ n ih =>
    unfold _ParseArrayDecleration
    refine (arrayBody_neutral _ _ _).bind fun r hr => ?_
    have n1 : Neutral s r.2 :=
      (Neutral.neutral_of_eq (by simp) (by simp) (by simp) (by simp)).neutral_trans hr
    refine (skipLoop_neutral E _ _ _).bind fun r2 hr2 => ?_
    have n2 : Neutral s r2.2 := by
      refine n1.neutral_trans (Neutral.neutral_trans ?_ hr2)
      exact neutral_leaf (by simp) fun p h1 h2 h3 => by
        split_ifs <;> simp [-List.append_assoc, Inv, PrefixOK_concat, h1] <;> omega
    try simp only []
    split
    · simp
    · split
      · exact (ih _).after n2
      · simp only [Res.Sat_ok]
        exact n2.neutral_trans (Neutral.neutral_of_eq (by simp) (by simp) (by simp) (by simp))

theorem pointerLoop_neutral (n : Nat) (c : Char) (s : Parser) :
    (_ParsePointerDecleration.loop n c s).Sat (fun r => Neutral s r.2) := by
  induction n generalizing c s with
  | zero => simp [_ParsePointerDecleration.loop]
  | succ n ih =>
    unfold _ParsePointerDecleration.loop
    split
    · refine (ih _ _).after2 ?_
      exact neutral_leaf (by simp) fun p h1 h2 h3 => by
        simp [-List.append_assoc, Inv, PrefixOK_concat, h1] <;> omega
    · simp [Neutral.neutral_refl]

theorem parsePointer_neutral (E : Env) (s : Parser) :
    (_ParsePointerDecleration E s).Sat (Neutral s) := by
  unfold _ParsePointerDecleration
  refine (pointerLoop_neutral _ _ _).bind fun r hr => ?_
  have n1 : Neutral s r.2 :=
    (Neutral.neutral_of_eq (by simp) (by simp) (by simp) (by simp)).neutral_trans hr
  refine (skipSpaces_neutral E _).bind fun r2 hr2 => ?_
  try simp only []
  split
  · simp
  · simp only [Res.Sat_ok]
    exact n1.neutral_trans (hr2.neutral_trans (Neutral.neutral_of_eq (by simp) (by simp) (by simp) (by simp)))

theorem varListLoop_neutral (E : Env) (n : Nat) (l : VarListLocals) :
    (_VariableNameState.loop E n l).Sat (fun r => Neutral l.s r.s) := by
  induction n generalizing l with
  | zero => simp [_VariableNameState.loop]
  | succ n ih =>
    unfold _VariableNameState.loop
    try simp only []
    split_ifs <;> first
      | (simp [Neutral.neutral_refl]; done)
      | exact (ih _).mono fun r hr => Neutral.neutral_trans
          (neutral_leaf (by simp) fun p h1 h2 h3 => by
            simp [-List.append_assoc, Inv, PrefixOK_concat, h1] <;> omega) hr

/-! ## Handlers keep the invariant -/

theorem Inv.weaken {p q : Nat} {s : Parser} (h : Inv p s) (hq : q ≤ p) : Inv q s :=
  ⟨h.1, by have := h.2.1; omega, h.2.2⟩

theorem step_leaf {s r0 r : Parser} (hn : Neutral s r0)
    (hst : pend r.CurrentState ≤ pend r0.CurrentState)
    (h : ∀ p, PrefixOK r0.Tokens →
      countTok .CloseBracket r0.Tokens + r0.BracketStack.length + p
        ≤ countTok .OpenBracket r0.Tokens →
      countTok .StartIndentation r0.Tokens ≤ countTok .EndIndentation r0.Tokens + r0.Indents →
      Inv p r) : Step s r :=
  ⟨fun p hp => h p (hn.1 p hp).1 (hn.1 p hp).2.1 (hn.1 p hp).2.2, by rw [← hn.2]; exact hst⟩

theorem Neutral.step {s r : Parser} (h : Neutral s r) : Step s r := ⟨h.1, by rw [h.2]⟩

theorem Env.WF.tok {E : Env} (hE : E.WF) {key : List Char} {v : ParserMapValue}
    (h : E.OperatorMap key = some v ∨ E.KeyWordMap key = some v) :
    v.TokenToPush ≠ .OpenBracket ∧ v.TokenToPush ≠ .CloseBracket ∧
      v.TokenToPush ≠ .StartIndentation ∧ v.TokenToPush ≠ .EndIndentation := by
  have hs := (hE key v h).1
  refine ⟨?_, ?_, ?_, ?_⟩ <;> (intro h; simp [h, structural] at hs)

theorem arrow_step (s : Parser) : (_ArrowState s).Sat (Step s) := by
  unfold _ArrowState
  split <;>
    exact step_leaf (Neutral.neutral_refl s) (by simp [pend]) fun p h1 h2 h3 => by
      simp [-List.append_assoc, Inv, PrefixOK_concat, h1] <;> omega

theorem asterisks_step (s : Parser) : (_AsterisksState s).Sat (Step s) := by
  unfold _AsterisksState
  exact step_leaf (Neutral.neutral_refl s) (by simp [pend]) fun p h1 h2 h3 => by
    split_ifs <;> simp [-List.append_assoc, Inv, PrefixOK_concat, h1] <;> omega

theorem commentLoop_neutral (n : Nat) (c : Char) (s : Parser) :
    (_CommentState.loop n c s).Sat (fun r => Neutral s r.2) := by
  induction n generalizing c s with
  | zero => simp [_CommentState.loop]
  | succ n ih =>
    unfold _CommentState.loop
    split
    · exact (ih _ _).after2 (Neutral.neutral_of_eq (by simp) (by simp) (by simp) (by simp))
    · simp [Neutral.neutral_refl]

theorem comment_step (s : Parser) : (_CommentState s).Sat (Step s) := by
  unfold _CommentState
  refine (commentLoop_neutral _ _ _).bind fun r hr => ?_
  have n1 : Neutral s r.2 :=
    (Neutral.neutral_of_eq (by simp) (by simp) (by simp) (by simp)).neutral_trans hr
  exact step_leaf n1 (by split_ifs <;> simp [pend]) fun p h1 h2 h3 => by
    simp [-List.append_assoc, Inv, PrefixOK_concat, h1] <;> omega

theorem multiLoop_step (n : Nat) (c : Char) (s : Parser) :
    (_MultiLineCommentState.loop n c s).Sat (fun r => Step s r.2) := by
  induction n generalizing c s with
  | zero => simp [_MultiLineCommentState.loop]
  | succ n ih =>
    unfold _MultiLineCommentState.loop
    try simp only []
    split_ifs <;> first
      | (simp [(Neutral.neutral_refl s).step]; done)
      | exact (ih _ _).mono fun r hr =>
          ⟨(Keeps.of_eq (by simp) (by simp) (by simp)).trans hr.1, by simpa using hr.2⟩
      | exact step_leaf (Neutral.neutral_refl s) (by simp [pend]) fun p h1 h2 h3 => by
          simp [-List.append_assoc, Inv, PrefixOK_concat, h1] <;> omega

theorem multi_step (s : Parser) : (_MultiLineCommentState s).Sat (Step s) := by
  unfold _MultiLineCommentState
  refine (multiLoop_step _ _ _).bind fun r hr => ?_
  exact ⟨(Keeps.of_eq (by simp) (by simp) (by simp)).trans hr.1, by simpa using hr.2⟩

theorem readName_neutral (E : Env) (n : Nat) (c : Char) (s : Parser) :
    (readName E n c s).Sat (fun r => Neutral s r.2) := by
  induction n generalizing c s with
  | zero => simp [readName]
  | succ n ih =>
    unfold readName
    split
    · exact (ih _ _).after2 (Neutral.neutral_of_eq (by simp) (by simp) (by simp) (by simp))
    · simp [Neutral.neutral_refl]

theorem structName_step (E : Env) (s : Parser) : (_StructNameState E s).Sat (Step s) := by
  unfold _StructNameState
  refine (skipSpaces_neutral E _).bind fun r hr => ?_
  have n1 : Neutral s r.2 :=
    (Neutral.neutral_of_eq (by simp) (by simp) (by simp) (by simp)).neutral_trans hr
  try simp only []
  split
  · simp
  · refine (readName_neutral E _ _ _).bind fun r2 hr2 => ?_
    have n2 : Neutral s r2.2 :=
      n1.neutral_trans ((Neutral.neutral_of_eq (by simp) (by simp) (by simp) (by simp)).neutral_trans hr2)
    exact step_leaf n2 (by simp [pend]) fun p h1 h2 h3 => by
      simp [-List.append_assoc, Inv, PrefixOK_concat, h1] <;> omega

theorem functionName_step (E : Env) (s : Parser) : (_FunctionNameState E s).Sat (Step s) := by
  unfold _FunctionNameState
  refine (skipSpaces_neutral E _).bind fun r hr => ?_
  have n1 : Neutral s r.2 :=
    (Neutral.neutral_of_eq (by simp) (by simp) (by simp) (by simp)).neutral_trans hr
  try simp only []
  split
  · exact step_leaf n1 (by simp [pend]) fun p h1 h2 h3 => by
      simp [-List.append_assoc, Inv, PrefixOK_concat, h1] <;> omega
  · refine (readName_neutral E _ _ _).bind fun r2 hr2 => ?_
    have n2 : Neutral s r2.2 :=
      n1.neutral_trans ((Neutral.neutral_of_eq (by simp) (by simp) (by simp) (by simp)).neutral_trans hr2)
    split
    · simp
    · exact step_leaf n2 (by simp [pend]) fun p h1 h2 h3 => by
        split_ifs <;> simp [-List.append_assoc, Inv, PrefixOK_concat, h1] <;> omega

theorem operatorLoop_neutral (E : Env) (n : Nat) (c : Char) (h : List Char) (s : Parser) :
    (_OperatorState.loop E n c h s).Sat (fun r => Neutral s r.2) := by
  induction n generalizing c h s with
  | zero => simp [_OperatorState.loop]
  | succ n ih =>
    unfold _OperatorState.loop
    try simp only []
    split_ifs <;> first
      | (simp [Neutral.neutral_refl]; done)
      | exact Neutral.neutral_of_eq (by simp) (by simp) (by simp) (by simp)
      | exact (ih _ _ _).after2 (Neutral.neutral_of_eq (by simp) (by simp) (by simp) (by simp))

theorem operator_step (E : Env) (hE : E.WF) (s : Parser) : (_OperatorState E s).Sat (Step s) := by
  unfold _OperatorState
  refine (operatorLoop_neutral E _ _ _ _).bind fun r hr => ?_
  have n1 : Neutral s r.2 :=
    (Neutral.neutral_of_eq (by simp) (by simp) (by simp) (by simp)).neutral_trans hr
  have key : ∀ (key : List Char) (v : ParserMapValue) (d : List Char) (s1 : Parser),
      E.OperatorMap key = some v → Neutral s s1 →
      Step s { (if v.TokenToPush ≠ .None then s1._PushToken v.TokenToPush d else s1) with
                CurrentState := v.NextState } := by
    intro key v d s1 hv hs1
    obtain ⟨h4, h5, h6, h7⟩ := hE.tok (Or.inl hv)
    exact step_leaf hs1 (by simp [(hE key v (Or.inl hv)).2]) fun p h1 h2 h3 => by
      split_ifs <;> simp [-List.append_assoc, Inv, PrefixOK_concat, h1, h4, h5, h6, h7] <;> omega
  try simp only []
  split
  · rename_i v hv
    simpa using key _ v _ _ hv (n1.neutral_trans (Neutral.neutral_of_eq (by simp) (by simp) (by simp) (by simp)))
  · split
    · rename_i v hv
      simpa using key _ v _ _ hv
        (n1.neutral_trans (Neutral.neutral_of_eq (by simp) (by simp) (by simp) (by simp)))
    · simp

theorem closeIndents_inv (k p : Nat) (s : Parser) (h : Inv p s) : Inv p (closeIndents k s) := by
  obtain ⟨h1, h2, h3⟩ := h
  refine ⟨?_, ?_, ?_⟩
  · refine PrefixOK_append h1 ?_
    intro pre hp
    have h0 : countTok .CloseBracket pre = 0 := by
      unfold countTok
      rw [List.countP_eq_zero]
      intro t ht
      have := List.eq_of_mem_replicate (hp.subset ht)
      simp [this]
    omega
  · simp [closeIndents, countTok_replicate]
    omega
  · simp [closeIndents, countTok_replicate]
    split <;> omega

theorem countLoop_neutral (n : Nat) (c : Char) (k : Nat) (s : Parser) :
    (_IndentationState.count n c k s).Sat (fun r => Neutral s r.2) := by
  have sp : ∀ (m : Nat) (c : Char) (j : Nat) (s : Parser),
      Neutral s (_IndentationState.spaces m c j s).2.2 := by
    intro m
    induction m with
    | zero => intro c j s; simp [_IndentationState.spaces, Neutral.neutral_refl]
    | succ m ihm =>
      intro c j s
      unfold _IndentationState.spaces
      split
      · exact (Neutral.neutral_of_eq (by simp) (by simp) (by simp) (by simp)).neutral_trans (ihm _ _ _)
      · exact Neutral.neutral_refl s
  induction n generalizing c k s with
  | zero => simp [_IndentationState.count]
  | succ n ih =>
    unfold _IndentationState.count
    split
    · exact (ih _ _ _).after2 (Neutral.neutral_of_eq (by simp) (by simp) (by simp) (by simp))
    · have n1 : Neutral s
          (if c = ' ' then _IndentationState.spaces 3 c 1 s else (c, 0, s)).2.2 := by
        split
        · exact sp _ _ _ _
        · exact Neutral.neutral_refl s
      try simp only []
      generalize (if c = ' ' then _IndentationState.spaces 3 c 1 s else (c, 0, s)) = q at n1
      split
      · exact (ih _ _ _).after2 n1
      · simp only [Res.Sat_ok]
        exact n1

theorem scan_neutral (s : Parser) :
    (_IndentationState.scan s).Sat (fun r => Neutral s r.2) := by
  unfold _IndentationState.scan
  refine (countLoop_neutral _ _ _ _).after2 ?_
  split <;> exact Neutral.neutral_of_eq (by simp) (by simp) (by simp) (by simp)

theorem indentation_step (s : Parser) : (_IndentationState s).Sat (Step s) := by
  unfold _IndentationState
  refine (scan_neutral s).bind fun r n1 => ?_
  simp only [Res.Sat_ok]
  refine ⟨fun p hp => ?_, by simp [pend]⟩
  have h0 := n1.1 p hp
  have h1 : Inv p (if r.1 > r.2.Indents then
      { r.2._PushToken .StartIndentation [] with Indents := r.1 } else r.2) := by
    split
    · obtain ⟨a, b, c⟩ := h0
      simp [-List.append_assoc, Inv, PrefixOK_concat, a] <;> omega
    · exact h0
  have h2 := closeIndents_inv r.1 p _ h1
  obtain ⟨a, b, c⟩ := h2
  exact ⟨a, b, c⟩

theorem variableName_step (E : Env) (s : Parser) : (_VariableNameState E s).Sat (Step s) := by
  unfold _VariableNameState
  refine (skipSpaces_neutral E _).bind fun r hr => ?_
  have n1 : Neutral s r.2 :=
    (Neutral.neutral_of_eq (by simp) (by simp) (by simp) (by simp)).neutral_trans hr
  try simp only []
  split
  · exact step_leaf n1 (by simp [pend]) fun p h1 h2 h3 => by
      simp [-List.append_assoc, Inv, PrefixOK_concat, h1] <;> omega
  · split
    · exact step_leaf n1 (by simp [pend]) fun p h1 h2 h3 => by
        simp [-List.append_assoc, Inv, PrefixOK_concat, h1] <;> omega
    · have a1 : (if r.1 = '*' then
            (_ParsePointerDecleration E r.2._Backtrack).bind fun s =>
              Res.ok (s._GetNextChar.1, s._GetNextChar.2)
          else Res.ok (r.1, r.2)).Sat (fun q => Neutral s q.2) := by
        split
        · refine (parsePointer_neutral E _).bind fun q hq => ?_
          simp only [Res.Sat_ok]
          exact n1.neutral_trans ((Neutral.neutral_of_eq (by simp) (by simp) (by simp) (by simp)).neutral_trans
            (hq.neutral_trans (Neutral.neutral_of_eq (by simp) (by simp) (by simp) (by simp))))
        · simpa using n1
      refine a1.bind fun r2 hr2 => ?_
      have a2 : (if r2.1 = '[' then
            (_ParseArrayDecleration E
                ({ r2.2 with CurrentString := [] } : Parser).loopFuel
                { r2.2 with CurrentString := [] }).bind fun s =>
              Res.ok (s._GetNextChar.1, s._GetNextChar.2)
          else Res.ok (r2.1, ({ r2.2 with CurrentString := [] } : Parser))).Sat
            (fun q => Neutral s q.2) := by
        split
        · refine (parseArray_neutral E _ _).bind fun q hq => ?_
          simp only [Res.Sat_ok]
          exact hr2.neutral_trans ((Neutral.neutral_of_eq (by simp) (by simp) (by simp) (by simp)).neutral_trans
            (hq.neutral_trans (Neutral.neutral_of_eq (by simp) (by simp) (by simp) (by simp))))
        · simp only [Res.Sat_ok]
          exact hr2.neutral_trans (Neutral.neutral_of_eq (by simp) (by simp) (by simp) (by simp))
      refine a2.bind fun r3 hr3 => ?_
      try simp only []
      split
      · exact step_leaf hr3 (by simp [pend]) fun p h1 h2 h3 => by
          simp [-List.append_assoc, Inv, PrefixOK_concat, h1] <;> omega
      · refine (varListLoop_neutral E _ _).bind fun l hl => ?_
        have n4 : Neutral s l.s :=
          hr3.neutral_trans ((Neutral.neutral_of_eq (by simp) (by simp) (by simp) (by simp)).neutral_trans hl)
        try simp only []
        split_ifs <;> first
          | (simp; done)
          | (simp only [Res.Sat_ok]
             exact step_leaf n4 (by simp [pend]) fun p h1 h2 h3 => by
               simp [-List.append_assoc, Inv, PrefixOK_concat, h1] <;> omega)

theorem rvalue_step (E : Env) (hE : E.WF) (s : Parser) :
    (_ParsingRValueState E s).Sat (Step s) := by
  unfold _ParsingRValueState
  refine (skipSpaces_neutral E _).bind fun r hr => ?_
  have n1 : Neutral s r.2 :=
    (Neutral.neutral_of_eq (by simp) (by simp) (by simp) (by simp)).neutral_trans hr
  have n2 : Neutral s ({ r.2 with CurrentString := [] } : Parser) :=
    n1.neutral_trans (Neutral.neutral_of_eq (by simp) (by simp) (by simp) (by simp))
  try simp only []
  split
  · exact step_leaf n1 (by simp [pend]) fun p h1 h2 h3 => by
      simp [-List.append_assoc, Inv, PrefixOK_concat, h1] <;> omega
  · split
    · exact step_leaf n1 (by simp [pend]) fun p h1 h2 h3 => by
        simp [-List.append_assoc, Inv, PrefixOK_concat, h1] <;> omega
    · split
      · split
        · rename_i hb
          have hlen : 0 < r.2.BracketStack.length := by
            have := hb.1
            simp only [push_BracketStack] at this
            exact List.length_pos.mpr this
          exact step_leaf n1 (by simp [pend]) fun p h1 h2 h3 => by
            simp [-List.append_assoc, Inv, PrefixOK_concat, h1] <;> omega
        · simp
      · have a1 : (if r.1 = '"' then _ParseString { r.2 with CurrentString := [] }
            else if isdigit r.1 ∨ r.1 = '-' then
              _ParseNumber E { r.2 with CurrentString := [] ++ [r.1] }
            else if r.1 = '\'' then _ParseChar { r.2 with CurrentString := [] }
            else _ParseOther E
              ({ r.2 with CurrentString := [] ++ [r.1] } : Parser)._Backtrack).Sat
              (fun q => Keeps s q) := by
          split
          · exact (parseString_neutral _).mono fun q hq => (n2.neutral_trans hq).1
          · split
            · exact (parseNumber_neutral E _).mono fun q hq =>
                ((n1.neutral_trans (Neutral.neutral_of_eq (by simp) (by simp) (by simp) (by simp))).neutral_trans hq).1
            · split
              · exact (parseChar_neutral _).mono fun q hq => (n2.neutral_trans hq).1
              · exact (parseOther_keeps E hE _).mono fun q hq =>
                  (n1.neutral_trans (Neutral.neutral_of_eq (by simp) (by simp) (by simp) (by simp))).1.trans hq.1
        refine a1.bind fun q hq => ?_
        simp only [Res.Sat_ok]
        refine ⟨hq.trans (Keeps.of_eq (by simp) (by simp) (by simp)), by simp [pend]⟩

theorem stepD_leaf {s r0 r : Parser} (k : Nat) (hn : Keeps s r0)
    (hk : pend r.CurrentState = k)
    (h : ∀ p, PrefixOK r0.Tokens →
      countTok .CloseBracket r0.Tokens + r0.BracketStack.length + p
        ≤ countTok .OpenBracket r0.Tokens →
      countTok .StartIndentation r0.Tokens ≤ countTok .EndIndentation r0.Tokens + r0.Indents →
      Inv (p + k) r) : StepD s r := by
  intro p hp
  rw [hk]
  exact h p (hn p hp).1 (hn p hp).2.1 (hn p hp).2.2

theorem Step.stepD {s r : Parser} (h : Step s r) (hs : pend s.CurrentState = 0) : StepD s r := by
  intro p hp
  have : pend r.CurrentState = 0 := by have := h.2; omega
  rw [this]
  exact h.1 p hp

theorem closeBracket_inv {p : Nat} {s : Parser} (d : List Char) (h : Inv p s)
    (hb : s.BracketStack ≠ []) :
    Inv p ({ s with BracketStack := s.BracketStack.dropLast }._PushToken .CloseBracket d) := by
  have hlen : 0 < s.BracketStack.length := List.length_pos.mpr hb
  obtain ⟨h1, h2, h3⟩ := h
  simp [-List.append_assoc, Inv, PrefixOK_concat, h1] <;> omega

theorem defaultRest_step (E : Env) (c : Char) (s0 s : Parser) (hn : Neutral s0 s)
    (hs : pend s0.CurrentState = 0) : (_DefaultState.rest E c s).Sat (StepD s0) := by
  have hs1 : pend s.CurrentState = 0 := by rw [hn.2]; exact hs
  unfold _DefaultState.rest
  try simp only []
  split_ifs <;> first
    | (simp; done)
    | (exfalso; simp_all; done)
    | (simp only [Res.Sat_ok]
       refine stepD_leaf 0 hn.1 ?_ fun p h1 h2 h3 => ?_
       · first | (simp [pend]; done) | (simp; done) | exact hs1
       · simp [-List.append_assoc, Inv, PrefixOK_concat, h1] <;> omega)
    | (simp only [Res.Sat_ok]
       refine stepD_leaf 1 hn.1 ?_ fun p h1 h2 h3 => ?_
       · first | (simp [pend]; done) | (simp; done) | exact hs1
       · simp [-List.append_assoc, Inv, PrefixOK_concat, h1] <;> omega)
    | (simp only [Res.Sat_ok]
       rename_i hst
       refine stepD_leaf 0 hn.1 ?_ fun p h1 h2 h3 => ?_
       · first | (simp [pend]; done) | (simp; done) | exact hs1
       · refine closeBracket_inv _ ?_ (by simpa using hst.1)
         simp [-List.append_assoc, Inv, PrefixOK_concat, h1] <;> omega)

theorem default_step (E : Env) (hE : E.WF) (s : Parser) (hs : pend s.CurrentState = 0) :
    (_DefaultState E s).Sat (StepD s) := by
  have n0 : Neutral s s._GetNextChar.2 := Neutral.neutral_of_eq (by simp) (by simp) (by simp) (by simp)
  have hs0 : pend s._GetNextChar.2.CurrentState = 0 := by simpa using hs
  unfold _DefaultState
  try simp only []
  split
  · -- an opening parenthesis
    split
    · have a1 : (if s._GetNextChar.2.CurrentString ≠ [] then
            if E.IsValidNumber s._GetNextChar.2.CurrentString = true then Res.halt
            else Res.ok (s._GetNextChar.2._PushToken .VariableReference
              s._GetNextChar.2.CurrentString)
          else Res.ok s._GetNextChar.2).Sat (Neutral s) := by
        split_ifs <;> first
          | (simp; done)
          | (simp only [Res.Sat_ok]; exact n0)
          | (simp only [Res.Sat_ok]
             refine neutral_leaf ?_ fun p h1 h2 h3 => ?_
             · simp
             · simp [-List.append_assoc, Inv, PrefixOK_concat, h1] <;> omega)
      refine a1.bind fun q hq => ?_
      simp only [Res.Sat_ok]
      refine stepD_leaf 1 hq.1 ?_ fun p h1 h2 h3 => ?_
      · simp [pend]
      · simp [-List.append_assoc, Inv, PrefixOK_concat, h1] <;> omega
    · simp only [Res.Sat_ok]
      refine stepD_leaf 0 (Keeps.refl s) ?_ fun p h1 h2 h3 => ?_
      · simpa using hs
      · simp [-List.append_assoc, Inv, PrefixOK_concat, h1] <;> omega
  · have a1 : (if s._GetNextChar.1 = '"' then
          if s._GetNextChar.2.CurrentString = [] then _ParseString s._GetNextChar.2
          else Res.halt
        else Res.ok s._GetNextChar.2).Sat (Neutral s) := by
      split_ifs <;> first
        | (simp; done)
        | (simp only [Res.Sat_ok]; exact n0)
        | exact (parseString_neutral _).after n0
    refine a1.bind fun q hq => ?_
    have a2 : (if s._GetNextChar.1 = '\'' then
          if q.CurrentString = [] then _ParseChar q else Res.halt
        else Res.ok q).Sat (Neutral s) := by
      split_ifs <;> first
        | (simp; done)
        | (simp only [Res.Sat_ok]; exact hq)
        | exact (parseChar_neutral _).after hq
    refine a2.bind fun q2 hq2 => ?_
    have hq2s : pend q2.CurrentState = 0 := by rw [hq2.2]; exact hs
    split
    · refine ((parseNumber_neutral E _).after
        (hq2.neutral_trans (Neutral.neutral_of_eq (by simp) (by simp) (by simp) (by simp)))).mono
        fun r hr => hr.step.stepD hs
    · generalize hq3 : (if E.IsVarNameChar s._GetNextChar.1 = true then
          ({ q2 with CurrentString := q2.CurrentString ++ [s._GetNextChar.1] } : Parser)
          else q2) = q3
      have n3 : Neutral s q3 := by
        rw [← hq3]
        split
        · exact hq2.neutral_trans (Neutral.neutral_of_eq (by simp) (by simp) (by simp) (by simp))
        · exact hq2
      try simp only []
      split
      · split
        · simp only [Res.Sat_ok]
          rcases hv : E.KeyWordMap q3.CurrentString with _ | value
          · simp only [hv]
            refine stepD_leaf 0 n3.1 ?_ fun p h1 h2 h3 => ?_
            · split_ifs <;> simp [pend]
            · split_ifs <;> simp [-List.append_assoc, Inv, PrefixOK_concat, h1] <;> omega
          · simp only [hv]
            obtain ⟨h4, h5, h6, h7⟩ := hE.tok (Or.inr hv)
            refine stepD_leaf 0 n3.1 ?_ fun p h1 h2 h3 => ?_
            · split_ifs <;> simp [(hE _ value (Or.inr hv)).2]
            · split_ifs <;>
                simp [-List.append_assoc, Inv, PrefixOK_concat, h1, h4, h5, h6, h7] <;> omega
        · refine defaultRest_step E _ s _ (n3.neutral_trans (neutral_leaf ?_ fun p h1 h2 h3 => ?_)) hs
          · simp
          · simp [-List.append_assoc, Inv, PrefixOK_concat, h1] <;> omega
      · exact defaultRest_step E _ s _ n3 hs

/-! ## Handlers that start sub-lexers -/

theorem pushCallArgs_neutral (run : Parser → Res Parser)
    (hsub : ∀ text, (subLex run text).Sat Good) (args : List (List Char)) (s : Parser) :
    (pushCallArgs run args s).Sat (Neutral s) := by
  induction args generalizing s with
  | nil => simp [pushCallArgs, Neutral.neutral_refl]
  | cons arg rest ih =>
    unfold pushCallArgs
    refine (hsub arg).bind fun toks ht => ?_
    refine (ih _).after ?_
    have k1 : Neutral s ({ s with Tokens := s.Tokens ++ toks } : Parser) :=
      ⟨Keeps.append ht rfl rfl rfl, rfl⟩
    generalize ({ s with Tokens := s.Tokens ++ toks } : Parser) = s1 at k1
    refine k1.neutral_trans (neutral_leaf ?_ fun p h1 h2 h3 => ?_)
    · simp
    · simp [-List.append_assoc, Inv, PrefixOK_concat, h1] <;> omega

theorem pushDeclArgs_neutral (run : Parser → Res Parser)
    (hsub : ∀ text, (subLex run text).Sat Good) (args : List (List Char)) (s : Parser) :
    (pushDeclArgs run args s).Sat (Neutral s) := by
  induction args generalizing s with
  | nil => simp [pushDeclArgs, Neutral.neutral_refl]
  | cons arg rest ih =>
    unfold pushDeclArgs
    refine (hsub arg).bind fun toks ht => ?_
    exact (ih _).after ⟨Keeps.append ht rfl rfl rfl, rfl⟩

theorem functionTypeLoop_neutral (n : Nat) (c : Char) (s : Parser) :
    (_FunctionTypeState.loop n c s).Sat (fun r => Neutral s r.2) := by
  induction n generalizing c s with
  | zero => simp [_FunctionTypeState.loop]
  | succ n ih =>
    unfold _FunctionTypeState.loop
    split
    · exact (ih _ _).after2 (Neutral.neutral_of_eq (by simp) (by simp) (by simp) (by simp))
    · simp [Neutral.neutral_refl]

theorem functionType_step (E : Env) (run : Parser → Res Parser)
    (hsub : ∀ text, (subLex run text).Sat Good) (s : Parser) :
    (_FunctionTypeState E run s).Sat (Step s) := by
  unfold _FunctionTypeState
  refine (skipSpaces_neutral E _).bind fun r hr => ?_
  have n1 : Neutral s r.2 :=
    (Neutral.neutral_of_eq (by simp) (by simp) (by simp) (by simp)).neutral_trans hr
  refine (functionTypeLoop_neutral _ _ _).bind fun r2 hr2 => ?_
  have n2 : Neutral s r2.2 :=
    n1.neutral_trans ((Neutral.neutral_of_eq (by simp) (by simp) (by simp) (by simp)).neutral_trans hr2)
  refine (hsub _).bind fun toks ht => ?_
  simp only [Res.Sat_ok]
  have n3 : Neutral s (r2.2._PushToken .FunctionType r2.2.CurrentString) := by
    refine n2.neutral_trans (neutral_leaf ?_ fun p h1 h2 h3 => ?_)
    · simp
    · simp [-List.append_assoc, Inv, PrefixOK_concat, h1] <;> omega
  refine ⟨n3.1.trans (Keeps.append ht ?_ ?_ ?_), ?_⟩ <;> simp [pend]

theorem declLoop_neutral (E : Env) (n : Nat) (l : ArgLocals) :
    (_FunctionParameterState.loop E n l).Sat (fun r => Neutral l.s r.s) := by
  induction n generalizing l with
  | zero => simp [_FunctionParameterState.loop]
  | succ n ih =>
    unfold _FunctionParameterState.loop
    try simp only []
    split_ifs <;> first
      | (simp [Neutral.neutral_refl]; done)
      | exact (ih _).mono fun r hr =>
          (Neutral.neutral_of_eq (by simp) (by simp) (by simp) (by simp)).neutral_trans hr

theorem functionParameter_step (E : Env) (run : Parser → Res Parser)
    (hsub : ∀ text, (subLex run text).Sat Good) (s : Parser) :
    (_FunctionParameterState E run s).Sat (Step s) := by
  unfold _FunctionParameterState
  refine (skipSpaces_neutral E _).bind fun r hr => ?_
  have n1 : Neutral s r.2 :=
    (Neutral.neutral_of_eq (by simp) (by simp) (by simp) (by simp)).neutral_trans hr
  try simp only []
  split
  · simp
  · refine (declLoop_neutral E _ _).bind fun l hl => ?_
    have n2 : Neutral s l.s :=
      n1.neutral_trans ((Neutral.neutral_of_eq (by simp) (by simp) (by simp) (by simp)).neutral_trans hl)
    split
    · simp
    · have n3 : Neutral s (l.s._PushToken .StartFunctionParameters []) := by
        refine n2.neutral_trans (neutral_leaf ?_ fun p h1 h2 h3 => ?_)
        · simp
        · simp [-List.append_assoc, Inv, PrefixOK_concat, h1] <;> omega
      refine (pushDeclArgs_neutral run hsub _ _).bind fun q hq => ?_
      simp only [Res.Sat_ok]
      refine step_leaf (n3.neutral_trans hq) ?_ fun p h1 h2 h3 => ?_
      · split_ifs <;> simp [pend]
      · split_ifs <;> simp [-List.append_assoc, Inv, PrefixOK_concat, h1] <;> omega

theorem callLoop_neutral (n : Nat) (l : ArgLocals) :
    (_FunctionParamaterState.loop n l).Sat (fun r => Neutral l.s r.s) := by
  induction n generalizing l with
  | zero => simp [_FunctionParamaterState.loop]
  | succ n ih =>
    unfold _FunctionParamaterState.loop
    try simp only []
    split_ifs <;> first
      | (simp [Neutral.neutral_refl]; done)
      | exact (ih _).mono fun r hr =>
          (Neutral.neutral_of_eq (by simp) (by simp) (by simp) (by simp)).neutral_trans hr

theorem dropComma_inv {p : Nat} {s : Parser} (h : Inv p s) :
    Inv p (if s._GetLastToken.TokenType = .Comma
      then { s with Tokens := s.Tokens.dropLast } else s) := by
  split
  · rename_i hc
    obtain ⟨h1, h2, h3⟩ := h
    have hl : ∃ t, s.Tokens.getLast? = some t ∧ t.TokenType = .Comma := by
      unfold _GetLastToken at hc
      split at hc
      · simp at hc
      · exact ⟨_, ‹_›, hc⟩
    obtain ⟨t, ht, htc⟩ := hl
    have e1 := countTok_dropLast .OpenBracket s.Tokens t ht (by simp [htc])
    have e2 := countTok_dropLast .CloseBracket s.Tokens t ht (by simp [htc])
    have e3 := countTok_dropLast .StartIndentation s.Tokens t ht (by simp [htc])
    have e4 := countTok_dropLast .EndIndentation s.Tokens t ht (by simp [htc])
    refine ⟨h1.dropLast, ?_, ?_⟩
    · simp only [e1, e2]; exact h2
    · simp only [e3, e4]; exact h3
  · exact h

theorem functionParamater_step (E : Env) (run : Parser → Res Parser)
    (hsub : ∀ text, (subLex run text).Sat Good) (s : Parser) :
    (_FunctionParamaterState E run s).Sat
      (fun r => (∀ p, Inv (p + 1) s → Inv p r) ∧ pend r.CurrentState = 0) := by
  unfold _FunctionParamaterState
  refine (skipSpaces_neutral E _).bind fun r hr => ?_
  have n1 : Neutral s r.2 :=
    (Neutral.neutral_of_eq (by simp) (by simp) (by simp) (by simp)).neutral_trans hr
  try simp only []
  split
  · simp
  · refine (callLoop_neutral _ _).bind fun l hl => ?_
    have n2 : Neutral s l.s :=
      n1.neutral_trans ((Neutral.neutral_of_eq (by simp) (by simp) (by simp) (by simp)).neutral_trans hl)
    split
    · simp
    · refine (pushCallArgs_neutral run hsub _ _).bind fun q hq => ?_
      refine (skipSpaces_neutral E _).bind fun q2 hq2 => ?_
      simp only [Res.Sat_ok]
      have hqs : q.CurrentState = .Default := by rw [hq.2]
      have k2 : Keeps s q := n2.1.trans ((Keeps.of_eq rfl rfl rfl).trans hq.1)
      constructor
      · intro p hp
        have i1 := dropComma_inv (k2 _ hp)
        generalize (if q._GetLastToken.TokenType = .Comma
          then ({ q with Tokens := q.Tokens.dropLast } : Parser) else q) = q1 at i1 hq2
        have i2 : Inv p (q1._PushToken .CloseBracket [')'])._GetNextChar.2 := by
          obtain ⟨h1, h2, h3⟩ := i1
          simp [-List.append_assoc, Inv, PrefixOK_concat, h1] <;> omega
        exact (Keeps.of_eq (by simp) (by simp) (by simp)) p (hq2.1 p i2)
      · have := hq2.2
        simp only [backtrack_CurrentState, this, getNext_CurrentState, push_CurrentState]
        split <;> simp [hqs, pend]

theorem indexLoop_neutral (E : Env) (n : Nat) (l : ArgLocals) :
    (_IndexOperatorState.loop E n l).Sat (fun r => Neutral l.s r.s) := by
  induction n generalizing l with
  | zero => simp [_IndexOperatorState.loop]
  | succ n ih =>
    unfold _IndexOperatorState.loop
    try simp only []
    split_ifs <;> first
      | (simp [Neutral.neutral_refl]; done)
      | (simp only [Res.Sat_ok]; exact Neutral.neutral_of_eq (by simp) (by simp) (by simp) (by simp))
      | exact (ih _).mono fun r hr =>
          (Neutral.neutral_of_eq (by simp) (by simp) (by simp) (by simp)).neutral_trans hr

theorem indexOperator_step (E : Env) (run : Parser → Res Parser)
    (hsub : ∀ text, (subLex run text).Sat Good) (s : Parser) :
    (_IndexOperatorState E run s).Sat
      (fun r => (∀ p, Inv (p + 1) s → Inv p r) ∧ pend r.CurrentState = 0) := by
  unfold _IndexOperatorState
  try simp only []
  split
  · simp
  · refine (indexLoop_neutral E _ _).bind fun l hl => ?_
    have n2 : Neutral s l.s :=
      (Neutral.neutral_of_eq (by simp) (by simp) (by simp) (by simp)).neutral_trans hl
    split
    · simp
    · refine (hsub _).bind fun toks ht => ?_
      simp only [Res.Sat_ok]
      refine ⟨fun p hp => ?_, by simp [pend]⟩
      have i1 : Inv (p + 1) ({ l.s with Tokens := l.s.Tokens ++ toks } : Parser) :=
        (Keeps.append (s := l.s) (r := { l.s with Tokens := l.s.Tokens ++ toks })
          ht rfl rfl rfl) _ (n2.1 _ hp)
      obtain ⟨h1, h2, h3⟩ := i1
      simp [-List.append_assoc] at h1 h2 h3
      simp [-List.append_assoc, Inv, PrefixOK_concat, h1] <;> omega

/-! ## The run -/

theorem dispatch_inv (E : Env) (hE : E.WF) (run : Parser → Res Parser)
    (hsub : ∀ text, (subLex run text).Sat Good) (s : Parser)
    (h : Inv (pend s.CurrentState) s) :
    (dispatch E run s).Sat (fun r => Inv (pend r.CurrentState) r) := by
  have neutral : ∀ {x : Res Parser}, x.Sat (Step s) →
      x.Sat (fun r => Inv (pend r.CurrentState) r) :=
    fun hx => hx.mono fun r hr => (hr.1 _ h).weaken hr.2
  unfold dispatch
  cases hst : s.CurrentState <;> simp only []
  case Default =>
    refine (default_step E hE s (by simp [hst, pend])).mono fun r hr => ?_
    have := hr _ h
    simpa [hst, pend] using this
  case VariableName => exact neutral (variableName_step E s)
  case RValue => exact neutral (rvalue_step E hE s)
  case Operator => exact neutral (operator_step E hE s)
  case Indentation => exact neutral (indentation_step s)
  case FunctionName => exact neutral (functionName_step E s)
  case FunctionParameters => exact neutral (functionParameter_step E run hsub s)
  case ArrowState => exact neutral (arrow_step s)
  case FunctionTypeState => exact neutral (functionType_step E run hsub s)
  case StructName => exact neutral (structName_step E s)
  case FunctionParamaters =>
    refine (functionParamater_step E run hsub s).mono fun r hr => ?_
    rw [hr.2]
    exact hr.1 0 (by simpa [hst, pend] using h)
  case Comment => exact neutral (comment_step s)
  case MultilineComment => exact neutral (multi_step s)
  case IndexOperator =>
    refine (indexOperator_step E run hsub s).mono fun r hr => ?_
    rw [hr.2]
    exact hr.1 0 (by simpa [hst, pend] using h)
  case AsterisksOperator => exact neutral (asterisks_step s)

theorem mainLoop_inv (step : Parser → Res Parser)
    (hstep : ∀ s, Inv (pend s.CurrentState) s →
      (step s).Sat (fun r => Inv (pend r.CurrentState) r))
    (n : Nat) (s : Parser) (h : Inv (pend s.CurrentState) s) :
    (mainLoop step n s).Sat (fun r => Inv (pend r.CurrentState) r) := by
  induction n generalizing s with
  | zero => simp [mainLoop]
  | succ n ih =>
    unfold mainLoop
    split
    · exact (hstep s h).bind fun r hr => ih r hr
    · simpa using h

theorem unwindIndents_good (p : Nat) (s : Parser) (h : Inv p s) : Good (unwindIndents s).Tokens := by
  obtain ⟨h1, h2, h3⟩ := h
  refine ⟨?_, ?_⟩
  · refine PrefixOK_append h1 ?_
    intro pre hp
    have h0 : countTok .CloseBracket pre = 0 := by
      unfold countTok
      rw [List.countP_eq_zero]
      intro t ht
      have := List.eq_of_mem_replicate (hp.subset ht)
      simp [this]
    omega
  · simp [unwindIndents, countTok_replicate]
    omega

theorem init_inv (text : List Char) :
    Inv (pend ({ Parser.new.InitParser with Buffer := text } : Parser).CurrentState)
      { Parser.new.InitParser with Buffer := text } := by
  simp [Inv, InitParser, Parser.new, pend, PrefixOK_nil]

theorem ParseProgram_good (E : Env) (hE : E.WF) (fuel : Nat) (s : Parser)
    (h : Inv (pend s.CurrentState) s) :
    (ParseProgram E fuel s).Sat (fun r => Good r.Tokens) := by
  induction fuel generalizing s with
  | zero => simp [ParseProgram]
  | succ fuel ih =>
    unfold ParseProgram
    have hsub : ∀ text, (subLex (ParseProgram E fuel) text).Sat Good := by
      intro text
      unfold subLex
      exact (ih _ (init_inv _)).bind fun r hr => by simpa using hr
    refine (mainLoop_inv _ (dispatch_inv E hE _ hsub) fuel s h).bind fun r hr => ?_
    simpa using unwindIndents_good _ r hr

theorem CreateTokensFromFile_good (E : Env) (hE : E.WF) (fuel : Nat) (content : List Char) :
    (CreateTokensFromFile E fuel content).Sat (fun r => Good r.Tokens) :=
  ParseProgram_good E hE fuel _ (init_inv _)

theorem lookup_mem {β : Type} (key : List Char) (v : β) :
    ∀ l : List (List Char × β), l.lookup key = some v → ∃ k, (k, v) ∈ l
  | [], h => by simp at h
  | (k, b) :: es, h => by
    rw [List.lookup_cons] at h
    split at h
    · cases h
      exact ⟨k, by simp⟩
    · obtain ⟨k', hk⟩ := lookup_mem key v es h
      exact ⟨k', by simp [hk]⟩

theorem specEnv_WF : specEnv.WF := by
  have h1 : ∀ e ∈ specOperatorTable, structural e.2.TokenToPush = false ∧ pend e.2.NextState = 0 := by
    decide
  have h2 : ∀ e ∈ specKeyWordTable, structural e.2.TokenToPush = false ∧ pend e.2.NextState = 0 := by
    decide
  intro key v h
  rcases h with h | h
  · obtain ⟨k, hk⟩ := lookup_mem key v _ h
    exact h1 _ hk
  · obtain ⟨k, hk⟩ := lookup_mem key v _ h
    exact h2 _ hk

/-! ## Single steps of the dispatcher -/

theorem default_newline (E : Env) (s : Parser) (hc : s._GetNextChar.1 = '\n')
    (hs : s.CurrentString = []) :
    _DefaultState E s = .ok
      (if s.BracketStack = [] then
        ({ s._GetNextChar.2 with CurrentState := .Indentation, CurrentString := [] } :
          Parser)._PushToken .EndLine []
      else { s._GetNextChar.2 with CurrentState := .Indentation, CurrentString := [] }) := by
  have h1 : ¬ isdigit '\n' = true := by decide
  have h2 : ¬ ('\n' = '(') := by decide
  have h3 : ¬ ('\n' = '"') := by decide
  have h4 : ¬ ('\n' = '\'') := by decide
  have hs' : s._GetNextChar.2.CurrentString = [] := by simpa using hs
  unfold _DefaultState
  simp only [hc, h1, h2, h3, h4, if_false, false_and, Res.bind_ok]
  by_cases hv : E.IsVarNameChar '\n' = true <;>
    simp [hv, hs', _DefaultState.rest, _PushToken] <;>
    split <;> simp_all

theorem lookup_mem_key {β : Type} (key : List Char) (v : β) :
    ∀ l : List (List Char × β), l.lookup key = some v → (key, v) ∈ l
  | [], h => by simp at h
  | (k, b) :: es, h => by
    rw [List.lookup_cons] at h
    split at h
    · next heq =>
      cases h
      have : key = k := by simpa using heq
      subst this
      simp
    · have := lookup_mem_key key v es h
      simp [this]

/-- No hexadecimal digit is a key of the operator table of the specification, so
the digits of a literal never end it. -/
theorem specEnv_hex_not_operator (d : Char) (h : isHexChar d = true) :
    specEnv.OperatorMap (Str d) = none := by
  cases hl : specEnv.OperatorMap (Str d) with
  | none => rfl
  | some v =>
    have hk := lookup_mem_key (Str d) v specOperatorTable hl
    have hall : ∀ kv ∈ specOperatorTable, ∀ c ∈ kv.1, isHexChar c = false := by decide!
    have := hall _ hk d (by simp [Str])
    rw [h] at this
    cases this

/-! ## The claims -/

/-- C1, as stated, fails: for the file content `int32 x\nx = 3 + 4\n` the run
completes with a stream that is not the nine tokens of the claim. -/
theorem C1_counterexample :
    ∃ toks, (CreateTokensFromFile specEnv 64 "int32 x\nx = 3 + 4\n".toList).tokens = some toks ∧
      toks ≠ [tk .Int32Type "int32", tk .VariableName "x", tk .EndLine "",
        tk .VariableReference "x", tk .Assign "=", tk .RValueNumber "3", tk .AddOp "+",
        tk .RValueNumber "4", tk .EndLine ""] :=
  ⟨[tk .Int32Type "int32", tk .VariableName "x", tk .EndLine "",
      tk .VariableReference "x", tk .Assign "=", tk .RValueNumber "3", tk .AddOp "+",
      tk .RValueNumber "4", tk .EndLine "", tk .EndLine ""], by decide!, by decide!⟩

/-- C1, amended: the file content `int32 x\nx = 3 + 4\n` yields the nine tokens
of the claim followed by one more `EndLine`, for the newline `CreateTokensFromFile`
appends; the same content without its final newline yields exactly the nine. -/
theorem C1_variable_and_assignment :
    (CreateTokensFromFile specEnv 64 "int32 x\nx = 3 + 4\n".toList).tokens =
      some [tk .Int32Type "int32", tk .VariableName "x", tk .EndLine "",
        tk .VariableReference "x", tk .Assign "=", tk .RValueNumber "3", tk .AddOp "+",
        tk .RValueNumber "4", tk .EndLine "", tk .EndLine ""] ∧
    (CreateTokensFromFile specEnv 64 "int32 x\nx = 3 + 4".toList).tokens =
      some [tk .Int32Type "int32", tk .VariableName "x", tk .EndLine "",
        tk .VariableReference "x", tk .Assign "=", tk .RValueNumber "3", tk .AddOp "+",
        tk .RValueNumber "4", tk .EndLine ""] :=
  ⟨by decide!, by decide!⟩

/-- C5, as stated, fails: the empty file yields a stream that is not empty. -/
theorem C5_counterexample :
    ∃ toks, (CreateTokensFromFile specEnv 8 []).tokens = some toks ∧ toks ≠ [] :=
  ⟨[tk .EndLine ""], by decide!, by decide!⟩

/-- C5, amended: whatever the tables, the empty file yields exactly one `EndLine`
token, for the newline `CreateTokensFromFile` appends to the buffer. -/
theorem C5_empty_file (E : Env) (fuel : Nat) :
    (CreateTokensFromFile E (fuel + 3) []).tokens = some [tk .EndLine ""] := by
  have hd := default_newline E ⟨[], ['\n'], 0, 0, .Default, [], []⟩ rfl rfl
  have e0 : CreateTokensFromFile E (fuel + 3) [] =
      ParseProgram E (fuel + 3) ⟨[], ['\n'], 0, 0, .Default, [], []⟩ := rfl
  have e1 : ∀ p, ParseProgram E (fuel + 3) p =
      (mainLoop (dispatch E (ParseProgram E (fuel + 2))) (fuel + 2) p).bind
        fun s => .ok (unwindIndents s) := fun _ => rfl
  have e2 : mainLoop (dispatch E (ParseProgram E (fuel + 2))) (fuel + 2)
      ⟨[], ['\n'], 0, 0, .Default, [], []⟩ =
      (_DefaultState E ⟨[], ['\n'], 0, 0, .Default, [], []⟩).bind
        (mainLoop (dispatch E (ParseProgram E (fuel + 2))) (fuel + 1)) := rfl
  rw [e0, e1, e2, hd]
  simp [mainLoop, Res.tokens, unwindIndents, tk, _GetNextChar, _PushToken]

/-- C9, as stated, fails: a blank line indented by two tabs yields one
`StartIndentation` and two `EndIndentation` tokens. -/
theorem C9_counterexample :
    ∃ toks, (CreateTokensFromFile specEnv 64 "\n\t\t".toList).tokens = some toks ∧
      countTok .StartIndentation toks ≠ countTok .EndIndentation toks :=
  ⟨[tk .EndLine "", tk .StartIndentation "", tk .EndLine "", tk .EndIndentation "",
      tk .EndIndentation ""], by decide!, by decide!⟩

/-- C9, amended: for every input on which tokenization completes, the stream
has at most as many `StartIndentation` as `EndIndentation` tokens. -/
theorem C9_starts_le_ends (E : Env) (hE : E.WF) (fuel : Nat) (content : List Char) (r : Parser)
    (h : CreateTokensFromFile E fuel content = .ok r) :
    countTok .StartIndentation r.Tokens ≤ countTok .EndIndentation r.Tokens := by
  have := CreateTokensFromFile_good E hE fuel content
  rw [h] at this
  exact this.2

theorem C9_starts_le_ends_witness :
    ∃ r, CreateTokensFromFile specEnv 64 "a:\n\t\tb\nc".toList = .ok r ∧
      countTok .StartIndentation r.Tokens ≤ countTok .EndIndentation r.Tokens ∧
      countTok .StartIndentation r.Tokens = 1 ∧ countTok .EndIndentation r.Tokens = 2 := by
  have h : CreateTokensFromFile specEnv 64 "a:\n\t\tb\nc".toList =
      .ok ⟨[tk .VariableReference "a", tk .StartIndentation "", tk .VariableReference "b",
          tk .EndLine "", tk .EndIndentation "", tk .EndIndentation "",
          tk .VariableReference "c", tk .EndLine ""], "a:\n\t\tb\nc\n".toList, 9, 0,
          .Indentation, [], []⟩ := by decide!
  exact ⟨_, h, C9_starts_le_ends specEnv specEnv_WF 64 _ _ h, by decide!, by decide!⟩

/-- C10: for every input on which tokenization completes, every prefix of the
stream has at least as many `OpenBracket` as `CloseBracket` tokens. -/
theorem C10_prefix_brackets (E : Env) (hE : E.WF) (fuel : Nat) (content : List Char)
    (r : Parser) (h : CreateTokensFromFile E fuel content = .ok r) (k : Nat) :
    countTok .CloseBracket (r.Tokens.take k) ≤ countTok .OpenBracket (r.Tokens.take k) := by
  have := CreateTokensFromFile_good E hE fuel content
  rw [h] at this
  exact this.1 _ (List.take_prefix k r.Tokens)

theorem C10_prefix_brackets_witness :
    ∃ r, CreateTokensFromFile specEnv 64 "f(g(1), 2)\n(a)".toList = .ok r ∧
      r.Tokens.length = 16 ∧
      ∀ k, countTok .CloseBracket (r.Tokens.take k) ≤ countTok .OpenBracket (r.Tokens.take k) := by
  have h : CreateTokensFromFile specEnv 64 "f(g(1), 2)\n(a)".toList =
      .ok ⟨[tk .VariableReference "f", tk .FunctionCall "f", tk .OpenBracket "(",
          tk .VariableReference "g", tk .FunctionCall "g", tk .OpenBracket "(",
          tk .RValueNumber "1", tk .CloseBracket ")", tk .Comma "", tk .RValueNumber "2",
          tk .CloseBracket ")", tk .EndLine "", tk .OpenBracket "(", tk .VariableReference "a",
          tk .CloseBracket ")", tk .EndLine ""], "f(g(1), 2)\n(a)\n".toList, 15, 0,
          .Indentation, [], []⟩ := by decide!
  exact ⟨_, h, by decide!, C10_prefix_brackets specEnv specEnv_WF 64 _ _ h⟩

theorem getNext_index_of_ne_NUL (s : Parser) (h : s._GetNextChar.1 ≠ NUL) :
    s._GetNextChar.2.CurrentTokenIndex = s.CurrentTokenIndex + 1 ∧
      s.CurrentTokenIndex < s.Buffer.length := by
  unfold _GetNextChar at h ⊢
  split
  · exact ⟨rfl, ‹_›⟩
  · rename_i hlt
    simp [hlt] at h

theorem isLineClosed_false_iff (s : Parser) :
    s._IsLineClosed = false ↔
      ∃ t, s.Tokens.getLast? = some t ∧ t.TokenType = .CloseBracket := by
  unfold _IsLineClosed _GetLastToken
  constructor
  · intro h
    split at h
    · simp at h
    · split at h
      · rename_i hn
        simp_all
      · rename_i t ht
        exact ⟨t, ht, by simpa using h⟩
  · rintro ⟨t, ht, htc⟩
    have hne : s.Tokens ≠ [] := by
      intro h
      simp [h] at ht
    simp [hne, ht, htc]

theorem default_open_paren (E : Env) (s : Parser) (hc : s._GetNextChar.1 = '(') :
    ((s.CurrentString ≠ [] ∨
        ∃ t, s.Tokens.getLast? = some t ∧ t.TokenType = .CloseBracket) →
      (if s.CurrentString ≠ [] ∧ E.IsValidNumber s.CurrentString = true then
        _DefaultState E s = .halt
      else
        ∃ r, _DefaultState E s = .ok r ∧
          r.Tokens = s.Tokens ++
            (if s.CurrentString = [] then []
              else [{ TokenType := .VariableReference, Data := s.CurrentString }]) ++
            [{ TokenType := .FunctionCall, Data := s.CurrentString },
              { TokenType := .OpenBracket, Data := ['('] }] ∧
          r.CurrentState = .FunctionParamaters ∧
          r.BracketStack = s.BracketStack ∧
          r.CurrentTokenIndex = s.CurrentTokenIndex ∧ r.Buffer = s.Buffer)) ∧
    ((s.CurrentString = [] ∧
        ¬ ∃ t, s.Tokens.getLast? = some t ∧ t.TokenType = .CloseBracket) →
      ∃ r, _DefaultState E s = .ok r ∧
        r.Tokens = s.Tokens ++ [{ TokenType := .OpenBracket, Data := ['('] }] ∧
        r.BracketStack = s.BracketStack ++ ['('] ∧
        r.CurrentState = s.CurrentState ∧
        r.CurrentTokenIndex = s.CurrentTokenIndex + 1) := by
  have hne : s._GetNextChar.1 ≠ NUL := by rw [hc]; decide
  obtain ⟨hidx, -⟩ := getNext_index_of_ne_NUL s hne
  have hcl := isLineClosed_false_iff s._GetNextChar.2
  simp only [getNext_Tokens] at hcl
  constructor
  · intro h
    have hcond : s._GetNextChar.2.CurrentString ≠ [] ∨ s._GetNextChar.2._IsLineClosed = false := by
      rcases h with h | h
      · exact Or.inl (by simpa using h)
      · exact Or.inr (hcl.mpr h)
    unfold _DefaultState
    simp only [hc, if_true, if_pos hcond]
    by_cases hs : s.CurrentString = []
    · simp [hs, _PushToken, _Backtrack, hidx, subSizeT]
    · by_cases hv : E.IsValidNumber s.CurrentString = true
      · simp [hs, hv]
      · simp [hs, hv, _PushToken, _Backtrack, hidx, subSizeT]
  · rintro ⟨hs, hl⟩
    have hcond : ¬ (s._GetNextChar.2.CurrentString ≠ [] ∨
        s._GetNextChar.2._IsLineClosed = false) := by
      rintro (h | h)
      · exact h (by simpa using hs)
      · exact hl (hcl.mp h)
    unfold _DefaultState
    simp only [hc, if_true, if_neg hcond]
    simp [_PushToken, hidx]

/-- C3, amended: in the Default state, on reading `(`: if the accumulated lexeme
is non-empty or the last emitted token is a `CloseBracket`, the lexer (unless the
lexeme is a valid number, when it halts) emits the lexeme as `VariableReference`
(unless empty), emits `FunctionCall(lexeme)` and `OpenBracket("(")`, steps the
cursor back onto the `(` and enters the call-argument state; otherwise (empty
lexeme and no `CloseBracket` emitted last) it pushes `(` on the bracket stack
and emits `OpenBracket("(")`, staying in its state. -/
theorem C3_open_paren (E : Env) (s : Parser) (hc : s._GetNextChar.1 = '(') :
    ((s.CurrentString ≠ [] ∨
        ∃ t, s.Tokens.getLast? = some t ∧ t.TokenType = .CloseBracket) →
      (if s.CurrentString ≠ [] ∧ E.IsValidNumber s.CurrentString = true then
        _DefaultState E s = .halt
      else
        ∃ r, _DefaultState E s = .ok r ∧
          r.Tokens = s.Tokens ++
            (if s.CurrentString = [] then []
              else [{ TokenType := .VariableReference, Data := s.CurrentString }]) ++
            [{ TokenType := .FunctionCall, Data := s.CurrentString },
              { TokenType := .OpenBracket, Data := ['('] }] ∧
          r.CurrentState = .FunctionParamaters ∧
          r.BracketStack = s.BracketStack ∧
          r.CurrentTokenIndex = s.CurrentTokenIndex ∧ r.Buffer = s.Buffer)) ∧
    ((s.CurrentString = [] ∧
        ¬ ∃ t, s.Tokens.getLast? = some t ∧ t.TokenType = .CloseBracket) →
      ∃ r, _DefaultState E s = .ok r ∧
        r.Tokens = s.Tokens ++ [{ TokenType := .OpenBracket, Data := ['('] }] ∧
        r.BracketStack = s.BracketStack ++ ['('] ∧
        r.CurrentState = s.CurrentState ∧
        r.CurrentTokenIndex = s.CurrentTokenIndex + 1) :=
  default_open_paren E s hc

/-- C3, as stated, fails in both directions.  With an empty lexeme and `EndLine`
as the last emitted token (not a `CloseBracket`) no `FunctionCall` is emitted and
the call-argument state is not entered; with an empty lexeme and a `CloseBracket`
as the last emitted token nothing is pushed on the bracket stack and the
call-argument state is entered. -/
theorem C3_counterexample :
    (c3AfterEndLine._GetNextChar.1 = '(' ∧
      (c3AfterEndLine.CurrentString ≠ [] ∨
        c3AfterEndLine._GetLastToken.TokenType ≠ .CloseBracket) ∧
      ∃ r, _DefaultState specEnv c3AfterEndLine = .ok r ∧
        r.CurrentState ≠ .FunctionParamaters ∧
        ∀ t ∈ r.Tokens, t.TokenType ≠ .FunctionCall) ∧
    (c3AfterClose._GetNextChar.1 = '(' ∧
      (c3AfterClose.CurrentString = [] ∧
        c3AfterClose._GetLastToken.TokenType = .CloseBracket) ∧
      ∃ r, _DefaultState specEnv c3AfterClose = .ok r ∧
        r.BracketStack = [] ∧ r.CurrentState = .FunctionParamaters) := by
  refine ⟨⟨by decide!, by decide!,
      ⟨[tk .EndLine "", tk .OpenBracket "("], "(".toList, 1, 0, .Default, [], ['(']⟩,
      by decide!, by decide!, by decide!⟩,
    ⟨by decide!, by decide!,
      ⟨[tk .VariableReference "f", tk .FunctionCall "f", tk .OpenBracket "(",
        tk .CloseBracket ")", tk .FunctionCall "", tk .OpenBracket "("], "f()(".toList, 3, 0,
        .FunctionParamaters, [], []⟩, by decide!, by decide!, by decide!⟩⟩

theorem C3_open_paren_witness :
    (∃ r, _DefaultState specEnv c3AfterName = .ok r ∧
      r.Tokens = [tk .VariableReference "f", tk .FunctionCall "f", tk .OpenBracket "("] ∧
      r.CurrentState = .FunctionParamaters) ∧
    (∃ r, _DefaultState specEnv c3AfterEndLine = .ok r ∧
      r.Tokens = [tk .EndLine "", tk .OpenBracket "("] ∧ r.BracketStack = ['(']) := by
  constructor
  · have h := (C3_open_paren specEnv c3AfterName (by decide!)).1 (Or.inl (by decide!))
    rw [if_neg (by decide!)] at h
    obtain ⟨r, h1, h2, h3, -⟩ := h
    exact ⟨r, h1, by rw [h2]; decide!, h3⟩
  · have h := (C3_open_paren specEnv c3AfterEndLine (by decide!)).2 ⟨by decide!, by decide!⟩
    obtain ⟨r, h1, h2, h3, -⟩ := h
    exact ⟨r, h1, by rw [h2]; decide!, by rw [h3]; decide!⟩

/-! ## The indentation scan -/

theorem OnlyCursor.cursor_refl (s : Parser) : OnlyCursor s s := rfl

theorem OnlyCursor.cursor_trans {a b c : Parser} (h1 : OnlyCursor a b) (h2 : OnlyCursor b c) :
    OnlyCursor a c := by
  unfold OnlyCursor at *
  rw [h2, h1]

theorem OnlyCursor.getNext (s : Parser) : OnlyCursor s s._GetNextChar.2 := by
  unfold OnlyCursor _GetNextChar
  split <;> rfl

theorem spaces_onlyCursor (m : Nat) (c : Char) (j : Nat) (s : Parser) :
    OnlyCursor s (_IndentationState.spaces m c j s).2.2 := by
  induction m generalizing c j s with
  | zero => exact OnlyCursor.cursor_refl s
  | succ m ih =>
    unfold _IndentationState.spaces
    split
    · exact (OnlyCursor.getNext s).cursor_trans (ih _ _ _)
    · exact OnlyCursor.cursor_refl s

theorem count_onlyCursor (n : Nat) (c : Char) (k : Nat) (s : Parser) :
    (_IndentationState.count n c k s).Sat (fun r => OnlyCursor s r.2) := by
  induction n generalizing c k s with
  | zero => simp [_IndentationState.count]
  | succ n ih =>
    unfold _IndentationState.count
    split
    · exact (ih _ _ _).mono fun r hr => (OnlyCursor.getNext s).cursor_trans hr
    · have n1 : OnlyCursor s
          (if c = ' ' then _IndentationState.spaces 3 c 1 s else (c, 0, s)).2.2 := by
        split
        · exact spaces_onlyCursor _ _ _ _
        · exact OnlyCursor.cursor_refl s
      try simp only []
      generalize (if c = ' ' then _IndentationState.spaces 3 c 1 s else (c, 0, s)) = q at n1
      split
      · exact (ih _ _ _).mono fun r hr => n1.cursor_trans hr
      · simp only [Res.Sat_ok]
        exact n1

theorem scan_onlyCursor (s : Parser) :
    (_IndentationState.scan s).Sat (fun r => OnlyCursor s r.2) := by
  unfold _IndentationState.scan
  refine (count_onlyCursor _ _ _ _).mono fun r hr => OnlyCursor.cursor_trans ?_ hr
  split
  · exact (OnlyCursor.getNext s).cursor_trans (OnlyCursor.getNext _)
  · exact OnlyCursor.getNext s

theorem rest_getNext_le (s : Parser) : restLen s._GetNextChar.2 ≤ restLen s := by
  unfold restLen _GetNextChar
  split <;> simp <;> omega

theorem rest_getNext_lt (s : Parser) (h : s._GetNextChar.1 ≠ NUL) :
    restLen s._GetNextChar.2 + 1 ≤ restLen s := by
  unfold restLen
  obtain ⟨h1, h2⟩ := getNext_index_of_ne_NUL s h
  rw [h1]
  simp
  omega

theorem spaces_three (s : Parser) :
    _IndentationState.spaces 3 ' ' 1 s =
      if s._GetNextChar.1 = ' ' then
        if s._GetNextChar.2._GetNextChar.1 = ' ' then
          (s._GetNextChar.2._GetNextChar.2._GetNextChar.1, 4,
            s._GetNextChar.2._GetNextChar.2._GetNextChar.2)
        else (s._GetNextChar.2._GetNextChar.1, 3, s._GetNextChar.2._GetNextChar.2)
      else (s._GetNextChar.1, 2, s._GetNextChar.2) := by
  simp only [_IndentationState.spaces]
  split_ifs <;> simp_all

theorem spaces_progress (s : Parser)
    (h : (_IndentationState.spaces 3 ' ' 1 s).2.1 = 4) :
    restLen (_IndentationState.spaces 3 ' ' 1 s).2.2 +
        (if (_IndentationState.spaces 3 ' ' 1 s).1 = NUL then 0 else 1) ≤ restLen s := by
  have hsp : (' ' : Char) ≠ NUL := by decide
  rw [spaces_three] at h ⊢
  by_cases h1 : s._GetNextChar.1 = ' '
  · by_cases h2 : s._GetNextChar.2._GetNextChar.1 = ' '
    · simp only [h1, h2, if_true]
      have a1 := rest_getNext_lt s (by rw [h1]; exact hsp)
      have a2 := rest_getNext_lt s._GetNextChar.2 (by rw [h2]; exact hsp)
      have a3 := rest_getNext_le s._GetNextChar.2._GetNextChar.2
      split
      · omega
      · rename_i hn
        have a4 := rest_getNext_lt s._GetNextChar.2._GetNextChar.2 hn
        omega
    · simp [h1, h2] at h
  · simp [h1] at h

theorem count_total (n : Nat) (c : Char) (k : Nat) (s : Parser)
    (h : restLen s + (if c = NUL then 0 else 1) < n) :
    ∃ r, _IndentationState.count n c k s = .ok r := by
  induction n generalizing c k s with
  | zero => omega
  | succ n ih =>
    unfold _IndentationState.count
    split
    · rename_i hc
      have hc' : c ≠ NUL := by rw [hc]; decide
      rw [if_neg hc'] at h
      apply ih
      have a1 := rest_getNext_le s
      split
      · omega
      · rename_i hn
        have := rest_getNext_lt s hn
        omega
    · by_cases hsp : c = ' '
      · subst hsp
        simp only [if_true]
        split
        · rename_i h4
          apply ih
          have := spaces_progress s h4
          have hc' : (' ' : Char) ≠ NUL := by decide
          rw [if_neg hc'] at h
          omega
        · exact ⟨_, rfl⟩
      · simp [hsp]

theorem scan_total (s : Parser) : ∃ r, _IndentationState.scan s = .ok r := by
  unfold _IndentationState.scan
  apply count_total
  have hb : ∀ q : Parser, restLen q ≤ q.Buffer.length := fun q => by unfold restLen; omega
  unfold loopFuel
  by_cases h : s._GetNextChar.1 = '\n'
  · simp only [h, if_true]
    have := hb s._GetNextChar.2._GetNextChar.2
    split <;> omega
  · simp only [h, if_false]
    have := hb s._GetNextChar.2
    split <;> omega

theorem OnlyCursor.fields {s r : Parser} (h : OnlyCursor s r) :
    r.Tokens = s.Tokens ∧ r.Buffer = s.Buffer ∧ r.Indents = s.Indents ∧
      r.CurrentState = s.CurrentState ∧ r.CurrentString = s.CurrentString ∧
      r.BracketStack = s.BracketStack := by
  unfold OnlyCursor at h
  rw [h]
  exact ⟨rfl, rfl, rfl, rfl, rfl, rfl⟩

theorem indentation_result (s : Parser) :
    ∃ localIndents s1 r,
      _IndentationState.scan s = .ok (localIndents, s1) ∧
      _IndentationState s = .ok r ∧
      r.Tokens = s.Tokens ++
        (if localIndents > s.Indents then [{ TokenType := .StartIndentation, Data := [] }]
          else List.replicate (s.Indents - localIndents)
            { TokenType := .EndIndentation, Data := [] }) ∧
      r.Indents = localIndents ∧ r.CurrentString = s.CurrentString ∧ r.Buffer = s.Buffer ∧
      r.CurrentState = .Default ∧ r.BracketStack = s.BracketStack := by
  obtain ⟨⟨l, s1⟩, hscan⟩ := scan_total s
  have hoc := scan_onlyCursor s
  rw [hscan] at hoc
  obtain ⟨ht, hb, hi, -, hcs, hbs⟩ := OnlyCursor.fields hoc
  simp only [] at ht hi hb hcs hbs
  have hr : ∃ r, _IndentationState s = .ok r ∧
      r = ({ closeIndents l (if l > s1.Indents then
              { s1._PushToken .StartIndentation [] with Indents := l } else s1) with
            CurrentState := .Default } : Parser)._Backtrack := by
    unfold _IndentationState
    rw [hscan]
    exact ⟨_, rfl, rfl⟩
  obtain ⟨r, hr1, hr2⟩ := hr
  refine ⟨l, s1, r, hscan, hr1, ?_, ?_, ?_, ?_, ?_, ?_⟩
  · subst hr2
    by_cases h : l > s.Indents
    · simp [h, closeIndents, _PushToken, hi, ht]
    · simp [h, closeIndents, hi, ht]
  · subst hr2
    by_cases h : l > s.Indents
    · simp [h, closeIndents, hi]
    · simp [h, closeIndents, hi]
      omega
  · subst hr2
    by_cases h : l > s.Indents <;> simp [h, closeIndents, hi, hcs, _PushToken]
  · subst hr2
    by_cases h : l > s.Indents <;> simp [h, closeIndents, hi, hb, _PushToken]
  · subst hr2
    rfl
  · subst hr2
    by_cases h : l > s.Indents <;> simp [h, closeIndents, hi, hbs, _PushToken]

/-- C8: the Indentation state always returns; with `localIndents` the units its
scan counts and `current` the indent counter, it emits exactly one
`StartIndentation` if `localIndents > current`, exactly `current - localIndents`
`EndIndentation` tokens otherwise (none when they are equal), and leaves the
counter at `localIndents`.  Lines indented by 4 spaces, 8 spaces and 0 give a
`StartIndentation` at the first rise and two `EndIndentation` at the dedent. -/
theorem C8_indentation_tokens :
    (∀ s : Parser, ∃ localIndents s1 r,
      _IndentationState.scan s = .ok (localIndents, s1) ∧
      _IndentationState s = .ok r ∧
      r.Tokens = s.Tokens ++
        (if localIndents > s.Indents then [{ TokenType := .StartIndentation, Data := [] }]
          else List.replicate (s.Indents - localIndents)
            { TokenType := .EndIndentation, Data := [] }) ∧
      r.Indents = localIndents) ∧
    (CreateTokensFromFile specEnv 64 "a:\n    b\n        c\nd".toList).tokens =
      some [tk .VariableReference "a", tk .StartIndentation "", tk .VariableReference "b",
        tk .EndLine "", tk .StartIndentation "", tk .VariableReference "c", tk .EndLine "",
        tk .EndIndentation "", tk .EndIndentation "", tk .VariableReference "d",
        tk .EndLine ""] := by
  refine ⟨fun s => ?_, by decide!⟩
  obtain ⟨l, s1, r, h1, h2, h3, h4, -⟩ := indentation_result s
  exact ⟨l, s1, r, h1, h2, h3, h4⟩

theorem default_close_paren (E : Env) (s : Parser) (hc : s._GetNextChar.1 = ')')
    (hv : E.IsVarNameChar ')' = false) (ho : E.OperatorMap (Str ')') = none)
    (hb : s.BracketStack ≠ [] ∧ s.BracketStack.getLast? = some '(') :
    _DefaultState E s = .ok
      (({ (if s.CurrentString = [] then s._GetNextChar.2
            else { s._GetNextChar.2._PushToken .VariableReference s.CurrentString with
                    CurrentString := [] }) with
          BracketStack := s.BracketStack.dropLast } : Parser)._PushToken .CloseBracket [')']) := by
  have h1 : ¬ isdigit ')' = true := by decide
  have h2 : ¬ (')' = '(') := by decide
  have h3 : ¬ (')' = '"') := by decide
  have h4 : ¬ (')' = '\'') := by decide
  have h5 : ¬ (')' = ':' ∨ ')' = '\n') := by decide
  have h6 : ¬ (')' = '[') := by decide
  have h7 : ¬ (')' = '*' ∨ ')' = '&') := by decide
  unfold _DefaultState
  simp only [hc, h1, h2, h3, h4, if_false, false_and, Res.bind_ok, hv, Bool.false_eq_true]
  by_cases hs : s.CurrentString = []
  · have hs' : s._GetNextChar.2.CurrentString = [] := by simpa using hs
    simp [hs, hs', _DefaultState.rest, h5, h6, ho, hb]
  · have hs' : s._GetNextChar.2.CurrentString ≠ [] := by simpa using hs
    simp [hs, hs', _DefaultState.rest, h5, h6, h7, ho, hb]

/-! ## Hexadecimal and binary literals -/

theorem getNext_at (s : Parser) (pre : List Char) (c : Char) (rest : List Char)
    (hb : s.Buffer = pre ++ c :: rest) (hi : s.CurrentTokenIndex = pre.length) :
    s._GetNextChar = (c, { s with CurrentTokenIndex := pre.length + 1 }) := by
  unfold _GetNextChar
  rw [hb, hi]
  have e : (pre ++ c :: rest)[pre.length]? = some c := by
    rw [List.getElem?_append_right (le_refl _)]
    simp
  simp [List.getD_eq_getElem?_getD, e]

theorem foldl_digits (b : Nat) (v : Char → Nat) (h : List Char) (a : Nat) :
    h.foldl (fun acc c => b * acc + v c) a =
      a * b ^ h.length + Nat.ofDigits b (h.map v).reverse := by
  induction h generalizing a with
  | nil => simp
  | cons d h ih =>
    rw [List.foldl_cons, ih, List.map_cons, List.reverse_cons, Nat.ofDigits_append]
    simp [Nat.ofDigits_singleton, pow_succ]
    ring

theorem isHexChar_not_space (d : Char) (h : isHexChar d = true) : isspace d = false := by
  simp only [isHexChar, Bool.or_eq_true, decide_eq_true_eq] at h
  rcases h with (((((((((((((((((((((h|h)|h)|h)|h)|h)|h)|h)|h)|h)|h)|h)|h)|h)|h)|h)|h)|h)|h)|h)|h)|h) <;>
    (subst h; decide)

theorem isBinChar_hex (d : Char) (h : isBinChar d = true) : isHexChar d = true := by
  simp only [isBinChar, Bool.or_eq_true, decide_eq_true_eq] at h
  rcases h with h | h <;> (subst h; decide)

theorem hexLoop_run (E : Env) (t : Char) (rest : List Char)
    (ht : isspace t = true ∨ (E.OperatorMap (Str t)).isSome = true) :
    ∀ (h pre : List Char) (s : Parser) (n : Nat),
      (∀ d ∈ h, isHexChar d = true ∧ E.OperatorMap (Str d) = none) →
      s.Buffer = pre ++ (h ++ t :: rest) → s.CurrentTokenIndex = pre.length →
      h.length + 1 ≤ n →
      _ParseHexLiteral.loop E n s._GetNextChar.1 s._GetNextChar.2 =
        .ok (t, { s with CurrentString := s.CurrentString ++ h,
                         CurrentTokenIndex := pre.length + h.length + 1 }) := by
  intro h
  induction h with
  | nil =>
    intro pre s n _ hb hi hn
    rw [getNext_at s pre t rest (by simpa using hb) hi]
    obtain ⟨m, rfl⟩ : ∃ m, n = m + 1 := ⟨n - 1, by omega⟩
    unfold _ParseHexLiteral.loop
    have hc : (!isspace t && !(E.OperatorMap (Str t)).isSome) = false := by
      rcases ht with ht | ht <;> simp [ht]
    simp only [hc, Bool.false_eq_true, if_false]
    simp
  | cons d h ih =>
    intro pre s n hd hb hi hn
    rw [getNext_at s pre d (h ++ t :: rest) (by simpa using hb) hi]
    obtain ⟨m, rfl⟩ : ∃ m, n = m + 1 := ⟨n - 1, by omega⟩
    obtain ⟨hd1, hd2⟩ := hd d (by simp)
    unfold _ParseHexLiteral.loop
    have hc : (!isspace d && !(E.OperatorMap (Str d)).isSome) = true := by
      simp [isHexChar_not_space d hd1, hd2]
    simp only [hc, hd1, if_true]
    rw [ih (pre ++ [d]) _ m (fun x hx => hd x (by simp [hx])) (by simpa using hb) (by simp)
      (by simp at hn ⊢; omega)]
    simp
    omega

theorem binLoop_run (E : Env) (t : Char) (rest : List Char)
    (ht : isspace t = true ∨ (E.OperatorMap (Str t)).isSome = true) :
    ∀ (h pre : List Char) (s : Parser) (n : Nat),
      (∀ d ∈ h, isBinChar d = true ∧ E.OperatorMap (Str d) = none) →
      s.Buffer = pre ++ (h ++ t :: rest) → s.CurrentTokenIndex = pre.length →
      h.length + 1 ≤ n →
      _ParseBinaryLiteral.loop E n s._GetNextChar.1 s._GetNextChar.2 =
        .ok (t, { s with CurrentString := s.CurrentString ++ h,
                         CurrentTokenIndex := pre.length + h.length + 1 }) := by
  intro h
  induction h with
  | nil =>
    intro pre s n _ hb hi hn
    rw [getNext_at s pre t rest (by simpa using hb) hi]
    obtain ⟨m, rfl⟩ : ∃ m, n = m + 1 := ⟨n - 1, by omega⟩
    unfold _ParseBinaryLiteral.loop
    have hc : (!isspace t && !(E.OperatorMap (Str t)).isSome) = false := by
      rcases ht with ht | ht <;> simp [ht]
    simp only [hc, Bool.false_eq_true, if_false]
    simp
  | cons d h ih =>
    intro pre s n hd hb hi hn
    rw [getNext_at s pre d (h ++ t :: rest) (by simpa using hb) hi]
    obtain ⟨m, rfl⟩ : ∃ m, n = m + 1 := ⟨n - 1, by omega⟩
    obtain ⟨hd1, hd2⟩ := hd d (by simp)
    unfold _ParseBinaryLiteral.loop
    have hc : (!isspace d && !(E.OperatorMap (Str d)).isSome) = true := by
      simp [isHexChar_not_space d (isBinChar_hex d hd1), hd2]
    simp only [hc, hd1, if_true]
    rw [ih (pre ++ [d]) _ m (fun x hx => hd x (by simp [hx])) (by simpa using hb) (by simp)
      (by simp at hn ⊢; omega)]
    simp
    omega

theorem parseHex_run (E : Env) (t : Char) (rest h pre : List Char) (s : Parser)
    (ht : isspace t = true ∨ (E.OperatorMap (Str t)).isSome = true)
    (hh : ∀ d ∈ h, isHexChar d = true ∧ E.OperatorMap (Str d) = none)
    (hb : s.Buffer = pre ++ (h ++ t :: rest)) (hi : s.CurrentTokenIndex = pre.length) :
    ∃ r, _ParseHexLiteral E s = .ok r ∧
      r.Tokens = s.Tokens ++
        [{ TokenType := .RValueNumber, Data := to_string (HexStringToInteger E.intBits h) }] := by
  unfold _ParseHexLiteral
  simp only []
  rw [hexLoop_run E t rest ht h pre { s with CurrentString := [] } _ hh hb hi
    (by simp [loopFuel, hb]; omega)]
  simp only [Res.bind_ok]
  refine ⟨_, rfl, ?_⟩
  split <;> simp [_PushToken]

theorem parseBin_run (E : Env) (t : Char) (rest h pre : List Char) (s : Parser)
    (ht : isspace t = true ∨ (E.OperatorMap (Str t)).isSome = true)
    (hh : ∀ d ∈ h, isBinChar d = true ∧ E.OperatorMap (Str d) = none)
    (hb : s.Buffer = pre ++ (h ++ t :: rest)) (hi : s.CurrentTokenIndex = pre.length) :
    ∃ r, _ParseBinaryLiteral E s = .ok r ∧
      r.Tokens = s.Tokens ++
        [{ TokenType := .RValueNumber,
           Data := to_string (BinaryStringToInteger E.intBits h) }] := by
  unfold _ParseBinaryLiteral
  simp only []
  rw [binLoop_run E t rest ht h pre { s with CurrentString := [] } _ hh hb hi
    (by simp [loopFuel, hb]; omega)]
  simp only [Res.bind_ok]
  refine ⟨_, rfl, ?_⟩
  split <;> simp [_PushToken]

theorem default_zero_lead (E : Env) (x : Char) (pre tail : List Char) (s : Parser)
    (hx : x = 'x' ∨ x = 'b')
    (hb : s.Buffer = pre ++ '0' :: x :: tail) (hi : s.CurrentTokenIndex = pre.length)
    (hs : s.CurrentString = []) :
    _DefaultState E s =
      (if x = 'b' then _ParseBinaryLiteral E else _ParseHexLiteral E)
        { s with CurrentString := ['0'], CurrentTokenIndex := pre.length + 2 } := by
  have g1 := getNext_at s pre '0' (x :: tail) hb hi
  have g2 := getNext_at
    ({ s with CurrentTokenIndex := pre.length + 1, CurrentString := ['0'] } : Parser)
    (pre ++ ['0']) x tail (by simpa using hb) (by simp)
  have h1 : isdigit '0' = true := by decide
  have h2 : ¬ ('0' = '(') := by decide
  have h3 : ¬ ('0' = '"') := by decide
  have h4 : ¬ ('0' = '\'') := by decide
  have hxn : x ≠ NUL := by rcases hx with rfl | rfl <;> decide
  unfold _DefaultState
  simp only [g1, h1, h2, h3, h4, if_false, Res.bind_ok, hs, true_and, if_true, List.nil_append]
  unfold _ParseNumber
  simp only [g2, hxn, if_false]
  rcases hx with rfl | rfl
  · simp
  · simp

/-- C2: in the Default state with nothing accumulated, on the text `0x` followed
by hexadecimal digits `h` (resp. `0b` followed by binary digits `b`), none of them
an operator key, and then a whitespace or operator character, the lexer returns
having emitted exactly one `RValueNumber` whose data is the decimal text of the
value of `h` in base 16 (resp. of `b` in base 2), when that value fits the integer
of the converter; the file `y = 0xFF\ny = 0b1010\n` gives `255` and `10`. -/
theorem C2_hex_and_binary_literals :
    (∀ (E : Env) (s : Parser) (pre h rest : List Char) (t : Char),
      s.Buffer = pre ++ '0' :: 'x' :: (h ++ t :: rest) → s.CurrentTokenIndex = pre.length →
      s.CurrentString = [] →
      (∀ d ∈ h, isHexChar d = true ∧ E.OperatorMap (Str d) = none) →
      (isspace t = true ∨ (E.OperatorMap (Str t)).isSome = true) →
      Nat.ofDigits 16 (h.map hexDigitValue).reverse < 2 ^ E.intBits →
      ∃ r, _DefaultState E s = .ok r ∧
        r.Tokens = s.Tokens ++
          [{ TokenType := .RValueNumber,
             Data := Nat.toDigits 10 (Nat.ofDigits 16 (h.map hexDigitValue).reverse) }]) ∧
    (∀ (E : Env) (s : Parser) (pre b rest : List Char) (t : Char),
      s.Buffer = pre ++ '0' :: 'b' :: (b ++ t :: rest) → s.CurrentTokenIndex = pre.length →
      s.CurrentString = [] →
      (∀ d ∈ b, isBinChar d = true ∧ E.OperatorMap (Str d) = none) →
      (isspace t = true ∨ (E.OperatorMap (Str t)).isSome = true) →
      Nat.ofDigits 2 (b.map fun c => if c = '1' then 1 else 0).reverse < 2 ^ E.intBits →
      ∃ r, _DefaultState E s = .ok r ∧
        r.Tokens = s.Tokens ++
          [{ TokenType := .RValueNumber,
             Data := Nat.toDigits 10
              (Nat.ofDigits 2 (b.map fun c => if c = '1' then 1 else 0).reverse) }]) ∧
    (CreateTokensFromFile specEnv 64 "y = 0xFF\ny = 0b1010\n".toList).tokens =
      some [tk .VariableReference "y", tk .Assign "=", tk .RValueNumber "255", tk .EndLine "",
        tk .VariableReference "y", tk .Assign "=", tk .RValueNumber "10", tk .EndLine "",
        tk .EndLine ""] := by
  refine ⟨?_, ?_, by decide!⟩
  · intro E s pre h rest t hb hi hs hh ht hfit
    rw [default_zero_lead E 'x' pre (h ++ t :: rest) s (Or.inl rfl) hb hi hs]
    rw [if_neg (by decide)]
    obtain ⟨r, hr, hrt⟩ := parseHex_run E t rest h (pre ++ ['0', 'x'])
      { s with CurrentString := ['0'], CurrentTokenIndex := pre.length + 2 } ht hh
      (by simpa using hb) (by simp)
    refine ⟨r, hr, ?_⟩
    rw [hrt]
    simp only [to_string, HexStringToInteger, foldl_digits, zero_mul, zero_add,
      Nat.mod_eq_of_lt hfit]
  · intro E s pre b rest t hb hi hs hh ht hfit
    rw [default_zero_lead E 'b' pre (b ++ t :: rest) s (Or.inr rfl) hb hi hs]
    rw [if_pos rfl]
    obtain ⟨r, hr, hrt⟩ := parseBin_run E t rest b (pre ++ ['0', 'b'])
      { s with CurrentString := ['0'], CurrentTokenIndex := pre.length + 2 } ht hh
      (by simpa using hb) (by simp)
    refine ⟨r, hr, ?_⟩
    rw [hrt]
    simp only [to_string, BinaryStringToInteger, foldl_digits, zero_mul, zero_add,
      Nat.mod_eq_of_lt hfit]

theorem C2_hex_and_binary_literals_witness :
    (∃ r, _DefaultState specEnv ⟨[], "0xFF ".toList, 0, 0, .Default, [], []⟩ = .ok r ∧
      r.Tokens = [tk .RValueNumber "255"]) ∧
    (∃ r, _DefaultState specEnv ⟨[], "0b1010+".toList, 0, 0, .Default, [], []⟩ = .ok r ∧
      r.Tokens = [tk .RValueNumber "10"]) := by
  constructor
  · obtain ⟨r, hr, ht⟩ := C2_hex_and_binary_literals.1 specEnv
      ⟨[], "0xFF ".toList, 0, 0, .Default, [], []⟩ [] "FF".toList [] ' '
      (by decide!) (by decide!) (by decide!) (by decide!) (by decide!) (by decide!)
    exact ⟨r, hr, by rw [ht]; decide!⟩
  · obtain ⟨r, hr, ht⟩ := C2_hex_and_binary_literals.2.1 specEnv
      ⟨[], "0b1010+".toList, 0, 0, .Default, [], []⟩ [] "1010".toList [] '+'
      (by decide!) (by decide!) (by decide!) (by decide!) (by decide!) (by decide!)
    exact ⟨r, hr, by rw [ht]; decide!⟩

/-! ## Files of blanks -/

theorem getNext_mem (s : Parser) (h : s.CurrentTokenIndex < s.Buffer.length) :
    s._GetNextChar.1 ∈ s.Buffer := by
  unfold _GetNextChar
  rw [if_pos h]
  simp only [List.getD_eq_getElem?_getD, List.getElem?_eq_getElem h, Option.getD_some]
  exact List.getElem_mem h

theorem default_blank (E : Env) (s : Parser) (hc : s._GetNextChar.1 = ' ' ∨ s._GetNextChar.1 = '\t')
    (hv : E.IsVarNameChar s._GetNextChar.1 = false)
    (ho : E.OperatorMap (Str s._GetNextChar.1) = none) (hs : s.CurrentString = []) :
    _DefaultState E s = .ok s._GetNextChar.2 := by
  have hs' : s._GetNextChar.2.CurrentString = [] := by simpa using hs
  unfold _DefaultState
  rcases hc with hc | hc
  · have h1 : ¬ isdigit ' ' = true := by decide
    have h2 : ¬ (' ' = '(') := by decide
    have h3 : ¬ (' ' = '"') := by decide
    have h4 : ¬ (' ' = '\'') := by decide
    have h5 : ¬ (' ' = ':' ∨ ' ' = '\n') := by decide
    have h6 : ¬ (' ' = '[') := by decide
    have h7 : ¬ (' ' = ')') := by decide
    rw [hc] at hv ho
    simp only [hc, h1, h2, h3, h4, if_false, false_and, Res.bind_ok, hv, Bool.false_eq_true]
    simp [hs, hs', _DefaultState.rest, h5, h6, h7, ho]
  · have h1 : ¬ isdigit '\t' = true := by decide
    have h2 : ¬ ('\t' = '(') := by decide
    have h3 : ¬ ('\t' = '"') := by decide
    have h4 : ¬ ('\t' = '\'') := by decide
    have h5 : ¬ ('\t' = ':' ∨ '\t' = '\n') := by decide
    have h6 : ¬ ('\t' = '[') := by decide
    have h7 : ¬ ('\t' = ')') := by decide
    rw [hc] at hv ho
    simp only [hc, h1, h2, h3, h4, if_false, false_and, Res.bind_ok, hv, Bool.false_eq_true]
    simp [hs, hs', _DefaultState.rest, h5, h6, h7, ho]

theorem blank_dispatch (E : Env) (hE : E.BlankOK) (run : Parser → Res Parser) (s : Parser)
    (h : BlankRun s) (hlt : s.CurrentTokenIndex < s.Buffer.length) :
    (dispatch E run s).Sat BlankRun := by
  obtain ⟨hs, hst, hb, ht⟩ := h
  rcases hst with hst | hst
  · -- the Default state
    have hd : dispatch E run s = _DefaultState E s := by unfold dispatch; rw [hst]
    rw [hd]
    have hmem := hb _ (getNext_mem s hlt)
    rcases hmem with hc | hc | hc
    · rw [default_blank E s (Or.inl hc) (hE _ (Or.inl hc)).1 (hE _ (Or.inl hc)).2 hs]
      simp only [Res.Sat_ok]
      exact ⟨by simpa using hs, Or.inl (by simpa using hst), by simpa using hb,
        by simpa using ht⟩
    · rw [default_blank E s (Or.inr hc) (hE _ (Or.inr (Or.inl hc))).1
        (hE _ (Or.inr (Or.inl hc))).2 hs]
      simp only [Res.Sat_ok]
      exact ⟨by simpa using hs, Or.inl (by simpa using hst), by simpa using hb,
        by simpa using ht⟩
    · rw [default_newline E s hc hs]
      simp only [Res.Sat_ok]
      refine ⟨?_, Or.inr ?_, ?_, ?_⟩
      · split <;> simp
      · split <;> simp
      · split <;> simpa using hb
      · split
        · intro t htm
          simp only [push_Tokens, getNext_Tokens, List.mem_append, List.mem_singleton] at htm
          rcases htm with htm | rfl
          · exact ht t htm
          · exact Or.inl rfl
        · simpa using ht
  · -- the Indentation state
    have hd : dispatch E run s = _IndentationState s := by unfold dispatch; rw [hst]
    rw [hd]
    obtain ⟨l, s1, r, -, h2, h3, -, h5, h6, h7, -⟩ := indentation_result s
    rw [h2]
    simp only [Res.Sat_ok]
    refine ⟨by rw [h5, hs], Or.inl h7, by rw [h6]; exact hb, ?_⟩
    intro t htm
    rw [h3, List.mem_append] at htm
    rcases htm with htm | htm
    · exact ht t htm
    · split at htm
      · simp only [List.mem_singleton] at htm
        subst htm
        exact Or.inr (Or.inl rfl)
      · have := List.eq_of_mem_replicate htm
        subst this
        exact Or.inr (Or.inr rfl)

theorem blank_mainLoop (E : Env) (hE : E.BlankOK) (run : Parser → Res Parser) (n : Nat)
    (s : Parser) (h : BlankRun s) : (mainLoop (dispatch E run) n s).Sat BlankRun := by
  induction n generalizing s with
  | zero => simp [mainLoop]
  | succ n ih =>
    unfold mainLoop
    split
    · rename_i hlt
      exact (blank_dispatch E hE run s h hlt).bind fun r hr => ih r hr
    · simpa using h

theorem getNext_mem_or (s : Parser) : s._GetNextChar.1 ∈ s.Buffer ∨ s._GetNextChar.1 = NUL := by
  by_cases h : s.CurrentTokenIndex < s.Buffer.length
  · exact Or.inl (getNext_mem s h)
  · right
    unfold _GetNextChar
    rw [if_neg h]

theorem count_zero (n : Nat) (c : Char) (k : Nat) (s : Parser) (h1 : c ≠ '\t') (h2 : c ≠ ' ') :
    _IndentationState.count (n + 1) c k s = .ok (k, s) := by
  unfold _IndentationState.count
  simp [h1, h2]

theorem scan_newlines (s : Parser) (hb : ∀ c ∈ s.Buffer, c = '\n') :
    ∃ s1, _IndentationState.scan s = .ok (0, s1) := by
  have key : ∀ q : Parser, q.Buffer = s.Buffer →
      q._GetNextChar.1 ≠ '\t' ∧ q._GetNextChar.1 ≠ ' ' := by
    intro q hq
    rcases getNext_mem_or q with h | h
    · rw [hq] at h
      rw [hb _ h]
      exact ⟨by decide, by decide⟩
    · rw [h]
      exact ⟨by decide, by decide⟩
  unfold _IndentationState.scan
  by_cases h : s._GetNextChar.1 = '\n'
  · simp only [h, if_true]
    obtain ⟨k1, k2⟩ := key s._GetNextChar.2 (by simp)
    exact ⟨_, count_zero _ _ _ _ k1 k2⟩
  · simp only [h, if_false]
    obtain ⟨k1, k2⟩ := key s rfl
    exact ⟨_, count_zero _ _ _ _ k1 k2⟩

theorem newline_dispatch (E : Env) (run : Parser → Res Parser) (s : Parser)
    (h : NewlineRun s) (hlt : s.CurrentTokenIndex < s.Buffer.length) :
    (dispatch E run s).Sat NewlineRun := by
  obtain ⟨hs, hst, hb, ht, hi⟩ := h
  rcases hst with hst | hst
  · have hd : dispatch E run s = _DefaultState E s := by unfold dispatch; rw [hst]
    rw [hd, default_newline E s (hb _ (getNext_mem s hlt)) hs]
    simp only [Res.Sat_ok]
    refine ⟨?_, Or.inr ?_, ?_, ?_, ?_⟩
    · split <;> simp
    · split <;> simp
    · split <;> simpa using hb
    · split
      · intro t htm
        simp only [push_Tokens, getNext_Tokens, List.mem_append, List.mem_singleton] at htm
        rcases htm with htm | rfl
        · exact ht t htm
        · rfl
      · simpa using ht
    · split <;> simpa using hi
  · have hd : dispatch E run s = _IndentationState s := by unfold dispatch; rw [hst]
    rw [hd]
    obtain ⟨l, s1, r, h1, h2, h3, h4, h5, h6, h7, -⟩ := indentation_result s
    obtain ⟨s1', h1'⟩ := scan_newlines s hb
    have hl : l = 0 := by
      rw [h1] at h1'
      simp only [Res.ok.injEq, Prod.mk.injEq] at h1'
      exact h1'.1
    subst hl
    rw [h2]
    simp only [Res.Sat_ok]
    refine ⟨by rw [h5, hs], Or.inl h7, by rw [h6]; exact hb, ?_, h4⟩
    rw [h3, hi]
    simpa using ht

theorem newline_mainLoop (E : Env) (run : Parser → Res Parser) (n : Nat)
    (s : Parser) (h : NewlineRun s) : (mainLoop (dispatch E run) n s).Sat NewlineRun := by
  induction n generalizing s with
  | zero => simp [mainLoop]
  | succ n ih =>
    unfold mainLoop
    split
    · rename_i hlt
      exact (newline_dispatch E run s h hlt).bind fun r hr => ih r hr
    · simpa using h

theorem run_of_ok (E : Env) (fuel : Nat) (content : List Char) (r : Parser)
    (h : CreateTokensFromFile E fuel content = .ok r) :
    ∃ n q, mainLoop (dispatch E (ParseProgram E n)) n
        ⟨[], content ++ ['\n'], 0, 0, .Default, [], []⟩ = .ok q ∧ r = unwindIndents q := by
  cases fuel with
  | zero => simp [CreateTokensFromFile, ParseProgram] at h
  | succ fuel =>
    have e : CreateTokensFromFile E (fuel + 1) content =
        (mainLoop (dispatch E (ParseProgram E fuel)) fuel
          ⟨[], content ++ ['\n'], 0, 0, .Default, [], []⟩).bind
          fun s => .ok (unwindIndents s) := rfl
    rw [e] at h
    cases hr : mainLoop (dispatch E (ParseProgram E fuel)) fuel
        ⟨[], content ++ ['\n'], 0, 0, .Default, [], []⟩ with
    | halt => rw [hr] at h; simp at h
    | outOfFuel => rw [hr] at h; simp at h
    | ok q =>
      rw [hr] at h
      simp only [Res.bind_ok, Res.ok.injEq] at h
      exact ⟨fuel, q, hr, h.symm⟩

/-- C6, as stated, fails: the whitespace-only content `\n    \n` yields a
`StartIndentation` and an `EndIndentation` token. -/
theorem C6_counterexample :
    ∃ toks, (CreateTokensFromFile specEnv 64 "\n    \n".toList).tokens = some toks ∧
      (tk .StartIndentation "") ∈ toks ∧ (tk .EndIndentation "") ∈ toks :=
  ⟨[tk .EndLine "", tk .StartIndentation "", tk .EndLine "", tk .EndIndentation "",
      tk .EndLine ""], by decide!, by decide!, by decide!⟩

/-- C6, amended: for every file whose content consists only of spaces, tabs and
newlines, every token of the stream is an `EndLine`, a `StartIndentation` or an
`EndIndentation` (the indentation tokens come from blank lines that are
indented); for every file whose content consists only of newlines, every token
is an `EndLine`. -/
theorem C6_whitespace_only :
    (∀ (E : Env) (fuel : Nat) (content : List Char) (r : Parser), E.BlankOK →
      (∀ c ∈ content, c = ' ' ∨ c = '\t' ∨ c = '\n') →
      CreateTokensFromFile E fuel content = .ok r →
      ∀ t ∈ r.Tokens, t.TokenType = .EndLine ∨ t.TokenType = .StartIndentation ∨
        t.TokenType = .EndIndentation) ∧
    (∀ (E : Env) (fuel : Nat) (content : List Char) (r : Parser),
      (∀ c ∈ content, c = '\n') →
      CreateTokensFromFile E fuel content = .ok r →
      ∀ t ∈ r.Tokens, t.TokenType = .EndLine) := by
  constructor
  · intro E fuel content r hE hc h
    obtain ⟨n, q, hq, rfl⟩ := run_of_ok E fuel content r h
    have h0 : BlankRun ⟨[], content ++ ['\n'], 0, 0, .Default, [], []⟩ := by
      refine ⟨rfl, Or.inl rfl, ?_, by simp⟩
      intro c hcm
      simp only [List.mem_append, List.mem_singleton] at hcm
      rcases hcm with hcm | rfl
      · exact hc c hcm
      · exact Or.inr (Or.inr rfl)
    have hm := blank_mainLoop E hE (ParseProgram E n) n _ h0
    rw [hq] at hm
    intro t htm
    simp only [unwindIndents, List.mem_append] at htm
    rcases htm with htm | htm
    · exact hm.2.2.2 t htm
    · have := List.eq_of_mem_replicate htm
      subst this
      exact Or.inr (Or.inr rfl)
  · intro E fuel content r hc h
    obtain ⟨n, q, hq, rfl⟩ := run_of_ok E fuel content r h
    have h0 : NewlineRun ⟨[], content ++ ['\n'], 0, 0, .Default, [], []⟩ := by
      refine ⟨rfl, Or.inl rfl, ?_, by simp, rfl⟩
      intro c hcm
      simp only [List.mem_append, List.mem_singleton] at hcm
      rcases hcm with hcm | rfl
      · exact hc c hcm
      · rfl
    have hm := newline_mainLoop E (ParseProgram E n) n _ h0
    rw [hq] at hm
    obtain ⟨-, -, -, ht, hi⟩ := hm
    intro t htm
    simp only [unwindIndents, hi, List.replicate_zero, List.append_nil] at htm
    exact ht t htm

theorem specEnv_BlankOK : specEnv.BlankOK := by
  intro c hc
  rcases hc with rfl | rfl | rfl <;> exact ⟨by decide!, by decide!⟩

theorem C6_whitespace_only_witness :
    (∃ r, CreateTokensFromFile specEnv 64 "\n    \n \t".toList = .ok r ∧
      r.Tokens = [tk .EndLine "", tk .StartIndentation "", tk .EndLine "",
        tk .EndIndentation "", tk .EndLine ""] ∧
      ∀ t ∈ r.Tokens, t.TokenType = .EndLine ∨ t.TokenType = .StartIndentation ∨
        t.TokenType = .EndIndentation) ∧
    (∃ r, CreateTokensFromFile specEnv 64 "\n\n\n".toList = .ok r ∧
      r.Tokens = [tk .EndLine "", tk .EndLine "", tk .EndLine ""] ∧
      ∀ t ∈ r.Tokens, t.TokenType = .EndLine) := by
  have h1 : CreateTokensFromFile specEnv 64 "\n    \n \t".toList =
      .ok ⟨[tk .EndLine "", tk .StartIndentation "", tk .EndLine "",
          tk .EndIndentation "", tk .EndLine ""], "\n    \n \t\n".toList, 9, 0,
          .Indentation, [], []⟩ := by decide!
  have h2 : CreateTokensFromFile specEnv 64 "\n\n\n".toList =
      .ok ⟨[tk .EndLine "", tk .EndLine "", tk .EndLine ""], "\n\n\n\n".toList, 4, 0,
          .Indentation, [], []⟩ := by decide!
  exact ⟨⟨_, h1, rfl, C6_whitespace_only.1 specEnv 64 _ _ specEnv_BlankOK (by decide!) h1⟩,
    ⟨_, h2, rfl, C6_whitespace_only.2 specEnv 64 _ _ (by decide!) h2⟩⟩

/-! ## The units counted for leading spaces -/

theorem count_space (n : Nat) (k : Nat) (s : Parser) :
    _IndentationState.count (n + 1) ' ' k s =
      if (_IndentationState.spaces 3 ' ' 1 s).2.1 = 4 then
        _IndentationState.count n (_IndentationState.spaces 3 ' ' 1 s).1 (k + 1)
          (_IndentationState.spaces 3 ' ' 1 s).2.2
      else .ok (k, (_IndentationState.spaces 3 ' ' 1 s).2.2) := by
  have h : ¬ (' ' = '\t') := by decide
  rw [_IndentationState.count]
  simp only [h, if_false, if_true]

theorem count_spaces (c : Char) (rest : List Char) (hc1 : c ≠ ' ') (hc2 : c ≠ '\t') :
    ∀ (m fuel k : Nat) (pre : List Char) (s : Parser),
      s.Buffer = pre ++ (List.replicate m ' ' ++ c :: rest) →
      s.CurrentTokenIndex = pre.length → m + 2 ≤ fuel →
      ∃ s1, _IndentationState.count fuel ' ' k s = .ok (k + (m + 1) / 3, s1) := by
  intro m
  induction m using Nat.strong_induction_on with
  | _ m ih =>
    intro fuel k pre s hb hi hf
    obtain ⟨f, rfl⟩ : ∃ f, fuel = f + 1 := ⟨fuel - 1, by omega⟩
    rw [count_space, spaces_three]
    match m, ih, hb, hf with
    | 0, _, hb, _ =>
      have g1 := getNext_at s pre c rest (by simpa using hb) hi
      simp only [g1, hc1, if_false]
      exact ⟨_, rfl⟩
    | 1, _, hb, _ =>
      have g1 := getNext_at s pre ' ' (c :: rest) (by simpa using hb) hi
      have g2 := getNext_at ({ s with CurrentTokenIndex := pre.length + 1 } : Parser)
        (pre ++ [' ']) c rest (by simpa using hb) (by simp)
      simp only [g1, g2, hc1, if_false, if_true]
      exact ⟨_, rfl⟩
    | 2, _, hb, hf =>
      have g1 := getNext_at s pre ' ' (' ' :: c :: rest) (by simpa using hb) hi
      have g2 := getNext_at ({ s with CurrentTokenIndex := pre.length + 1 } : Parser)
        (pre ++ [' ']) ' ' (c :: rest) (by simpa using hb) (by simp)
      have g3 := getNext_at
        ({ s with CurrentTokenIndex := (pre ++ [' ']).length + 1 } : Parser)
        (pre ++ [' ', ' ']) c rest (by simpa using hb) (by simp)
      simp only [g1, g2, g3, if_true]
      obtain ⟨f', rfl⟩ : ∃ f', f = f' + 1 := ⟨f - 1, by omega⟩
      rw [count_zero _ _ _ _ hc2 hc1]
      exact ⟨_, rfl⟩
    | m + 3, ih, hb, hf =>
      have hrep : List.replicate (m + 3) ' ' = ' ' :: ' ' :: ' ' :: List.replicate m ' ' := rfl
      rw [hrep] at hb
      have g1 := getNext_at s pre ' ' (' ' :: ' ' :: (List.replicate m ' ' ++ c :: rest))
        (by simpa using hb) hi
      have g2 := getNext_at ({ s with CurrentTokenIndex := pre.length + 1 } : Parser)
        (pre ++ [' ']) ' ' (' ' :: (List.replicate m ' ' ++ c :: rest))
        (by simpa using hb) (by simp)
      have g3 := getNext_at
        ({ s with CurrentTokenIndex := (pre ++ [' ']).length + 1 } : Parser)
        (pre ++ [' ', ' ']) ' ' (List.replicate m ' ' ++ c :: rest)
        (by simpa using hb) (by simp)
      simp only [g1, g2, g3, if_true]
      obtain ⟨s1, h1⟩ := ih m (by omega) f (k + 1) (pre ++ [' ', ' ', ' '])
        ({ s with CurrentTokenIndex := (pre ++ [' ', ' ']).length + 1 } : Parser)
        (by simpa using hb) (by simp) (by omega)
      refine ⟨s1, ?_⟩
      rw [h1]
      congr 2
      omega

theorem scan_spaces (n : Nat) (pre rest : List Char) (c : Char) (s : Parser)
    (hb : s.Buffer = pre ++ (List.replicate n ' ' ++ c :: rest))
    (hi : s.CurrentTokenIndex = pre.length)
    (hc1 : c ≠ ' ') (hc2 : c ≠ '\t') (hc3 : c ≠ '\n') :
    ∃ s1, _IndentationState.scan s = .ok (n / 3, s1) := by
  have hsp : ¬ (' ' = '\n') := by decide
  unfold _IndentationState.scan
  cases n with
  | zero =>
    have g1 := getNext_at s pre c rest (by simpa using hb) hi
    simp only [g1, hc3, if_false, loopFuel]
    rw [count_zero _ _ _ _ hc2 hc1]
    exact ⟨_, rfl⟩
  | succ m =>
    have hrep : List.replicate (m + 1) ' ' = ' ' :: List.replicate m ' ' := rfl
    rw [hrep] at hb
    have g1 := getNext_at s pre ' ' (List.replicate m ' ' ++ c :: rest) (by simpa using hb) hi
    simp only [g1, hsp, if_false]
    obtain ⟨s1, h1⟩ := count_spaces c rest hc1 hc2 m
      ({ s with CurrentTokenIndex := pre.length + 1 } : Parser).loopFuel 0 (pre ++ [' '])
      ({ s with CurrentTokenIndex := pre.length + 1 } : Parser)
      (by simpa using hb) (by simp) (by simp [loopFuel, hb]; omega)
    exact ⟨s1, by rw [h1]; simp⟩

/-- C7: for a line that begins with `n` spaces followed by a character that is
no space, tab or newline, the scan of the Indentation state counts `n / 3`
units and not `n / 4`: three leading spaces count as one unit and six as two,
where the claim says zero and one; a line of three spaces and a name opens a
block. -/
theorem C7_spaces_counted_by_three :
    (∀ (n : Nat) (pre rest : List Char) (c : Char) (s : Parser),
      s.Buffer = pre ++ (List.replicate n ' ' ++ c :: rest) →
      s.CurrentTokenIndex = pre.length → c ≠ ' ' → c ≠ '\t' → c ≠ '\n' →
      ∃ s1, _IndentationState.scan s = .ok (n / 3, s1)) ∧
    ((_IndentationState.scan { Parser.new with Buffer := "   x".toList }).bind
        fun r => .ok r.1) = .ok 1 ∧
    ((_IndentationState.scan { Parser.new with Buffer := "      x".toList }).bind
        fun r => .ok r.1) = .ok 2 ∧
    (CreateTokensFromFile specEnv 64 "a:\n   b".toList).tokens =
      some [tk .VariableReference "a", tk .StartIndentation "", tk .VariableReference "b",
        tk .EndLine "", tk .EndIndentation ""] :=
  ⟨fun n pre rest c s hb hi h1 h2 h3 => scan_spaces n pre rest c s hb hi h1 h2 h3,
    by decide!, by decide!, by decide!⟩

theorem C7_spaces_counted_by_three_witness :
    ∃ s1, _IndentationState.scan ⟨[], "a\n       b".toList, 2, 0, .Indentation, [], []⟩ =
      .ok (2, s1) := by
  obtain ⟨s1, h⟩ := C7_spaces_counted_by_three.1 7 "a\n".toList [] 'b'
    ⟨[], "a\n       b".toList, 2, 0, .Indentation, [], []⟩ (by decide!) (by decide!)
    (by decide) (by decide) (by decide)
  exact ⟨s1, h⟩

/-! ## The Operator and AsterisksOperator states -/

theorem operatorLoop_run (E : Env) (t : Char) (rest : List Char)
    (ht : (E.OperatorMap (Str t)).isSome = false) :
    ∀ (h acc pre : List Char) (c : Char) (s : Parser) (n : Nat),
      (E.OperatorMap (Str c)).isSome = true →
      (∀ d ∈ h, (E.OperatorMap (Str d)).isSome = true) →
      s.Buffer = pre ++ (h ++ t :: rest) → s.CurrentTokenIndex = pre.length →
      h.length + 1 ≤ n →
      _OperatorState.loop E n c acc s =
        .ok (acc ++ h, { s with CurrentTokenIndex := pre.length + h.length + 1 }) := by
  intro h
  induction h with
  | nil =>
    intro acc pre c s n hc _ hb hi hn
    obtain ⟨m, rfl⟩ : ∃ m, n = m + 1 := ⟨n - 1, by omega⟩
    unfold _OperatorState.loop
    rw [getNext_at s pre t rest (by simpa using hb) hi]
    simp [hc, ht]
  | cons d h ih =>
    intro acc pre c s n hc hd hb hi hn
    obtain ⟨m, rfl⟩ : ∃ m, n = m + 1 := ⟨n - 1, by omega⟩
    unfold _OperatorState.loop
    rw [getNext_at s pre d (h ++ t :: rest) (by simpa using hb) hi]
    have hd1 := hd d (by simp)
    simp only [hc, hd1, if_true, Bool.true_eq_false, if_false]
    rw [ih (acc ++ [d]) (pre ++ [d]) d _ m hd1 (fun x hx => hd x (by simp [hx]))
      (by simpa using hb) (by simp) (by simp at hn ⊢; omega)]
    simp
    omega

theorem subSizeT_le (a b : Nat) (h : b ≤ a) : subSizeT a b = a - b := by
  simp [subSizeT, h]

/-- The Operator state on a run `c :: h` of operator characters that ends before
the character `t`: the loop result, before the table is consulted. -/
theorem operator_run (E : Env) (s : Parser) (pre h rest : List Char) (c t : Char)
    (hb : s.Buffer = pre ++ (c :: h ++ t :: rest))
    (hi : s.CurrentTokenIndex = pre.length + 1)
    (hc : (E.OperatorMap (Str c)).isSome = true)
    (hop : ∀ d ∈ h, (E.OperatorMap (Str d)).isSome = true)
    (ht : (E.OperatorMap (Str t)).isSome = false) :
    _OperatorState E s =
      ((match E.OperatorMap (c :: h) with
        | some value =>
          Res.ok (value, c :: h, { s with CurrentTokenIndex := pre.length + 1 + h.length })
        | none =>
          match E.OperatorMap [c] with
          | some value => Res.ok (value, [c], { s with CurrentTokenIndex := pre.length + 1 })
          | none => Res.halt).bind fun r =>
        .ok { (if r.1.TokenToPush ≠ .None then r.2.2._PushToken r.1.TokenToPush r.2.1
                else r.2.2) with CurrentState := r.1.NextState }) := by
  unfold _OperatorState
  have e1 : (s._Backtrack)._GetNextChar =
      (c, { s with CurrentTokenIndex := pre.length + 1 }) := by
    have := getNext_at s._Backtrack pre c (h ++ t :: rest) (by simpa using hb)
      (by simp [_Backtrack, hi, subSizeT])
    rw [this]
    simp [_Backtrack]
  simp only [e1, Str, List.headD_cons]
  rw [operatorLoop_run E t rest ht h [c] (pre ++ [c]) c _ _ hc hop (by simpa using hb) (by simp)
    (by simp [loopFuel, hb]; omega)]
  simp only [Res.bind_ok, List.singleton_append]
  have e2 : ({ s with CurrentTokenIndex := (pre ++ [c]).length + h.length + 1 } : Parser)._Backtrack
      = { s with CurrentTokenIndex := pre.length + 1 + h.length } := by
    simp [_Backtrack, subSizeT]
  rw [e2]
  have e3 : subSizeT (pre.length + 1 + h.length) h.length = pre.length + 1 := by
    rw [subSizeT_le _ _ (by omega)]
    omega
  cases hk : E.OperatorMap (c :: h) with
  | some value => simp
  | none =>
    cases hk1 : E.OperatorMap [c] with
    | some value => simp [e3]
    | none => simp

/-- C16, as stated, fails: after `2` the maximal run `*` is a key of the operator
table, and the Operator state emits no token for it (the entry declares none;
the token is left to the AsterisksOperator state it leads to). -/
theorem C16_counterexample :
    specEnv.OperatorMap ['*'] =
      some { NextState := .AsterisksOperator, TokenToPush := .None } ∧
    specEnv.OperatorMap (Str ' ') = none ∧
    _OperatorState specEnv ⟨[tk .RValueNumber "2"], "2 * 3".toList, 3, 0, .Operator, [], []⟩ =
      .ok ⟨[tk .RValueNumber "2"], "2 * 3".toList, 3, 0, .AsterisksOperator, [], []⟩ :=
  ⟨by decide!, by decide!, by decide!⟩

/-- C16, amended: in the Operator state, entered with the cursor after the first
character of a run `c :: h` of operator characters that ends before a character
`t` that is none, when the run is a key of the operator table the lexer emits
the one token the table declares for the whole run, with the run as its data
(no token when the entry declares `None`), enters the state the table declares
and leaves the cursor on `t`, the first character after the run. -/
theorem C16_maximal_run_is_key (E : Env) (s : Parser) (pre h rest : List Char) (c t : Char)
    (value : ParserMapValue)
    (hb : s.Buffer = pre ++ (c :: h ++ t :: rest))
    (hi : s.CurrentTokenIndex = pre.length + 1)
    (hc : (E.OperatorMap (Str c)).isSome = true)
    (hop : ∀ d ∈ h, (E.OperatorMap (Str d)).isSome = true)
    (ht : (E.OperatorMap (Str t)).isSome = false)
    (hkey : E.OperatorMap (c :: h) = some value) :
    ∃ r, _OperatorState E s = .ok r ∧
      r.Tokens = s.Tokens ++
        (if value.TokenToPush = .None then []
          else [{ TokenType := value.TokenToPush, Data := c :: h }]) ∧
      r.CurrentState = value.NextState ∧
      r.CurrentTokenIndex = pre.length + (c :: h).length ∧
      r.Buffer = s.Buffer ∧ r._GetNextChar.1 = t := by
  rw [operator_run E s pre h rest c t hb hi hc hop ht, hkey]
  simp only [Res.bind_ok]
  refine ⟨_, rfl, ?_, rfl, ?_, ?_, ?_⟩
  · by_cases hn : value.TokenToPush = .None <;> simp [hn, _PushToken]
  · by_cases hn : value.TokenToPush = .None <;> simp [hn, _PushToken] <;> omega
  · by_cases hn : value.TokenToPush = .None <;> simp [hn, _PushToken]
  · have := getNext_at ({ (if value.TokenToPush ≠ .None then
          ({ s with CurrentTokenIndex := pre.length + 1 + h.length } : Parser)._PushToken
            value.TokenToPush (c :: h)
        else { s with CurrentTokenIndex := pre.length + 1 + h.length }) with
        CurrentState := value.NextState } : Parser) (pre ++ c :: h) t rest
      (by by_cases hn : value.TokenToPush = .None <;> simp [hn, _PushToken, hb])
      (by by_cases hn : value.TokenToPush = .None <;> simp [hn, _PushToken] <;> omega)
    rw [this]

theorem C16_maximal_run_is_key_witness :
    ∃ r, _OperatorState specEnv
        ⟨[tk .VariableReference "a"], "a -> b".toList, 3, 0, .Operator, [], []⟩ = .ok r ∧
      r.Tokens = [tk .VariableReference "a", tk .Arrow "->"] ∧
      r.CurrentState = .ArrowState ∧ r.CurrentTokenIndex = 4 := by
  obtain ⟨r, h1, h2, h3, h4, -⟩ := C16_maximal_run_is_key specEnv
    ⟨[tk .VariableReference "a"], "a -> b".toList, 3, 0, .Operator, [], []⟩
    "a ".toList ['>'] ['b'] '-' ' ' { NextState := .ArrowState, TokenToPush := .Arrow }
    (by decide!) (by decide!) (by decide!) (by decide!) (by decide!) (by decide!)
  exact ⟨r, h1, by rw [h2]; decide!, h3, by rw [h4]; decide!⟩

/-- C17, as stated, fails: after `2` the maximal run `*-` is no key of the
operator table, and the Operator state emits no token for its first character
`*` (the entry of `*` declares none); it does rewind the cursor onto `-`. -/
theorem C17_counterexample :
    specEnv.OperatorMap ['*', '-'] = none ∧
    specEnv.OperatorMap ['*'] =
      some { NextState := .AsterisksOperator, TokenToPush := .None } ∧
    _OperatorState specEnv ⟨[tk .RValueNumber "2"], "2 *- 3".toList, 3, 0, .Operator, [], []⟩ =
      .ok ⟨[tk .RValueNumber "2"], "2 *- 3".toList, 3, 0, .AsterisksOperator, [], []⟩ :=
  ⟨by decide!, by decide!, by decide!⟩

/-- C17, amended: in the Operator state, entered with the cursor after the first
character `c` of a run `c :: h` of operator characters that ends before a
character `t` that is none, when the run is no key of the operator table the
lexer emits the token the table declares for `c` alone, with data `c` (no token
when that entry declares `None`), enters the state that entry declares, and
rewinds the cursor by `len - 1` onto the second character of the run, which is
the next character read. -/
theorem C17_fallback_to_first (E : Env) (s : Parser) (pre h rest : List Char) (c t : Char)
    (value : ParserMapValue)
    (hb : s.Buffer = pre ++ (c :: h ++ t :: rest))
    (hi : s.CurrentTokenIndex = pre.length + 1)
    (hv : E.OperatorMap (Str c) = some value)
    (hop : ∀ d ∈ h, (E.OperatorMap (Str d)).isSome = true)
    (ht : (E.OperatorMap (Str t)).isSome = false)
    (hkey : E.OperatorMap (c :: h) = none) :
    ∃ r d h1, _OperatorState E s = .ok r ∧ h = d :: h1 ∧
      r.Tokens = s.Tokens ++
        (if value.TokenToPush = .None then []
          else [{ TokenType := value.TokenToPush, Data := [c] }]) ∧
      r.CurrentState = value.NextState ∧
      r.CurrentTokenIndex + ((c :: h).length - 1) = pre.length + (c :: h).length ∧
      r.CurrentTokenIndex = pre.length + 1 ∧
      r.Buffer = s.Buffer ∧ r._GetNextChar.1 = d := by
  have hv1 : E.OperatorMap [c] = some value := hv
  obtain ⟨d, h1, rfl⟩ : ∃ d h1, h = d :: h1 := by
    cases h with
    | nil => rw [hv1] at hkey; cases hkey
    | cons d h1 => exact ⟨d, h1, rfl⟩
  rw [operator_run E s pre (d :: h1) rest c t hb hi (by rw [hv]; rfl) hop ht, hkey]
  simp only [hv1, Res.bind_ok]
  refine ⟨_, d, h1, rfl, rfl, ?_, rfl, ?_, ?_, ?_, ?_⟩
  · by_cases hn : value.TokenToPush = .None <;> simp [hn, _PushToken]
  · by_cases hn : value.TokenToPush = .None <;> simp [hn, _PushToken] <;> omega
  · by_cases hn : value.TokenToPush = .None <;> simp [hn, _PushToken]
  · by_cases hn : value.TokenToPush = .None <;> simp [hn, _PushToken]
  · have := getNext_at ({ (if value.TokenToPush ≠ .None then
          ({ s with CurrentTokenIndex := pre.length + 1 } : Parser)._PushToken
            value.TokenToPush [c]
        else { s with CurrentTokenIndex := pre.length + 1 }) with
        CurrentState := value.NextState } : Parser) (pre ++ [c]) d (h1 ++ t :: rest)
      (by by_cases hn : value.TokenToPush = .None <;> simp [hn, _PushToken, hb])
      (by by_cases hn : value.TokenToPush = .None <;> simp [hn, _PushToken])
    rw [this]

theorem C17_fallback_to_first_witness :
    ∃ r, _OperatorState specEnv
        ⟨[tk .VariableReference "x"], "x =< 1".toList, 3, 0, .Operator, [], []⟩ = .ok r ∧
      r.Tokens = [tk .VariableReference "x", tk .Assign "="] ∧
      r.CurrentState = .RValue ∧ r.CurrentTokenIndex = 3 ∧ r._GetNextChar.1 = '<' := by
  obtain ⟨r, d, h1, e1, e2, e3, e4, -, e5, -, e6⟩ := C17_fallback_to_first specEnv
    ⟨[tk .VariableReference "x"], "x =< 1".toList, 3, 0, .Operator, [], []⟩
    "x ".toList ['<'] ['1'] '=' ' ' { NextState := .RValue, TokenToPush := .Assign }
    (by decide!) (by decide!) (by decide!) (by decide!) (by decide!) (by decide!)
  cases e2
  exact ⟨r, e1, by rw [e3]; decide!, e4, by rw [e5]; decide!, e6⟩

/-- C18: the AsterisksOperator state always returns; it emits `MulOp("*")` if
the most recently emitted token is a `VariableReference`, `RValueChar`,
`RValueNumber` or `RValueString`, and `DereferenceOp` in every other case, an
empty stream included; it emits that one token, leaves the cursor and the
buffer as they are and enters the Default state. -/
theorem C18_asterisks (s : Parser) :
    ∃ r, _AsterisksState s = .ok r ∧
      ((∃ t, s.Tokens.getLast? = some t ∧
          (t.TokenType = .VariableReference ∨ t.TokenType = .RValueChar ∨
            t.TokenType = .RValueNumber ∨ t.TokenType = .RValueString)) →
        r.Tokens = s.Tokens ++ [{ TokenType := .MulOp, Data := ['*'] }]) ∧
      ((¬ ∃ t, s.Tokens.getLast? = some t ∧
          (t.TokenType = .VariableReference ∨ t.TokenType = .RValueChar ∨
            t.TokenType = .RValueNumber ∨ t.TokenType = .RValueString)) →
        r.Tokens = s.Tokens ++ [{ TokenType := .DereferenceOp, Data := [] }]) ∧
      (s.Tokens = [] → r.Tokens = [{ TokenType := .DereferenceOp, Data := [] }]) ∧
      r.Tokens.length = s.Tokens.length + 1 ∧
      r.CurrentTokenIndex = s.CurrentTokenIndex ∧ r.Buffer = s.Buffer ∧
      r.CurrentState = .Default := by
  refine ⟨_, rfl, ?_, ?_, ?_, ?_, ?_, ?_, ?_⟩
  · rintro ⟨t, ht, hk⟩
    simp [_GetLastToken, ht, hk, _PushToken]
  · intro hn
    cases hl : s.Tokens.getLast? with
    | none => simp [_GetLastToken, hl, _PushToken]
    | some t =>
      have hk : ¬ (t.TokenType = .VariableReference ∨ t.TokenType = .RValueChar ∨
          t.TokenType = .RValueNumber ∨ t.TokenType = .RValueString) := fun hk => hn ⟨t, hl, hk⟩
      simp only [_GetLastToken, hl, if_neg hk]
      rfl
  · intro he
    simp [_GetLastToken, he, _PushToken]
  · simp only []
    split <;> simp [_PushToken]
  · simp only []
    split <;> simp [_PushToken]
  · simp only []
    split <;> simp [_PushToken]
  · rfl

/-! ## Reading a run of characters -/

theorem getNext_end (s : Parser) (h : s.Buffer.length ≤ s.CurrentTokenIndex) :
    s._GetNextChar = (NUL, s) := by
  unfold _GetNextChar
  rw [if_neg (by omega)]

/-- What a read at the position after `pre` returns: the head of the rest of
the buffer and the cursor one further, or NUL and the same cursor at the end. -/
theorem getNext_tail (pre tl : List Char) :
    ∃ k, ∀ q : Parser, q.Buffer = pre ++ tl → q.CurrentTokenIndex = pre.length →
      q._GetNextChar = (tl.headD NUL, { q with CurrentTokenIndex := k }) := by
  cases tl with
  | nil =>
    refine ⟨pre.length, fun q hb hi => ?_⟩
    rw [getNext_end q (by simp [hb, hi])]
    cases q
    simp_all
  | cons c rest =>
    exact ⟨pre.length + 1, fun q hb hi => getNext_at q pre c rest hb hi⟩

theorem skipLoop_run (E : Env) (tl : List Char) (k : Nat)
    (ht : E.IsSpace (tl.headD NUL) = false) :
    ∀ (sp pre : List Char) (s : Parser) (n : Nat),
      (∀ c ∈ sp, E.IsSpace c = true) →
      s.Buffer = pre ++ (sp ++ tl) → s.CurrentTokenIndex = pre.length →
      (∀ q : Parser, q.Buffer = (pre ++ sp) ++ tl → q.CurrentTokenIndex = (pre ++ sp).length →
        q._GetNextChar = (tl.headD NUL, { q with CurrentTokenIndex := k })) →
      sp.length + 1 ≤ n →
      _SkipSpaces.loop E n s._GetNextChar.1 s._GetNextChar.2 =
        .ok (tl.headD NUL, { s with CurrentTokenIndex := k }) := by
  intro sp
  induction sp with
  | nil =>
    intro pre s n _ hb hi hend hn
    obtain ⟨m, rfl⟩ : ∃ m, n = m + 1 := ⟨n - 1, by omega⟩
    rw [hend s (by simpa using hb) (by simpa using hi)]
    unfold _SkipSpaces.loop
    rw [ht]
    simp
  | cons c sp ih =>
    intro pre s n hsp hb hi hend hn
    obtain ⟨m, rfl⟩ : ∃ m, n = m + 1 := ⟨n - 1, by omega⟩
    rw [getNext_at s pre c (sp ++ tl) (by simpa using hb) hi]
    unfold _SkipSpaces.loop
    simp only [hsp c (by simp), if_true]
    rw [ih (pre ++ [c]) _ m (fun x hx => hsp x (by simp [hx])) (by simpa using hb) (by simp)
      (fun q h1 h2 => hend q (by simpa using h1) (by simpa using h2)) (by simp at hn; omega)]

theorem functionTypeLoop_run (tl : List Char) (k : Nat)
    (ht : tl.headD NUL = '\n' ∨ tl.headD NUL = NUL ∨ tl.headD NUL = ':') :
    ∀ (d pre : List Char) (s : Parser) (n : Nat),
      (∀ c ∈ d, c ≠ '\n' ∧ c ≠ NUL ∧ c ≠ ':') →
      s.Buffer = pre ++ (d ++ tl) → s.CurrentTokenIndex = pre.length →
      (∀ q : Parser, q.Buffer = (pre ++ d) ++ tl → q.CurrentTokenIndex = (pre ++ d).length →
        q._GetNextChar = (tl.headD NUL, { q with CurrentTokenIndex := k })) →
      d.length + 1 ≤ n →
      _FunctionTypeState.loop n s._GetNextChar.1 s._GetNextChar.2 =
        .ok (tl.headD NUL,
          { s with CurrentString := s.CurrentString ++ d, CurrentTokenIndex := k }) := by
  intro d
  induction d with
  | nil =>
    intro pre s n _ hb hi hend hn
    obtain ⟨m, rfl⟩ : ∃ m, n = m + 1 := ⟨n - 1, by omega⟩
    rw [hend s (by simpa using hb) (by simpa using hi)]
    unfold _FunctionTypeState.loop
    have hc : ¬ (tl.headD NUL ≠ '\n' ∧ tl.headD NUL ≠ NUL ∧ tl.headD NUL ≠ ':') := by
      rcases ht with h | h | h <;> rw [h] <;> simp
    rw [if_neg hc]
    simp
  | cons c d ih =>
    intro pre s n hd hb hi hend hn
    obtain ⟨m, rfl⟩ : ∃ m, n = m + 1 := ⟨n - 1, by omega⟩
    rw [getNext_at s pre c (d ++ tl) (by simpa using hb) hi]
    unfold _FunctionTypeState.loop
    have hc := hd c (by simp)
    rw [if_pos hc]
    simp only []
    rw [ih (pre ++ [c]) _ m (fun x hx => hd x (by simp [hx])) (by simpa using hb) (by simp)
      (fun q h1 h2 => hend q (by simpa using h1) (by simpa using h2)) (by simp at hn; omega)]
    simp

theorem getNext_backtrack (s : Parser) (h : s.CurrentTokenIndex < s.Buffer.length) :
    s._GetNextChar.2._Backtrack = s := by
  unfold _GetNextChar
  rw [if_pos h]
  cases s
  simp [_Backtrack, subSizeT]

theorem Res.bind_assoc {α β γ : Type} (x : Res α) (f : α → Res β) (g : β → Res γ) :
    (x.bind f).bind g = x.bind fun a => (f a).bind g := by
  cases x <;> rfl

/-- The member `_SkipSpaces` called after a read, on spaces `sp` and then the
text `tl`. -/
theorem skipSpaces_run (E : Env) (s : Parser) (pre sp tl : List Char) (k : Nat)
    (hb : s.Buffer = pre ++ (sp ++ tl)) (hi : s.CurrentTokenIndex = pre.length)
    (hne : sp ++ tl ≠ [])
    (hsp : ∀ c ∈ sp, E.IsSpace c = true) (ht : E.IsSpace (tl.headD NUL) = false)
    (hend : ∀ q : Parser, q.Buffer = (pre ++ sp) ++ tl →
      q.CurrentTokenIndex = (pre ++ sp).length →
      q._GetNextChar = (tl.headD NUL, { q with CurrentTokenIndex := k })) :
    _SkipSpaces E s._GetNextChar.2 = .ok (tl.headD NUL, { s with CurrentTokenIndex := k }) := by
  have hlt : s.CurrentTokenIndex < s.Buffer.length := by
    have : 0 < (sp ++ tl).length := List.length_pos.mpr hne
    rw [hb, hi, List.length_append]
    omega
  unfold _SkipSpaces
  simp only [getNext_backtrack s hlt]
  exact skipLoop_run E tl k ht sp pre s _ hsp hb hi hend (by simp [loopFuel, hb]; omega)

/-- The FunctionType state on the text `sp ++ d ++ tl` after the arrow: spaces
`sp`, then the type text `d`, which ends before a newline, a NUL or a `:`, or at
the end of the buffer. -/
theorem functionType_run (E : Env) (run : Parser → Res Parser) (s : Parser)
    (pre sp d tl : List Char)
    (hb : s.Buffer = pre ++ (sp ++ (d ++ tl))) (hi : s.CurrentTokenIndex = pre.length)
    (hne : sp ++ (d ++ tl) ≠ [])
    (hsp : ∀ c ∈ sp, E.IsSpace c = true)
    (hhead : E.IsSpace ((d ++ tl).headD NUL) = false)
    (hd : ∀ c ∈ d, c ≠ '\n' ∧ c ≠ NUL ∧ c ≠ ':')
    (htl : tl.headD NUL = '\n' ∨ tl.headD NUL = NUL ∨ tl.headD NUL = ':') :
    ∃ k, _FunctionTypeState E run s =
      (run { Parser.new.InitParser with Buffer := d ++ [' '] }).bind fun p =>
        .ok { s with
              Tokens := s.Tokens ++ [{ TokenType := .FunctionType, Data := d }] ++ p.Tokens
              CurrentTokenIndex := k
              CurrentString := []
              CurrentState := .Default } := by
  obtain ⟨k1, hend1⟩ := getNext_tail (pre ++ sp) (d ++ tl)
  obtain ⟨k2, hend2⟩ := getNext_tail ((pre ++ sp) ++ d) tl
  have step1 := skipSpaces_run E s pre sp (d ++ tl) k1 hb hi hne hsp hhead hend1
  have step2 := functionTypeLoop_run tl k2 htl d (pre ++ sp)
    ({ s with CurrentString := [], CurrentTokenIndex := (pre ++ sp).length } : Parser)
    (s.Buffer.length + 2) hd (by simpa using hb) rfl
    (fun q h1 h2 => hend2 q h1 h2) (by simp [hb]; omega)
  rw [hend1 _ (by simpa using hb) rfl] at step2
  refine ⟨subSizeT k2 1, ?_⟩
  unfold _FunctionTypeState
  simp only [step1, Res.bind_ok, loopFuel]
  simp only [List.nil_append] at step2
  rw [step2]
  simp only [Res.bind_ok, subLex, Res.bind_assoc, push_CurrentString]
  congr 1

/-- C15: when the lexer is in the FunctionType state with, after the arrow,
spaces `sp`, then a text `d` free of newline, NUL and `:` that does not start
with a space, then a newline, a NUL, a `:` or the end of the buffer, it emits
`FunctionType(d)` and right after it exactly the tokens of a new lexer run
(`InitParser`, then `ParseProgram`) on the buffer `d` followed by one space; it
halts when that run halts. -/
theorem C15_function_type_sublexed (E : Env) (fuel : Nat) (s : Parser)
    (pre sp d tl : List Char)
    (hst : s.CurrentState = .FunctionTypeState)
    (hb : s.Buffer = pre ++ (sp ++ (d ++ tl))) (hi : s.CurrentTokenIndex = pre.length)
    (hne : sp ++ (d ++ tl) ≠ [])
    (hsp : ∀ c ∈ sp, E.IsSpace c = true)
    (hhead : E.IsSpace ((d ++ tl).headD NUL) = false)
    (hd : ∀ c ∈ d, c ≠ '\n' ∧ c ≠ NUL ∧ c ≠ ':')
    (htl : tl.headD NUL = '\n' ∨ tl.headD NUL = NUL ∨ tl.headD NUL = ':') :
    (∀ p, ParseProgram E fuel { Parser.new.InitParser with Buffer := d ++ [' '] } = .ok p →
      ∃ r, dispatch E (ParseProgram E fuel) s = .ok r ∧
        r.Tokens = s.Tokens ++ [{ TokenType := .FunctionType, Data := d }] ++ p.Tokens ∧
        r.CurrentState = .Default) ∧
    (ParseProgram E fuel { Parser.new.InitParser with Buffer := d ++ [' '] } = .halt →
      dispatch E (ParseProgram E fuel) s = .halt) := by
  obtain ⟨k, hk⟩ := functionType_run E (ParseProgram E fuel) s pre sp d tl hb hi hne hsp hhead
    hd htl
  have hdis : dispatch E (ParseProgram E fuel) s = _FunctionTypeState E (ParseProgram E fuel) s := by
    unfold dispatch
    rw [hst]
  rw [hdis, hk]
  constructor
  · intro p hp
    rw [hp]
    exact ⟨_, rfl, rfl, rfl⟩
  · intro hp
    rw [hp]
    rfl

theorem C15_function_type_sublexed_witness :
    ∃ r, dispatch specEnv (ParseProgram specEnv 8)
        ⟨[tk .FunctionName "f", tk .StartFunctionParameters "", tk .EndFunctionParameters "",
          tk .Arrow "->"], "function f() -> int32:\n".toList, 15, 0, .FunctionTypeState, [], []⟩
        = .ok r ∧
      r.Tokens = [tk .FunctionName "f", tk .StartFunctionParameters "",
        tk .EndFunctionParameters "", tk .Arrow "->", tk .FunctionType "int32",
        tk .Int32Type "int32"] := by
  obtain ⟨r, h1, h2, -⟩ := (C15_function_type_sublexed specEnv 8
    ⟨[tk .FunctionName "f", tk .StartFunctionParameters "", tk .EndFunctionParameters "",
      tk .Arrow "->"], "function f() -> int32:\n".toList, 15, 0, .FunctionTypeState, [], []⟩
    "function f() ->".toList " ".toList "int32".toList ":\n".toList
    (by decide!) (by decide!) (by decide!) (by decide!) (by decide!) (by decide!) (by decide!)
    (by decide!)).1
    ⟨[tk .Int32Type "int32"], "int32 ".toList, 6, 0, .VariableName, [], []⟩ (by decide!)
  exact ⟨r, h1, by rw [h2]; decide!⟩

/-! ## A function name and what follows it -/

theorem SameStream.same_refl (s : Parser) : SameStream s s := ⟨rfl, rfl, rfl⟩

theorem SameStream.same_trans {a b c : Parser} (h1 : SameStream a b) (h2 : SameStream b c) :
    SameStream a c :=
  ⟨h2.1.trans h1.1, h2.2.1.trans h1.2.1, h2.2.2.trans h1.2.2⟩

theorem skipLoop_stream (E : Env) (n : Nat) (c : Char) (s : Parser) :
    (_SkipSpaces.loop E n c s).Sat (fun r => SameStream s r.2) := by
  induction n generalizing c s with
  | zero => simp [_SkipSpaces.loop]
  | succ n ih =>
    unfold _SkipSpaces.loop
    split
    · exact (ih _ _).mono fun r hr => SameStream.same_trans ⟨by simp, by simp, by simp⟩ hr
    · simp [SameStream.same_refl]

theorem skipSpaces_stream (E : Env) (s : Parser) :
    (_SkipSpaces E s).Sat (fun r => SameStream s r.2) := by
  unfold _SkipSpaces
  exact (skipLoop_stream E _ _ _).mono fun r hr =>
    SameStream.same_trans ⟨by simp, by simp, by simp⟩ hr

theorem declLoop_stream (E : Env) (n : Nat) (l : ArgLocals) :
    (_FunctionParameterState.loop E n l).Sat (fun r => SameStream l.s r.s) := by
  induction n generalizing l with
  | zero => simp [_FunctionParameterState.loop]
  | succ n ih =>
    unfold _FunctionParameterState.loop
    try simp only []
    split_ifs <;> first
      | (simp [SameStream.same_refl]; done)
      | exact (ih _).mono fun r hr =>
          SameStream.same_trans ⟨by simp, by simp, by simp⟩ hr

theorem pushDeclArgs_extends (run : Parser → Res Parser) (args : List (List Char)) (s : Parser) :
    (pushDeclArgs run args s).Sat (fun r => ∃ more, r.Tokens = s.Tokens ++ more) := by
  induction args generalizing s with
  | nil => simp [pushDeclArgs]
  | cons arg rest ih =>
    unfold pushDeclArgs
    rw [Res.Sat_bind]
    cases subLex run arg with
    | halt => simp
    | outOfFuel => simp
    | ok toks =>
      simp only [Res.Sat_ok]
      refine (ih _).mono fun r hr => ?_
      obtain ⟨more, hm⟩ := hr
      exact ⟨toks ++ more, by simp [hm]⟩

/-- The FunctionParameters state, when it returns, has emitted
`StartFunctionParameters` first. -/
theorem functionParameter_first (E : Env) (run : Parser → Res Parser) (s : Parser) :
    (_FunctionParameterState E run s).Sat (fun r =>
      ∃ more, r.Tokens =
        s.Tokens ++ { TokenType := .StartFunctionParameters, Data := [] } :: more) := by
  unfold _FunctionParameterState
  refine (skipSpaces_stream E _).bind fun r hr => ?_
  have n1 : r.2.Tokens = s.Tokens := by simpa using hr.1
  try simp only []
  split
  · simp
  · refine (declLoop_stream E _ _).bind fun l hl => ?_
    have n2 : l.s.Tokens = s.Tokens := by
      have := hl.1
      simp only [] at this
      rw [this, n1]
    split
    · simp
    · refine (pushDeclArgs_extends run _ _).bind fun q hq => ?_
      obtain ⟨more, hm⟩ := hq
      simp only [Res.Sat_ok]
      refine ⟨more ++ [{ TokenType := .EndFunctionParameters, Data := [] }], ?_⟩
      split_ifs <;> simp [hm, n2]

theorem getNext_beforeEnd (s : Parser) (hlast : s.Buffer.getLast? = some '\n')
    (hi : s.CurrentTokenIndex < s.Buffer.length) :
    BeforeEnd s._GetNextChar.1 s._GetNextChar.2 := by
  unfold _GetNextChar
  rw [if_pos hi]
  refine ⟨by simp, by simp; omega, ?_⟩
  by_cases h : s.CurrentTokenIndex + 1 < s.Buffer.length
  · exact Or.inl h
  · right
    have e : s.CurrentTokenIndex = s.Buffer.length - 1 := by omega
    rw [List.getLast?_eq_getElem?] at hlast
    simp only [List.getD_eq_getElem?_getD, e, hlast, Option.getD_some]

theorem skipLoop_beforeEnd (E : Env) (hsp : E.IsSpace '\n' = false) (n : Nat) (c : Char)
    (s : Parser) (hlast : s.Buffer.getLast? = some '\n') (h : BeforeEnd c s) :
    (_SkipSpaces.loop E n c s).Sat (fun r => BeforeEnd r.1 r.2) := by
  induction n generalizing c s with
  | zero => simp [_SkipSpaces.loop]
  | succ n ih =>
    unfold _SkipSpaces.loop
    split
    · next hc =>
      have hlt : s.CurrentTokenIndex < s.Buffer.length := by
        rcases h.2.2 with h | h
        · exact h
        · rw [h, hsp] at hc; cases hc
      exact ih _ _ (by simpa using hlast) (getNext_beforeEnd s hlast hlt)
    · simpa using h

theorem skipSpaces_beforeEnd (E : Env) (hsp : E.IsSpace '\n' = false) (c : Char) (s : Parser)
    (hlast : s.Buffer.getLast? = some '\n') (h : BeforeEnd c s) :
    (_SkipSpaces E s).Sat (fun r => BeforeEnd r.1 r.2) := by
  unfold _SkipSpaces
  have hb : s._Backtrack.CurrentTokenIndex < s._Backtrack.Buffer.length := by
    have := h.1
    have := h.2.1
    simp [_Backtrack, subSizeT, *]
    omega
  exact skipLoop_beforeEnd E hsp _ _ _ (by simpa using hlast)
    (getNext_beforeEnd _ (by simpa using hlast) hb)

theorem readName_stream (E : Env) (n : Nat) (c : Char) (s : Parser) :
    (readName E n c s).Sat (fun r => SameStream s r.2) := by
  induction n generalizing c s with
  | zero => simp [readName]
  | succ n ih =>
    unfold readName
    split
    · exact (ih _ _).mono fun r hr => SameStream.same_trans ⟨by simp, by simp, by simp⟩ hr
    · simp [SameStream.same_refl]

theorem readName_beforeEnd (E : Env) (hvn : E.IsVarNameChar '\n' = false) (n : Nat) (c : Char)
    (s : Parser) (hlast : s.Buffer.getLast? = some '\n') (h : BeforeEnd c s) :
    (readName E n c s).Sat (fun r => BeforeEnd r.1 r.2) := by
  induction n generalizing c s with
  | zero => simp [readName]
  | succ n ih =>
    unfold readName
    split
    · next hc =>
      have hlt : s.CurrentTokenIndex < s.Buffer.length := by
        rcases h.2.2 with h | h
        · exact h
        · rw [h, hvn] at hc; cases hc
      have hq : BeforeEnd ({ s with CurrentString := s.CurrentString ++ [c] } : Parser)._GetNextChar.1
          ({ s with CurrentString := s.CurrentString ++ [c] } : Parser)._GetNextChar.2 :=
        getNext_beforeEnd _ (by simpa using hlast) (by simpa using hlt)
      exact ih _ _ (by simpa using hlast) hq
    · simpa using h

/-- The FunctionName state in a buffer that ends with a newline: when it
returns, it has emitted `Lambda` or a `FunctionName`, the state is
FunctionParameters and the cursor is inside the buffer. -/
theorem functionName_result (E : Env) (hsp : E.IsSpace '\n' = false)
    (hvn : E.IsVarNameChar '\n' = false) (s : Parser)
    (hlast : s.Buffer.getLast? = some '\n') (hi : s.CurrentTokenIndex < s.Buffer.length) :
    (_FunctionNameState E s).Sat (fun r =>
      (r.Tokens = s.Tokens ++ [{ TokenType := .Lambda, Data := [] }] ∨
        ∃ d, r.Tokens = s.Tokens ++ [{ TokenType := .FunctionName, Data := d }]) ∧
      r.CurrentState = .FunctionParameters ∧ r.Buffer = s.Buffer ∧
      r.CurrentTokenIndex < r.Buffer.length) := by
  unfold _FunctionNameState
  have h0 := getNext_beforeEnd s hlast hi
  have hl0 : s._GetNextChar.2.Buffer.getLast? = some '\n' := by simpa using hlast
  have hsk := skipSpaces_beforeEnd E hsp _ _ hl0 h0
  rw [Res.Sat_bind]
  cases hr : _SkipSpaces E s._GetNextChar.2 with
  | halt => simp
  | outOfFuel => simp
  | ok r =>
    have hs1 : SameStream s._GetNextChar.2 r.2 := by
      have := skipSpaces_stream E s._GetNextChar.2
      rw [hr] at this
      exact this
    rw [hr] at hsk
    have hq : BeforeEnd r.1 r.2 := hsk
    have hbuf : r.2.Buffer = s.Buffer := by simpa using hs1.2.1
    have htok : r.2.Tokens = s.Tokens := by simpa using hs1.1
    simp only [Res.Sat_ok]
    split
    · refine ⟨Or.inl (by simp [htok]), by simp, by simp [hbuf], ?_⟩
      have h1 := hq.1
      have h2 := hq.2.1
      simp only [_PushToken, _Backtrack, subSizeT, if_pos h1]
      omega
    · rw [Res.Sat_bind]
      have hl1 : ({ r.2 with CurrentString := [] } : Parser).Buffer.getLast? = some '\n' := by
        simpa [hbuf] using hlast
      have hq1 : BeforeEnd r.1 ({ r.2 with CurrentString := [] } : Parser) := hq
      have hrn := readName_beforeEnd E hvn ({ r.2 with CurrentString := [] } : Parser).loopFuel
        r.1 _ hl1 hq1
      have hrs := readName_stream E ({ r.2 with CurrentString := [] } : Parser).loopFuel r.1
        ({ r.2 with CurrentString := [] } : Parser)
      cases hr2 : readName E ({ r.2 with CurrentString := [] } : Parser).loopFuel r.1
          ({ r.2 with CurrentString := [] } : Parser) with
      | halt => simp
      | outOfFuel => simp
      | ok r2 =>
        rw [hr2] at hrn hrs
        have hq2 : BeforeEnd r2.1 r2.2 := hrn
        have hs2 : SameStream ({ r.2 with CurrentString := [] } : Parser) r2.2 := hrs
        have hbuf2 : r2.2.Buffer = s.Buffer := by rw [hs2.2.1]; exact hbuf
        have htok2 : r2.2.Tokens = s.Tokens := by rw [hs2.1]; exact htok
        simp only [Res.Sat_ok]
        split
        · simp
        · next hnl =>
          refine ⟨Or.inr ⟨r2.2.CurrentString, ?_⟩, by simp, ?_, ?_⟩
          · split_ifs <;> simp [htok2]
          · split_ifs <;> simp [hbuf2]
          · have h1 := hq2.1
            have h2 := hq2.2.1
            have h3 := hq2.2.2
            split_ifs
            · simp only [_PushToken, _Backtrack, subSizeT, if_pos h1]
              omega
            · rcases h3 with h3 | h3
              · simpa using h3
              · exact absurd h3 hnl

/-- C13: in a buffer that ends with a newline, as every file buffer does, when
the FunctionName state returns it has emitted a `FunctionName` (or `Lambda`)
token, the cursor is still inside the buffer and the state is
FunctionParameters; so a run that completes invokes the FunctionParameters
state next, and the first token that state emits, right after the
`FunctionName`, is `StartFunctionParameters`: no `EndLine` comes between them.
A newline is taken to be no space and no identifier character. -/
theorem C13_function_name_then_parameters (E : Env) (run : Parser → Res Parser)
    (s r : Parser)
    (hsp : E.IsSpace '\n' = false) (hvn : E.IsVarNameChar '\n' = false)
    (hst : s.CurrentState = .FunctionName)
    (hlast : s.Buffer.getLast? = some '\n') (hi : s.CurrentTokenIndex < s.Buffer.length)
    (h : dispatch E run s = .ok r) :
    (r.Tokens = s.Tokens ++ [{ TokenType := .Lambda, Data := [] }] ∨
      ∃ d, r.Tokens = s.Tokens ++ [{ TokenType := .FunctionName, Data := d }]) ∧
    r.CurrentState = .FunctionParameters ∧
    r.CurrentTokenIndex < r.Buffer.length ∧
    ∀ n fin, mainLoop (dispatch E run) (n + 1) r = .ok fin →
      ∃ r2 more, dispatch E run r = .ok r2 ∧
        r2.Tokens = r.Tokens ++ { TokenType := .StartFunctionParameters, Data := [] } :: more ∧
        mainLoop (dispatch E run) n r2 = .ok fin := by
  have hdis : dispatch E run s = _FunctionNameState E s := by
    unfold dispatch
    rw [hst]
  have hres := functionName_result E hsp hvn s hlast hi
  rw [← hdis, h] at hres
  obtain ⟨h1, h2, -, h4⟩ := hres
  refine ⟨h1, h2, h4, fun n fin hfin => ?_⟩
  have hdis2 : dispatch E run r = _FunctionParameterState E run r := by
    unfold dispatch
    rw [h2]
  have hfirst := functionParameter_first E run r
  rw [← hdis2] at hfirst
  have e : mainLoop (dispatch E run) (n + 1) r =
      (dispatch E run r).bind (mainLoop (dispatch E run) n) := by
    rw [mainLoop, if_pos h4]
  rw [e] at hfin
  cases hr2 : dispatch E run r with
  | halt => rw [hr2] at hfin; cases hfin
  | outOfFuel => rw [hr2] at hfin; cases hfin
  | ok r2 =>
    rw [hr2] at hfin hfirst
    obtain ⟨more, hm⟩ := hfirst
    exact ⟨r2, more, rfl, hm, hfin⟩

theorem C13_function_name_then_parameters_witness :
    ∃ r r2, dispatch specEnv (ParseProgram specEnv 32)
        ⟨[], "function f(int32 a)\n".toList, 9, 0, .FunctionName, [], []⟩ = .ok r ∧
      r.Tokens = [tk .FunctionName "f"] ∧
      dispatch specEnv (ParseProgram specEnv 32) r = .ok r2 ∧
      r2.Tokens.take 2 = [tk .FunctionName "f", tk .StartFunctionParameters ""] := by
  have h : dispatch specEnv (ParseProgram specEnv 32)
      ⟨[], "function f(int32 a)\n".toList, 9, 0, .FunctionName, [], []⟩ =
      .ok ⟨[tk .FunctionName "f"], "function f(int32 a)\n".toList, 10, 0, .FunctionParameters,
        [], []⟩ := by decide!
  obtain ⟨-, -, -, h4⟩ := C13_function_name_then_parameters specEnv (ParseProgram specEnv 32)
    _ _ (by decide!) (by decide!) (by decide!) (by decide!) (by decide!) h
  obtain ⟨r2, more, e1, e2, -⟩ := h4 8
    ⟨[tk .FunctionName "f", tk .StartFunctionParameters "", tk .Int32Type "int32",
      tk .VariableName "a", tk .EndFunctionParameters "", tk .EndLine ""],
      "function f(int32 a)\n".toList, 20, 0, .Indentation, [], []⟩ (by decide!)
  exact ⟨_, r2, h, by decide!, e1, by rw [e2]; rfl⟩

/-! ## Brackets, lines and repeated runs -/

theorem subLex_good (E : Env) (hE : E.WF) (fuel : Nat) (text : List Char) :
    (subLex (ParseProgram E fuel) text).Sat Good := by
  unfold subLex
  exact (ParseProgram_good E hE fuel _ (init_inv _)).bind fun r hr => by simpa using hr

/-- A finished run: the brackets closed and those left on the stack are at most
the brackets opened. -/
theorem run_brackets (E : Env) (hE : E.WF) (fuel : Nat) (content : List Char) (r : Parser)
    (h : CreateTokensFromFile E fuel content = .ok r) :
    countTok .CloseBracket r.Tokens + r.BracketStack.length ≤ countTok .OpenBracket r.Tokens := by
  obtain ⟨n, q, hq, rfl⟩ := run_of_ok E fuel content r h
  have hinv := mainLoop_inv _ (dispatch_inv E hE _ (subLex_good E hE n)) n
    ⟨[], content ++ ['\n'], 0, 0, .Default, [], []⟩
    (by simp [Inv, pend, PrefixOK_nil])
  rw [hq] at hinv
  have h2 := hinv.2.1
  simp only [unwindIndents, countTok_append, countTok_replicate]
  simp
  omega

/-- C11: the file `(` is tokenized without a halt; its stream is one
`OpenBracket` and no `CloseBracket`, and the `(` is still on the bracket stack
when `ParseProgram` returns, which does not look at the stack.  In every
finished run the `CloseBracket` tokens and the brackets left on the stack are
at most the `OpenBracket` tokens. -/
theorem C11_unclosed_bracket_accepted :
    CreateTokensFromFile specEnv 64 "(".toList =
      .ok ⟨[tk .OpenBracket "("], "(\n".toList, 2, 0, .Indentation, [], ['(']⟩ ∧
    countTok .OpenBracket [tk .OpenBracket "("] = 1 ∧
    countTok .CloseBracket [tk .OpenBracket "("] = 0 ∧
    ∀ (E : Env) (fuel : Nat) (content : List Char) (r : Parser), E.WF →
      CreateTokensFromFile E fuel content = .ok r →
      countTok .CloseBracket r.Tokens + r.BracketStack.length ≤
        countTok .OpenBracket r.Tokens :=
  ⟨by decide!, by decide!, by decide!,
    fun E fuel content r hE h => run_brackets E hE fuel content r h⟩

theorem C11_unclosed_bracket_accepted_witness :
    ∃ r, CreateTokensFromFile specEnv 64 "((a)".toList = .ok r ∧
      r.BracketStack = ['('] ∧ countTok .CloseBracket r.Tokens = 1 ∧
      countTok .OpenBracket r.Tokens = 2 ∧
      countTok .CloseBracket r.Tokens + r.BracketStack.length ≤ countTok .OpenBracket r.Tokens := by
  have h : CreateTokensFromFile specEnv 64 "((a)".toList =
      .ok ⟨[tk .OpenBracket "(", tk .OpenBracket "(", tk .VariableReference "a",
        tk .CloseBracket ")"], "((a)\n".toList, 5, 0, .Indentation, [], ['(']⟩ := by decide!
  exact ⟨_, h, by decide!, by decide!, by decide!,
    C11_unclosed_bracket_accepted.2.2.2 specEnv 64 _ _ specEnv_WF h⟩

/-- C12: the file `f(1` newline `)` is tokenized with an `EndLine` between the
`OpenBracket` and the `CloseBracket` of the call, at a position with one
`OpenBracket` and no `CloseBracket` before it: the argument text `1` newline
goes to a sub-lexer, whose `EndLine` is spliced in.  A newline inside a grouping
bracket or inside an index body emits no `EndLine`. -/
theorem C12_endline_inside_call :
    (∃ toks, (CreateTokensFromFile specEnv 64 "f(1\n)".toList).tokens = some toks ∧
      toks = [tk .VariableReference "f", tk .FunctionCall "f", tk .OpenBracket "(",
        tk .RValueNumber "1", tk .EndLine "", tk .CloseBracket ")", tk .EndLine ""] ∧
      toks.get? 4 = some (tk .EndLine "") ∧
      countTok .CloseBracket (toks.take 4) < countTok .OpenBracket (toks.take 4)) ∧
    (subLex (ParseProgram specEnv 63) "1\n".toList =
      .ok [tk .RValueNumber "1", tk .EndLine ""]) ∧
    (CreateTokensFromFile specEnv 64 "(a\n)".toList).tokens =
      some [tk .OpenBracket "(", tk .VariableReference "a", tk .CloseBracket ")",
        tk .EndLine ""] ∧
    (CreateTokensFromFile specEnv 64 "x = a[1\n]".toList).tokens =
      some [tk .VariableReference "x", tk .Assign "=", tk .VariableReference "a",
        tk .IndexOperator "", tk .OpenBracket "[", tk .RValueNumber "1", tk .CloseBracket "]",
        tk .EndLine ""] :=
  ⟨⟨_, by decide!, rfl, by decide!, by decide!⟩, by decide!, by decide!, by decide!⟩

/-- C14: a second call of `CreateTokensFromFile` on the same object does not
read the file it is given.  The stream of the first call is still open, so the
call to open fails and the buffer is what is left of the first file, nothing,
and the newline the member appends; and `InitParser` leaves the bracket stack as
it is.  After a first call on the file `(` the second call, on a file with the
content `a`, returns no token at all; after a first call on the file `b` it
returns an `EndLine` alone; a new object returns `VariableReference("a")`,
`EndLine` for that content. -/
theorem C14_second_call_reads_no_file :
    (∀ (E : Env) (fuel : Nat) (s : Parser) (rest : List Char) (file : Option (List Char)),
      CreateTokensFromFileOn E fuel s (some rest) file
        = (ParseProgram E fuel { s.InitParser with Buffer := rest ++ ['\n'] }).bind
            fun r => .ok (r, some [])) ∧
    (∀ (E : Env) (fuel : Nat) (content : List Char),
      CreateTokensFromFileOn E fuel Parser.new none (some content)
        = (CreateTokensFromFile E fuel content).bind fun r => .ok (r, some [])) ∧
    (∀ s : Parser, s.InitParser.BracketStack = s.BracketStack) ∧
    (∃ p r1 r2,
      CreateTokensFromFileOn specEnv 64 Parser.new none (some "(".toList) = .ok (p, some []) ∧
      p.Tokens = [tk .OpenBracket "("] ∧ p.BracketStack = ['('] ∧
      CreateTokensFromFileOn specEnv 64 p (some []) (some "a".toList) = .ok (r1, some []) ∧
      r1.Tokens = [] ∧
      CreateTokensFromFileOn specEnv 64 Parser.new none (some "a".toList) = .ok (r2, some []) ∧
      r2.Tokens = [tk .VariableReference "a", tk .EndLine ""]) ∧
    (∃ p r1,
      CreateTokensFromFileOn specEnv 64 Parser.new none (some "b".toList) = .ok (p, some []) ∧
      p.Tokens = [tk .VariableReference "b", tk .EndLine ""] ∧ p.BracketStack = [] ∧
      CreateTokensFromFileOn specEnv 64 p (some []) (some "a".toList) = .ok (r1, some []) ∧
      r1.Tokens = [tk .EndLine ""]) := by
  refine ⟨fun E fuel s rest file => rfl, fun E fuel content => rfl, fun s => rfl, ?_, ?_⟩
  · exact ⟨⟨[tk .OpenBracket "("], "(\n".toList, 2, 0, .Indentation, [], ['(']⟩,
      ⟨[], "\n".toList, 1, 0, .Indentation, [], ['(']⟩,
      ⟨[tk .VariableReference "a", tk .EndLine ""], "a\n".toList, 2, 0, .Indentation, [], []⟩,
      by decide!, by decide!, by decide!, by decide!, by decide!, by decide!, by decide!⟩
  · exact ⟨⟨[tk .VariableReference "b", tk .EndLine ""], "b\n".toList, 2, 0, .Indentation,
        [], []⟩,
      ⟨[tk .EndLine ""], "\n".toList, 1, 0, .Indentation, [], []⟩,
      by decide!, by decide!, by decide!, by decide!, by decide!⟩

/-- C19, as stated, fails: the line `x * y` yields a `PointerDef` token and no
`MulOp` token. -/
theorem C19_counterexample :
    ∃ toks, (CreateTokensFromFile specEnv 64 "x * y".toList).tokens = some toks ∧
      tk .PointerDef "*" ∈ toks ∧ countTok .MulOp toks = 0 :=
  ⟨[tk .VariableReference "x", tk .PointerDef "*", tk .VariableName "y", tk .EndLine ""],
    by decide!, by decide!, by decide!⟩

/-- C19, amended: as the right-hand side of an assignment, `z = x * y`, the text
`x * y` yields `MulOp("*")` between the tokens of `x` and `y` and no
`PointerDef`; the line `x * y` at the start of a statement is read as a
declaration and yields `VariableReference("x")`, `PointerDef("*")`,
`VariableName("y")`; `*p` at the start of a statement yields `DereferenceOp`. -/
theorem C19_asterisk_in_context :
    (CreateTokensFromFile specEnv 64 "z = x * y".toList).tokens =
      some [tk .VariableReference "z", tk .Assign "=", tk .VariableReference "x",
        tk .MulOp "*", tk .VariableReference "y", tk .EndLine ""] ∧
    (CreateTokensFromFile specEnv 64 "x * y".toList).tokens =
      some [tk .VariableReference "x", tk .PointerDef "*", tk .VariableName "y",
        tk .EndLine ""] ∧
    (CreateTokensFromFile specEnv 64 "*p".toList).tokens =
      some [tk .DereferenceOp "", tk .VariableReference "p", tk .EndLine ""] :=
  ⟨by decide!, by decide!, by decide!⟩

/-- C20, as stated, fails: the stream of the file is not the twenty tokens of
the claim. -/
theorem C20_counterexample :
    ∃ toks, (CreateTokensFromFile specEnv 64
        "function f(int32 a) -> int32:\n    return a + 1\nf(2)\n".toList).tokens = some toks ∧
      toks ≠ [tk .FunctionName "f", tk .StartFunctionParameters "", tk .Int32Type "int32",
        tk .VariableName "a", tk .EndFunctionParameters "", tk .Arrow "->",
        tk .FunctionType "int32", tk .Int32Type "int32", tk .EndLine "",
        tk .StartIndentation "", tk .ReturnKeyword "return", tk .VariableReference "a",
        tk .AddOp "+", tk .RValueNumber "1", tk .EndLine "", tk .EndIndentation "",
        tk .FunctionCall "f", tk .RValueNumber "2", tk .CloseBracket ")", tk .EndLine ""] ∧
      toks.map (fun t => t.TokenType) ≠
        [.FunctionName, .StartFunctionParameters, .Int32Type, .VariableName,
          .EndFunctionParameters, .Arrow, .FunctionType, .Int32Type, .EndLine,
          .StartIndentation, .ReturnKeyword, .VariableReference, .AddOp, .RValueNumber,
          .EndLine, .EndIndentation, .FunctionCall, .RValueNumber, .CloseBracket, .EndLine] :=
  ⟨[tk .FunctionName "f", tk .StartFunctionParameters "", tk .Int32Type "int32",
      tk .VariableName "a", tk .EndFunctionParameters "", tk .Arrow "->",
      tk .FunctionType "int32", tk .Int32Type "int32", tk .StartIndentation "",
      tk .ReturnKeyword "return", tk .VariableReference "a", tk .AddOp "+",
      tk .RValueNumber "1", tk .EndLine "", tk .EndIndentation "",
      tk .VariableReference "f", tk .FunctionCall "f", tk .OpenBracket "(",
      tk .RValueNumber "2", tk .CloseBracket ")", tk .EndLine "", tk .EndLine ""],
    by decide!, by decide!, by decide!⟩

/-- C20, amended: the file yields, in order, `FunctionName("f")`,
`StartFunctionParameters`, `Int32Type`, `VariableName("a")`,
`EndFunctionParameters`, `Arrow`, `FunctionType("int32")`, `Int32Type`,
`StartIndentation` (no `EndLine` after the header, whose newline follows a `:`),
`ReturnKeyword`, `VariableReference("a")`, `AddOp("+")`, `RValueNumber("1")`,
`EndLine`, `EndIndentation`, `VariableReference("f")`, `FunctionCall("f")`,
`OpenBracket("(")`, `RValueNumber("2")`, `CloseBracket(")")`, `EndLine`, and one
more `EndLine` for the newline appended to the content. -/
theorem C20_function_and_call :
    (CreateTokensFromFile specEnv 64
        "function f(int32 a) -> int32:\n    return a + 1\nf(2)\n".toList).tokens =
      some [tk .FunctionName "f", tk .StartFunctionParameters "", tk .Int32Type "int32",
        tk .VariableName "a", tk .EndFunctionParameters "", tk .Arrow "->",
        tk .FunctionType "int32", tk .Int32Type "int32", tk .StartIndentation "",
        tk .ReturnKeyword "return", tk .VariableReference "a", tk .AddOp "+",
        tk .RValueNumber "1", tk .EndLine "", tk .EndIndentation "",
        tk .VariableReference "f", tk .FunctionCall "f", tk .OpenBracket "(",
        tk .RValueNumber "2", tk .CloseBracket ")", tk .EndLine "", tk .EndLine ""] := by
  decide!

/-! ## The list of variable names -/

theorem loop_cond_left (c : Char) : c ≠ NUL ∨ c ≠ '\n' := by
  by_cases h : c = NUL
  · right
    rw [h]
    decide
  · exact Or.inl h

theorem varLoop_run (E : Env) (Φ : Parser → Char → Nat → Nat → Res VarListLocals)
    (B : List Char) (K : Nat)
    (hbase : ∀ (q : Parser) (z : Char) (commas vars m : Nat), q.Buffer = B →
      q.CurrentTokenIndex = K → IdChar E z →
      _VariableNameState.loop E (m + 2) { current := z, commas := commas, vars := vars, s := q }
        = Φ q z commas vars) :
    ∀ (others : List (List Char)) (w : List Char) (c : Char) (s : Parser)
      (n commas vars : Nat) (pre tl : List Char),
      IdChar E c → (∀ a ∈ w, IdChar E a) →
      (∀ id ∈ others, id ≠ [] ∧ ∀ a ∈ id, IdChar E a) →
      s.Buffer = pre ++ (w ++ (sepText others ++ tl)) → s.Buffer = B →
      s.CurrentTokenIndex = pre.length →
      K = pre.length + w.length + (sepText others).length →
      w.length + (sepText others).length + 2 ≤ n →
      ∃ acc z, lastId (s.CurrentString ++ c :: w) others = acc ++ [z] ∧ IdChar E z ∧
        _VariableNameState.loop E n
            { current := c, commas := commas, vars := vars, s := s }
          = Φ { s with
                Tokens := s.Tokens ++ doneTokens (s.CurrentString ++ c :: w) others
                CurrentString := acc
                CurrentTokenIndex := K } z (commas + others.length)
              (vars + others.length) := by
  intro others
  induction others with
  | nil =>
    intro w
    induction w with
    | nil =>
      intro c s n commas vars pre tl hc _ _ hb hB hi hK hn
      obtain ⟨m, rfl⟩ : ∃ m, n = m + 2 := ⟨n - 2, by omega⟩
      refine ⟨s.CurrentString, c, rfl, hc, ?_⟩
      rw [hbase s c commas vars m hB (by simpa [sepText, hi] using hK.symm) hc]
      have e : ({ s with Tokens := s.Tokens ++ doneTokens (s.CurrentString ++ [c]) []
                         CurrentString := s.CurrentString
                         CurrentTokenIndex := K } : Parser) = s := by
        cases s
        simp_all [doneTokens, sepText]
      rw [e]
      rfl
    | cons d r ih =>
      intro c s n commas vars pre tl hc hw ho hb hB hi hK hn
      obtain ⟨m, rfl⟩ : ∃ m, n = m + 1 := ⟨n - 1, by omega⟩
      have hd : IdChar E d := hw d (by simp)
      obtain ⟨acc, z, h1, h2, h3⟩ := ih d
        { s with CurrentString := s.CurrentString ++ [c]
                 CurrentTokenIndex := pre.length + 1 }
        m commas vars (pre ++ [d]) tl hd (fun a ha => hw a (by simp [ha])) ho
        (by simpa using hb) hB (by simp)
        (by simp at hK ⊢; omega) (by simp at hn ⊢; omega)
      refine ⟨acc, z, by simpa using h1, h2, ?_⟩
      unfold _VariableNameState.loop
      have hcond : (c ≠ NUL ∨ c ≠ '\n') ∧ (E.IsVarNameChar c = true ∨ E.IsSpace c = true) :=
        ⟨loop_cond_left c, Or.inl hc.1⟩
      rw [if_pos hcond]
      simp only [hc.2.1, Bool.not_false, if_true]
      rw [getNext_at { s with CurrentString := s.CurrentString ++ [c] } pre d
        (r ++ (sepText [] ++ tl)) (by simpa using hb) hi]
      simp only [hd.2.2, if_false]
      rw [h3]
      simp
  | cons id others iho =>
    intro w
    induction w with
    | nil =>
      intro c s n commas vars pre tl hc _ ho hb hB hi hK hn
      obtain ⟨m, rfl⟩ : ∃ m, n = m + 1 := ⟨n - 1, by omega⟩
      obtain ⟨hid, hidc⟩ := ho id (by simp)
      obtain ⟨c2, w2, rfl⟩ : ∃ c2 w2, id = c2 :: w2 := by
        cases id with
        | nil => exact absurd rfl hid
        | cons a b => exact ⟨a, b, rfl⟩
      have hc2 : IdChar E c2 := hidc c2 (by simp)
      obtain ⟨acc, z, h1, h2, h3⟩ := iho w2 c2
        { s with Tokens := s.Tokens ++ [{ TokenType := .VariableName,
                                          Data := s.CurrentString ++ [c] },
                                        { TokenType := .Comma, Data := [] }]
                 CurrentString := []
                 CurrentTokenIndex := pre.length + 2 }
        m (commas + 1) (vars + 1) (pre ++ [',', c2]) tl hc2
        (fun a ha => hidc a (by simp [ha])) (fun x hx => ho x (by simp [hx]))
        (by simpa [sepText] using hb) hB (by simp)
        (by simp [sepText] at hK ⊢; omega) (by simp [sepText] at hn ⊢; omega)
      refine ⟨acc, z, by simpa [lastId] using h1, h2, ?_⟩
      unfold _VariableNameState.loop
      have hcond : (c ≠ NUL ∨ c ≠ '\n') ∧ (E.IsVarNameChar c = true ∨ E.IsSpace c = true) :=
        ⟨loop_cond_left c, Or.inl hc.1⟩
      rw [if_pos hcond]
      simp only [hc.2.1, Bool.not_false, if_true]
      rw [getNext_at { s with CurrentString := s.CurrentString ++ [c] } pre ','
        (c2 :: (w2 ++ (sepText others ++ tl))) (by simpa [sepText] using hb) hi]
      simp only [if_true, List.append_eq_nil, List.cons_ne_nil, and_false, if_false,
        _PushToken]
      have g2 := getNext_at
        ({ s with Tokens := s.Tokens ++ [{ TokenType := .VariableName,
                                           Data := s.CurrentString ++ [c] }] ++
                              [{ TokenType := .Comma, Data := [] }]
                  CurrentString := []
                  CurrentTokenIndex := pre.length + 1 } : Parser)
        (pre ++ [',']) c2 (w2 ++ (sepText others ++ tl))
        (by simpa [sepText] using hb) (by simp)
      simp only [g2, hc2.2.2, if_false]
      have e : pre.length + 1 + 1 = pre.length + 2 := rfl
      simp only [List.length_append, List.length_singleton, List.append_assoc,
        List.singleton_append] at h3 ⊢
      rw [h3]
      simp [doneTokens, Nat.add_comm, Nat.add_left_comm, Nat.add_assoc]
    | cons d r ih =>
      intro c s n commas vars pre tl hc hw ho hb hB hi hK hn
      obtain ⟨m, rfl⟩ : ∃ m, n = m + 1 := ⟨n - 1, by omega⟩
      have hd : IdChar E d := hw d (by simp)
      obtain ⟨acc, z, h1, h2, h3⟩ := ih d
        { s with CurrentString := s.CurrentString ++ [c]
                 CurrentTokenIndex := pre.length + 1 }
        m commas vars (pre ++ [d]) tl hd (fun a ha => hw a (by simp [ha])) ho
        (by simpa using hb) hB (by simp)
        (by simp at hK ⊢; omega) (by simp at hn ⊢; omega)
      refine ⟨acc, z, by simpa using h1, h2, ?_⟩
      unfold _VariableNameState.loop
      have hcond : (c ≠ NUL ∨ c ≠ '\n') ∧ (E.IsVarNameChar c = true ∨ E.IsSpace c = true) :=
        ⟨loop_cond_left c, Or.inl hc.1⟩
      rw [if_pos hcond]
      simp only [hc.2.1, Bool.not_false, if_true]
      rw [getNext_at { s with CurrentString := s.CurrentString ++ [c] } pre d
        (r ++ (sepText (id :: others) ++ tl)) (by simpa using hb) hi]
      simp only [hd.2.2, if_false]
      rw [h3]
      simp

theorem varLoop_end (E : Env) (p tl : List Char) (t : Char) (ht : ListEnd E t)
    (q : Parser) (z : Char) (commas vars m : Nat)
    (hb : q.Buffer = p ++ t :: tl) (hi : q.CurrentTokenIndex = p.length) (hz : IdChar E z) :
    _VariableNameState.loop E (m + 2) { current := z, commas := commas, vars := vars, s := q }
      = .ok { current := t, commas := commas, vars := vars,
              s := { q with CurrentString := q.CurrentString ++ [z]
                            CurrentTokenIndex := p.length + 1 } } := by
  unfold _VariableNameState.loop
  have hcond : (z ≠ NUL ∨ z ≠ '\n') ∧ (E.IsVarNameChar z = true ∨ E.IsSpace z = true) :=
    ⟨loop_cond_left z, Or.inl hz.1⟩
  rw [if_pos hcond]
  simp only [hz.2.1, Bool.not_false, if_true]
  rw [getNext_at { q with CurrentString := q.CurrentString ++ [z] } p t tl hb hi]
  simp only [ht.2.2, if_false]
  unfold _VariableNameState.loop
  simp [ht.1, ht.2.1]

theorem varLoop_comma_end (E : Env) (p tl : List Char) (t : Char) (ht : ListEnd E t)
    (q : Parser) (z : Char) (commas vars m : Nat)
    (hb : q.Buffer = p ++ ',' :: t :: tl) (hi : q.CurrentTokenIndex = p.length)
    (hz : IdChar E z) :
    _VariableNameState.loop E (m + 2) { current := z, commas := commas, vars := vars, s := q }
      = .ok { current := t, commas := commas + 1, vars := vars + 1,
              s := { q with Tokens := q.Tokens ++ [{ TokenType := .VariableName,
                                                     Data := q.CurrentString ++ [z] }] ++
                                        [{ TokenType := .Comma, Data := [] }]
                            CurrentString := []
                            CurrentTokenIndex := p.length + 2 } } := by
  unfold _VariableNameState.loop
  have hcond : (z ≠ NUL ∨ z ≠ '\n') ∧ (E.IsVarNameChar z = true ∨ E.IsSpace z = true) :=
    ⟨loop_cond_left z, Or.inl hz.1⟩
  rw [if_pos hcond]
  simp only [hz.2.1, Bool.not_false, if_true]
  rw [getNext_at { q with CurrentString := q.CurrentString ++ [z] } p ',' (t :: tl) hb hi]
  simp only [if_true, List.append_eq_nil, List.cons_ne_nil, and_false, if_false, _PushToken]
  have g2 := getNext_at
    ({ q with Tokens := q.Tokens ++ [{ TokenType := .VariableName,
                                       Data := q.CurrentString ++ [z] }] ++
                          [{ TokenType := .Comma, Data := [] }]
              CurrentString := []
              CurrentTokenIndex := p.length + 1 } : Parser)
    (p ++ [',']) t tl (by simpa using hb) (by simp)
  simp only [g2, ht.2.2, if_false]
  unfold _VariableNameState.loop
  simp [ht.1, ht.2.1]

theorem varLoop_comma_comma (E : Env) (p tl : List Char)
    (q : Parser) (z : Char) (commas vars m : Nat)
    (hb : q.Buffer = p ++ ',' :: ',' :: tl) (hi : q.CurrentTokenIndex = p.length)
    (hz : IdChar E z) :
    _VariableNameState.loop E (m + 2) { current := z, commas := commas, vars := vars, s := q }
      = .halt := by
  unfold _VariableNameState.loop
  have hcond : (z ≠ NUL ∨ z ≠ '\n') ∧ (E.IsVarNameChar z = true ∨ E.IsSpace z = true) :=
    ⟨loop_cond_left z, Or.inl hz.1⟩
  rw [if_pos hcond]
  simp only [hz.2.1, Bool.not_false, if_true]
  rw [getNext_at { q with CurrentString := q.CurrentString ++ [z] } p ',' (',' :: tl) hb hi]
  simp only [if_true, List.append_eq_nil, List.cons_ne_nil, and_false, if_false, _PushToken]
  have g2 := getNext_at
    ({ q with Tokens := q.Tokens ++ [{ TokenType := .VariableName,
                                       Data := q.CurrentString ++ [z] }] ++
                          [{ TokenType := .Comma, Data := [] }]
              CurrentString := []
              CurrentTokenIndex := p.length + 1 } : Parser)
    (p ++ [',']) ',' tl (by simpa using hb) (by simp)
  simp only [g2, if_true]

theorem doneTokens_last (cur : List Char) (others : List (List Char)) :
    doneTokens cur others ++ [{ TokenType := .VariableName, Data := lastId cur others }]
      = varListTokens (cur :: others) := by
  induction others generalizing cur with
  | nil => rfl
  | cons id rest ih =>
    simp only [doneTokens, lastId, varListTokens, List.cons_append]
    rw [ih]

theorem countTok_varList (ids : List (List Char)) :
    countTok .VariableName (varListTokens ids) = ids.length ∧
    countTok .Comma (varListTokens ids) = ids.length - 1 := by
  induction ids with
  | nil => exact ⟨rfl, rfl⟩
  | cons id rest ih =>
    cases rest with
    | nil => exact ⟨by simp [varListTokens, countTok], by simp [varListTokens, countTok]⟩
    | cons id2 rest =>
      obtain ⟨h1, h2⟩ := ih
      constructor
      · simp only [varListTokens] at h1 ⊢
        simp only [countTok] at h1 ⊢
        simp [List.countP_cons, h1]
      · simp only [varListTokens] at h2 ⊢
        simp only [countTok] at h2 ⊢
        simp [List.countP_cons, h2]

theorem variableName_list_ok (E : Env) (s : Parser) (pre sp w tl : List Char) (c t : Char)
    (others : List (List Char))
    (hb : s.Buffer = pre ++ (sp ++ (listText ((c :: w) :: others) ++ t :: tl)))
    (hi : s.CurrentTokenIndex = pre.length)
    (hsp : ∀ a ∈ sp, E.IsSpace a = true)
    (hhead : ListHead E c) (hc : IdChar E c) (hw : ∀ a ∈ w, IdChar E a)
    (ho : ∀ id ∈ others, id ≠ [] ∧ ∀ a ∈ id, IdChar E a)
    (ht : ListEnd E t) :
    _VariableNameState E s =
      .ok { s with
            Tokens := s.Tokens ++ varListTokens ((c :: w) :: others)
            CurrentString := []
            CurrentState := .Default
            CurrentTokenIndex :=
              pre.length + sp.length + (listText ((c :: w) :: others)).length } := by
  have hend1 := fun (q : Parser) h1 h2 =>
    getNext_at q (pre ++ sp) c (w ++ (sepText others ++ t :: tl)) h1 h2
  have step1 := skipSpaces_run E s pre sp (c :: (w ++ (sepText others ++ t :: tl)))
    ((pre ++ sp).length + 1) (by simpa [listText] using hb) hi (by simp) hsp
    (by simpa using hc.2.1) (fun q h1 h2 => hend1 q (by simpa using h1) h2)
  obtain ⟨acc, z, h1, h2, h3⟩ := varLoop_run E
    (fun q z cm vs => .ok
      { current := t
        commas := cm
        vars := vs
        s := { q with
               CurrentString := q.CurrentString ++ [z]
               CurrentTokenIndex :=
                 (pre ++ sp ++ listText ((c :: w) :: others)).length + 1 } })
    s.Buffer (pre ++ sp ++ listText ((c :: w) :: others)).length
    (fun q z cm vs m hqb hqi hz =>
      varLoop_end E (pre ++ sp ++ listText ((c :: w) :: others)) tl t ht q z cm vs m
        (by rw [hqb, hb]; simp [listText]) hqi hz)
    others w c
    ({ s with CurrentString := [], CurrentTokenIndex := (pre ++ sp).length + 1 } : Parser)
    (s.Buffer.length + 2) 0 0 (pre ++ sp ++ [c]) (t :: tl) hc hw ho
    (by simp [hb, listText]) rfl (by simp; omega)
    (by simp [listText]; omega) (by simp [hb, listText]; omega)
  unfold _VariableNameState
  obtain ⟨e1, e2, e3, e4, e5, e6, e7⟩ := hhead
  simp only [step1, List.headD_cons, Res.bind_ok, e1, e2, e3, e4, e5, e6, e7, false_or,
    or_self, false_and, if_false, Bool.false_eq_true, loopFuel]
  rw [h3]
  simp only [Res.bind_ok, List.nil_append] at h1 ⊢
  have hne : acc ++ [z] ≠ [] := by simp
  simp only [ne_eq, hne, not_false_eq_true, if_true, ht.2.1, Bool.not_false, _PushToken,
    _Backtrack, subSizeT]
  have hlt : 0 + others.length < 0 + others.length + 1 := by omega
  rw [if_pos hlt]
  rw [← h1, ← doneTokens_last]
  simp [List.append_assoc]
  omega

theorem variableName_trailing_comma (E : Env) (s : Parser) (pre sp w tl : List Char)
    (c t : Char) (others : List (List Char))
    (hb : s.Buffer = pre ++ (sp ++ (listText ((c :: w) :: others) ++ ',' :: t :: tl)))
    (hi : s.CurrentTokenIndex = pre.length)
    (hsp : ∀ a ∈ sp, E.IsSpace a = true)
    (hhead : ListHead E c) (hc : IdChar E c) (hw : ∀ a ∈ w, IdChar E a)
    (ho : ∀ id ∈ others, id ≠ [] ∧ ∀ a ∈ id, IdChar E a)
    (ht : ListEnd E t) :
    _VariableNameState E s = .halt := by
  have hend1 := fun (q : Parser) h1 h2 =>
    getNext_at q (pre ++ sp) c (w ++ (sepText others ++ ',' :: t :: tl)) h1 h2
  have step1 := skipSpaces_run E s pre sp (c :: (w ++ (sepText others ++ ',' :: t :: tl)))
    ((pre ++ sp).length + 1) (by simpa [listText] using hb) hi (by simp) hsp
    (by simpa using hc.2.1) (fun q h1 h2 => hend1 q (by simpa using h1) h2)
  obtain ⟨acc, z, h1, h2, h3⟩ := varLoop_run E
    (fun q z cm vs => .ok
      { current := t
        commas := cm + 1
        vars := vs + 1
        s := { q with
               Tokens := q.Tokens ++ [{ TokenType := .VariableName,
                                        Data := q.CurrentString ++ [z] }] ++
                           [{ TokenType := .Comma, Data := [] }]
               CurrentString := []
               CurrentTokenIndex :=
                 (pre ++ sp ++ listText ((c :: w) :: others)).length + 2 } })
    s.Buffer (pre ++ sp ++ listText ((c :: w) :: others)).length
    (fun q z cm vs m hqb hqi hz =>
      varLoop_comma_end E (pre ++ sp ++ listText ((c :: w) :: others)) tl t ht q z cm vs m
        (by rw [hqb, hb]; simp [listText]) hqi hz)
    others w c
    ({ s with CurrentString := [], CurrentTokenIndex := (pre ++ sp).length + 1 } : Parser)
    (s.Buffer.length + 2) 0 0 (pre ++ sp ++ [c]) (',' :: t :: tl) hc hw ho
    (by simp [hb, listText]) rfl (by simp; omega)
    (by simp [listText]; omega) (by simp [hb, listText]; omega)
  unfold _VariableNameState
  obtain ⟨e1, e2, e3, e4, e5, e6, e7⟩ := hhead
  simp only [step1, List.headD_cons, Res.bind_ok, e1, e2, e3, e4, e5, e6, e7, false_or,
    or_self, false_and, if_false, Bool.false_eq_true, loopFuel]
  rw [h3]
  simp

theorem variableName_empty_item (E : Env) (s : Parser) (pre sp w tl : List Char)
    (c : Char) (others : List (List Char))
    (hb : s.Buffer = pre ++ (sp ++ (listText ((c :: w) :: others) ++ ',' :: ',' :: tl)))
    (hi : s.CurrentTokenIndex = pre.length)
    (hsp : ∀ a ∈ sp, E.IsSpace a = true)
    (hhead : ListHead E c) (hc : IdChar E c) (hw : ∀ a ∈ w, IdChar E a)
    (ho : ∀ id ∈ others, id ≠ [] ∧ ∀ a ∈ id, IdChar E a) :
    _VariableNameState E s = .halt := by
  have hend1 := fun (q : Parser) h1 h2 =>
    getNext_at q (pre ++ sp) c (w ++ (sepText others ++ ',' :: ',' :: tl)) h1 h2
  have step1 := skipSpaces_run E s pre sp (c :: (w ++ (sepText others ++ ',' :: ',' :: tl)))
    ((pre ++ sp).length + 1) (by simpa [listText] using hb) hi (by simp) hsp
    (by simpa using hc.2.1) (fun q h1 h2 => hend1 q (by simpa using h1) h2)
  obtain ⟨acc, z, h1, h2, h3⟩ := varLoop_run E
    (fun _ _ _ _ => .halt)
    s.Buffer (pre ++ sp ++ listText ((c :: w) :: others)).length
    (fun q z cm vs m hqb hqi hz =>
      varLoop_comma_comma E (pre ++ sp ++ listText ((c :: w) :: others)) tl q z cm vs m
        (by rw [hqb, hb]; simp [listText]) hqi hz)
    others w c
    ({ s with CurrentString := [], CurrentTokenIndex := (pre ++ sp).length + 1 } : Parser)
    (s.Buffer.length + 2) 0 0 (pre ++ sp ++ [c]) (',' :: ',' :: tl) hc hw ho
    (by simp [hb, listText]) rfl (by simp; omega)
    (by simp [listText]; omega) (by simp [hb, listText]; omega)
  unfold _VariableNameState
  obtain ⟨e1, e2, e3, e4, e5, e6, e7⟩ := hhead
  simp only [step1, List.headD_cons, Res.bind_ok, e1, e2, e3, e4, e5, e6, e7, false_or,
    or_self, false_and, if_false, Bool.false_eq_true, loopFuel]
  rw [h3]
  rfl

/-- C21: in the VariableName state, on a list of non-empty identifiers with
single commas between them, after spaces and before a character that ends the
list, the lexer emits a `VariableName` for each identifier in order with a
`Comma` between two of them, as many commas as identifiers less one, and goes
to the Default state with the cursor on the character that ends the list; it
halts when the list is followed by a comma and the end of the list, and when it
is followed by two commas. -/
theorem C21_variable_list (E : Env) (pre sp w : List Char) (c : Char)
    (others : List (List Char))
    (hsp : ∀ a ∈ sp, E.IsSpace a = true)
    (hhead : ListHead E c) (hc : IdChar E c) (hw : ∀ a ∈ w, IdChar E a)
    (ho : ∀ id ∈ others, id ≠ [] ∧ ∀ a ∈ id, IdChar E a) :
    (∀ (s : Parser) (t : Char) (tl : List Char), ListEnd E t →
      s.Buffer = pre ++ (sp ++ (listText ((c :: w) :: others) ++ t :: tl)) →
      s.CurrentTokenIndex = pre.length →
      _VariableNameState E s =
        .ok { s with
              Tokens := s.Tokens ++ varListTokens ((c :: w) :: others)
              CurrentString := []
              CurrentState := .Default
              CurrentTokenIndex :=
                pre.length + sp.length + (listText ((c :: w) :: others)).length }) ∧
    countTok .VariableName (varListTokens ((c :: w) :: others)) = others.length + 1 ∧
    countTok .Comma (varListTokens ((c :: w) :: others)) = others.length ∧
    (∀ (s : Parser) (t : Char) (tl : List Char), ListEnd E t →
      s.Buffer = pre ++ (sp ++ (listText ((c :: w) :: others) ++ ',' :: t :: tl)) →
      s.CurrentTokenIndex = pre.length →
      _VariableNameState E s = .halt) ∧
    (∀ (s : Parser) (tl : List Char),
      s.Buffer = pre ++ (sp ++ (listText ((c :: w) :: others) ++ ',' :: ',' :: tl)) →
      s.CurrentTokenIndex = pre.length →
      _VariableNameState E s = .halt) := by
  refine ⟨?_, ?_, ?_, ?_, ?_⟩
  · intro s t tl ht hb hi
    exact variableName_list_ok E s pre sp w tl c t others hb hi hsp hhead hc hw ho ht
  · simpa using (countTok_varList ((c :: w) :: others)).1
  · simpa using (countTok_varList ((c :: w) :: others)).2
  · intro s t tl ht hb hi
    exact variableName_trailing_comma E s pre sp w tl c t others hb hi hsp hhead hc hw ho ht
  · intro s tl hb hi
    exact variableName_empty_item E s pre sp w tl c others hb hi hsp hhead hc hw ho

/-- C21 at the text `int32 a,b,c` and a newline, the cursor after `int32`, with
the tables of the specification. -/
theorem C21_variable_list_witness :
    (∀ a ∈ [' '], specEnv.IsSpace a = true) ∧ ListHead specEnv 'a' ∧ IdChar specEnv 'a' ∧
    (∀ a ∈ ([] : List Char), IdChar specEnv a) ∧
    (∀ id ∈ [['b'], ['c']], id ≠ [] ∧ ∀ a ∈ id, IdChar specEnv a) ∧
    ListEnd specEnv '\n' ∧
    _VariableNameState specEnv
        { Parser.new with
          Buffer := ['i', 'n', 't', '3', '2', ' ', 'a', ',', 'b', ',', 'c', '\n']
          CurrentTokenIndex := 5 }
      = .ok { Parser.new with
              Buffer := ['i', 'n', 't', '3', '2', ' ', 'a', ',', 'b', ',', 'c', '\n']
              Tokens := [tk .VariableName "a", tk .Comma "", tk .VariableName "b",
                tk .Comma "", tk .VariableName "c"]
              CurrentTokenIndex := 11 } :=
  have h1 : ∀ a ∈ [' '], specEnv.IsSpace a = true := by decide
  have h2 : ListHead specEnv 'a' := by
    refine ⟨by decide, by decide!, by decide, by decide, by decide, by decide, by decide⟩
  have h3 : IdChar specEnv 'a' := ⟨by decide!, by decide!, by decide⟩
  have h4 : ∀ a ∈ ([] : List Char), IdChar specEnv a := by simp
  have h5 : ∀ id ∈ [['b'], ['c']], id ≠ [] ∧ ∀ a ∈ id, IdChar specEnv a := by
    intro id hid
    simp only [List.mem_cons, List.mem_singleton, List.not_mem_nil, or_false] at hid
    rcases hid with rfl | rfl
    · exact ⟨by simp, fun a ha => by
        simp only [List.mem_singleton] at ha
        subst ha
        exact ⟨by decide!, by decide!, by decide⟩⟩
    · exact ⟨by simp, fun a ha => by
        simp only [List.mem_singleton] at ha
        subst ha
        exact ⟨by decide!, by decide!, by decide⟩⟩
  have h6 : ListEnd specEnv '\n' := ⟨by decide!, by decide!, by decide⟩
  ⟨h1, h2, h3, h4, h5, h6,
    (C21_variable_list specEnv ['i', 'n', 't', '3', '2'] [' '] [] 'a' [['b'], ['c']]
      h1 h2 h3 h4 h5).1
      { Parser.new with
        Buffer := ['i', 'n', 't', '3', '2', ' ', 'a', ',', 'b', ',', 'c', '\n']
        CurrentTokenIndex := 5 } '\n' [] h6 rfl rfl⟩

/-! ## A space before the closing parenthesis -/

theorem variableName_no_list (E : Env) (s : Parser) (pre sp tl : List Char) (c : Char)
    (hb : s.Buffer = pre ++ (sp ++ c :: tl)) (hi : s.CurrentTokenIndex = pre.length)
    (hsp : ∀ a ∈ sp, E.IsSpace a = true)
    (hhead : ListHead E c) (hv : E.IsVarNameChar c = false) (hs : E.IsSpace c = false) :
    _VariableNameState E s = .halt := by
  have hend1 := fun (q : Parser) h1 h2 => getNext_at q (pre ++ sp) c tl h1 h2
  have step1 := skipSpaces_run E s pre sp (c :: tl) ((pre ++ sp).length + 1) hb hi (by simp)
    hsp (by simpa using hs) (fun q h1 h2 => hend1 q (by simpa using h1) h2)
  unfold _VariableNameState
  obtain ⟨e1, e2, e3, e4, e5, e6, e7⟩ := hhead
  simp only [step1, List.headD_cons, Res.bind_ok, e1, e2, e3, e4, e5, e6, e7, false_or,
    or_self, false_and, if_false, Bool.false_eq_true, loopFuel]
  simp [_VariableNameState.loop, hv, hs]

theorem default_identifier_space (E : Env) (s : Parser) (pre tl : List Char)
    (hb : s.Buffer = pre ++ ' ' :: tl) (hi : s.CurrentTokenIndex = pre.length)
    (hcs : s.CurrentString ≠ []) (hkw : E.KeyWordMap s.CurrentString = none)
    (h1 : E.IsSpace ' ' = true) (h2 : E.IsVarNameChar ' ' = false)
    (h3 : E.OperatorMap (Str ' ') = none) :
    _DefaultState E s = .ok
      { s with
        Tokens := s.Tokens ++ [{ TokenType := .VariableReference, Data := s.CurrentString }]
        CurrentState := .VariableName
        CurrentString := []
        CurrentTokenIndex := pre.length + 1 } := by
  have g := getNext_at s pre ' ' tl hb hi
  have d1 : ¬ isdigit ' ' = true := by decide
  have d2 : ¬ (' ' = '(') := by decide
  have d3 : ¬ (' ' = '"') := by decide
  have d4 : ¬ (' ' = '\'') := by decide
  have d5 : ¬ (' ' = '\n') := by decide
  have d6 : ¬ (' ' = ')') := by decide
  unfold _DefaultState
  simp only [g, d1, d2, d3, d4, if_false, false_and, Res.bind_ok, h2, Bool.false_eq_true]
  simp [hcs, h3, d5, d6, hkw, h1, _PushToken]

theorem default_identifier_close (E : Env) (q : Parser) (hc : q._GetNextChar.1 = ')')
    (hv : E.IsVarNameChar ')' = false) (ho : E.OperatorMap (Str ')') = none)
    (hb : q.BracketStack ≠ [] ∧ q.BracketStack.getLast? = some '(')
    (hcs : q.CurrentString ≠ []) :
    ∃ r, _DefaultState E q = .ok r ∧
      r.Tokens = q.Tokens ++
        [{ TokenType := .VariableReference, Data := q.CurrentString },
         { TokenType := .CloseBracket, Data := [')'] }] ∧
      r.CurrentState = q.CurrentState := by
  refine ⟨_, default_close_paren E q hc hv ho hb, ?_, ?_⟩
  · rw [if_neg hcs]
    simp [_PushToken]
  · rw [if_neg hcs]
    simp [_PushToken]

/-- C4: a space between the expression and the closing parenthesis.  When the
lexer is in the Default state with an identifier accumulated that is no keyword,
before one space, further spaces and a `)`, it emits the `VariableReference` of
the identifier and goes to the VariableName state, and the handler of that
state halts at the `)`: the line yields no `CloseBracket` and no `EndLine`.
When the `)` follows the identifier at once, the Default state emits the
`VariableReference` and the `CloseBracket`.  With the tables of the
specification the file `(a )` halts, though the text `a ` alone is tokenized;
the files `(a)` and `(a + b )` yield `OpenBracket`, the tokens of the
expression, `CloseBracket`, `EndLine`, and so does the text `(a )` after
`x = `. -/
theorem C4_space_before_close_halts (E : Env) (run : Parser → Res Parser) (s : Parser)
    (pre sp tl : List Char)
    (hst : s.CurrentState = .Default)
    (hb : s.Buffer = pre ++ ' ' :: (sp ++ ')' :: tl)) (hi : s.CurrentTokenIndex = pre.length)
    (hcs : s.CurrentString ≠ []) (hkw : E.KeyWordMap s.CurrentString = none)
    (hsp : ∀ a ∈ sp, E.IsSpace a = true)
    (h1 : E.IsSpace ' ' = true) (h2 : E.IsVarNameChar ' ' = false)
    (h3 : E.OperatorMap (Str ' ') = none)
    (h4 : E.IsSpace ')' = false) (h5 : E.IsVarNameChar ')' = false)
    (h6 : E.OperatorMap (Str ')') = none) :
    (∃ s1, dispatch E run s = .ok s1 ∧
      s1.Tokens = s.Tokens ++ [{ TokenType := .VariableReference, Data := s.CurrentString }] ∧
      s1.CurrentState = .VariableName ∧
      dispatch E run s1 = .halt) ∧
    (∀ q : Parser, q.CurrentState = .Default → q._GetNextChar.1 = ')' →
      q.BracketStack ≠ [] ∧ q.BracketStack.getLast? = some '(' → q.CurrentString ≠ [] →
      ∃ r, dispatch E run q = .ok r ∧
        r.Tokens = q.Tokens ++
          [{ TokenType := .VariableReference, Data := q.CurrentString },
           { TokenType := .CloseBracket, Data := [')'] }] ∧
        r.CurrentState = .Default) ∧
    CreateTokensFromFile specEnv 64 "(a )".toList = .halt ∧
    (CreateTokensFromFile specEnv 64 "a ".toList).tokens =
      some [tk .VariableReference "a", tk .EndLine ""] ∧
    (CreateTokensFromFile specEnv 64 "(a)".toList).tokens =
      some [tk .OpenBracket "(", tk .VariableReference "a", tk .CloseBracket ")",
        tk .EndLine ""] ∧
    (CreateTokensFromFile specEnv 64 "(a + b )".toList).tokens =
      some [tk .OpenBracket "(", tk .VariableReference "a", tk .AddOp "+",
        tk .VariableReference "b", tk .CloseBracket ")", tk .EndLine ""] ∧
    (CreateTokensFromFile specEnv 64 "x = (a )".toList).tokens =
      some [tk .VariableReference "x", tk .Assign "=", tk .OpenBracket "(",
        tk .VariableReference "a", tk .CloseBracket ")", tk .EndLine ""] := by
  have d : ∀ q : Parser, q.CurrentState = .Default → dispatch E run q = _DefaultState E q := by
    intro q hq
    unfold dispatch
    rw [hq]
  refine ⟨⟨{ s with
      Tokens := s.Tokens ++ [{ TokenType := .VariableReference, Data := s.CurrentString }]
      CurrentState := .VariableName
      CurrentString := []
      CurrentTokenIndex := pre.length + 1 }, ?_, rfl, rfl, ?_⟩, ?_,
    by decide!, by decide!, by decide!, by decide!, by decide!⟩
  · rw [d s hst]
    exact default_identifier_space E s pre (sp ++ ')' :: tl) hb hi hcs hkw h1 h2 h3
  · have dv : ∀ q : Parser, q.CurrentState = .VariableName →
        dispatch E run q = _VariableNameState E q := by
      intro q hq
      unfold dispatch
      rw [hq]
    rw [dv _ rfl]
    refine variableName_no_list E _ (pre ++ [' ']) sp tl ')' (by simp [hb]) (by simp) hsp
      ⟨by decide, by simp [h6], by decide, by decide, by decide, by decide, by decide⟩ h5 h4
  · intro q hq hc hbr hq2
    obtain ⟨r, hr, ht, hs⟩ := default_identifier_close E q hc h5 h6 hbr hq2
    exact ⟨r, by rw [d q hq, hr], ht, by rw [hs, hq]⟩

/-- C4 at the file `(a )`, after the lexer has read `(a`. -/
theorem C4_space_before_close_halts_witness :
    ∃ s1,
      dispatch specEnv (ParseProgram specEnv 8)
        ⟨[tk .OpenBracket "("], "(a )\n".toList, 2, 0, .Default, ['a'], ['(']⟩ = .ok s1 ∧
      s1.Tokens = [tk .OpenBracket "(", tk .VariableReference "a"] ∧
      s1.CurrentState = .VariableName ∧
      dispatch specEnv (ParseProgram specEnv 8) s1 = .halt :=
  (C4_space_before_close_halts specEnv (ParseProgram specEnv 8)
    ⟨[tk .OpenBracket "("], "(a )\n".toList, 2, 0, .Default, ['a'], ['(']⟩
    ['(', 'a'] [] ['\n'] rfl rfl rfl (by decide) (by decide!) (by decide) (by decide)
    (by decide) (by decide!) (by decide) (by decide) (by decide!)).1

/-! ## The arguments of a call -/

theorem takeArg_nil (raw : List Char) : takeArg [] raw = raw.dropWhile isspace := by
  have h : ∀ acc : List Char, acc ≠ [] → ∀ r, takeArg acc r = acc ++ r := by
    intro acc hacc r
    induction r generalizing acc with
    | nil => simp [takeArg]
    | cons c r ih =>
      simp only [takeArg, hacc, and_false, decide_False, Bool.not_false, if_true]
      rw [ih _ (by simp)]
      simp
  induction raw with
  | nil => rfl
  | cons c r ih =>
    by_cases hc : isspace c = true
    · simp [takeArg, hc, ih, List.dropWhile]
    · have hc2 : isspace c = false := by simpa using hc
      simp only [takeArg, hc2, Bool.false_eq_true, false_and, decide_False, Bool.not_false,
        if_true, List.nil_append, List.dropWhile]
      rw [h [c] (by simp)]
      rfl

theorem argLoop_piece :
    ∀ (raw : List Char) (d : Int) (cur : Char) (de : Bool) (al : List (List Char))
      (s : Parser) (n : Nat) (pre tl : List Char) (d2 : Int),
      1 ≤ d → cur ≠ NUL → depthAfter d raw = some d2 →
      s.Buffer = pre ++ (raw ++ tl) → s.CurrentTokenIndex = pre.length →
      ∃ cur2, cur2 ≠ NUL ∧ 1 ≤ d2 ∧
        _FunctionParamaterState.loop (n + raw.length)
            { current := cur, opens := d, detectedEnd := de, argList := al, s := s }
          = _FunctionParamaterState.loop n
            { current := cur2, opens := d2, detectedEnd := de, argList := al,
              s := { s with CurrentString := takeArg s.CurrentString raw
                            CurrentTokenIndex := pre.length + raw.length } } := by
  intro raw
  induction raw with
  | nil =>
    intro d cur de al s n pre tl d2 hd hcur hda hb hi
    simp only [depthAfter, Option.some.injEq] at hda
    subst hda
    refine ⟨cur, hcur, hd, ?_⟩
    have e : ({ s with CurrentString := takeArg s.CurrentString []
                       CurrentTokenIndex := pre.length + ([] : List Char).length } : Parser)
        = s := by
      cases s
      simp_all [takeArg]
    rw [e]
    rfl
  | cons c r ih =>
    intro d cur de al s n pre tl d2 hd hcur hda hb hi
    simp only [depthAfter] at hda
    generalize hd1def : (if c = ')' then (if c = '(' then d + 1 else d) - 1
      else if c = '(' then d + 1 else d) = d1 at hda
    by_cases hcond : (c = ')' ∧ d1 = 0) ∨ (c = ',' ∧ d1 = 1) ∨ c = NUL
    · rw [if_pos hcond] at hda
      cases hda
    · rw [if_neg hcond] at hda
      have hd1 : (1 : Int) ≤ d1 := by
        rw [← hd1def]
        by_cases h1 : c = ')'
        · have h3 : ¬ (c = '(') := by rw [h1]; decide
          have h4 : d1 ≠ 0 := fun e => hcond (Or.inl ⟨h1, e⟩)
          rw [← hd1def] at h4
          simp only [h1, if_true, h3, if_false] at h4 ⊢
          omega
        · simp only [h1, if_false]
          split <;> omega
      have hc : c ≠ NUL := fun e => hcond (Or.inr (Or.inr e))
      obtain ⟨cur2, h1, h2, h3⟩ := ih d1 c de al
        { s with
          CurrentString := if !(isspace c ∧ s.CurrentString = []) then s.CurrentString ++ [c]
            else s.CurrentString
          CurrentTokenIndex := pre.length + 1 }
        n (pre ++ [c]) tl d2 hd1 hc hda (by simpa using hb) (by simp)
      refine ⟨cur2, h1, h2, ?_⟩
      have hfuel : n + (c :: r).length = (n + r.length) + 1 := by simp; omega
      rw [hfuel]
      rw [_FunctionParamaterState.loop]
      have h0 : d ≠ 0 ∧ cur ≠ NUL := ⟨by omega, hcur⟩
      rw [if_pos h0]
      rw [getNext_at s pre c (r ++ tl) (by simpa using hb) hi]
      simp only [hd1def]
      rw [if_neg hcond]
      have e : ((if (!decide (isspace c = true ∧ s.CurrentString = [])) = true then
            { s with CurrentTokenIndex := pre.length + 1,
                     CurrentString := s.CurrentString ++ [c] }
          else { s with CurrentTokenIndex := pre.length + 1 }) : Parser)
          = { s with
              CurrentString := if !(isspace c ∧ s.CurrentString = []) then
                  s.CurrentString ++ [c] else s.CurrentString
              CurrentTokenIndex := pre.length + 1 } := by
        split <;> rfl
      simp only [e] at h3 ⊢
      rw [h3]
      have ei : (pre ++ [c]).length + r.length = pre.length + (c :: r).length := by
        simp
        omega
      rw [ei]
      rfl

theorem argLoop_run :
    ∀ (pieces : List (List Char)) (cur : Char) (de : Bool) (al : List (List Char))
      (s : Parser) (n : Nat) (pre tl : List Char),
      pieces ≠ [] → (∀ raw ∈ pieces, ArgPiece raw) → cur ≠ NUL → s.CurrentString = [] →
      s.Buffer = pre ++ (argsText pieces ++ tl) → s.CurrentTokenIndex = pre.length →
      (argsText pieces).length + 1 ≤ n →
      _FunctionParamaterState.loop n
          { current := cur, opens := 1, detectedEnd := de, argList := al, s := s }
        = .ok { current := ')', opens := 0, detectedEnd := true,
                argList := al ++ pieces.map (List.dropWhile isspace),
                s := { s with CurrentString := []
                              CurrentTokenIndex := pre.length + (argsText pieces).length } } := by
  intro pieces
  induction pieces with
  | nil => intro _ _ _ _ _ _ _ h; exact absurd rfl h
  | cons raw rest ih =>
    intro cur de al s n pre tl _ hp hcur hcs hb hi hn
    obtain ⟨hd, hne⟩ := hp raw (by simp)
    cases rest with
    | nil =>
      simp only [argsText, List.length_append, List.length_singleton] at hn hb ⊢
      obtain ⟨m, rfl⟩ : ∃ m, n = (m + 2) + raw.length := ⟨n - raw.length - 2, by omega⟩
      obtain ⟨cur2, h1, -, h3⟩ := argLoop_piece raw 1 cur de al s (m + 2) pre ([')'] ++ tl) 1
        (le_refl _) hcur hd (by simpa using hb) hi
      rw [h3, hcs, takeArg_nil]
      rw [_FunctionParamaterState.loop]
      have h0 : (1 : Int) ≠ 0 ∧ cur2 ≠ NUL := ⟨by decide, h1⟩
      simp only [h0, ne_eq, not_false_eq_true, and_self, if_true]
      have g := getNext_at
        ({ s with CurrentString := List.dropWhile isspace raw
                  CurrentTokenIndex := pre.length + raw.length } : Parser)
        (pre ++ raw) ')' tl (by simpa using hb) (by simp)
      simp only [g]
      have e1 : ¬ ((')' : Char) = '(') := by decide
      simp only [e1, if_false, if_true, true_and, sub_self, true_or, hne, if_false,
        not_false_eq_true, ne_eq]
      rw [_FunctionParamaterState.loop]
      simp [Nat.add_assoc]
    | cons raw2 rest2 =>
      simp only [argsText, List.length_append, List.length_cons] at hn hb ⊢
      obtain ⟨m, rfl⟩ : ∃ m, n = (m + 1) + raw.length := ⟨n - raw.length - 1, by omega⟩
      obtain ⟨cur2, h1, -, h3⟩ := argLoop_piece raw 1 cur de al s (m + 1) pre
        (',' :: argsText (raw2 :: rest2) ++ tl) 1 (le_refl _) hcur hd (by simpa using hb) hi
      rw [h3, hcs, takeArg_nil]
      rw [_FunctionParamaterState.loop]
      have h0 : (1 : Int) ≠ 0 ∧ cur2 ≠ NUL := ⟨by decide, h1⟩
      simp only [h0, ne_eq, not_false_eq_true, and_self, if_true]
      have g := getNext_at
        ({ s with CurrentString := List.dropWhile isspace raw
                  CurrentTokenIndex := pre.length + raw.length } : Parser)
        (pre ++ raw) ',' (argsText (raw2 :: rest2) ++ tl) (by simpa using hb) (by simp)
      simp only [g]
      have e1 : ¬ ((',' : Char) = '(') := by decide
      have e2 : ¬ ((',' : Char) = ')') := by decide
      have e3 : (',' : Char) ≠ NUL := by decide
      simp only [e1, e2, if_false, false_and, true_and, false_or, true_or, if_true, hne,
        not_false_eq_true, ne_eq]
      rw [ih ',' de (al ++ [List.dropWhile isspace raw])
        ({ s with CurrentString := []
                  CurrentTokenIndex := (pre ++ raw).length + 1 } : Parser)
        m (pre ++ raw ++ [',']) tl (by simp)
        (fun x hx => hp x (by simp only [List.mem_cons] at hx ⊢; exact Or.inr hx)) e3 rfl
        (by simpa using hb) (by simp; omega) (by omega)]
      simp [Nat.add_assoc, Nat.add_comm, Nat.add_left_comm]

theorem pushCallArgs_run (run : Parser → Res Parser) :
    ∀ (args : List (List Char)) (outs : List (List Token)) (s : Parser),
      List.Forall₂ (fun a o => subLex run a = .ok o) args outs →
      pushCallArgs run args s = .ok { s with Tokens := s.Tokens ++ commaAfterEach outs } := by
  intro args outs s h
  induction h generalizing s with
  | nil => simp [pushCallArgs, commaAfterEach]
  | cons h1 _ ih =>
    simp only [pushCallArgs, h1, Res.bind_ok, _PushToken]
    rw [ih]
    simp [commaAfterEach]

theorem commaAfterEach_join (outs : List (List Token)) (h : outs ≠ []) :
    commaAfterEach outs = joinArgs outs ++ [{ TokenType := .Comma, Data := [] }] := by
  induction outs with
  | nil => exact absurd rfl h
  | cons o rest ih =>
    cases rest with
    | nil => simp [commaAfterEach, joinArgs]
    | cons o2 rest2 =>
      simp only [commaAfterEach, joinArgs] at ih ⊢
      rw [ih (by simp)]
      simp

theorem callArguments_run (E : Env) (run : Parser → Res Parser) (s : Parser)
    (pre sp sp2 tl2 : List Char) (y : Char) (pieces : List (List Char))
    (outs : List (List Token))
    (hb : s.Buffer = pre ++ (sp ++ ('(' :: (argsText pieces ++ (sp2 ++ y :: tl2)))))
    (hi : s.CurrentTokenIndex = pre.length)
    (hsp : ∀ a ∈ sp, E.IsSpace a = true) (hparen : E.IsSpace '(' = false)
    (hpieces : pieces ≠ []) (hp : ∀ raw ∈ pieces, ArgPiece raw)
    (hsub : List.Forall₂ (fun a o => subLex run a = .ok o)
      (pieces.map (List.dropWhile isspace)) outs)
    (hsp2 : ∀ a ∈ sp2, E.IsSpace a = true) (hy : E.IsSpace y = false) :
    _FunctionParamaterState E run s =
      .ok { s with
            Tokens := s.Tokens ++ joinArgs outs ++ [{ TokenType := .CloseBracket, Data := [')'] }]
            CurrentString := []
            CurrentState := .Default
            CurrentTokenIndex :=
              pre.length + sp.length + 1 + (argsText pieces).length + sp2.length } := by
  have houts : outs ≠ [] := by
    intro e
    subst e
    cases pieces with
    | nil => exact hpieces rfl
    | cons a b => cases hsub
  have step1 := skipSpaces_run E s pre sp ('(' :: (argsText pieces ++ (sp2 ++ y :: tl2)))
    ((pre ++ sp).length + 1) hb hi (by simp) hsp (by simpa using hparen)
    (fun q h1 h2 => getNext_at q (pre ++ sp) '(' _ (by simpa using h1) h2)
  have step2 := argLoop_run pieces '(' false []
    ({ s with CurrentString := [], CurrentTokenIndex := (pre ++ sp).length + 1 } : Parser)
    (s.Buffer.length + 2) (pre ++ sp ++ ['(']) (sp2 ++ y :: tl2) hpieces hp (by decide) rfl
    (by simp [hb]) (by simp; omega) (by simp [hb]; omega)
  have step3 := pushCallArgs_run run _ outs
    ({ s with CurrentString := [], CurrentState := .Default,
              CurrentTokenIndex := (pre ++ sp ++ ['(']).length + (argsText pieces).length }
      : Parser) hsub
  have step4 := skipSpaces_run E
    ({ s with Tokens := s.Tokens ++ joinArgs outs ++
                [{ TokenType := .CloseBracket, Data := [')'] }]
              CurrentString := [], CurrentState := .Default
              CurrentTokenIndex := (pre ++ sp ++ ['(']).length + (argsText pieces).length }
      : Parser)
    (pre ++ sp ++ ['('] ++ argsText pieces) sp2 (y :: tl2)
    ((pre ++ sp ++ ['('] ++ argsText pieces ++ sp2).length + 1)
    (by simp [hb]) (by simp; omega) (by simp) hsp2 (by simpa using hy)
    (fun q h1 h2 => getNext_at q _ y tl2 (by simpa using h1) h2)
  unfold _FunctionParamaterState
  simp only [step1, List.headD_cons, Res.bind_ok, ne_eq, not_true_eq_false, if_false, loopFuel]
  rw [step2]
  simp only [Res.bind_ok, Bool.true_eq_false, if_false, List.nil_append]
  rw [step3]
  simp only [Res.bind_ok, commaAfterEach_join outs houts, _GetLastToken, _PushToken]
  simp only [← List.append_assoc, List.getLast?_concat, if_true, List.dropLast_concat]
  rw [step4]
  simp [_Backtrack, subSizeT]
  omega

/-- C22: in the call-argument state, on the text `(`, pieces with commas
between them, `)`, where every piece has matching parentheses, no comma at
depth 1 and a character that is no blank, the lexer gives each piece without
its leading blanks to a sub-lexer, a piece with a nested call and its commas as
one argument, and emits the tokens of the arguments in order with one `Comma`
between two of them and none after the last, then `CloseBracket` with `)`; it
goes to the Default state with the cursor on the first character after the call
that is no space. -/
theorem C22_call_arguments (E : Env) (run : Parser → Res Parser) (s : Parser)
    (pre sp sp2 tl2 : List Char) (y : Char) (pieces : List (List Char))
    (outs : List (List Token))
    (hb : s.Buffer = pre ++ (sp ++ ('(' :: (argsText pieces ++ (sp2 ++ y :: tl2)))))
    (hi : s.CurrentTokenIndex = pre.length)
    (hsp : ∀ a ∈ sp, E.IsSpace a = true) (hparen : E.IsSpace '(' = false)
    (hpieces : pieces ≠ []) (hp : ∀ raw ∈ pieces, ArgPiece raw)
    (hsub : List.Forall₂ (fun a o => subLex run a = .ok o)
      (pieces.map (List.dropWhile isspace)) outs)
    (hsp2 : ∀ a ∈ sp2, E.IsSpace a = true) (hy : E.IsSpace y = false) :
    _FunctionParamaterState E run s =
      .ok { s with
            Tokens := s.Tokens ++ joinArgs outs ++ [{ TokenType := .CloseBracket, Data := [')'] }]
            CurrentString := []
            CurrentState := .Default
            CurrentTokenIndex :=
              pre.length + sp.length + 1 + (argsText pieces).length + sp2.length } :=
  callArguments_run E run s pre sp sp2 tl2 y pieces outs hb hi hsp hparen hpieces hp hsub
    hsp2 hy

/-- C22 at the text `f(g(1,2), 3)` and a newline, the cursor after `f`, with
the tables of the specification: the comma inside `g(1,2)` does not split. -/
theorem C22_call_arguments_witness :
    (∀ raw ∈ [['g', '(', '1', ',', '2', ')'], [' ', '3']], ArgPiece raw) ∧
    List.Forall₂ (fun a o => subLex (ParseProgram specEnv 60) a = .ok o)
      ([['g', '(', '1', ',', '2', ')'], [' ', '3']].map (List.dropWhile isspace))
      [[tk .VariableReference "g", tk .FunctionCall "g", tk .OpenBracket "(",
        tk .RValueNumber "1", tk .Comma "", tk .RValueNumber "2", tk .CloseBracket ")"],
       [tk .RValueNumber "3"]] ∧
    _FunctionParamaterState specEnv (ParseProgram specEnv 60)
        { Parser.new with
          Buffer := ['f', '(', 'g', '(', '1', ',', '2', ')', ',', ' ', '3', ')', '\n']
          CurrentTokenIndex := 1 }
      = .ok { Parser.new with
              Buffer := ['f', '(', 'g', '(', '1', ',', '2', ')', ',', ' ', '3', ')', '\n']
              Tokens := [tk .VariableReference "g", tk .FunctionCall "g", tk .OpenBracket "(",
                tk .RValueNumber "1", tk .Comma "", tk .RValueNumber "2",
                tk .CloseBracket ")", tk .Comma "", tk .RValueNumber "3",
                tk .CloseBracket ")"]
              CurrentTokenIndex := 12 } :=
  have h1 : ∀ raw ∈ [['g', '(', '1', ',', '2', ')'], [' ', '3']], ArgPiece raw := by
    intro raw hraw
    simp only [List.mem_cons, List.mem_singleton, List.not_mem_nil, or_false] at hraw
    rcases hraw with rfl | rfl
    · exact ⟨by decide!, by decide!⟩
    · exact ⟨by decide!, by decide!⟩
  have h2 : List.Forall₂ (fun a o => subLex (ParseProgram specEnv 60) a = .ok o)
      ([['g', '(', '1', ',', '2', ')'], [' ', '3']].map (List.dropWhile isspace))
      [[tk .VariableReference "g", tk .FunctionCall "g", tk .OpenBracket "(",
        tk .RValueNumber "1", tk .Comma "", tk .RValueNumber "2", tk .CloseBracket ")"],
       [tk .RValueNumber "3"]] :=
    List.Forall₂.cons (by decide!) (List.Forall₂.cons (by decide!) List.Forall₂.nil)
  ⟨h1, h2,
    (C22_call_arguments specEnv (ParseProgram specEnv 60)
      { Parser.new with
        Buffer := ['f', '(', 'g', '(', '1', ',', '2', ')', ',', ' ', '3', ')', '\n']
        CurrentTokenIndex := 1 }
      ['f'] [] [] [] '\n' [['g', '(', '1', ',', '2', ')'], [' ', '3']] _
      rfl rfl (by simp) (by decide!) (by simp) h1 h2 (by simp) (by decide!)).trans
      (by decide!)⟩

/-! ## Number and string literals -/

theorem parseNumber_loop_never_halts (n : Nat) (current : Char) (usedDecimal : Bool)
    (s : Parser) : _ParseNumber.loop n current usedDecimal s ≠ .halt := by
  induction n generalizing current usedDecimal s with
  | zero => simp [_ParseNumber.loop]
  | succ n ih =>
    unfold _ParseNumber.loop
    by_cases h : isalnum current = true
    · have hc : current ≠ '.' := by
        intro e
        rw [e] at h
        exact absurd h (by decide)
      simp only [h, if_true, hc, false_and, if_false]
      exact ih _ _ _
    · simp [h]

theorem parseNumber_loop_stops_at_point (n : Nat) (usedDecimal : Bool) (s : Parser) :
    _ParseNumber.loop (n + 1) '.' usedDecimal s = .ok ('.', s) := by
  unfold _ParseNumber.loop
  have h : isalnum '.' = false := by decide
  simp [h]

theorem stringLoop_run (post : List Char) :
    ∀ (items : List StringItem) (pre : List Char) (s : Parser) (n : Nat),
      (∀ i ∈ items, i.wellFormed) →
      s.Buffer = pre ++ (stringText items ++ '"' :: post) →
      s.CurrentTokenIndex = pre.length →
      items.length + 1 ≤ n →
      _ParseString.loop n s._GetNextChar.1 s._GetNextChar.2 =
        .ok { s with CurrentString := s.CurrentString ++ stringData items
                     CurrentTokenIndex := pre.length + (stringText items).length + 1 } := by
  intro items
  induction items with
  | nil =>
    intro pre s n _ hb hi hn
    obtain ⟨m, rfl⟩ : ∃ m, n = m + 1 := ⟨n - 1, by omega⟩
    rw [getNext_at s pre '"' post (by simpa [stringText] using hb) hi]
    unfold _ParseString.loop
    simp [stringText, stringData]
  | cons i items ih =>
    intro pre s n hw hb hi hn
    obtain ⟨m, rfl⟩ : ∃ m, n = m + 1 := ⟨n - 1, by omega⟩
    cases i with
    | plain c =>
      obtain ⟨h1, h2, h3, h4⟩ : c ≠ '"' ∧ c ≠ '\\' ∧ c ≠ '\n' ∧ c ≠ NUL :=
        hw (.plain c) (by simp)
      rw [getNext_at s pre c (stringText items ++ '"' :: post)
        (by simpa [stringText, StringItem.text] using hb) hi]
      unfold _ParseString.loop
      simp only [ne_eq, h1, not_false_eq_true, if_true, h3, h4, or_self, if_false, h2]
      rw [ih (pre ++ [c]) _ m (fun x hx => hw x (by simp [hx]))
        (by simpa [stringText, StringItem.text] using hb) (by simp)
        (by simp at hn; omega)]
      simp [stringText, stringData, StringItem.text, StringItem.data]
      omega
    | escaped c =>
      rw [getNext_at s pre '\\' (c :: (stringText items ++ '"' :: post))
        (by simpa [stringText, StringItem.text] using hb) hi]
      unfold _ParseString.loop
      have e1 : ('\\' : Char) ≠ '"' := by decide
      have e2 : ¬ (('\\' : Char) = '\n' ∨ ('\\' : Char) = NUL) := by decide
      simp only [ne_eq, e1, not_false_eq_true, if_true, e2, if_false]
      rw [getNext_at { s with CurrentTokenIndex := pre.length + 1 } (pre ++ ['\\']) c
        (stringText items ++ '"' :: post)
        (by simpa [stringText, StringItem.text] using hb) (by simp)]
      simp only []
      rw [ih (pre ++ ['\\', c]) _ m (fun x hx => hw x (by simp [hx]))
        (by simpa [stringText, StringItem.text] using hb) (by simp)
        (by simp at hn; omega)]
      simp [stringText, stringData, StringItem.text, StringItem.data]
      omega

theorem stringText_length (items : List StringItem) :
    items.length ≤ (stringText items).length := by
  induction items with
  | nil => simp [stringText]
  | cons i items ih =>
    cases i <;> simp [stringText, StringItem.text] <;> omega

/-- C23: on a text of pieces followed by a quote, `_ParseString` emits one
`RValueString` whose data is the lexeme of the pieces and leaves the cursor
after the quote.  The character after a backslash is taken whatever it is: one
of the six escapes is replaced by the character it denotes, any other one is
kept with the backslash, a newline included, and the literal goes on. -/
theorem C23_string_pieces (items : List StringItem) (pre post : List Char) (s : Parser)
    (hw : ∀ i ∈ items, i.wellFormed)
    (hb : s.Buffer = pre ++ (stringText items ++ '"' :: post))
    (hi : s.CurrentTokenIndex = pre.length) :
    _ParseString s =
      .ok { s with
            Tokens := s.Tokens ++
              [{ TokenType := .RValueString, Data := s.CurrentString ++ stringData items }]
            CurrentString := []
            CurrentTokenIndex := pre.length + (stringText items).length + 1 } := by
  unfold _ParseString
  rw [stringLoop_run post items pre s s.loopFuel hw hb hi (by
    have := stringText_length items
    simp [loopFuel, hb]
    omega)]
  simp [Res.bind, _PushToken]

/-- C23 at the text `a`, backslash, newline, `b`, quote: the newline after the
backslash does not halt the lexer; it is kept in the data with the backslash. -/
theorem C23_string_pieces_witness :
    (∀ i ∈ [StringItem.plain 'a', .escaped '\n', .plain 'b'], i.wellFormed) ∧
    _ParseString { Parser.new with Buffer := ['a', '\\', '\n', 'b', '"'] } =
      .ok { Parser.new with
            Buffer := ['a', '\\', '\n', 'b', '"']
            Tokens := [{ TokenType := .RValueString, Data := ['a', '\\', '\n', 'b'] }]
            CurrentTokenIndex := 5 } ∧
    (CreateTokensFromFile specEnv 64
        ['x', ' ', '=', ' ', '"', 'a', '\\', '\n', 'b', '"']).tokens =
      some [tk .VariableReference "x", tk .Assign "=",
        { TokenType := .RValueString, Data := ['a', '\\', '\n', 'b'] }, tk .EndLine ""] :=
  ⟨by simp [StringItem.wellFormed, NUL],
    C23_string_pieces [.plain 'a', .escaped '\n', .plain 'b'] [] []
      { Parser.new with Buffer := ['a', '\\', '\n', 'b', '"'] }
      (by simp [StringItem.wellFormed, NUL]) rfl rfl,
    by decide!⟩

/-- C24: the loop of `_ParseNumber` never halts and it stops at a decimal point
without taking it, so the test for a second decimal point is never reached: the
file `x = 1.2.3` is tokenized, as the three numbers `1`, `2` and `3`, and the
file `x = 1.5` as the two numbers `1` and `5`. -/
theorem C24_second_decimal_point_not_rejected :
    (∀ (n : Nat) (current : Char) (usedDecimal : Bool) (s : Parser),
      _ParseNumber.loop n current usedDecimal s ≠ .halt) ∧
    (∀ (n : Nat) (usedDecimal : Bool) (s : Parser),
      _ParseNumber.loop (n + 1) '.' usedDecimal s = .ok ('.', s)) ∧
    (CreateTokensFromFile specEnv 64 "x = 1.2.3".toList).tokens =
      some [tk .VariableReference "x", tk .Assign "=", tk .RValueNumber "1",
        tk .RValueNumber "2", tk .RValueNumber "3", tk .EndLine ""] ∧
    (CreateTokensFromFile specEnv 64 "x = 1.5".toList).tokens =
      some [tk .VariableReference "x", tk .Assign "=", tk .RValueNumber "1",
        tk .RValueNumber "5", tk .EndLine ""] :=
  ⟨parseNumber_loop_never_halts, parseNumber_loop_stops_at_point, by decide!, by decide!⟩

/-! ## Identifiers with spaces between them -/

theorem varLoop_step (E : Env) (c d : Char) (s : Parser) (n commas vars : Nat)
    (pre rest : List Char) (hc : E.IsVarNameChar c = true ∨ E.IsSpace c = true)
    (hd : d ≠ ',') (hb : s.Buffer = pre ++ d :: rest) (hi : s.CurrentTokenIndex = pre.length) :
    _VariableNameState.loop E (n + 1) { current := c, commas := commas, vars := vars, s := s }
      = _VariableNameState.loop E n
          { current := d, commas := commas, vars := vars,
            s := { s with CurrentString := s.CurrentString ++ withoutSpaces E [c]
                          CurrentTokenIndex := pre.length + 1 } } := by
  rw [_VariableNameState.loop]
  have hcond : (c ≠ NUL ∨ c ≠ '\n') ∧ (E.IsVarNameChar c = true ∨ E.IsSpace c = true) :=
    ⟨loop_cond_left c, hc⟩
  rw [if_pos hcond]
  cases hsp : E.IsSpace c
  · have g := getNext_at { s with CurrentString := s.CurrentString ++ [c] } pre d rest hb hi
    simp only [Bool.not_false, if_true, g, hd, if_false, withoutSpaces, List.filter, hsp]
  · have g := getNext_at s pre d rest hb hi
    have e : ({ s with CurrentString := s.CurrentString ++ withoutSpaces E [c]
                       CurrentTokenIndex := pre.length + 1 } : Parser)
        = { s with CurrentTokenIndex := pre.length + 1 } := by
      simp [withoutSpaces, List.filter, hsp]
    rw [e]
    simp only [Bool.not_true, Bool.false_eq_true, if_false, g, hd]

theorem varLoop_spaces (E : Env) (t : Char) (tl : List Char) (ht : ListEnd E t) :
    ∀ (x : List Char) (c : Char) (s : Parser) (n commas vars : Nat) (pre : List Char),
      ListChar E c → (∀ a ∈ x, ListChar E a) →
      s.Buffer = pre ++ (x ++ t :: tl) → s.CurrentTokenIndex = pre.length →
      x.length + 2 ≤ n →
      _VariableNameState.loop E n { current := c, commas := commas, vars := vars, s := s }
        = .ok { current := t, commas := commas, vars := vars,
                s := { s with
                       CurrentString := s.CurrentString ++ withoutSpaces E (c :: x)
                       CurrentTokenIndex := pre.length + x.length + 1 } } := by
  intro x
  induction x with
  | nil =>
    intro c s n commas vars pre hc _ hb hi hn
    obtain ⟨m, rfl⟩ : ∃ m, n = m + 2 := ⟨n - 2, by omega⟩
    rw [varLoop_step E c t s (m + 1) commas vars pre tl hc.1 ht.2.2 (by simpa using hb) hi]
    rw [_VariableNameState.loop]
    simp only [ht.1, ht.2.1, Bool.false_eq_true, or_self, and_false, if_false]
    rfl
  | cons d r ih =>
    intro c s n commas vars pre hc hx hb hi hn
    obtain ⟨m, rfl⟩ : ∃ m, n = m + 1 := ⟨n - 1, by omega⟩
    have hd : ListChar E d := hx d (by simp)
    rw [varLoop_step E c d s m commas vars pre (r ++ t :: tl) hc.1 hd.2 (by simpa using hb) hi]
    rw [ih d _ m commas vars (pre ++ [d]) hd (fun a ha => hx a (by simp [ha]))
      (by simpa using hb) (by simp) (by simp at hn ⊢; omega)]
    have e : withoutSpaces E (c :: d :: r) = withoutSpaces E [c] ++ withoutSpaces E (d :: r) := by
      simp only [withoutSpaces, ← List.filter_append]
      rfl
    simp [e, Nat.add_assoc]
    omega

theorem withoutSpaces_ids (E : Env) (w : List Char) (hw : ∀ a ∈ w, IdChar E a) :
    withoutSpaces E w = w := by
  unfold withoutSpaces
  rw [List.filter_eq_self]
  intro a ha
  simp [(hw a ha).2.1]

theorem withoutSpaces_gap (E : Env) (gap : List Char) (hg : ∀ a ∈ gap, E.IsSpace a = true) :
    withoutSpaces E gap = [] := by
  unfold withoutSpaces
  rw [List.filter_eq_nil_iff]
  intro a ha
  simp [hg a ha]

theorem withoutSpaces_append (E : Env) (x y : List Char) :
    withoutSpaces E (x ++ y) = withoutSpaces E x ++ withoutSpaces E y := by
  simp [withoutSpaces]

theorem variableName_spaces (E : Env) (s : Parser) (pre sp x tl : List Char) (c t : Char)
    (hb : s.Buffer = pre ++ (sp ++ (c :: x ++ t :: tl)))
    (hi : s.CurrentTokenIndex = pre.length)
    (hsp : ∀ a ∈ sp, E.IsSpace a = true)
    (hhead : ListHead E c) (hc : IdChar E c) (hx : ∀ a ∈ x, ListChar E a)
    (ht : ListEnd E t) :
    _VariableNameState E s =
      .ok { s with
            Tokens := s.Tokens ++ [{ TokenType := .VariableName, Data := c :: withoutSpaces E x }]
            CurrentString := []
            CurrentState := .Default
            CurrentTokenIndex := pre.length + sp.length + (c :: x).length } := by
  have hend1 := fun (q : Parser) h1 h2 =>
    getNext_at q (pre ++ sp) c (x ++ t :: tl) h1 h2
  have step1 := skipSpaces_run E s pre sp (c :: (x ++ t :: tl))
    ((pre ++ sp).length + 1) (by simpa using hb) hi (by simp) hsp
    (by simpa using hc.2.1) (fun q h1 h2 => hend1 q (by simpa using h1) h2)
  have h3 := varLoop_spaces E t tl ht x c
    ({ s with CurrentString := [], CurrentTokenIndex := (pre ++ sp).length + 1 } : Parser)
    (s.Buffer.length + 2) 0 0 (pre ++ sp ++ [c]) ⟨Or.inl hc.1, hc.2.2⟩ hx
    (by simp [hb]) (by simp; omega) (by simp [hb]; omega)
  have hcs : withoutSpaces E (c :: x) = c :: withoutSpaces E x := by
    simp [withoutSpaces, List.filter, hc.2.1]
  unfold _VariableNameState
  obtain ⟨e1, e2, e3, e4, e5, e6, e7⟩ := hhead
  simp only [step1, List.headD_cons, Res.bind_ok, e1, e2, e3, e4, e5, e6, e7, false_or,
    or_self, false_and, if_false, Bool.false_eq_true, loopFuel]
  rw [h3]
  simp only [Res.bind_ok, List.nil_append, hcs]
  have hne : c :: withoutSpaces E x ≠ [] := by simp
  simp only [ne_eq, hne, not_false_eq_true, if_true, ht.2.1, Bool.not_false, _PushToken,
    _Backtrack, subSizeT]
  simp [List.append_assoc]
  omega

/-- C35: in the VariableName state, on two identifiers with only spaces between
them, after spaces and before a character that ends the list, the lexer emits
one `VariableName` whose data is the first identifier followed at once by the
second: the two identifiers are merged, and the data is not a contiguous piece of
the text. -/
theorem C35_identifiers_merged_over_spaces (E : Env) (s : Parser)
    (pre sp w gap v tl : List Char) (c d t : Char)
    (hb : s.Buffer = pre ++ (sp ++ ((c :: w) ++ gap ++ (d :: v) ++ t :: tl)))
    (hi : s.CurrentTokenIndex = pre.length)
    (hsp : ∀ a ∈ sp, E.IsSpace a = true)
    (hhead : ListHead E c) (hc : IdChar E c) (hw : ∀ a ∈ w, IdChar E a)
    (hgap : gap ≠ [] ∧ ∀ a ∈ gap, E.IsSpace a = true ∧ a ≠ ',')
    (hd : IdChar E d) (hv : ∀ a ∈ v, IdChar E a)
    (ht : ListEnd E t) :
    _VariableNameState E s =
      .ok { s with
            Tokens := s.Tokens ++
              [{ TokenType := .VariableName, Data := (c :: w) ++ (d :: v) }]
            CurrentString := []
            CurrentState := .Default
            CurrentTokenIndex :=
              pre.length + sp.length + ((c :: w) ++ gap ++ (d :: v)).length } := by
  have hx : ∀ a ∈ w ++ gap ++ (d :: v), ListChar E a := by
    intro a ha
    simp only [List.mem_append, List.mem_cons] at ha
    rcases ha with (ha | ha) | rfl | ha
    · exact ⟨Or.inl (hw a ha).1, (hw a ha).2.2⟩
    · exact ⟨Or.inr (hgap.2 a ha).1, (hgap.2 a ha).2⟩
    · exact ⟨Or.inl hd.1, hd.2.2⟩
    · exact ⟨Or.inl (hv a ha).1, (hv a ha).2.2⟩
  have hdata : withoutSpaces E (w ++ gap ++ (d :: v)) = w ++ (d :: v) := by
    rw [withoutSpaces_append, withoutSpaces_append, withoutSpaces_ids E w hw,
      withoutSpaces_gap E gap (fun a ha => (hgap.2 a ha).1),
      withoutSpaces_ids E (d :: v) (by
        intro a ha
        simp only [List.mem_cons] at ha
        rcases ha with rfl | ha
        · exact hd
        · exact hv a ha)]
    simp
  have h := variableName_spaces E s pre sp (w ++ gap ++ (d :: v)) tl c t
    (by simpa using hb) hi hsp hhead hc hx ht
  rw [h, hdata]
  simp

/-- C35 at the text `int32 a b` and a newline, the cursor after `int32`, with the
tables of the specification: one `VariableName` with the data `ab`. -/
theorem C35_identifiers_merged_over_spaces_witness :
    (∀ a ∈ [' '], specEnv.IsSpace a = true) ∧ ListHead specEnv 'a' ∧ IdChar specEnv 'a' ∧
    (∀ a ∈ ([] : List Char), IdChar specEnv a) ∧
    ([' '] ≠ [] ∧ ∀ a ∈ [' '], specEnv.IsSpace a = true ∧ a ≠ ',') ∧
    IdChar specEnv 'b' ∧ ListEnd specEnv '\n' ∧
    _VariableNameState specEnv
        { Parser.new with
          Buffer := ['i', 'n', 't', '3', '2', ' ', 'a', ' ', 'b', '\n']
          CurrentTokenIndex := 5 }
      = .ok { Parser.new with
              Buffer := ['i', 'n', 't', '3', '2', ' ', 'a', ' ', 'b', '\n']
              Tokens := [tk .VariableName "ab"]
              CurrentTokenIndex := 9 } :=
  have h1 : ∀ a ∈ [' '], specEnv.IsSpace a = true := by decide
  have h2 : ListHead specEnv 'a' := by
    refine ⟨by decide, by decide!, by decide, by decide, by decide, by decide, by decide⟩
  have h3 : IdChar specEnv 'a' := ⟨by decide!, by decide!, by decide⟩
  have h4 : ∀ a ∈ ([] : List Char), IdChar specEnv a := by simp
  have h5 : [' '] ≠ [] ∧ ∀ a ∈ [' '], specEnv.IsSpace a = true ∧ a ≠ ',' := by decide
  have h6 : IdChar specEnv 'b' := ⟨by decide!, by decide!, by decide⟩
  have h7 : ListEnd specEnv '\n' := ⟨by decide!, by decide!, by decide⟩
  ⟨h1, h2, h3, h4, h5, h6, h7,
    C35_identifiers_merged_over_spaces specEnv
      { Parser.new with
        Buffer := ['i', 'n', 't', '3', '2', ' ', 'a', ' ', 'b', '\n']
        CurrentTokenIndex := 5 }
      ['i', 'n', 't', '3', '2'] [' '] [] [' '] [] [] 'a' 'b' '\n' rfl rfl h1 h2 h3 h4 h5 h6
      (fun a ha => absurd ha (List.not_mem_nil a)) h7⟩

/-! ## Outcomes that end -/

section holds

variable {α β : Type}

@[simp] theorem Res.Holds_ok (t : Bool) (P : α → Prop) (a : α) :
    (Res.ok a).Holds t P ↔ P a := Iff.rfl

@[simp] theorem Res.Holds_halt (t : Bool) (P : α → Prop) : (Res.halt : Res α).Holds t P :=
  trivial

@[simp] theorem Res.Holds_outOfFuel (t : Bool) (P : α → Prop) :
    (Res.outOfFuel : Res α).Holds t P ↔ t = false := Iff.rfl

theorem Res.Holds.imp {t : Bool} {P Q : α → Prop} {x : Res α} (h : x.Holds t P)
    (hPQ : ∀ a, P a → Q a) : x.Holds t Q := by
  cases x <;> simp_all [Res.Holds]

theorem Res.Holds.chain {t : Bool} {P : α → Prop} {Q : β → Prop} {x : Res α}
    {f : α → Res β} (h : x.Holds t P) (hf : ∀ a, P a → (f a).Holds t Q) :
    (x.bind f).Holds t Q := by
  cases x with
  | ok a => exact hf a h
  | halt => trivial
  | outOfFuel => exact h

theorem Res.Holds.cond {t : Bool} {P : α → Prop} (c : Prop) [Decidable c] {x y : Res α}
    (hx : c → x.Holds t P) (hy : ¬c → y.Holds t P) : (if c then x else y).Holds t P := by
  split
  · exact hx ‹_›
  · exact hy ‹_›

theorem Res.Holds.both {t : Bool} {P Q : α → Prop} {x : Res α} (h : x.Holds t P)
    (hq : x.Holds t Q) : x.Holds t (fun a => P a ∧ Q a) := by
  cases x <;> simp_all [Res.Holds]

theorem Res.Holds.any {P : α → Prop} {x : Res α} (h : x.Holds true P) (t : Bool) :
    x.Holds t P := by
  cases x <;> simp_all [Res.Holds]

theorem Res.Holds.sat {t : Bool} {P : α → Prop} {x : Res α} (h : x.Holds t P) : x.Sat P := by
  cases x <;> simp_all [Res.Holds, Res.Sat]

theorem Res.Holds.ne_outOfFuel {P : α → Prop} {x : Res α} (h : x.Holds true P) :
    x ≠ .outOfFuel := by
  cases x <;> simp_all [Res.Holds]

theorem Res.Holds.of_ok {t : Bool} {P : α → Prop} {x : Res α} (h : x.Holds t P) (a : α)
    (e : x = .ok a) : P a := by
  subst e
  exact h

end holds

/-! ## The cursor under the primitives -/

@[simp] theorem ite_CurrentString (c : Prop) [Decidable c] (a b : Parser) :
    (if c then a else b).CurrentString = if c then a.CurrentString else b.CurrentString := by
  split <;> rfl

@[simp] theorem ite_Buffer (c : Prop) [Decidable c] (a b : Parser) :
    (if c then a else b).Buffer = if c then a.Buffer else b.Buffer := by
  split <;> rfl

@[simp] theorem restLen_with_string (s : Parser) (x : List Char) :
    restLen { s with CurrentString := x } = restLen s := rfl

@[simp] theorem restLen_with_state (s : Parser) (x : ParserState) :
    restLen { s with CurrentState := x } = restLen s := rfl

@[simp] theorem restLen_push (s : Parser) (k : TokenType) (d : List Char) :
    restLen (s._PushToken k d) = restLen s := rfl

theorem Cursor.start (s : Parser) (h : s.CurrentTokenIndex ≤ s.Buffer.length) :
    Cursor s.CurrentTokenIndex s s := ⟨rfl, Nat.le_refl _, h⟩

theorem Cursor.lower {lo lo2 : Nat} {s r : Parser} (h : Cursor lo s r) (hl : lo2 ≤ lo) :
    Cursor lo2 s r := ⟨h.1, Nat.le_trans hl h.2.1, h.2.2⟩

theorem Cursor.same {lo : Nat} {s a b : Parser} (h : Cursor lo s a) (h1 : b.Buffer = a.Buffer)
    (h2 : b.CurrentTokenIndex = a.CurrentTokenIndex) : Cursor lo s b :=
  ⟨h1.trans h.1, by rw [h2]; exact h.2.1, by rw [h2]; exact h.2.2⟩

theorem Cursor.with_string {lo : Nat} {s a : Parser} (h : Cursor lo s a) (x : List Char) :
    Cursor lo s { a with CurrentString := x } := h

theorem Cursor.with_state {lo : Nat} {s a : Parser} (h : Cursor lo s a) (x : ParserState) :
    Cursor lo s { a with CurrentState := x } := h

theorem Cursor.with_tokens {lo : Nat} {s a : Parser} (h : Cursor lo s a) (x : List Token) :
    Cursor lo s { a with Tokens := x } := h

theorem Cursor.with_stack {lo : Nat} {s a : Parser} (h : Cursor lo s a) (x : List Char) :
    Cursor lo s { a with BracketStack := x } := h

theorem Cursor.pushed {lo : Nat} {s a : Parser} (h : Cursor lo s a) (k : TokenType)
    (d : List Char) : Cursor lo s (a._PushToken k d) := h

theorem Cursor.branch {lo : Nat} {s a b : Parser} (c : Prop) [Decidable c] (ha : Cursor lo s a)
    (hb : Cursor lo s b) : Cursor lo s (if c then a else b) := by
  split
  · exact ha
  · exact hb

theorem getNext_index_le (s : Parser) :
    s.CurrentTokenIndex ≤ s._GetNextChar.2.CurrentTokenIndex := by
  unfold _GetNextChar
  split <;> simp

theorem getNext_index_lt (s : Parser) (h : s.CurrentTokenIndex < s.Buffer.length) :
    s._GetNextChar.2.CurrentTokenIndex = s.CurrentTokenIndex + 1 := by
  unfold _GetNextChar
  rw [if_pos h]

theorem getNext_index_bound (s : Parser) (h : s.CurrentTokenIndex ≤ s.Buffer.length) :
    s._GetNextChar.2.CurrentTokenIndex ≤ s.Buffer.length := by
  unfold _GetNextChar
  split <;> simp <;> omega

theorem getNext_NUL_or (s : Parser) :
    s._GetNextChar.2.CurrentTokenIndex = s.CurrentTokenIndex + 1 ∨
      (s._GetNextChar.1 = NUL ∧ s._GetNextChar.2 = s) := by
  unfold _GetNextChar
  split
  · exact Or.inl rfl
  · exact Or.inr ⟨rfl, rfl⟩

theorem Cursor.advance {lo : Nat} {s a : Parser} (h : Cursor lo s a) :
    Cursor lo s a._GetNextChar.2 :=
  ⟨by rw [getNext_Buffer]; exact h.1,
    Nat.le_trans h.2.1 (getNext_index_le a),
    by
      have := getNext_index_bound a (by rw [h.1]; exact h.2.2)
      rw [h.1] at this
      exact this⟩

/-- A read from a position inside the buffer moves the cursor beyond it. -/
theorem Cursor.read {lo : Nat} {s a : Parser} (h : Cursor lo s a) (hl : lo < s.Buffer.length) :
    Cursor (lo + 1) s a._GetNextChar.2 := by
  refine ⟨h.advance.1, ?_, h.advance.2.2⟩
  by_cases hi : a.CurrentTokenIndex < a.Buffer.length
  · rw [getNext_index_lt a hi]
    have := h.2.1
    omega
  · have h1 := getNext_index_le a
    rw [h.1] at hi
    have := h.2.1
    omega

/-- A read that returns a character other than NUL moves the cursor. -/
theorem Cursor.read_ne {lo : Nat} {s a : Parser} (h : Cursor lo s a)
    (hc : a._GetNextChar.1 ≠ NUL) : Cursor (lo + 1) s a._GetNextChar.2 := by
  refine ⟨h.advance.1, ?_, h.advance.2.2⟩
  rw [(getNext_index_of_ne_NUL a hc).1]
  have := h.2.1
  omega

theorem Cursor.backtrack {lo : Nat} {s a : Parser} (h : Cursor (lo + 1) s a) :
    Cursor lo s a._Backtrack := by
  have h1 := h.2.1
  have h2 := h.2.2
  refine ⟨h.1, ?_, ?_⟩
  · simp only [_Backtrack, subSizeT_le _ _ (show 1 ≤ a.CurrentTokenIndex by omega)]
    omega
  · simp only [_Backtrack, subSizeT_le _ _ (show 1 ≤ a.CurrentTokenIndex by omega)]
    omega

theorem Cursor.backtrack_lt {lo : Nat} {s a : Parser} (h : Cursor (lo + 1) s a) :
    a._Backtrack.CurrentTokenIndex < s.Buffer.length := by
  have h1 := h.2.1
  have h2 := h.2.2
  simp only [_Backtrack, subSizeT_le _ _ (show 1 ≤ a.CurrentTokenIndex by omega)]
  omega

/-- What was just backtracked over is read again. -/
theorem Cursor.reread {lo : Nat} {s a : Parser} (h : Cursor (lo + 1) s a) :
    Cursor (lo + 1) s a._Backtrack._GetNextChar.2 := by
  have h1 := h.2.1
  have h2 := h.2.2
  have e : a._Backtrack.CurrentTokenIndex = a.CurrentTokenIndex - 1 := by
    simp only [_Backtrack, subSizeT_le _ _ (show 1 ≤ a.CurrentTokenIndex by omega)]
  have hb : a._Backtrack.Buffer = s.Buffer := h.1
  refine ⟨by rw [getNext_Buffer]; exact hb, ?_, ?_⟩
  · rw [getNext_index_lt _ (by rw [hb, e]; omega), e]
    omega
  · rw [getNext_index_lt _ (by rw [hb, e]; omega), e]
    omega

/-! ## Fuel for the loops -/

theorem FuelFor.zero {c : Char} {s : Parser} (h : FuelFor 0 c s) : False := by
  rcases h with h | h <;> omega

theorem FuelFor.init (c : Char) (s a : Parser) (h : a.Buffer = s.Buffer) :
    FuelFor s.loopFuel c a := by
  left
  unfold restLen loopFuel
  rw [h]
  omega

/-- After a turn of a loop at a character other than NUL, the fuel left is
enough for the character it reads next. -/
theorem FuelFor.next {n : Nat} {c : Char} {s : Parser} (h : FuelFor (n + 1) c s)
    (hc : c ≠ NUL) : FuelFor n s._GetNextChar.1 s._GetNextChar.2 := by
  rcases h with h | h
  · rcases getNext_NUL_or s with e | ⟨e1, e2⟩
    · by_cases hi : s.CurrentTokenIndex < s.Buffer.length
      · left
        unfold restLen at h ⊢
        rw [e, getNext_Buffer]
        omega
      · right
        rw [getNext_end s (by omega)]
        exact ⟨rfl, by unfold restLen at h; omega⟩
    · right
      exact ⟨e1, by omega⟩
  · exact absurd h.1 hc

/-- The same for a read from a parser further on in the same buffer. -/
theorem FuelFor.next_of {n : Nat} {c : Char} {s : Parser} (h : FuelFor (n + 1) c s)
    (hc : c ≠ NUL) (b : Parser) (hb : b.Buffer = s.Buffer)
    (hi : s.CurrentTokenIndex ≤ b.CurrentTokenIndex) :
    FuelFor n b._GetNextChar.1 b._GetNextChar.2 := by
  rcases h with h | h
  · by_cases hl : b.CurrentTokenIndex < b.Buffer.length
    · left
      unfold restLen at h ⊢
      rw [getNext_index_lt b hl, getNext_Buffer, hb]
      rw [hb] at hl
      omega
    · right
      rw [getNext_end b (by omega)]
      exact ⟨rfl, by unfold restLen at h; omega⟩
  · exact absurd h.1 hc

theorem FuelFor.of_le {n : Nat} {c d : Char} {s a : Parser} (h : FuelFor n c s) (hc : c ≠ NUL)
    (hr : restLen a ≤ restLen s) : FuelFor n d a := by
  rcases h with h | h
  · left
    omega
  · exact absurd h.1 hc

theorem FuelFor.fuel_string {n : Nat} {c : Char} {s : Parser} (h : FuelFor n c s)
    (x : List Char) : FuelFor n c { s with CurrentString := x } := h

/-! ## The helper loops end, and keep the cursor inside the buffer -/

theorem Res.Holds.and_sat {α : Type} {t : Bool} {P Q : α → Prop} {x : Res α}
    (h : x.Holds t P) (hq : x.Sat Q) : x.Holds t (fun a => P a ∧ Q a) := by
  cases x <;> simp_all [Res.Holds, Res.Sat]

theorem skipLoop_cursor (E : Env) (hE : E.CursorOK) (s : Parser) (lo m : Nat) (hm : m ≤ lo + 1)
    (n : Nat) (c : Char) (a : Parser) (hf : FuelFor n c a) (hc : Cursor lo s a)
    (hr : c ≠ NUL → m ≤ a.CurrentTokenIndex) :
    (_SkipSpaces.loop E n c a).Holds true (fun r => Cursor lo s r.2 ∧ OnlyCursor a r.2 ∧
      (r.1 ≠ NUL → m ≤ r.2.CurrentTokenIndex)) := by
  induction n generalizing c a with
  | zero => exact absurd hf FuelFor.zero
  | succ n ih =>
    unfold _SkipSpaces.loop
    split
    · rename_i hsp
      have hn : c ≠ NUL := by
        rintro rfl
        simp [hE.space_NUL] at hsp
      exact (ih _ _ (hf.next hn) hc.advance
          (fun h => Nat.le_trans hm (hc.read_ne h).2.1)).imp fun r hr =>
        ⟨hr.1, (OnlyCursor.getNext a).cursor_trans hr.2.1, hr.2.2⟩
    · exact ⟨hc, OnlyCursor.cursor_refl a, hr⟩

theorem skipSpaces_cursor (E : Env) (hE : E.CursorOK) (lo : Nat) (s a : Parser)
    (hc : Cursor (lo + 1) s a) :
    (_SkipSpaces E a).Holds true (fun r => Cursor (lo + 1) s r.2 ∧ OnlyCursor a r.2) := by
  unfold _SkipSpaces
  have hb : OnlyCursor a a._Backtrack._GetNextChar.2 := by
    refine OnlyCursor.cursor_trans ?_ (OnlyCursor.getNext _)
    unfold OnlyCursor _Backtrack
    rfl
  exact (skipLoop_cursor E hE s (lo + 1) 0 (by omega) _ _ _ (FuelFor.init _ _ _ (by simp))
      hc.reread (fun _ => Nat.zero_le _)).imp
    fun r hr => ⟨hr.1, hb.cursor_trans hr.2.1⟩

theorem isHexChar_NUL : isHexChar NUL = false := by decide

theorem isalnum_NUL : isalnum NUL = false := by decide

theorem hexLoop_cursor (E : Env) (s : Parser) (lo : Nat)
    (n : Nat) (c : Char) (a : Parser) (hf : FuelFor n c a) (hc : Cursor lo s a) :
    (_ParseHexLiteral.loop E n c a).Holds true (fun r => Cursor lo s r.2) := by
  induction n generalizing c a with
  | zero => exact absurd hf FuelFor.zero
  | succ n ih =>
    unfold _ParseHexLiteral.loop
    split
    · split
      · rename_i hx
        have hn : c ≠ NUL := by
          rintro rfl
          simp [isHexChar_NUL] at hx
        exact ih _ _ ((hf.fuel_string _).next hn) (hc.with_string _).advance
      · trivial
    · exact hc

theorem binLoop_cursor (E : Env) (s : Parser) (lo : Nat)
    (n : Nat) (c : Char) (a : Parser) (hf : FuelFor n c a) (hc : Cursor lo s a) :
    (_ParseBinaryLiteral.loop E n c a).Holds true (fun r => Cursor lo s r.2) := by
  induction n generalizing c a with
  | zero => exact absurd hf FuelFor.zero
  | succ n ih =>
    unfold _ParseBinaryLiteral.loop
    split
    · split
      · rename_i hx
        have hn : c ≠ NUL := by
          rintro rfl
          exact absurd hx (by decide)
        exact ih _ _ ((hf.fuel_string _).next hn) (hc.with_string _).advance
      · trivial
    · exact hc

theorem parseHex_cursor (E : Env) (lo : Nat) (s a : Parser) (hc : Cursor (lo + 1) s a) :
    (_ParseHexLiteral E a).Holds true (fun r => Cursor lo s r ∧ r.CurrentString = []) := by
  unfold _ParseHexLiteral
  refine (hexLoop_cursor E s (lo + 1) _ _ _ (FuelFor.init _ _ _ (by simp))
    (hc.with_string _).advance).chain fun r hr => ?_
  simp only [Res.Holds_ok]
  exact ⟨((Cursor.branch _ hr.backtrack (hr.lower (by omega))).pushed _ _).with_string _, trivial⟩

theorem parseBin_cursor (E : Env) (lo : Nat) (s a : Parser) (hc : Cursor (lo + 1) s a) :
    (_ParseBinaryLiteral E a).Holds true (fun r => Cursor lo s r ∧ r.CurrentString = []) := by
  unfold _ParseBinaryLiteral
  refine (binLoop_cursor E s (lo + 1) _ _ _ (FuelFor.init _ _ _ (by simp))
    (hc.with_string _).advance).chain fun r hr => ?_
  simp only [Res.Holds_ok]
  exact ⟨((Cursor.branch _ hr.backtrack (hr.lower (by omega))).pushed _ _).with_string _, trivial⟩

theorem numberLoop_cursor (s : Parser) (lo : Nat)
    (n : Nat) (c : Char) (u : Bool) (a : Parser) (hf : FuelFor n c a) (hc : Cursor lo s a) :
    (_ParseNumber.loop n c u a).Holds true (fun r => Cursor lo s r.2) := by
  induction n generalizing c u a with
  | zero => exact absurd hf FuelFor.zero
  | succ n ih =>
    unfold _ParseNumber.loop
    split
    · rename_i hx
      have hn : c ≠ NUL := by
        rintro rfl
        simp [isalnum_NUL] at hx
      simp only []
      split
      · trivial
      · exact ih _ _ _ ((hf.fuel_string _).next hn) (hc.with_string _).advance
    · exact hc

theorem parseNumber_cursor (E : Env) (lo : Nat) (s a : Parser) (hc : Cursor (lo + 1) s a) :
    (_ParseNumber E a).Holds true (fun r => Cursor (lo + 1) s r ∧ r.CurrentString = []) := by
  unfold _ParseNumber
  try simp only []
  split
  · exact ⟨(hc.advance.pushed _ _).with_string _, rfl⟩
  · rename_i hn
    have h2 : Cursor (lo + 2) s a._GetNextChar.2 := hc.read_ne hn
    split
    · split
      · exact parseBin_cursor E (lo + 1) s _ h2
      · trivial
    · split
      · split
        · exact parseHex_cursor E (lo + 1) s _ h2
        · trivial
      · refine (numberLoop_cursor s (lo + 2) _ _ _ _ (FuelFor.init _ _ _ (by simp)) h2).chain
          fun r hr => ?_
        split
        · simp only [Res.Holds_ok]
          have h3 : Cursor (lo + 2) s
              ({ (if r.2.CurrentString = ['-'] then r.2._PushToken .SubOp ['-']
                  else r.2._PushToken .RValueNumber r.2.CurrentString) with
                 CurrentString := [] } : Parser) :=
            (Cursor.branch _ (hr.pushed _ _) (hr.pushed _ _)).with_string _
          refine ⟨Cursor.branch _ h3.backtrack (h3.lower (by omega)), ?_⟩
          split <;> rfl
        · trivial

theorem charEscape_cursor (lo : Nat) (s a : Parser) (hc : Cursor lo s a) :
    (_ParseChar.escape a).Holds true (fun r => Cursor lo s r.2.2 ∧
      r.2.2.CurrentString = a.CurrentString) := by
  unfold _ParseChar.escape
  have h1 : Cursor lo s a._GetNextChar.2 := hc.advance
  try simp only []
  split_ifs <;> simp [h1]

theorem parseChar_cursor (lo : Nat) (s a : Parser) (hc : Cursor lo s a) :
    (_ParseChar a).Holds true (fun r => Cursor lo s r ∧ r.CurrentString = a.CurrentString) := by
  unfold _ParseChar
  have h0 : (if a._GetNextChar.1 = '\\' then _ParseChar.escape a._GetNextChar.2
      else Res.ok (a._GetNextChar.1, a._GetNextChar.1, a._GetNextChar.2)).Holds true
        (fun r => Cursor lo s r.2.2 ∧ r.2.2.CurrentString = a.CurrentString) := by
    split
    · exact (charEscape_cursor lo s _ hc.advance).imp fun r hr => ⟨hr.1, by simpa using hr.2⟩
    · exact ⟨hc.advance, by simp⟩
  refine h0.chain fun r hr => ?_
  try simp only []
  split
  · trivial
  · split
    · exact ⟨(hr.1.pushed _ _).advance, by simpa using hr.2⟩
    · trivial

theorem stringLoop_cursor (s : Parser) (lo : Nat)
    (n : Nat) (c : Char) (a : Parser) (hf : FuelFor n c a) (hc : Cursor lo s a) :
    (_ParseString.loop n c a).Holds true (fun r => Cursor lo s r) := by
  induction n generalizing c a with
  | zero => exact absurd hf FuelFor.zero
  | succ n ih =>
    unfold _ParseString.loop
    split
    · split
      · trivial
      · rename_i hq hx
        have hn : c ≠ NUL := fun h => hx (Or.inr h)
        split
        · refine ih _ _ (hf.next_of hn _ (by simp) ?_) ((hc.advance.with_string _).advance)
          exact getNext_index_le a
        · exact ih _ _ ((hf.fuel_string _).next hn) (hc.with_string _).advance
    · exact hc

theorem parseString_cursor (lo : Nat) (s a : Parser) (hc : Cursor lo s a) :
    (_ParseString a).Holds true (fun r => Cursor lo s r ∧ r.CurrentString = []) := by
  unfold _ParseString
  refine (stringLoop_cursor s lo _ _ _ (FuelFor.init _ _ _ (by simp)) hc.advance).chain
    fun r hr => ?_
  exact ⟨(hr.pushed _ _).with_string _, rfl⟩

theorem otherLoop_cursor (E : Env) (s : Parser) (n : Nat) :
    ∀ (lo : Nat) (c : Char) (a : Parser), FuelFor n c a → Cursor lo s a →
      (_ParseOther.loop E n c a).Holds true (fun r => Cursor lo s r.2 ∧
        (r.2.CurrentString = a.CurrentString ∨ r.1 = NUL ∨
          lo + 1 ≤ r.2.CurrentTokenIndex)) := by
  induction n with
  | zero => exact fun _ _ _ hf _ => absurd hf FuelFor.zero
  | succ n ih =>
    intro lo c a hf hc
    unfold _ParseOther.loop
    split
    · rename_i hx
      have hn : c ≠ NUL := hx.2
      have h1 : Cursor lo s ({ a with CurrentString := a.CurrentString ++ [c] } : Parser)._GetNextChar.2 :=
        (hc.with_string _).advance
      simp only []
      split
      · refine ⟨h1, ?_⟩
        by_cases h0 : ({ a with CurrentString := a.CurrentString ++ [c] } : Parser)._GetNextChar.1 = NUL
        · exact Or.inr (Or.inl h0)
        · exact Or.inr (Or.inr ((hc.with_string _).read_ne h0).2.1)
      · rename_i hy
        have h0 : ({ a with CurrentString := a.CurrentString ++ [c] } : Parser)._GetNextChar.1 ≠ NUL :=
          fun h => hy (Or.inr (Or.inl h))
        have h2 := (hc.with_string (a.CurrentString ++ [c])).read_ne h0
        exact (ih (lo + 1) _ _ ((hf.fuel_string _).next hn) h2).imp fun r hr =>
          ⟨hr.1.lower (by omega), Or.inr (Or.inr hr.1.2.1)⟩
    · exact ⟨hc, Or.inl rfl⟩

theorem parseOther_cursor (E : Env) (lo : Nat) (s a : Parser) (hc : Cursor lo s a)
    (hl : lo < s.Buffer.length) :
    (_ParseOther E a).Holds true (fun r => Cursor lo s r ∧
      (r.CurrentString = [] ∨ lo + 1 ≤ r.CurrentTokenIndex)) := by
  unfold _ParseOther
  have h1 : Cursor (lo + 1) s ({ a._GetNextChar.2 with CurrentString := [] } : Parser) :=
    (hc.read hl).with_string _
  refine (otherLoop_cursor E s _ (lo + 1) _ _ (FuelFor.init _ _ _ (by simp)) h1).chain
    fun r hr => ?_
  try simp only []
  split
  · rename_i hp
    simp only [Res.Holds_ok]
    split
    · rename_i hne
      rcases hr.2 with h | h | h
      · exact absurd h hne
      · rw [hp] at h
        exact absurd h (by decide)
      · have h2 : Cursor (lo + 2) s r.2 := ⟨hr.1.1, h, hr.1.2.2⟩
        exact ⟨h2.backtrack.lower (by omega), Or.inr h2.backtrack.2.1⟩
    · rename_i hne
      exact ⟨hr.1.lower (by omega), Or.inr hr.1.2.1⟩
  · simp only [Res.Holds_ok]
    have hm : Cursor (lo + 1) s
        (match E.KeyWordMap r.2.CurrentString with
          | some value => r.2._PushToken value.TokenToPush r.2.CurrentString
          | none => r.2._PushToken .VariableReference r.2.CurrentString) := by
      split
      · exact hr.1.pushed _ _
      · exact hr.1.pushed _ _
    exact ⟨((hm.with_string []).with_state .Default).backtrack, Or.inl rfl⟩

theorem FuelFor.fuel_push {n : Nat} {c : Char} {s : Parser} (h : FuelFor n c s) (k : TokenType)
    (d : List Char) : FuelFor n c (s._PushToken k d) := h

theorem Cursor.self {lo : Nat} {s a : Parser} (h : Cursor lo s a) :
    Cursor a.CurrentTokenIndex a a := ⟨rfl, Nat.le_refl _, by rw [h.1]; exact h.2.2⟩

theorem FuelFor.next_cursor {n : Nat} {c : Char} {a : Parser} (h : FuelFor (n + 1) c a)
    (hc : c ≠ NUL) (b : Parser) (hb : Cursor a.CurrentTokenIndex a b) :
    FuelFor n b._GetNextChar.1 b._GetNextChar.2 := h.next_of hc b hb.1 hb.2.1

theorem arrayBody_cursor (s : Parser) (lo : Nat)
    (n : Nat) (c : Char) (a : Parser) (hf : FuelFor n c a) (hc : Cursor lo s a) :
    (_ParseArrayDecleration.body n c a).Holds true (fun r => Cursor lo s r.2) := by
  induction n generalizing c a with
  | zero => exact absurd hf FuelFor.zero
  | succ n ih =>
    unfold _ParseArrayDecleration.body
    split
    · rename_i hx
      have hn : c ≠ NUL := hx.2.2
      split
      · exact ih _ _ ((hf.fuel_string _).next hn) (hc.with_string _).advance
      · split
        · simp only []
          split
          · refine ih _ _ (hf.next_cursor hn _ ?_) ?_
            · exact (((hc.self.with_string _).advance.with_string _).advance).with_string _
            · exact ((((hc.with_string _).advance.with_string _).advance).with_string _).advance
          · trivial
        · trivial
    · exact hc

theorem parseArray_cursor (E : Env) (hE : E.CursorOK) (s : Parser) (lo : Nat) (n : Nat)
    (a : Parser) (hf : restLen a + 1 ≤ n) (hc : Cursor lo s a) :
    (_ParseArrayDecleration E n a).Holds true (fun r => Cursor lo s r) := by
  induction n generalizing a with
  | zero => omega
  | succ n ih =>
    unfold _ParseArrayDecleration
    have hl : lo ≤ a.CurrentTokenIndex := hc.2.1
    have ha : Cursor a.CurrentTokenIndex s a := ⟨hc.1, Nat.le_refl _, hc.2.2⟩
    refine (arrayBody_cursor s a.CurrentTokenIndex _ _ _ (FuelFor.init _ _ _ (by simp))
      ha.advance).chain fun r hr => ?_
    have h1 : Cursor a.CurrentTokenIndex s
        ({ (if r.2.CurrentString = [] then r.2._PushToken .DynamicArrayDef []
            else r.2._PushToken .StaticArrayDef r.2.CurrentString) with
           CurrentString := [] } : Parser) :=
      (Cursor.branch _ (hr.pushed _ _) (hr.pushed _ _)).with_string _
    refine (skipLoop_cursor E hE s a.CurrentTokenIndex (a.CurrentTokenIndex + 1) (Nat.le_refl _)
      _ _ _ (FuelFor.init _ _ _ (by simp)) h1.advance
      (fun h => (h1.read_ne h).2.1)).chain fun r2 hr2 => ?_
    try simp only []
    split
    · trivial
    · split
      · rename_i hb
        have h2 : a.CurrentTokenIndex + 1 ≤ r2.2.CurrentTokenIndex :=
          hr2.2.2 (by rw [hb]; decide)
        have h3 := hr2.1.2.2
        have h4 := hr2.1.1
        refine ih _ ?_ ⟨h4, by omega, h3⟩
        unfold restLen at hf ⊢
        rw [h4, ← hc.1]
        rw [← hc.1] at h3
        omega
      · simp only [Res.Holds_ok]
        split
        · rename_i hne
          have h2 : Cursor (a.CurrentTokenIndex + 1) s r2.2 :=
            ⟨hr2.1.1, hr2.2.2 hne, hr2.1.2.2⟩
          exact h2.backtrack.lower hl
        · exact hr2.1.lower hl

theorem pointerLoop_cursor (s : Parser) (lo : Nat)
    (n : Nat) (c : Char) (a : Parser) (hf : FuelFor n c a) (hc : Cursor lo s a) :
    (_ParsePointerDecleration.loop n c a).Holds true (fun r => Cursor lo s r.2) := by
  induction n generalizing c a with
  | zero => exact absurd hf FuelFor.zero
  | succ n ih =>
    unfold _ParsePointerDecleration.loop
    split
    · rename_i hx
      have hn : c ≠ NUL := by
        rw [hx]
        decide
      exact ih _ _ ((hf.next hn).fuel_push _ _) (hc.advance.pushed _ _)
    · exact hc

theorem parsePointer_cursor (E : Env) (hE : E.CursorOK) (lo : Nat) (s a : Parser)
    (hc : Cursor lo s a) (hl : lo < s.Buffer.length) :
    (_ParsePointerDecleration E a).Holds true (fun r => Cursor lo s r) := by
  unfold _ParsePointerDecleration
  refine (pointerLoop_cursor s (lo + 1) _ _ _ (FuelFor.init _ _ _ (by simp))
    (hc.read hl)).chain fun r hr => ?_
  refine (skipSpaces_cursor E hE lo s _ hr).chain fun r2 hr2 => ?_
  try simp only []
  split
  · trivial
  · exact Cursor.branch _ hr2.1.backtrack (hr2.1.lower (by omega))

theorem varListLoop_cursor (E : Env) (hE : E.CursorOK) (s : Parser) (lo : Nat)
    (n : Nat) (l : VarListLocals) (hf : FuelFor n l.current l.s) (hc : Cursor lo s l.s) :
    (_VariableNameState.loop E n l).Holds true (fun r => Cursor lo s r.s) := by
  induction n generalizing l with
  | zero => exact absurd hf FuelFor.zero
  | succ n ih =>
    unfold _VariableNameState.loop
    split
    · rename_i hx
      have hn : l.current ≠ NUL := by
        intro h
        rw [h] at hx
        simp [hE.space_NUL, hE.name_NUL] at hx
      have h1 : Cursor lo s (if (!E.IsSpace l.current) = true
          then { l.s with CurrentString := l.s.CurrentString ++ [l.current] } else l.s) :=
        Cursor.branch _ (hc.with_string _) hc
      have e1 : (if (!E.IsSpace l.current) = true
          then { l.s with CurrentString := l.s.CurrentString ++ [l.current] }
          else l.s).Buffer = l.s.Buffer := by split <;> rfl
      have e2 : (if (!E.IsSpace l.current) = true
          then { l.s with CurrentString := l.s.CurrentString ++ [l.current] }
          else l.s).CurrentTokenIndex = l.s.CurrentTokenIndex := by split <;> rfl
      simp only []
      generalize (if (!E.IsSpace l.current) = true
          then { l.s with CurrentString := l.s.CurrentString ++ [l.current] }
          else l.s) = b at h1 e1 e2
      split
      · split
        · trivial
        · split
          · trivial
          · refine ih _ (hf.next_cursor hn _ ?_) ?_
            · exact ((((Cursor.same hc.self e1 e2).advance.pushed _ _).pushed _ _).with_string _)
            · exact (((h1.advance.pushed _ _).pushed _ _).with_string _).advance
      · exact ih _ (hf.next_of hn _ e1 (by rw [e2])) h1.advance
    · exact hc

/-! ## The handlers move on -/

/-- A handler that has moved the cursor on has stepped. -/
theorem Stepped.strict {s r : Parser} (hs : s.CurrentTokenIndex < s.Buffer.length)
    (hc : Cursor (s.CurrentTokenIndex + 1) s r)
    (h1 : r.CurrentState ≠ .ArrowState)
    (h2 : r.CurrentState ≠ .FunctionTypeState ∧
      (r.CurrentState = .IndexOperator → r.CurrentString = [])) :
    Stepped s r := by
  obtain ⟨hb, hlo, hhi⟩ := hc
  refine ⟨hb, ⟨by rw [hb]; exact hhi, fun _ => by omega⟩, ?_, h2.2, ?_⟩
  · rintro (h | h)
    · exact absurd h h1
    · exact absurd h h2.1
  · unfold weight restLen
    rw [hb]
    have r1 : rank r.CurrentState ≤ 4 := by cases r.CurrentState <;> simp [rank]
    split <;> split <;> omega

/-- A handler that has left the cursor where it was, or moved it on, and has
entered a state of lower rank has stepped. -/
theorem Stepped.ranked {s r : Parser} (hc : Cursor s.CurrentTokenIndex s r)
    (h0 : r.CurrentState ≠ .Operator)
    (h1 : r.CurrentState ≠ .ArrowState)
    (h2 : r.CurrentState ≠ .FunctionTypeState ∧
      (r.CurrentState = .IndexOperator → r.CurrentString = []))
    (hw : (if r.CurrentString = [] then 0 else 5) + rank r.CurrentState <
      (if s.CurrentString = [] then 0 else 5) + rank s.CurrentState) :
    Stepped s r := by
  obtain ⟨hb, hlo, hhi⟩ := hc
  refine ⟨hb, ⟨by rw [hb]; exact hhi, fun h => absurd h h0⟩, ?_, h2.2, ?_⟩
  · rintro (h | h)
    · exact absurd h h1
    · exact absurd h h2.1
  · unfold weight restLen
    rw [hb]
    omega

theorem arrow_stepped (s : Parser) (hs : s.CurrentTokenIndex < s.Buffer.length)
    (hst : s.CurrentState = .ArrowState) (h2 : 2 ≤ s.CurrentTokenIndex) :
    (_ArrowState s).Holds true (Stepped s) := by
  unfold _ArrowState
  split
  · refine ⟨rfl, ⟨Nat.le_of_lt hs, by simp⟩, fun _ => h2, by simp [IndexInv], ?_⟩
    simp [weight, rank, hst, restLen]
  · refine ⟨rfl, ⟨Nat.le_of_lt hs, by simp⟩, by simp [ArrowInv], by simp [IndexInv], ?_⟩
    simp [weight, rank, hst, restLen]

theorem asterisks_stepped (s : Parser) (hs : s.CurrentTokenIndex < s.Buffer.length)
    (hst : s.CurrentState = .AsterisksOperator) :
    (_AsterisksState s).Holds true (Stepped s) := by
  unfold _AsterisksState
  refine Stepped.ranked ?_ (by simp) (by simp) (by simp) ?_
  · exact (Cursor.branch _ ((Cursor.start s (Nat.le_of_lt hs)).pushed _ _)
      ((Cursor.start s (Nat.le_of_lt hs)).pushed _ _)).with_state _
  · simp only [ite_CurrentString, push_CurrentString, ite_self, hst, rank]
    omega

theorem commentLoop_cursor (s : Parser) (lo : Nat)
    (n : Nat) (c : Char) (a : Parser) (hf : FuelFor n c a) (hc : Cursor lo s a) :
    (_CommentState.loop n c a).Holds true (fun r => Cursor lo s r.2 ∧ OnlyCursor a r.2) := by
  induction n generalizing c a with
  | zero => exact absurd hf FuelFor.zero
  | succ n ih =>
    unfold _CommentState.loop
    split
    · rename_i hx
      exact (ih _ _ (hf.next hx.2) hc.advance).imp fun r hr =>
        ⟨hr.1, (OnlyCursor.getNext a).cursor_trans hr.2⟩
    · exact ⟨hc, OnlyCursor.cursor_refl a⟩

theorem comment_stepped (s : Parser) (hs : s.CurrentTokenIndex < s.Buffer.length)
    (hst : s.CurrentState = .Comment) :
    (_CommentState s).Holds true (Stepped s) := by
  unfold _CommentState
  have h0 := Cursor.start s (Nat.le_of_lt hs)
  refine (commentLoop_cursor s (s.CurrentTokenIndex + 1) _ _ _ (FuelFor.init _ _ _ (by simp))
    (h0.read hs)).chain fun r hr => ?_
  have e := ((OnlyCursor.getNext s).cursor_trans hr.2).fields
  simp only [Res.Holds_ok]
  refine Stepped.ranked ?_ ?_ ?_ ?_ ?_
  · exact Cursor.branch _ (hr.1.with_state _).backtrack ((hr.1.with_state _).lower (by omega))
  · split <;> simp
  · split <;> simp
  · split <;> simp
  · have e2 : (if r.1 = '\n' then ({ r.2 with CurrentState := .Default } : Parser)._Backtrack
        else { r.2 with CurrentState := .Default }).CurrentString = s.CurrentString := by
      split <;> simp [e.2.2.2.2.1]
    have e3 : (if r.1 = '\n' then ({ r.2 with CurrentState := .Default } : Parser)._Backtrack
        else { r.2 with CurrentState := .Default }).CurrentState = .Default := by
      split <;> simp
    rw [e2, e3, hst]
    simp [rank]

theorem multiLoop_cursor (s : Parser) (lo : Nat)
    (n : Nat) (c : Char) (a : Parser) (hf : FuelFor n c a) (hc : Cursor lo s a) :
    (_MultiLineCommentState.loop n c a).Holds true (fun r => Cursor lo s r.2 ∧
      (r.2.CurrentState = a.CurrentState ∨ r.2.CurrentState = .Default)) := by
  induction n generalizing c a with
  | zero => exact absurd hf FuelFor.zero
  | succ n ih =>
    unfold _MultiLineCommentState.loop
    split
    · rename_i hx
      simp only []
      split
      · rename_i hstar
        have hn1 : a._GetNextChar.1 ≠ NUL := by
          rw [hstar]
          decide
        have h1 := hc.read_ne hn1
        split
        · exact ⟨(h1.advance.with_state _).lower (by omega), Or.inr rfl⟩
        · refine (ih _ _ ?_ h1.advance.backtrack).imp fun r hr => ⟨hr.1, by simpa using hr.2⟩
          have i1 := getNext_index_of_ne_NUL a hn1
          rcases getNext_NUL_or a._GetNextChar.2 with e | ⟨e1, e2⟩
          · left
            rcases hf with hf | hf
            · unfold restLen at hf ⊢
              simp only [_Backtrack, getNext_Buffer]
              rw [e, i1.1, subSizeT_le _ _ (by omega)]
              omega
            · exact absurd hf.1 hx
          · right
            refine ⟨e1, ?_⟩
            rcases hf with hf | hf
            · unfold restLen at hf
              omega
            · exact absurd hf.1 hx
      · exact (ih _ _ (hf.next hx) hc.advance).imp fun r hr => ⟨hr.1, by simpa using hr.2⟩
    · exact ⟨hc, Or.inl rfl⟩

theorem multi_stepped (s : Parser) (hs : s.CurrentTokenIndex < s.Buffer.length)
    (hst : s.CurrentState = .MultilineComment) :
    (_MultiLineCommentState s).Holds true (Stepped s) := by
  unfold _MultiLineCommentState
  have h0 := Cursor.start s (Nat.le_of_lt hs)
  refine (multiLoop_cursor s (s.CurrentTokenIndex + 1) _ _ _ (FuelFor.init _ _ _ (by simp))
    (h0.read hs)).chain fun r hr => ?_
  simp only [Res.Holds_ok]
  have h1 : r.2.CurrentState = .MultilineComment ∨ r.2.CurrentState = .Default := by
    simpa [hst] using hr.2
  refine Stepped.strict hs hr.1 ?_ ?_
  · rcases h1 with h | h <;> simp [h]
  · rcases h1 with h | h <;> simp [h]

theorem readName_cursor (E : Env) (hE : E.CursorOK) (s : Parser) (lo : Nat)
    (n : Nat) (c : Char) (a : Parser) (hf : FuelFor n c a) (hc : Cursor lo s a) :
    (readName E n c a).Holds true (fun r => Cursor lo s r.2) := by
  induction n generalizing c a with
  | zero => exact absurd hf FuelFor.zero
  | succ n ih =>
    unfold readName
    split
    · rename_i hx
      have hn : c ≠ NUL := by
        rintro rfl
        simp [hE.name_NUL] at hx
      exact ih _ _ ((hf.fuel_string _).next hn) (hc.with_string _).advance
    · exact hc

theorem structName_stepped (E : Env) (hE : E.CursorOK) (s : Parser)
    (hs : s.CurrentTokenIndex < s.Buffer.length) (hst : s.CurrentState = .StructName) :
    (_StructNameState E s).Holds true (Stepped s) := by
  unfold _StructNameState
  have h0 := Cursor.start s (Nat.le_of_lt hs)
  refine (skipSpaces_cursor E hE _ s _ (h0.read hs)).chain fun r hr => ?_
  try simp only []
  split
  · trivial
  · refine (readName_cursor E hE s (s.CurrentTokenIndex + 1) _ _ _ (FuelFor.init _ _ _ (by simp))
      (hr.1.with_string _)).chain fun r2 hr2 => ?_
    simp only [Res.Holds_ok]
    refine Stepped.ranked ?_ (by simp) (by simp) (by simp) ?_
    · exact (((hr2.pushed _ _).with_string _).backtrack).with_state _
    · simp [hst, rank]

theorem functionName_stepped (E : Env) (hE : E.CursorOK) (s : Parser)
    (hs : s.CurrentTokenIndex < s.Buffer.length) (hst : s.CurrentState = .FunctionName) :
    (_FunctionNameState E s).Holds true (Stepped s) := by
  unfold _FunctionNameState
  have h0 := Cursor.start s (Nat.le_of_lt hs)
  refine (skipSpaces_cursor E hE _ s _ (h0.read hs)).chain fun r hr => ?_
  try simp only []
  split
  · simp only [Res.Holds_ok]
    refine Stepped.ranked ?_ (by simp) (by simp) (by simp) ?_
    · exact (((hr.1.with_string _).backtrack).with_state _).pushed _ _
    · simp [hst, rank]
  · refine (readName_cursor E hE s (s.CurrentTokenIndex + 1) _ _ _ (FuelFor.init _ _ _ (by simp))
      (hr.1.with_string _)).chain fun r2 hr2 => ?_
    try simp only []
    split
    · trivial
    · simp only [Res.Holds_ok]
      refine Stepped.ranked ?_ (by simp) (by simp) (by simp) ?_
      · have h3 : Cursor s.CurrentTokenIndex s (if r2.1 = '(' then r2.2._Backtrack else r2.2) :=
          Cursor.branch _ hr2.backtrack (hr2.lower (by omega))
        exact ((h3.pushed _ _).with_string []).with_state .FunctionParameters
      · simp [hst, rank]

theorem spaces_cursor (s : Parser) (lo : Nat) (m : Nat) (c : Char) (j : Nat) (a : Parser)
    (hc : Cursor lo s a) : Cursor lo s (_IndentationState.spaces m c j a).2.2 := by
  induction m generalizing c j a with
  | zero => exact hc
  | succ m ih =>
    unfold _IndentationState.spaces
    split
    · exact ih _ _ _ hc.advance
    · exact hc

theorem count_cursor (s : Parser) (lo : Nat) (n : Nat) (c : Char) (k : Nat) (a : Parser)
    (hc : Cursor lo s a) :
    (_IndentationState.count n c k a).Sat (fun r => Cursor lo s r.2) := by
  induction n generalizing c k a with
  | zero => simp [_IndentationState.count]
  | succ n ih =>
    unfold _IndentationState.count
    split
    · exact ih _ _ _ hc.advance
    · have n1 : Cursor lo s
          (if c = ' ' then _IndentationState.spaces 3 c 1 a else (c, 0, a)).2.2 := by
        split
        · exact spaces_cursor s lo _ _ _ _ hc
        · exact hc
      try simp only []
      generalize (if c = ' ' then _IndentationState.spaces 3 c 1 a else (c, 0, a)) = q at n1
      split
      · exact ih _ _ _ n1
      · simp only [Res.Sat_ok]
        exact n1

theorem scan_cursor (s : Parser) (hs : s.CurrentTokenIndex < s.Buffer.length) :
    (_IndentationState.scan s).Holds true (fun r =>
      Cursor (s.CurrentTokenIndex + 1) s r.2 ∧ OnlyCursor s r.2) := by
  obtain ⟨r, e⟩ := scan_total s
  have h1 := scan_onlyCursor s
  have h2 : (_IndentationState.scan s).Sat
      (fun r => Cursor (s.CurrentTokenIndex + 1) s r.2) := by
    unfold _IndentationState.scan
    have h0 := (Cursor.start s (Nat.le_of_lt hs)).read hs
    refine count_cursor s _ _ _ _ _ ?_
    split
    · exact h0.advance
    · exact h0
  rw [e] at h1 h2 ⊢
  exact ⟨h2, h1⟩

theorem indentation_stepped (s : Parser) (hs : s.CurrentTokenIndex < s.Buffer.length)
    (hst : s.CurrentState = .Indentation) :
    (_IndentationState s).Holds true (Stepped s) := by
  unfold _IndentationState
  refine (scan_cursor s hs).chain fun r hr => ?_
  have e := hr.2.fields
  simp only [Res.Holds_ok]
  have h1 : Cursor (s.CurrentTokenIndex + 1) s
      (if r.1 > r.2.Indents then { r.2._PushToken .StartIndentation [] with Indents := r.1 }
        else r.2) := Cursor.branch _ hr.1 hr.1
  have h2 : Cursor (s.CurrentTokenIndex + 1) s
      (closeIndents r.1 (if r.1 > r.2.Indents
        then { r.2._PushToken .StartIndentation [] with Indents := r.1 } else r.2)) := h1
  refine Stepped.ranked (h2.with_state .Default).backtrack (by simp) (by simp) (by simp) ?_
  have e2 : (closeIndents r.1 (if r.1 > r.2.Indents
      then { r.2._PushToken .StartIndentation [] with Indents := r.1 }
      else r.2)).CurrentString = s.CurrentString := by
    unfold closeIndents
    simp only [ite_CurrentString]
    split <;> exact e.2.2.2.2.1
  simp only [backtrack_CurrentString, backtrack_CurrentState, e2, hst, rank]
  omega

theorem variableName_stepped (E : Env) (hE : E.CursorOK) (s : Parser)
    (hs : s.CurrentTokenIndex < s.Buffer.length) (hst : s.CurrentState = .VariableName) :
    (_VariableNameState E s).Holds true (Stepped s) := by
  unfold _VariableNameState
  have h0 := Cursor.start s (Nat.le_of_lt hs)
  refine (skipSpaces_cursor E hE _ s _ (h0.read hs)).chain fun r hr => ?_
  have e := ((OnlyCursor.getNext s).cursor_trans hr.2).fields
  try simp only []
  split
  · simp only [Res.Holds_ok]
    refine Stepped.ranked (hr.1.backtrack.with_state .Default) (by simp) (by simp) (by simp) ?_
    simp [e.2.2.2.2.1, hst, rank]
  · split
    · simp only [Res.Holds_ok]
      refine Stepped.ranked (hr.1.backtrack.with_state .Default) (by simp) (by simp) (by simp) ?_
      simp [e.2.2.2.2.1, hst, rank]
    · have p1 : (if r.1 = '*' then
            (_ParsePointerDecleration E r.2._Backtrack).bind fun s =>
              Res.ok (s._GetNextChar.1, s._GetNextChar.2)
          else Res.ok (r.1, r.2)).Holds true
            (fun q => Cursor (s.CurrentTokenIndex + 1) s q.2) := by
        split
        · refine (parsePointer_cursor E hE _ s _ hr.1.backtrack hs).chain fun q hq => ?_
          exact hq.read hs
        · exact hr.1
      refine p1.chain fun q hq => ?_
      have p2 : (if q.1 = '[' then
            (_ParseArrayDecleration E ({ q.2 with CurrentString := [] } : Parser).loopFuel
                { q.2 with CurrentString := [] }).bind fun s =>
              Res.ok (s._GetNextChar.1, s._GetNextChar.2)
          else Res.ok (q.1, ({ q.2 with CurrentString := [] } : Parser))).Holds true
            (fun q => Cursor (s.CurrentTokenIndex + 1) s q.2) := by
        split
        · refine (parseArray_cursor E hE s _ _ _ ?_ (hq.with_string [])).chain fun q2 hq2 => ?_
          · unfold restLen loopFuel
            simp only []
            omega
          · exact hq2.advance
        · exact hq.with_string []
      refine p2.chain fun q2 hq2 => ?_
      try simp only []
      split
      · refine Stepped.ranked ((hq2.with_string []).with_state .Default).backtrack
          (by simp) (by simp) (by simp) ?_
        simp [hst, rank]
      · refine (varListLoop_cursor E hE s (s.CurrentTokenIndex + 1) _ _
          (FuelFor.init _ _ _ (by simp)) (hq2.with_string [])).chain fun l hl => ?_
        try simp only []
        refine Res.Holds.cond _ (fun _ => ?_) (fun _ => trivial)
        have h3 : Cursor (s.CurrentTokenIndex + 1) s
            (if l.s.CurrentString ≠ [] then l.s._PushToken .VariableName l.s.CurrentString
              else l.s) := Cursor.branch _ (hl.pushed _ _) hl
        have h4 := Cursor.branch (!E.IsSpace l.current) h3.backtrack (h3.lower (Nat.le_succ _))
        refine Stepped.ranked ((h4.with_string []).with_state .Default)
          (by simp) (by simp) (by simp) ?_
        simp [hst, rank]

theorem rvalue_stepped (E : Env) (hE : E.CursorOK) (s : Parser)
    (hs : s.CurrentTokenIndex < s.Buffer.length) (hst : s.CurrentState = .RValue) :
    (_ParsingRValueState E s).Holds true (Stepped s) := by
  unfold _ParsingRValueState
  have h0 := Cursor.start s (Nat.le_of_lt hs)
  refine (skipSpaces_cursor E hE _ s _ (h0.read hs)).chain fun r hr => ?_
  have h1 : Cursor (s.CurrentTokenIndex + 1) s ({ r.2 with CurrentString := [] } : Parser) :=
    hr.1.with_string []
  try simp only []
  split
  · exact Stepped.strict hs (h1.with_state .Operator) (by simp) (by simp)
  · split
    · exact Stepped.strict hs (((h1.with_stack _).pushed _ _).with_state .RValue)
        (by simp) (by simp)
    · split
      · split
        · exact Stepped.strict hs (((h1.pushed _ _).with_state .RValue).with_stack _)
            (by simp) (by simp)
        · trivial
      · have p1 : (if r.1 = '"' then _ParseString ({ r.2 with CurrentString := [] } : Parser)
            else if isdigit r.1 = true ∨ r.1 = '-' then
              _ParseNumber E { ({ r.2 with CurrentString := [] } : Parser) with
                CurrentString := ({ r.2 with CurrentString := [] } : Parser).CurrentString
                  ++ [r.1] }
            else if r.1 = '\'' then _ParseChar ({ r.2 with CurrentString := [] } : Parser)
            else _ParseOther E
              ({ ({ r.2 with CurrentString := [] } : Parser) with
                CurrentString := ({ r.2 with CurrentString := [] } : Parser).CurrentString
                  ++ [r.1] } : Parser)._Backtrack).Holds true
            (fun q => Cursor s.CurrentTokenIndex s q ∧
              (q.CurrentString = [] ∨ s.CurrentTokenIndex + 1 ≤ q.CurrentTokenIndex)) := by
          split
          · exact (parseString_cursor _ s _ h1).imp fun q hq =>
              ⟨hq.1.lower (Nat.le_succ _), Or.inl hq.2⟩
          · split
            · exact (parseNumber_cursor E _ s _ (h1.with_string _)).imp fun q hq =>
                ⟨hq.1.lower (Nat.le_succ _), Or.inl hq.2⟩
            · split
              · exact (parseChar_cursor _ s _ h1).imp fun q hq =>
                  ⟨hq.1.lower (Nat.le_succ _), Or.inr hq.1.2.1⟩
              · exact parseOther_cursor E _ s _ (h1.with_string _).backtrack hs
        refine p1.chain fun q hq => ?_
        simp only [Res.Holds_ok]
        rcases hq.2 with h | h
        · refine Stepped.ranked (hq.1.with_state .Default) (by simp) (by simp) (by simp) ?_
          simp [h, hst, rank]
        · exact Stepped.strict hs (Cursor.with_state ⟨hq.1.1, h, hq.1.2.2⟩ .Default)
            (by simp) (by simp)

theorem defaultRest_stepped (E : Env) (s : Parser)
    (hs : s.CurrentTokenIndex < s.Buffer.length) (hst : s.CurrentState = .Default)
    (c : Char) (a : Parser)
    (hc : Cursor (s.CurrentTokenIndex + 1) s a) (ha : a.CurrentState = .Default)
    (hb : c = '[' → a.CurrentString = []) :
    (_DefaultState.rest E c a).Holds true (Stepped s) := by
  unfold _DefaultState.rest
  split
  · refine Stepped.strict hs (Cursor.branch _ (((hc.with_state _).with_string _).pushed _ _)
      ((hc.with_state _).with_string _)) ?_ ?_
    · split <;> simp
    · split <;> simp
  · have h1 : Cursor (s.CurrentTokenIndex + 1) s
        (if (E.OperatorMap (Str c)).isSome = true
          then { a with CurrentState := .Operator, CurrentString := [] } else a) :=
      Cursor.branch _ hc hc
    have h2 : (if (E.OperatorMap (Str c)).isSome = true
          then ({ a with CurrentState := .Operator, CurrentString := [] } : Parser)
          else a).CurrentState ≠ .ArrowState ∧
        (if (E.OperatorMap (Str c)).isSome = true
          then ({ a with CurrentState := .Operator, CurrentString := [] } : Parser)
          else a).CurrentState ≠ .FunctionTypeState ∧
        (if (E.OperatorMap (Str c)).isSome = true
          then ({ a with CurrentState := .Operator, CurrentString := [] } : Parser)
          else a).CurrentState ≠ .IndexOperator := by
      split <;> simp [ha]
    have h3 : c = '[' → (if (E.OperatorMap (Str c)).isSome = true
          then ({ a with CurrentState := .Operator, CurrentString := [] } : Parser)
          else a).CurrentString = [] := by
      intro h
      split
      · rfl
      · exact hb h
    generalize (if (E.OperatorMap (Str c)).isSome = true
          then ({ a with CurrentState := .Operator, CurrentString := [] } : Parser)
          else a) = b at h1 h2 h3
    simp only []
    by_cases hbr : c = '['
    · have hp : c ≠ ')' := by
        rw [hbr]
        decide
      simp only [hbr, if_true, (by decide : ('[' : Char) ≠ ')'), if_false]
      refine Stepped.ranked ((((h1.with_state .IndexOperator).pushed _ _).pushed _ _).backtrack)
        (by simp) (by simp) ⟨by simp, fun _ => h3 hbr⟩ ?_
      simp [h3 hbr, hst, rank]
    · simp only [hbr, if_false]
      split
      · split
        · exact Stepped.strict hs ((h1.with_stack _).pushed _ _) h2.1
            ⟨h2.2.1, fun h => absurd h h2.2.2⟩
        · trivial
      · exact Stepped.strict hs h1 h2.1 ⟨h2.2.1, fun h => absurd h h2.2.2⟩

theorem default_stepped (E : Env) (hE : E.CursorOK) (s : Parser)
    (hs : s.CurrentTokenIndex < s.Buffer.length) (hst : s.CurrentState = .Default) :
    (_DefaultState E s).Holds true (Stepped s) := by
  unfold _DefaultState
  have h0 := (Cursor.start s (Nat.le_of_lt hs)).read hs
  try simp only []
  split
  · split
    · have p1 : (if s._GetNextChar.2.CurrentString ≠ [] then
            if E.IsValidNumber s._GetNextChar.2.CurrentString = true then Res.halt
            else Res.ok (s._GetNextChar.2._PushToken .VariableReference
              s._GetNextChar.2.CurrentString)
          else Res.ok s._GetNextChar.2).Holds true
            (fun q => Cursor (s.CurrentTokenIndex + 1) s q ∧
              q.CurrentString = s.CurrentString) := by
        split
        · split
          · trivial
          · exact ⟨h0.pushed _ _, by simp⟩
        · exact ⟨h0, by simp⟩
      refine p1.chain fun q hq => ?_
      refine Stepped.ranked ((((hq.1.pushed _ _).with_state .FunctionParamaters).backtrack).pushed _ _)
        (by simp) (by simp) (by simp) ?_
      simp [hq.2, hst, rank]
    · refine Stepped.strict hs ((h0.with_stack _).pushed _ _) ?_ ?_
      · simp [hst]
      · simp [hst]
  · rename_i hparen
    have p1 : (if s._GetNextChar.1 = '"' then
          if s._GetNextChar.2.CurrentString = [] then _ParseString s._GetNextChar.2
          else Res.halt
        else Res.ok s._GetNextChar.2).Holds true
          (fun q => Cursor (s.CurrentTokenIndex + 1) s q ∧
            q.CurrentString = s.CurrentString ∧ q.CurrentState = .Default) := by
      split
      · split
        · rename_i he
          exact ((parseString_cursor _ s _ h0).and_sat (parseString_neutral _)).imp fun q hq =>
            ⟨hq.1.1, by rw [hq.1.2]; simpa using he.symm, by simpa [hst] using hq.2.2⟩
        · trivial
      · exact ⟨h0, by simp, by simp [hst]⟩
    refine p1.chain fun q hq => ?_
    have p2 : (if s._GetNextChar.1 = '\'' then
          if q.CurrentString = [] then _ParseChar q else Res.halt
        else Res.ok q).Holds true
          (fun q => Cursor (s.CurrentTokenIndex + 1) s q ∧
            q.CurrentString = s.CurrentString ∧ q.CurrentState = .Default) := by
      split
      · split
        · exact ((parseChar_cursor _ s _ hq.1).and_sat (parseChar_neutral _)).imp fun q2 hq2 =>
            ⟨hq2.1.1, hq2.1.2.trans hq.2.1, hq2.2.2.trans hq.2.2⟩
        · trivial
      · exact hq
    refine p2.chain fun q2 hq2 => ?_
    split
    · exact ((parseNumber_cursor E _ s _ (hq2.1.with_string _)).and_sat
        (parseNumber_neutral E _)).imp fun q3 hq3 =>
          Stepped.strict hs hq3.1.1 (by rw [hq3.2.2]; simp [hq2.2.2])
            (by rw [hq3.2.2]; simp [hq2.2.2])
    · have h3 : Cursor (s.CurrentTokenIndex + 1) s
          (if E.IsVarNameChar s._GetNextChar.1 = true
            then { q2 with CurrentString := q2.CurrentString ++ [s._GetNextChar.1] }
            else q2) := Cursor.branch _ (hq2.1.with_string _) hq2.1
      have h4 : (if E.IsVarNameChar s._GetNextChar.1 = true
            then ({ q2 with CurrentString := q2.CurrentString ++ [s._GetNextChar.1] } : Parser)
            else q2).CurrentState = .Default := by
        split
        · exact hq2.2.2
        · exact hq2.2.2
      have h5 : E.IsVarNameChar s._GetNextChar.1 = false →
          (if E.IsVarNameChar s._GetNextChar.1 = true
            then ({ q2 with CurrentString := q2.CurrentString ++ [s._GetNextChar.1] } : Parser)
            else q2).CurrentString = s.CurrentString := by
        intro h
        simp [h, hq2.2.1]
      generalize (if E.IsVarNameChar s._GetNextChar.1 = true
            then ({ q2 with CurrentString := q2.CurrentString ++ [s._GetNextChar.1] } : Parser)
            else q2) = b at h3 h4 h5
      try simp only []
      split
      · rename_i hcond
        split
        · have hne : s.CurrentString ≠ [] := by
            rw [← h5 hcond.2]
            exact hcond.1
          rcases hkw : E.KeyWordMap b.CurrentString with _ | value
          · simp only [hkw]
            refine Stepped.ranked (Cursor.branch _ (Cursor.backtrack h3) (h3.lower (Nat.le_succ _)))
              (by split <;> simp) (by split <;> simp) (by split <;> simp) ?_
            simp only [ite_CurrentString, backtrack_CurrentString, ite_self, if_true,
              ite_CurrentState, backtrack_CurrentState, if_neg hne, hst, rank]
            omega
          · simp only [hkw]
            have hk := hE.keyword_next _ _ hkw
            have hX : Cursor (s.CurrentTokenIndex + 1) s
                ({ (if value.TokenToPush ≠ .None
                    then ({ b with CurrentState := value.NextState } : Parser)._PushToken
                      value.TokenToPush b.CurrentString
                    else { b with CurrentState := value.NextState }) with
                  CurrentString := [] } : Parser) := by
              refine Cursor.with_string (Cursor.branch _ ?_ ?_) _
              · exact h3
              · exact h3
            refine Stepped.ranked (Cursor.branch _ (Cursor.backtrack hX) (hX.lower (Nat.le_succ _)))
              ?_ ?_ ?_ ?_
            · simp only [ite_CurrentState, backtrack_CurrentState, push_CurrentState, ite_self]
              exact hk.1
            · simp only [ite_CurrentState, backtrack_CurrentState, push_CurrentState, ite_self]
              exact hk.2.1
            · refine ⟨?_, fun _ => ?_⟩
              · simp only [ite_CurrentState, backtrack_CurrentState, push_CurrentState,
                  ite_self]
                exact hk.2.2
              · simp only [ite_CurrentString, backtrack_CurrentString, ite_self]
            · have r1 : rank value.NextState ≤ 4 := by cases value.NextState <;> simp [rank]
              have r2 : rank ParserState.Default = 1 := rfl
              simp only [ite_CurrentString, backtrack_CurrentString, ite_self, if_true,
                ite_CurrentState, backtrack_CurrentState, push_CurrentState, if_neg hne, hst,
                r2]
              omega
        · exact defaultRest_stepped E s hs hst _ _ ((h3.pushed _ _).with_string _) h4 (fun _ => rfl)
      · rename_i hcond
        refine defaultRest_stepped E s hs hst _ _ h3 h4 ?_
        intro hb
        by_cases h6 : b.CurrentString = []
        · exact h6
        · have h7 : E.IsVarNameChar s._GetNextChar.1 = false := by
            rw [hb]
            exact hE.name_bracket
          exact absurd ⟨h6, h7⟩ hcond

/-! ## The Operator state and the cursor -/

theorem getNext_value (s : Parser) (h : s.CurrentTokenIndex < s.Buffer.length) :
    s._GetNextChar.1 = s.Buffer.getD s.CurrentTokenIndex NUL := by
  unfold _GetNextChar
  rw [if_pos h]

theorem op_ne_NUL (E : Env) (hE : E.CursorOK) (c : Char)
    (h : (E.OperatorMap (Str c)).isSome = true) : c ≠ NUL := by
  rintro rfl
  have := hE.op_NUL
  unfold Str at h
  rw [this] at h
  simp at h

theorem operatorLoop_cursor (E : Env) (hE : E.CursorOK) (s : Parser) (j : Nat) (n : Nat) :
    ∀ (c : Char) (h : List Char) (a : Parser), FuelFor n c a → Cursor (j + h.length) s a →
      1 ≤ h.length →
      (_OperatorState.loop E n c h a).Holds true (fun r =>
        Cursor (j + r.1.length) s r.2 ∧ OnlyCursor a r.2 ∧ 1 ≤ r.1.length) := by
  induction n with
  | zero => exact fun _ _ _ hf _ _ => absurd hf FuelFor.zero
  | succ n ih =>
    intro c h a hf hc hh
    unfold _OperatorState.loop
    split
    · rename_i hop
      have hn := op_ne_NUL E hE c hop
      simp only []
      split
      · exact ⟨hc.advance, OnlyCursor.getNext a, hh⟩
      · rename_i hop2
        have hn2 : a._GetNextChar.1 ≠ NUL :=
          op_ne_NUL E hE _ (by simpa only [Bool.not_eq_false] using hop2)
        have h1 := hc.read_ne hn2
        refine (ih _ (h ++ [a._GetNextChar.1]) _ (hf.next hn) ?_ (by simp)).imp
          fun r hr => ⟨hr.1, (OnlyCursor.getNext a).cursor_trans hr.2.1, hr.2.2⟩
        simp only [List.length_append, List.length_singleton]
        exact ⟨h1.1, by have := h1.2.1; omega, h1.2.2⟩
    · exact ⟨hc, OnlyCursor.cursor_refl a, hh⟩

theorem operatorLoop_last (E : Env) (s : Parser) (hlast : LastOK E s)
    (j : Nat) (n : Nat) :
    ∀ (c : Char) (h : List Char) (a : Parser), Cursor (j + h.length) s a →
      1 ≤ a.CurrentTokenIndex → a.Buffer.getD (a.CurrentTokenIndex - 1) NUL = c →
      (_OperatorState.loop E n c h a).Sat (fun r =>
        ((E.OperatorMap (Str c)).isSome = false ∧ r.1 = h) ∨
          j + r.1.length + 1 ≤ r.2.CurrentTokenIndex) := by
  induction n with
  | zero => exact fun _ _ _ _ _ _ => trivial
  | succ n ih =>
    intro c h a hc h1 hv
    unfold _OperatorState.loop
    split
    · rename_i hop
      have hlt : a.CurrentTokenIndex < a.Buffer.length := by
        by_contra hge
        have e : a.CurrentTokenIndex = a.Buffer.length := by
          have := hc.2.2
          rw [← hc.1] at this
          omega
        have hl : s.Buffer.getLast? = some c := by
          rw [← hc.1, List.getLast?_eq_getElem?, ← e, ← hv]
          simp only [List.getD_eq_getElem?_getD]
          rw [List.getElem?_eq_getElem (by omega)]
          rfl
        have := hlast c hl
        rw [this] at hop
        simp at hop
      have e1 := getNext_index_lt a hlt
      simp only []
      split
      · simp only [Res.Sat_ok]
        right
        rw [e1]
        have := hc.2.1
        omega
      · rename_i hop2
        refine (ih _ (h ++ [a._GetNextChar.1]) _ ?_ (by rw [e1]; omega) ?_).mono fun r hr => ?_
        · refine ⟨hc.advance.1, ?_, hc.advance.2.2⟩
          rw [e1]
          simp only [List.length_append, List.length_singleton]
          have := hc.2.1
          omega
        · rw [e1, getNext_Buffer, getNext_value a hlt]
          rfl
        · rcases hr with hr | hr
          · exact absurd hr.1 hop2
          · exact Or.inr hr
    · rename_i hop
      simp only [Res.Sat_ok]
      left
      exact ⟨by simpa using hop, trivial⟩

theorem operator_result (E : Env) (hE : E.CursorOK) (s : Parser) (j : Nat)
    (hj : s.CurrentTokenIndex = j + 1) (hs : s.CurrentTokenIndex ≤ s.Buffer.length) :
    (_OperatorState E s).Holds true (fun r => ∃ key value, E.OperatorMap key = some value ∧
      1 ≤ key.length ∧ r.CurrentState = value.NextState ∧
      r.CurrentString = s.CurrentString ∧ Cursor j s r ∧
      (LastOK E s → j + key.length ≤ r.CurrentTokenIndex)) := by
  unfold _OperatorState
  have h0 : Cursor (j + 1) s s := ⟨rfl, by omega, hs⟩
  have h2 : Cursor (j + 1) s s._Backtrack._GetNextChar.2 := h0.reread
  have e1 : s._Backtrack.CurrentTokenIndex = j := by
    simp only [_Backtrack, subSizeT_le _ _ (show 1 ≤ s.CurrentTokenIndex by omega)]
    omega
  have hlt : s._Backtrack.CurrentTokenIndex < s._Backtrack.Buffer.length := by
    rw [e1]
    simp only [backtrack_Buffer]
    omega
  have e2 : s._Backtrack._GetNextChar.2.CurrentTokenIndex = j + 1 := by
    rw [getNext_index_lt _ hlt, e1]
  have hv : s._Backtrack._GetNextChar.2.Buffer.getD
      (s._Backtrack._GetNextChar.2.CurrentTokenIndex - 1) NUL = s._Backtrack._GetNextChar.1 := by
    rw [e2, getNext_Buffer, getNext_value _ hlt, e1]
    rfl
  have hcs : s._Backtrack._GetNextChar.2.CurrentString = s.CurrentString := by simp
  have hhd : (Str s._Backtrack._GetNextChar.1).headD NUL = s._Backtrack._GetNextChar.1 := rfl
  simp only [hhd]
  have l1 := operatorLoop_cursor E hE s j _ s._Backtrack._GetNextChar.1
    (Str s._Backtrack._GetNextChar.1) s._Backtrack._GetNextChar.2
    (FuelFor.init _ s._Backtrack._GetNextChar.2 _ rfl) h2 (by simp [Str])
  have l2 : LastOK E s → (_OperatorState.loop E s._Backtrack._GetNextChar.2.loopFuel
      s._Backtrack._GetNextChar.1 (Str s._Backtrack._GetNextChar.1)
      s._Backtrack._GetNextChar.2).Sat (fun r =>
        ((E.OperatorMap (Str s._Backtrack._GetNextChar.1)).isSome = false ∧
            r.1 = Str s._Backtrack._GetNextChar.1) ∨
          j + r.1.length + 1 ≤ r.2.CurrentTokenIndex) := fun hl =>
    operatorLoop_last E s hl j _ _ _ _ h2 (by omega) hv
  generalize s._Backtrack._GetNextChar.1 = c0 at *
  generalize s._Backtrack._GetNextChar.2 = s2 at *
  generalize _OperatorState.loop E s2.loopFuel c0 (Str c0) s2 = x at *
  cases x with
  | halt => trivial
  | outOfFuel => exact l1
  | ok r =>
    simp only [Res.bind_ok]
    obtain ⟨r1, r2, r3⟩ := l1
    have hr4 : r.2.CurrentString = s.CurrentString := r2.fields.2.2.2.2.1.trans hcs
    have g1 := r1.2.1
    have g2 := r1.2.2
    have hb : Cursor (j + r.1.length - 1) s r.2._Backtrack :=
      Cursor.backtrack ⟨r1.1, by omega, g2⟩
    have eb : r.2._Backtrack.CurrentTokenIndex = r.2.CurrentTokenIndex - 1 := by
      simp only [_Backtrack, subSizeT_le _ _ (show 1 ≤ r.2.CurrentTokenIndex by omega)]
    rcases hk1 : E.OperatorMap r.1 with _ | value
    · simp only [hk1]
      rcases hk2 : E.OperatorMap (Str c0) with _ | value
      · simp only [hk2]
        trivial
      · simp only [hk2, Res.bind_ok, Res.Holds_ok]
        have e4 : subSizeT r.2._Backtrack.CurrentTokenIndex (r.1.length - 1)
            = r.2.CurrentTokenIndex - r.1.length := by
          rw [subSizeT_le _ _ (by rw [eb]; omega), eb]
          omega
        have hX : ∀ lo, lo + r.1.length ≤ r.2.CurrentTokenIndex → Cursor lo s
            { r.2._Backtrack with
              CurrentTokenIndex :=
                subSizeT r.2._Backtrack.CurrentTokenIndex (r.1.length - 1) } := by
          intro lo hlo
          exact ⟨r1.1, by simp only [e4]; omega, by simp only [e4]; omega⟩
        refine ⟨Str c0, value, hk2, by simp [Str], ?_, ?_, ?_, ?_⟩
        · simp
        · simp only [ite_CurrentString, push_CurrentString, ite_self]
          exact hr4
        · exact Cursor.with_state (Cursor.branch _ (Cursor.pushed (hX j g1) _ _) (hX j g1)) _
        · intro hl
          have l3 := l2 hl
          simp only [Res.Sat_ok] at l3
          rcases l3 with l3 | l3
          · rw [hk2] at l3
            simp at l3
          · have l4 : j + 1 + r.1.length ≤ r.2.CurrentTokenIndex := by omega
            exact (Cursor.with_state (Cursor.branch _ (Cursor.pushed (hX (j + 1) l4) _ _)
              (hX (j + 1) l4)) _).2.1
    · simp only [hk1, Res.bind_ok, Res.Holds_ok]
      refine ⟨r.1, value, hk1, r3, ?_, ?_, ?_, ?_⟩
      · simp
      · simp only [ite_CurrentString, push_CurrentString, ite_self]
        exact hr4
      · exact Cursor.with_state (Cursor.branch _ (Cursor.pushed (hb.lower (by omega)) _ _)
          (hb.lower (by omega))) _
      · intro hl
        have l3 := l2 hl
        simp only [Res.Sat_ok] at l3
        rcases l3 with l3 | l3
        · rw [l3.2] at hk1
          rw [hk1] at l3
          simp at l3
        · have hb2 : Cursor (j + r.1.length) s r.2._Backtrack :=
            Cursor.backtrack ⟨r1.1, l3, g2⟩
          exact (Cursor.with_state (Cursor.branch _ (Cursor.pushed hb2 _ _) hb2) _).2.1

theorem operator_cursor (E : Env) (hE : E.CursorOK) (s : Parser)
    (hs : s.CurrentTokenIndex ≤ s.Buffer.length) (h1 : 1 ≤ s.CurrentTokenIndex) :
    (_OperatorState E s).Holds true (fun r => r.Buffer = s.Buffer ∧ CursorInv r) := by
  refine (operator_result E hE s (s.CurrentTokenIndex - 1) (by omega) hs).imp fun r hr => ?_
  obtain ⟨key, value, hk, _, hst, _, hc, _⟩ := hr
  refine ⟨hc.1, by rw [hc.1]; exact hc.2.2, fun h => ?_⟩
  rw [hst] at h
  exact absurd h (hE.operator_next key value hk).1

theorem rank_lt_of_ne (x : ParserState) (h : x ≠ .Operator) : rank x < 4 := by
  cases x <;> simp [rank] at h ⊢

theorem operator_stepped (E : Env) (hE : E.CursorOK) (s : Parser)
    (hs : s.CurrentTokenIndex < s.Buffer.length) (h1 : 1 ≤ s.CurrentTokenIndex)
    (hst : s.CurrentState = .Operator) (hlast : LastOK E s) :
    (_OperatorState E s).Holds true (Stepped s) := by
  refine (operator_result E hE s (s.CurrentTokenIndex - 1) (by omega)
    (Nat.le_of_lt hs)).imp fun r hr => ?_
  obtain ⟨key, value, hk, hlen, hst2, hcs, hc, hl⟩ := hr
  have hn := hE.operator_next key value hk
  have hi := hl hlast
  have hhi := hc.2.2
  refine ⟨hc.1, ⟨by rw [hc.1]; exact hhi, fun h => ?_⟩, ?_, ?_, ?_⟩
  · rw [hst2] at h
    exact absurd h hn.1
  · rintro (h | h)
    · rw [hst2] at h
      have := hn.2.2.2 h
      omega
    · rw [hst2] at h
      exact absurd h hn.2.1
  · intro h
    rw [hst2] at h
    exact absurd h hn.2.2.1
  · have r1 := rank_lt_of_ne value.NextState hn.1
    unfold weight restLen
    rw [hc.1, hcs, hst2, hst]
    have r2 : rank ParserState.Operator = 4 := rfl
    rw [r2]
    omega

/-! ## The handlers that start sub-lexers move on -/

theorem Res.holds_false {α : Type} (x : Res α) : x.Holds false (fun _ => True) := by
  cases x <;> simp [Res.Holds]

theorem FuelFor.of_rest {n : Nat} {c : Char} {a b : Parser} (h : FuelFor n c a)
    (e : restLen b = restLen a) : FuelFor n c b := by
  unfold FuelFor at h ⊢
  rw [e]
  exact h

theorem subLex_ends (t : Bool) (run : Parser → Res Parser) (len : Nat)
    (hrun : SubEnds t run len) (text : List Char) (h : text.length + 1 < len) :
    (subLex run text).Holds t (fun _ => True) := by
  unfold subLex
  exact (hrun text h).chain fun _ _ => trivial

theorem pushCallArgs_cursor (t : Bool) (run : Parser → Res Parser) :
    ∀ (args : List (List Char)) (a : Parser),
      (∀ x ∈ args, (subLex run x).Holds t (fun _ => True)) →
      (pushCallArgs run args a).Holds t (fun r => r.Buffer = a.Buffer ∧
        r.CurrentTokenIndex = a.CurrentTokenIndex ∧ r.CurrentState = a.CurrentState) := by
  intro args
  induction args with
  | nil =>
    intro a _
    exact ⟨rfl, rfl, rfl⟩
  | cons x rest ih =>
    intro a h
    unfold pushCallArgs
    refine (h x (by simp)).chain fun toks _ => ?_
    exact (ih _ (fun y hy => h y (by simp [hy]))).imp fun r hr => hr

theorem pushDeclArgs_cursor (t : Bool) (run : Parser → Res Parser) :
    ∀ (args : List (List Char)) (a : Parser),
      (∀ x ∈ args, (subLex run x).Holds t (fun _ => True)) →
      (pushDeclArgs run args a).Holds t (fun r => r.Buffer = a.Buffer ∧
        r.CurrentTokenIndex = a.CurrentTokenIndex ∧ r.CurrentState = a.CurrentState) := by
  intro args
  induction args with
  | nil =>
    intro a _
    exact ⟨rfl, rfl, rfl⟩
  | cons x rest ih =>
    intro a h
    unfold pushDeclArgs
    refine (h x (by simp)).chain fun toks _ => ?_
    exact (ih _ (fun y hy => h y (by simp [hy]))).imp fun r hr => hr

theorem callLoop_cursor (s : Parser) (q : Nat) (n : Nat) :
    ∀ l : ArgLocals, FuelFor n l.current l.s → ArgsInv q s l →
      (l.detectedEnd = true → l.opens = 0) →
      (_FunctionParamaterState.loop n l).Holds true (fun r => ArgsInv q s r) := by
  induction n with
  | zero => exact fun _ hf _ _ => absurd hf FuelFor.zero
  | succ n ih =>
    intro l hf hi ho
    rw [_FunctionParamaterState.loop]
    refine Res.Holds.cond _ (fun hcond => ?_) (fun _ => hi)
    obtain ⟨i1, i2, i3, i4⟩ := hi
    have hd : l.detectedEnd = false := by
      cases hde : l.detectedEnd
      · rfl
      · exact absurd (ho hde) hcond.1
    have i3 := i3 hcond.2
    have hq := i1.2.1
    have g1 := getNext_index_le l.s
    have g2 : l.s._GetNextChar.1 ≠ NUL →
        l.s._GetNextChar.2.CurrentTokenIndex = l.s.CurrentTokenIndex + 1 :=
      fun h => (getNext_index_of_ne_NUL l.s h).1
    have hf2 := hf.next hcond.2
    have c0 := i1.advance
    have ecs : l.s._GetNextChar.2.CurrentString = l.s.CurrentString := getNext_CurrentString _
    simp only []
    generalize l.s._GetNextChar.1 = c at *
    generalize l.s._GetNextChar.2 = s1 at *
    generalize (if c = ')' then (if c = '(' then l.opens + 1 else l.opens) - 1
      else if c = '(' then l.opens + 1 else l.opens) = o
    have el : s1.CurrentString.length = l.s.CurrentString.length := by rw [ecs]
    refine Res.Holds.cond _ (fun hdel => ?_) (fun hdel => ?_)
    · have hde : (if c = ')' then true else l.detectedEnd) = true →
          c = ')' ∧ o = 0 ∧ q + 1 ≤ s1.CurrentTokenIndex := by
        intro h
        by_cases hp : c = ')'
        · have hn : c ≠ NUL := by
            rw [hp]
            decide
          have := g2 hn
          refine ⟨hp, ?_, by omega⟩
          rcases hdel with h1 | h1 | h1
          · exact h1.2
          · rw [hp] at h1
            exact absurd h1.1 (by decide)
          · exact absurd h1 hn
        · rw [if_neg hp, hd] at h
          exact absurd h (by decide)
      refine Res.Holds.cond _ (fun hcs => ?_) (fun hcs => Res.Holds.cond _ (fun _ => trivial)
        (fun _ => ?_))
      · refine ih _ hf2 ⟨c0.with_string _, by simp only [List.length_nil]; omega, ?_,
          fun h => ⟨(hde h).1, (hde h).2.2⟩⟩ (fun h => (hde h).2.1)
        intro hn a ha
        have := g2 hn
        simp only [List.mem_append, List.mem_singleton] at ha
        rcases ha with ha | ha
        · have := i3 a ha
          simp only []
          omega
        · rw [ha]
          simp only []
          omega
      · refine ih _ hf2 ⟨c0.with_string _, by simp only [List.length_nil]; omega, ?_,
          fun h => ⟨(hde h).1, (hde h).2.2⟩⟩ (fun h => (hde h).2.1)
        intro hn a ha
        have := g2 hn
        have := i3 a ha
        simp only []
        omega
    · have hn : c ≠ NUL := fun h => hdel (Or.inr (Or.inr h))
      have g3 := g2 hn
      have c1 : Cursor q s (if (!decide (isspace c = true ∧ s1.CurrentString = [])) = true
          then { s1 with CurrentString := s1.CurrentString ++ [c] } else s1) :=
        Cursor.branch _ (c0.with_string _) c0
      have c2 : (if (!decide (isspace c = true ∧ s1.CurrentString = [])) = true
          then ({ s1 with CurrentString := s1.CurrentString ++ [c] } : Parser)
          else s1).CurrentTokenIndex = s1.CurrentTokenIndex := by
        split <;> rfl
      have c3 : (if (!decide (isspace c = true ∧ s1.CurrentString = [])) = true
          then ({ s1 with CurrentString := s1.CurrentString ++ [c] } : Parser)
          else s1).CurrentString.length ≤ s1.CurrentString.length + 1 := by
        split <;> simp
      generalize (if (!decide (isspace c = true ∧ s1.CurrentString = [])) = true
          then ({ s1 with CurrentString := s1.CurrentString ++ [c] } : Parser)
          else s1) = s2 at c1 c2 c3
      refine ih _ (hf2.of_rest ?_) ⟨c1, ?_, ?_, ?_⟩ ?_
      · unfold restLen
        rw [c2, c1.1, c0.1]
      · simp only []
        omega
      · intro _ a ha
        have := i3 a ha
        simp only []
        omega
      · intro h
        rw [hd] at h
        exact absurd h (by decide)
      · intro h
        rw [hd] at h
        exact absurd h (by decide)

theorem declLoop_cursor (E : Env) (s : Parser) (q : Nat) (n : Nat) :
    ∀ l : ArgLocals, FuelFor n l.current l.s → ArgsInv q s l →
      (_FunctionParameterState.loop E n l).Holds true (fun r => ArgsInv q s r) := by
  induction n with
  | zero => exact fun _ hf _ => absurd hf FuelFor.zero
  | succ n ih =>
    intro l hf hi
    rw [_FunctionParameterState.loop]
    refine Res.Holds.cond _ (fun hcond => ?_) (fun _ => hi)
    obtain ⟨i1, i2, i3, i4⟩ := hi
    have hd : l.detectedEnd = false := by
      cases hde : l.detectedEnd
      · rfl
      · exact absurd (i4 hde).1 hcond.1
    have i3 := i3 hcond.2
    have hq := i1.2.1
    have g1 := getNext_index_le l.s
    have g2 : l.s._GetNextChar.1 ≠ NUL →
        l.s._GetNextChar.2.CurrentTokenIndex = l.s.CurrentTokenIndex + 1 :=
      fun h => (getNext_index_of_ne_NUL l.s h).1
    have hf2 := hf.next hcond.2
    have c0 := i1.advance
    have ecs : l.s._GetNextChar.2.CurrentString = l.s.CurrentString := getNext_CurrentString _
    simp only []
    generalize l.s._GetNextChar.1 = c at *
    generalize l.s._GetNextChar.2 = s1 at *
    have el : s1.CurrentString.length = l.s.CurrentString.length := by rw [ecs]
    refine Res.Holds.cond _ (fun hdel => ?_) (fun hdel => ?_)
    · have hde : (if c = ')' then true else l.detectedEnd) = true →
          c = ')' ∧ q + 1 ≤ s1.CurrentTokenIndex := by
        intro h
        by_cases hp : c = ')'
        · have hn : c ≠ NUL := by
            rw [hp]
            decide
          have := g2 hn
          exact ⟨hp, by omega⟩
        · rw [if_neg hp, hd] at h
          exact absurd h (by decide)
      refine ih _ hf2 ⟨c0.with_string _, by simp only [List.length_nil]; omega, ?_, hde⟩
      intro hn a ha
      have := g2 hn
      simp only [] at ha
      by_cases hcs : s1.CurrentString ≠ []
      · rw [if_pos hcs] at ha
        simp only [List.mem_append, List.mem_singleton] at ha
        rcases ha with ha | ha
        · have := i3 a ha
          simp only []
          omega
        · rw [ha]
          simp only []
          omega
      · rw [if_neg hcs] at ha
        have := i3 a ha
        simp only []
        omega
    · have hn : c ≠ NUL := fun h => hdel (Or.inr (Or.inr h))
      have g3 := g2 hn
      have c1 : Cursor q s (if (!decide (E.IsSpace c = true ∧ s1.CurrentString = [])) = true
          then { s1 with CurrentString := s1.CurrentString ++ [c] } else s1) :=
        Cursor.branch _ (c0.with_string _) c0
      have c2 : (if (!decide (E.IsSpace c = true ∧ s1.CurrentString = [])) = true
          then ({ s1 with CurrentString := s1.CurrentString ++ [c] } : Parser)
          else s1).CurrentTokenIndex = s1.CurrentTokenIndex := by
        split <;> rfl
      have c3 : (if (!decide (E.IsSpace c = true ∧ s1.CurrentString = [])) = true
          then ({ s1 with CurrentString := s1.CurrentString ++ [c] } : Parser)
          else s1).CurrentString.length ≤ s1.CurrentString.length + 1 := by
        split <;> simp
      generalize (if (!decide (E.IsSpace c = true ∧ s1.CurrentString = [])) = true
          then ({ s1 with CurrentString := s1.CurrentString ++ [c] } : Parser)
          else s1) = s2 at c1 c2 c3
      refine ih _ (hf2.of_rest ?_) ⟨c1, ?_, ?_, ?_⟩
      · unfold restLen
        rw [c2, c1.1, c0.1]
      · simp only []
        omega
      · intro _ a ha
        have := i3 a ha
        simp only []
        omega
      · intro h
        rw [hd] at h
        exact absurd h (by decide)

theorem indexLoop_cursor (E : Env) (s : Parser) (q k : Nat) (n : Nat) :
    ∀ l : ArgLocals, FuelFor n l.current l.s → Cursor q s l.s →
      (l.current ≠ NUL → l.s.CurrentString.length + q ≤ l.s.CurrentTokenIndex + k) →
      l.detectedEnd = false →
      (_IndexOperatorState.loop E n l).Holds true (fun r => Cursor q s r.s ∧
        (r.detectedEnd = true →
          r.s.CurrentString.length + q + 1 ≤ r.s.CurrentTokenIndex + k)) := by
  induction n with
  | zero => exact fun _ hf _ _ _ => absurd hf FuelFor.zero
  | succ n ih =>
    intro l hf i1 i2 hd
    rw [_IndexOperatorState.loop]
    refine Res.Holds.cond _ (fun hcond => ?_) (fun _ => ⟨i1, fun h => ?_⟩)
    · have i2 := i2 hcond.2
      have hq := i1.2.1
      have g1 := getNext_index_le l.s
      have g2 : l.s._GetNextChar.1 ≠ NUL →
          l.s._GetNextChar.2.CurrentTokenIndex = l.s.CurrentTokenIndex + 1 :=
        fun h => (getNext_index_of_ne_NUL l.s h).1
      have hf2 := hf.next hcond.2
      have c0 := i1.advance
      have ecs : l.s._GetNextChar.2.CurrentString = l.s.CurrentString :=
        getNext_CurrentString _
      simp only []
      generalize l.s._GetNextChar.1 = c at *
      generalize l.s._GetNextChar.2 = s1 at *
      have el : s1.CurrentString.length = l.s.CurrentString.length := by rw [ecs]
      refine Res.Holds.cond _ (fun hdel => ?_) (fun hdel => ?_)
      · refine ⟨c0, fun _ => ?_⟩
        have hn : c ≠ NUL := by
          rw [hdel.2]
          decide
        have := g2 hn
        simp only []
        omega
      · have c1 : Cursor q s (if (!decide (E.IsSpace c = true ∧ s1.CurrentString = [])) = true ∧
              c ≠ '\n'
            then { s1 with CurrentString := s1.CurrentString ++ [c] } else s1) :=
          Cursor.branch _ (c0.with_string _) c0
        have c2 : (if (!decide (E.IsSpace c = true ∧ s1.CurrentString = [])) = true ∧
              c ≠ '\n'
            then ({ s1 with CurrentString := s1.CurrentString ++ [c] } : Parser)
            else s1).CurrentTokenIndex = s1.CurrentTokenIndex := by
          split <;> rfl
        have c3 : (if (!decide (E.IsSpace c = true ∧ s1.CurrentString = [])) = true ∧
              c ≠ '\n'
            then ({ s1 with CurrentString := s1.CurrentString ++ [c] } : Parser)
            else s1).CurrentString.length ≤ s1.CurrentString.length + 1 := by
          split <;> simp
        generalize (if (!decide (E.IsSpace c = true ∧ s1.CurrentString = [])) = true ∧
              c ≠ '\n'
            then ({ s1 with CurrentString := s1.CurrentString ++ [c] } : Parser)
            else s1) = s2 at c1 c2 c3
        refine ih _ (hf2.of_rest ?_) c1 ?_ hd
        · unfold restLen
          rw [c2, c1.1, c0.1]
        · intro hn
          have := g2 hn
          simp only []
          omega
    · rw [hd] at h
      exact absurd h (by decide)

theorem functionTypeLoop_cursor (s : Parser) (q : Nat) (n : Nat) :
    ∀ (c : Char) (a : Parser), FuelFor n c a → Cursor q s a →
      a.CurrentString.length + (if c = NUL then 0 else 1) + q ≤ a.CurrentTokenIndex + 1 →
      (_FunctionTypeState.loop n c a).Holds true (fun r => Cursor q s r.2 ∧
        r.2.CurrentString.length + q ≤ r.2.CurrentTokenIndex + 1) := by
  induction n with
  | zero => exact fun _ _ hf _ _ => absurd hf FuelFor.zero
  | succ n ih =>
    intro c a hf hc hi
    rw [_FunctionTypeState.loop]
    refine Res.Holds.cond _ (fun hcond => ?_) (fun _ => ⟨hc, ?_⟩)
    swap
    · simp only []
      split at hi <;> omega
    have hn : c ≠ NUL := hcond.2.1
    rw [if_neg hn] at hi
    refine ih _ _ ((hf.fuel_string _).next hn) (hc.with_string _).advance ?_
    have g1 := getNext_index_le ({ a with CurrentString := a.CurrentString ++ [c] } : Parser)
    have g2 : ({ a with CurrentString := a.CurrentString ++ [c] } : Parser)._GetNextChar.1
        ≠ NUL → ({ a with CurrentString := a.CurrentString ++ [c] } :
          Parser)._GetNextChar.2.CurrentTokenIndex = a.CurrentTokenIndex + 1 :=
      fun h => (getNext_index_of_ne_NUL _ h).1
    simp only [getNext_CurrentString, List.length_append, List.length_singleton]
    simp only [] at g1
    split
    · omega
    · rename_i h
      have := g2 h
      omega

theorem functionParamater_stepped (t : Bool) (E : Env) (hE : E.CursorOK)
    (run : Parser → Res Parser) (s : Parser) (hs : s.CurrentTokenIndex < s.Buffer.length)
    (hrun : SubEnds t run s.Buffer.length) :
    (_FunctionParamaterState E run s).Holds t (Stepped s) := by
  unfold _FunctionParamaterState
  have h0 := (Cursor.start s (Nat.le_of_lt hs)).read hs
  refine ((skipSpaces_cursor E hE _ s _ h0).any t).chain fun r hr => ?_
  try simp only []
  refine Res.Holds.cond _ (fun _ => trivial) (fun _ => ?_)
  refine ((callLoop_cursor s (s.CurrentTokenIndex + 1) _ _ (FuelFor.init _ _ _ (by simp))
    ⟨hr.1.with_string [], by simp only [List.length_nil]; have := hr.1.2.1; omega,
      fun _ a ha => by simp at ha, fun h => by simp at h⟩
    (fun h => by simp at h)).any t).chain fun l hl => ?_
  refine Res.Holds.cond _ (fun _ => trivial) (fun hde => ?_)
  have hd : l.detectedEnd = true := by
    cases h : l.detectedEnd
    · exact absurd h hde
    · rfl
  obtain ⟨i1, i2, i3, i4⟩ := hl
  have hcur := (i4 hd).1
  have hidx := (i4 hd).2
  have hargs := i3 (by rw [hcur]; decide)
  have hhi := i1.2.2
  refine (pushCallArgs_cursor t run l.argList _ (fun x hx =>
    subLex_ends t run _ hrun x (by have := hargs x hx; omega))).chain fun r2 hr2 => ?_
  have c2 : Cursor (s.CurrentTokenIndex + 2) s r2 :=
    ⟨hr2.1.trans i1.1, by rw [hr2.2.1]; exact hidx, by rw [hr2.2.1]; exact hhi⟩
  have c3 : Cursor (s.CurrentTokenIndex + 2) s
      ((if r2._GetLastToken.TokenType = .Comma then { r2 with Tokens := r2.Tokens.dropLast }
        else r2)._PushToken .CloseBracket [')'])._GetNextChar.2 :=
    ((Cursor.branch _ (c2.with_tokens _) c2).pushed _ _).advance
  have e3 : ((if r2._GetLastToken.TokenType = .Comma
        then { r2 with Tokens := r2.Tokens.dropLast }
        else r2)._PushToken .CloseBracket [')'])._GetNextChar.2.CurrentState = .Default := by
    simp only [getNext_CurrentState, push_CurrentState, ite_CurrentState, ite_self]
    exact hr2.2.2
  refine ((skipSpaces_cursor E hE _ s _ c3).any t).chain fun r3 hr3 => ?_
  have e4 : r3.2.CurrentState = .Default := hr3.2.fields.2.2.2.1.trans e3
  exact Stepped.strict hs hr3.1.backtrack (by simp [e4]) (by simp [e4])

theorem functionParameter_stepped (t : Bool) (E : Env) (hE : E.CursorOK)
    (run : Parser → Res Parser) (s : Parser) (hs : s.CurrentTokenIndex < s.Buffer.length)
    (hrun : SubEnds t run s.Buffer.length) :
    (_FunctionParameterState E run s).Holds t (Stepped s) := by
  unfold _FunctionParameterState
  have h0 := (Cursor.start s (Nat.le_of_lt hs)).read hs
  refine ((skipSpaces_cursor E hE _ s _ h0).any t).chain fun r hr => ?_
  try simp only []
  refine Res.Holds.cond _ (fun _ => trivial) (fun _ => ?_)
  refine ((declLoop_cursor E s (s.CurrentTokenIndex + 1) _ _ (FuelFor.init _ _ _ (by simp))
    ⟨hr.1.with_string [], by simp only [List.length_nil]; have := hr.1.2.1; omega,
      fun _ a ha => by simp at ha, fun h => by simp at h⟩).any t).chain fun l hl => ?_
  refine Res.Holds.cond _ (fun _ => trivial) (fun hde => ?_)
  have hd : l.detectedEnd = true := by
    cases h : l.detectedEnd
    · exact absurd h hde
    · rfl
  obtain ⟨i1, i2, i3, i4⟩ := hl
  have hcur := (i4 hd).1
  have hidx := (i4 hd).2
  have hargs := i3 (by rw [hcur]; decide)
  have hhi := i1.2.2
  refine (pushDeclArgs_cursor t run l.argList _ (fun x hx =>
    subLex_ends t run _ hrun x (by have := hargs x hx; omega))).chain fun r2 hr2 => ?_
  have c2 : Cursor (s.CurrentTokenIndex + 2) s r2 :=
    ⟨hr2.1.trans i1.1, by rw [hr2.2.1]; exact hidx, by rw [hr2.2.1]; exact hhi⟩
  simp only [hcur, ne_eq, not_true_eq_false, if_false]
  exact Stepped.strict hs (((c2.pushed _ _).with_state .Default).lower (Nat.le_succ _))
    (by simp) (by simp)

theorem functionType_stepped (t : Bool) (E : Env) (hE : E.CursorOK)
    (run : Parser → Res Parser) (s : Parser) (hs : s.CurrentTokenIndex < s.Buffer.length)
    (hst : s.CurrentState = .FunctionTypeState) (hp : t = true → 2 ≤ s.CurrentTokenIndex)
    (hrun : SubEnds t run s.Buffer.length) :
    (_FunctionTypeState E run s).Holds t (Stepped s) := by
  unfold _FunctionTypeState
  have h0 := (Cursor.start s (Nat.le_of_lt hs)).read hs
  refine ((skipSpaces_cursor E hE _ s _ h0).any t).chain fun r hr => ?_
  try simp only []
  refine ((functionTypeLoop_cursor s (s.CurrentTokenIndex + 1) _ _ _
    (FuelFor.init _ _ _ (by simp)) (hr.1.with_string []) (by
      have := hr.1.2.1
      simp only [List.length_nil]
      split <;> omega)).any t).chain fun r2 hr2 => ?_
  have hsub : (subLex run (r2.2._PushToken .FunctionType r2.2.CurrentString).CurrentString).Holds
      t (fun _ => True) := by
    cases t
    · exact Res.holds_false _
    · refine subLex_ends true run _ hrun _ ?_
      have := hp rfl
      have := hr2.1.2.2
      have := hr2.2
      simp only [push_CurrentString]
      omega
  refine hsub.chain fun toks _ => ?_
  refine Stepped.ranked (((((hr2.1.pushed _ _).with_tokens _).backtrack).with_string []).with_state
    .Default) (by simp) (by simp) (by simp) ?_
  simp [hst, rank]

theorem indexOperator_stepped (t : Bool) (E : Env)
    (run : Parser → Res Parser) (s : Parser) (hs : s.CurrentTokenIndex < s.Buffer.length)
    (hcs : t = true → s.CurrentString = [])
    (hrun : SubEnds t run s.Buffer.length) :
    (_IndexOperatorState E run s).Holds t (Stepped s) := by
  unfold _IndexOperatorState
  have h0 := (Cursor.start s (Nat.le_of_lt hs)).read hs
  try simp only []
  refine Res.Holds.cond _ (fun _ => trivial) (fun _ => ?_)
  refine ((indexLoop_cursor E s (s.CurrentTokenIndex + 1) s.CurrentString.length _ _
    (FuelFor.init _ _ _ (by simp)) h0 (fun _ => by
      have := h0.2.1
      simp only [getNext_CurrentString]
      omega) rfl).any t).chain fun l hl => ?_
  refine Res.Holds.cond _ (fun _ => trivial) (fun hde => ?_)
  have hd : l.detectedEnd = true := by
    cases h : l.detectedEnd
    · exact absurd h hde
    · rfl
  have hsub : (subLex run l.s.CurrentString).Holds t (fun _ => True) := by
    cases t
    · exact Res.holds_false _
    · refine subLex_ends true run _ hrun _ ?_
      have := hcs rfl
      have := hl.1.2.2
      have := hl.2 hd
      simp_all
      omega
  refine hsub.chain fun toks _ => ?_
  exact Stepped.strict hs ((((hl.1.with_tokens _).with_string []).with_state .Default).pushed _ _)
    (by simp) (by simp)

/-! ## The run and the cursor -/

theorem SubEnds.trivial (run : Parser → Res Parser) (len : Nat) : SubEnds false run len :=
  fun _ _ => Res.holds_false _

theorem Stepped.inv {s r : Parser} (h : Stepped s r) : RunInv r := ⟨h.2.1, h.2.2.1, h.2.2.2.1⟩

theorem arrow_cursor (s : Parser) (hs : s.CurrentTokenIndex ≤ s.Buffer.length) :
    (_ArrowState s).Sat (fun r => r.Buffer = s.Buffer ∧ CursorInv r) := by
  unfold _ArrowState
  split
  · exact ⟨rfl, hs, by simp⟩
  · exact ⟨rfl, hs, by simp⟩

theorem dispatch_stepped (t : Bool) (E : Env) (hE : E.CursorOK) (run : Parser → Res Parser)
    (s : Parser) (hs : s.CurrentTokenIndex < s.Buffer.length) (hinv : RunInv s)
    (hlast : LastOK E s) (hrun : SubEnds t run s.Buffer.length) :
    (dispatch E run s).Holds t (Stepped s) := by
  unfold dispatch
  obtain ⟨h1, h2, h3⟩ := hinv
  split
  · rename_i hst
    exact (default_stepped E hE s hs hst).any t
  · rename_i hst
    exact (variableName_stepped E hE s hs hst).any t
  · rename_i hst
    exact (rvalue_stepped E hE s hs hst).any t
  · rename_i hst
    exact (operator_stepped E hE s hs (h1.2 hst) hst hlast).any t
  · rename_i hst
    exact (indentation_stepped s hs hst).any t
  · rename_i hst
    exact (functionName_stepped E hE s hs hst).any t
  · exact functionParameter_stepped t E hE run s hs hrun
  · rename_i hst
    exact (arrow_stepped s hs hst (h2 (Or.inl hst))).any t
  · rename_i hst
    exact functionType_stepped t E hE run s hs hst (fun _ => h2 (Or.inr hst)) hrun
  · rename_i hst
    exact (structName_stepped E hE s hs hst).any t
  · exact functionParamater_stepped t E hE run s hs hrun
  · rename_i hst
    exact (comment_stepped s hs hst).any t
  · rename_i hst
    exact (multi_stepped s hs hst).any t
  · rename_i hst
    exact indexOperator_stepped t E run s hs (fun _ => h3 hst) hrun
  · rename_i hst
    exact (asterisks_stepped s hs hst).any t

theorem dispatch_cursor (E : Env) (hE : E.CursorOK) (run : Parser → Res Parser)
    (s : Parser) (hs : s.CurrentTokenIndex < s.Buffer.length) (hinv : CursorInv s) :
    (dispatch E run s).Sat (fun r => r.Buffer = s.Buffer ∧ CursorInv r) := by
  have hw : ∀ x : Res Parser, x.Holds false (Stepped s) →
      x.Sat (fun r => r.Buffer = s.Buffer ∧ CursorInv r) :=
    fun x hx => hx.sat.mono fun r hr => ⟨hr.1, hr.2.1⟩
  have hsub := SubEnds.trivial run s.Buffer.length
  unfold dispatch
  split
  · rename_i hst
    exact hw _ ((default_stepped E hE s hs hst).any false)
  · rename_i hst
    exact hw _ ((variableName_stepped E hE s hs hst).any false)
  · rename_i hst
    exact hw _ ((rvalue_stepped E hE s hs hst).any false)
  · rename_i hst
    exact (operator_cursor E hE s (Nat.le_of_lt hs) (hinv.2 hst)).sat
  · rename_i hst
    exact hw _ ((indentation_stepped s hs hst).any false)
  · rename_i hst
    exact hw _ ((functionName_stepped E hE s hs hst).any false)
  · exact hw _ (functionParameter_stepped false E hE run s hs hsub)
  · exact arrow_cursor s (Nat.le_of_lt hs)
  · rename_i hst
    exact hw _ (functionType_stepped false E hE run s hs hst
      (fun h => absurd h (by decide)) hsub)
  · rename_i hst
    exact hw _ ((structName_stepped E hE s hs hst).any false)
  · exact hw _ (functionParamater_stepped false E hE run s hs hsub)
  · rename_i hst
    exact hw _ ((comment_stepped s hs hst).any false)
  · rename_i hst
    exact hw _ ((multi_stepped s hs hst).any false)
  · exact hw _ (indexOperator_stepped false E run s hs (fun h => absurd h (by decide)) hsub)
  · rename_i hst
    exact hw _ ((asterisks_stepped s hs hst).any false)

theorem turns_cursor (E : Env) (hE : E.CursorOK) (run : Parser → Res Parser) (k : Nat) :
    ∀ s : Parser, CursorInv s →
      (turns (dispatch E run) k s).Sat (fun r => r.Buffer = s.Buffer ∧ CursorInv r) := by
  induction k with
  | zero => exact fun s hs => ⟨rfl, hs⟩
  | succ k ih =>
    intro s hinv
    unfold turns
    split
    · rename_i hs
      refine (dispatch_cursor E hE run s hs hinv).bind fun r hr => ?_
      exact (ih r hr.2).mono fun r2 hr2 => ⟨hr2.1.trans hr.1, hr2.2⟩
    · exact ⟨rfl, hinv⟩

theorem LastOK.of_buffer {E : Env} {s r : Parser} (h : LastOK E s) (e : r.Buffer = s.Buffer) :
    LastOK E r := by
  unfold LastOK at h ⊢
  rw [e]
  exact h

theorem mainLoop_ends (t : Bool) (E : Env) (hE : E.CursorOK) (run : Parser → Res Parser)
    (n : Nat) :
    ∀ s : Parser, weight s < n → RunInv s → LastOK E s → SubEnds t run s.Buffer.length →
      (mainLoop (dispatch E run) n s).Holds t (fun r =>
        r.Buffer = s.Buffer ∧ r.CurrentTokenIndex = r.Buffer.length) := by
  induction n with
  | zero => exact fun s h _ _ _ => absurd h (Nat.not_lt_zero _)
  | succ n ih =>
    intro s hw hinv hlast hrun
    unfold mainLoop
    split
    · rename_i hs
      refine (dispatch_stepped t E hE run s hs hinv hlast hrun).chain fun r hr => ?_
      have hw2 := hr.2.2.2.2
      refine (ih r (by omega) hr.inv (hlast.of_buffer hr.1) (by rw [hr.1]; exact hrun)).imp
        fun r2 hr2 => ⟨hr2.1.trans hr.1, hr2.2⟩
    · rename_i hs
      have := hinv.1.1
      exact ⟨rfl, by omega⟩

theorem weight_le (s : Parser) : weight s ≤ 10 * s.Buffer.length + 9 := by
  unfold weight restLen
  have r1 : rank s.CurrentState ≤ 4 := by cases s.CurrentState <;> simp [rank]
  split <;> omega

theorem sub_start (E : Env) (hE : E.CursorOK) (text : List Char) :
    RunInv { Parser.new.InitParser with Buffer := text ++ [' '] } ∧
      LastOK E { Parser.new.InitParser with Buffer := text ++ [' '] } := by
  refine ⟨⟨⟨Nat.zero_le _, fun h => ?_⟩, fun h => ?_, fun h => ?_⟩, ?_⟩
  · simp [InitParser, Parser.new] at h
  · simp [InitParser, Parser.new] at h
  · simp [InitParser, Parser.new] at h
  · intro c hc
    have e : (text ++ [' ']).getLast? = some ' ' := by simp
    have hc2 : some ' ' = some c := e.symm.trans hc
    cases hc2
    exact hE.op_blank.1

theorem parseProgram_ends (E : Env) (hE : E.CursorOK) (N : Nat) :
    ∀ (s : Parser) (fuel : Nat), s.Buffer.length ≤ N → 10 * N + 12 ≤ fuel → RunInv s →
      LastOK E s →
      (ParseProgram E fuel s).Holds true (fun r =>
        r.Buffer = s.Buffer ∧ r.CurrentTokenIndex = r.Buffer.length) := by
  induction N with
  | zero =>
    intro s fuel hN hf hinv hlast
    obtain ⟨f, rfl⟩ : ∃ f, fuel = f + 1 := ⟨fuel - 1, by omega⟩
    unfold ParseProgram
    have hw := weight_le s
    refine (mainLoop_ends true E hE _ f s (by omega) hinv hlast ?_).chain fun r hr => ?_
    · intro text ht
      omega
    · exact hr
  | succ N ih =>
    intro s fuel hN hf hinv hlast
    obtain ⟨f, rfl⟩ : ∃ f, fuel = f + 1 := ⟨fuel - 1, by omega⟩
    unfold ParseProgram
    have hw := weight_le s
    refine (mainLoop_ends true E hE _ f s (by omega) hinv hlast ?_).chain fun r hr => ?_
    · intro text ht
      have h1 := sub_start E hE text
      exact (ih _ f (by simp; omega) (by omega) h1.1 h1.2).imp fun _ _ => trivial
    · exact hr

theorem specEnv_CursorOK : specEnv.CursorOK := by
  have h1 : ∀ e ∈ specKeyWordTable, e.2.NextState ≠ .Operator ∧ e.2.NextState ≠ .ArrowState ∧
      e.2.NextState ≠ .FunctionTypeState := by decide
  have h2 : ∀ e ∈ specOperatorTable, e.2.NextState ≠ .Operator ∧
      e.2.NextState ≠ .FunctionTypeState ∧ e.2.NextState ≠ .IndexOperator ∧
      (e.2.NextState = .ArrowState → 2 ≤ e.1.length) := by decide
  refine ⟨by decide, by decide, by decide, by decide, ⟨by decide, by decide⟩, ?_, ?_⟩
  · intro key v h
    exact h1 _ (lookup_mem_key key v _ h)
  · intro key v h
    exact h2 _ (lookup_mem_key key v _ h)

theorem mainLoop_turns (step : Parser → Res Parser) (n : Nat) :
    ∀ (s r : Parser), mainLoop step n s = .ok r → turns step n s = .ok r := by
  induction n with
  | zero =>
    intro s r h
    simp [mainLoop] at h
  | succ n ih =>
    intro s r h
    unfold mainLoop at h
    unfold turns
    split at h
    · rename_i hs
      rw [if_pos hs]
      cases hx : step s with
      | ok a =>
        rw [hx] at h
        exact ih a r h
      | halt =>
        rw [hx] at h
        cases h
      | outOfFuel =>
        rw [hx] at h
        cases h
    · rename_i hs
      rw [if_neg hs]
      exact h

/-- C33: when the tables satisfy `CursorOK`, `ParseProgram` started in the
Default state at the start of a buffer that ends with a newline, with fuel of
ten for each character of the buffer and twelve more, does not run out of fuel,
in the loop of handler calls, in the loops inside the handlers and in the
sub-lexers: the run halts or returns, and it returns with the cursor at the end
of the buffer.  Every handler call of the run makes the measure `weight`
smaller, so no cycle of states reads a position again for ever. -/
theorem C33_parse_program_terminates (E : Env) (hE : E.CursorOK) (s : Parser) (fuel : Nat)
    (hlast : s.Buffer.getLast? = some '\n') (hi : s.CurrentTokenIndex = 0)
    (hst : s.CurrentState = .Default) (hf : 10 * s.Buffer.length + 12 ≤ fuel) :
    ParseProgram E fuel s ≠ .outOfFuel ∧
    (∀ r, ParseProgram E fuel s = .ok r → r.CurrentTokenIndex = r.Buffer.length) ∧
    (∀ (a : Parser) (f : Nat), a.Buffer = s.Buffer → RunInv a →
      a.CurrentTokenIndex < a.Buffer.length → 10 * s.Buffer.length + 11 ≤ f →
      dispatch E (ParseProgram E f) a ≠ .outOfFuel ∧
      ∀ r, dispatch E (ParseProgram E f) a = .ok r → RunInv r ∧ weight r < weight a) := by
  have hinv : RunInv s := by
    refine ⟨⟨by omega, fun h => ?_⟩, fun h => ?_, fun h => ?_⟩
    · rw [hst] at h
      cases h
    · rw [hst] at h
      rcases h with h | h <;> cases h
    · rw [hst] at h
      cases h
  have hl : LastOK E s := by
    intro c hc
    have e : some '\n' = some c := hlast.symm.trans hc
    cases e
    exact hE.op_blank.2
  have h := parseProgram_ends E hE s.Buffer.length s fuel (Nat.le_refl _) hf hinv hl
  refine ⟨h.ne_outOfFuel, fun r hr => (h.of_ok r hr).2, ?_⟩
  intro a f hb ha hlt hf2
  have hsub : SubEnds true (ParseProgram E f) a.Buffer.length := by
    intro text ht
    have h1 := sub_start E hE text
    rw [hb] at ht
    exact (parseProgram_ends E hE (s.Buffer.length - 1) _ f (by simp; omega) (by omega)
      h1.1 h1.2).imp fun _ _ => trivial
  have hd := dispatch_stepped true E hE (ParseProgram E f) a hlt ha (hl.of_buffer hb) hsub
  exact ⟨hd.ne_outOfFuel, fun r hr => ⟨(hd.of_ok r hr).inv, (hd.of_ok r hr).2.2.2.2⟩⟩

/-- C34: when the tables satisfy `CursorOK`, on any buffer and with any fuel,
from a parser whose cursor is inside the buffer or at its end (and not at the
start if the state is Operator), after every number of turns of the loop of
`ParseProgram` the buffer is the same and the cursor is not after its end, so no
step back has taken the cursor below zero; the same holds of the parser
`ParseProgram` returns. -/
theorem C34_cursor_within_buffer (E : Env) (hE : E.CursorOK) (fuel : Nat) (s : Parser)
    (hinv : CursorInv s) :
    (∀ (k : Nat) (r : Parser), turns (dispatch E (ParseProgram E fuel)) k s = .ok r →
      r.Buffer = s.Buffer ∧ r.CurrentTokenIndex ≤ r.Buffer.length) ∧
    (∀ r : Parser, ParseProgram E (fuel + 1) s = .ok r →
      r.Buffer = s.Buffer ∧ r.CurrentTokenIndex ≤ r.Buffer.length) := by
  have h1 : ∀ (k : Nat) (r : Parser), turns (dispatch E (ParseProgram E fuel)) k s = .ok r →
      r.Buffer = s.Buffer ∧ r.CurrentTokenIndex ≤ r.Buffer.length := by
    intro k r h
    have h2 := turns_cursor E hE (ParseProgram E fuel) k s hinv
    rw [h] at h2
    exact ⟨h2.1, h2.2.1⟩
  refine ⟨h1, ?_⟩
  intro r h
  unfold ParseProgram at h
  cases hm : mainLoop (dispatch E (ParseProgram E fuel)) fuel s with
  | ok a =>
    rw [hm] at h
    simp only [Res.bind_ok, Res.ok.injEq] at h
    have h3 := h1 fuel a (mainLoop_turns _ _ _ _ hm)
    rw [← h]
    exact h3
  | halt =>
    rw [hm] at h
    cases h
  | outOfFuel =>
    rw [hm] at h
    cases h

/-- C33 at the file `a = 1` with the tables of the specification and fuel 72:
the run does not run out of fuel, it returns the four tokens of the line, and
the cursor is at the end of the buffer. -/
theorem C33_parse_program_terminates_witness :
    specEnv.CursorOK ∧
    (['a', ' ', '=', ' ', '1'] ++ ['\n']).getLast? = some '\n' ∧
    10 * (['a', ' ', '=', ' ', '1'] ++ ['\n']).length + 12 ≤ 72 ∧
    CreateTokensFromFile specEnv 72 ['a', ' ', '=', ' ', '1'] ≠ .outOfFuel ∧
    (CreateTokensFromFile specEnv 72 ['a', ' ', '=', ' ', '1']).tokens
      = some [tk .VariableReference "a", tk .Assign "=", tk .RValueNumber "1",
          tk .EndLine ""] :=
  ⟨specEnv_CursorOK, by decide, by decide,
    (C33_parse_program_terminates specEnv specEnv_CursorOK
      { Parser.new.InitParser with Buffer := ['a', ' ', '=', ' ', '1'] ++ ['\n'] } 72
      (by decide) rfl rfl (by decide)).1,
    by decide!⟩

/-- C34 at the buffer `**`, which has no newline at its end, with the tables of
the specification: after three handler calls the operator rewind has taken the
cursor back to the start of the buffer, and not below it. -/
theorem C34_cursor_within_buffer_witness :
    specEnv.CursorOK ∧
    CursorInv { Parser.new.InitParser with Buffer := ['*', '*'] } ∧
    turns (dispatch specEnv (ParseProgram specEnv 10)) 3
        { Parser.new.InitParser with Buffer := ['*', '*'] }
      = .ok { Parser.new with
              Tokens := [tk .DereferenceOp ""]
              Buffer := ['*', '*']
              CurrentTokenIndex := 0 } ∧
    ({ Parser.new with
       Tokens := [tk .DereferenceOp ""]
       Buffer := ['*', '*']
       CurrentTokenIndex := 0 } : Parser).CurrentTokenIndex ≤ 2 :=
  have h0 : CursorInv { Parser.new.InitParser with Buffer := ['*', '*'] } :=
    ⟨Nat.zero_le _, fun h => by simp [InitParser, Parser.new] at h⟩
  have h1 : turns (dispatch specEnv (ParseProgram specEnv 10)) 3
        { Parser.new.InitParser with Buffer := ['*', '*'] }
      = .ok { Parser.new with
              Tokens := [tk .DereferenceOp ""]
              Buffer := ['*', '*']
              CurrentTokenIndex := 0 } := by decide!
  ⟨specEnv_CursorOK, h0, h1,
    ((C34_cursor_within_buffer specEnv specEnv_CursorOK 10
      { Parser.new.InitParser with Buffer := ['*', '*'] } h0).1 3 _ h1).2⟩

/-! # Properties of the lowering -/

/-! ## Outcomes of the lowering -/

@[simp] theorem Out.ok_bind {α β : Type} (a : α) (f : α → Out β) :
    (Out.ok a).bind f = f a := rfl

@[simp] theorem Out.halt_bind {α β : Type} (f : α → Out β) :
    (Out.halt : Out α).bind f = .halt := rfl

@[simp] theorem Out.undefined_bind {α β : Type} (f : α → Out β) :
    (Out.undefined : Out α).bind f = .undefined := rfl

@[simp] theorem Out.outOfFuel_bind {α β : Type} (f : α → Out β) :
    (Out.outOfFuel : Out α).bind f = .outOfFuel := rfl

theorem Out.bind_bind {α β γ : Type} (x : Out α) (f : α → Out β) (g : β → Out γ) :
    (x.bind f).bind g = x.bind fun a => (f a).bind g := by
  cases x <;> rfl

theorem Out.bind_eq_ok {α β : Type} {x : Out α} {f : α → Out β} {b : β}
    (h : x.bind f = .ok b) : ∃ a, x = .ok a ∧ f a = .ok b := by
  cases x with
  | ok a => exact ⟨a, rfl, h⟩
  | _ => cases h

/-! ## Declarations of variables -/

/-- C29: lowering a declaration of a variable whose name is already a key of the
variable map returns the null handle and leaves the whole state as it was: no
slot, no instruction, the same map. -/
theorem C29_redeclaration_rejected (fuel : Nat) (m_Name : String) (m_Type : AbstractType)
    (children : List ASTNode) (s : Lowering)
    (h : mapContains s.s_VariableMap m_Name = true) :
    Codegen (fuel + 1) (.mk (.VariableDecleration m_Name m_Type) children) s
      = .ok { value := none, node := .mk (.VariableDecleration m_Name m_Type) children,
              state := s } := by
  simp only [Codegen, ASTVariableDecleration.Codegen]
  rw [if_pos h]

/-- C29 at the name `x` already bound to a slot. -/
theorem C29_redeclaration_rejected_witness :
    mapContains ({ Lowering.start with
        s_VariableMap := [("x", Value.allocaInst 0 .i32)] }).s_VariableMap "x" = true ∧
    Codegen 1 (.mk (.VariableDecleration "x"
        { Get := .Int64, GetKind := .LValue, GetUserDefinedType := "" }) [])
      { Lowering.start with s_VariableMap := [("x", Value.allocaInst 0 .i32)] }
      = .ok { value := none,
              node := .mk (.VariableDecleration "x"
                { Get := .Int64, GetKind := .LValue, GetUserDefinedType := "" }) [],
              state := { Lowering.start with
                s_VariableMap := [("x", Value.allocaInst 0 .i32)] } } :=
  ⟨by decide!, C29_redeclaration_rejected 0 "x" _ [] _ (by decide!)⟩

/-! ## The children of a function -/

theorem children_through_return (cg : Lower) (cs : List ASTNode) (s : Lowering) :
    ASTFunctionDecleration.Codegen.children cg cs s
      = (ASTNodeBase.Codegen.loop cg (throughReturn cs) s).bind fun p =>
          .ok (p.1 ++ afterReturn cs, p.2) := by
  induction cs generalizing s with
  | nil => rfl
  | cons c cs ih =>
    by_cases hc : c.GetType = .ReturnStatement
    · simp only [ASTFunctionDecleration.Codegen.children, throughReturn, afterReturn, hc,
        if_true, ASTNodeBase.Codegen.loop]
      cases cg c s <;> simp [Out.bind]
    · simp only [ASTFunctionDecleration.Codegen.children, throughReturn, afterReturn, hc,
        if_false, ASTNodeBase.Codegen.loop]
      cases cg c s with
      | ok r =>
        simp only [Out.bind, ih]
        cases ASTNodeBase.Codegen.loop cg (throughReturn cs) r.state <;> simp [Out.bind]
      | _ => simp [Out.bind]

theorem throughReturn_idem (cs : List ASTNode) :
    throughReturn (throughReturn cs) = throughReturn cs := by
  induction cs with
  | nil => rfl
  | cons c cs ih =>
    by_cases hc : c.GetType = .ReturnStatement <;> simp [throughReturn, hc, ih]

theorem afterReturn_through (cs : List ASTNode) : afterReturn (throughReturn cs) = [] := by
  induction cs with
  | nil => rfl
  | cons c cs ih =>
    by_cases hc : c.GetType = .ReturnStatement <;> simp [throughReturn, afterReturn, hc, ih]

theorem through_append_after (cs : List ASTNode) :
    throughReturn cs ++ afterReturn cs = cs := by
  induction cs with
  | nil => rfl
  | cons c cs ih =>
    by_cases hc : c.GetType = .ReturnStatement <;> simp [throughReturn, afterReturn, hc, ih]

/-- C27: the loop of a function declaration over its children is the loop that
lowers, in order, the children up to and including the first return statement;
the children after it come back as they were.  So the declaration with all its
children lowers as the declaration with the children cut after that return
statement does. -/
theorem C27_children_through_first_return (fuel : Nat) (m_Name : String)
    (m_ReturnType : VariableType) (m_Paramaters : List Paramater) (cs : List ASTNode)
    (s : Lowering) :
    ASTFunctionDecleration.Codegen.children (Codegen fuel) cs s
      = ((ASTNodeBase.Codegen.loop (Codegen fuel) (throughReturn cs) s).bind fun p =>
          .ok (p.1 ++ afterReturn cs, p.2)) ∧
    Codegen (fuel + 1) (.mk (.FunctionDecleration m_Name m_ReturnType m_Paramaters) cs) s
      = ((Codegen (fuel + 1)
            (.mk (.FunctionDecleration m_Name m_ReturnType m_Paramaters) (throughReturn cs))
            s).bind fun r =>
          .ok { value := r.value,
                node := .mk r.node.kind (r.node.GetChildren ++ afterReturn cs),
                state := r.state }) := by
  refine ⟨children_through_return _ _ _, ?_⟩
  simp only [Codegen, ASTFunctionDecleration.Codegen]
  cases Backend.getFunction _ m_Name with
  | some f => rfl
  | none =>
    simp only [children_through_return, throughReturn_idem, afterReturn_through]
    cases ASTNodeBase.Codegen.loop (Codegen fuel) (throughReturn cs) _ with
    | ok p =>
      simp only [Out.ok_bind, List.append_nil, Out.bind_bind, ASTNode.kind,
        ASTNode.GetChildren]
    | _ => rfl

/-! ## The operands of a binary expression -/

theorem castRaw_eq (expected : AbstractType) (b : Backend) (raw : Value)
    (h : expected.Get ≠ .None) :
    ASTBinaryExpression.castRaw expected b raw = .ok (castIfDiffers expected b raw) := by
  unfold ASTBinaryExpression.castRaw castIfDiffers AbstractType.CastValue
  by_cases ht : raw.getType = expected.GetLLVMType <;> simp [ht, h]

theorem castSwitch_eq (expected : AbstractType) (b : Backend) (l r : Value)
    (h : castingType expected.Get = true) :
    ASTBinaryExpression.castSwitch expected b l r
      = .ok ((castIfDiffers expected b l).1,
          (castIfDiffers expected (castIfDiffers expected b l).2 r).1,
          (castIfDiffers expected (castIfDiffers expected b l).2 r).2) := by
  have hn : expected.Get ≠ .None := by
    intro e
    rw [e] at h
    exact absurd h (by decide)
  unfold ASTBinaryExpression.castSwitch
  cases hg : expected.Get <;> rw [hg] at h <;>
    first
    | exact absurd h (by decide)
    | simp [ASTBinaryExpression.castBoth, castRaw_eq, hn]

theorem castSwitch_ok (expected : AbstractType) (b : Backend) (l r : Value) :
    ∃ l1 r1 b1, ASTBinaryExpression.castSwitch expected b l r = .ok (l1, r1, b1) ∧
      b1.insertPoint = b.insertPoint ∧ b1.functions = b.functions ∧
      b1.blocks = b.blocks := by
  by_cases h : castingType expected.Get = true
  · refine ⟨_, _, _, castSwitch_eq expected b l r h, ?_, ?_, ?_⟩ <;>
      (unfold castIfDiffers
       split <;> split <;> simp [Backend.Insert])
  · refine ⟨l, r, b, ?_, rfl, rfl, rfl⟩
    unfold ASTBinaryExpression.castSwitch
    cases hg : expected.Get <;> rw [hg] at h <;> exact absurd rfl h

theorem castIfDiffers_insertPoint (expected : AbstractType) (b : Backend) (raw : Value) :
    (castIfDiffers expected b raw).2.insertPoint = b.insertPoint := by
  unfold castIfDiffers
  split <;> rfl

theorem castIfDiffers_emitted (expected : AbstractType) (b : Backend) (raw : Value) :
    (castIfDiffers expected b raw).2.emitted
      = b.emitted ++ (if raw.getType = expected.GetLLVMType then []
          else [(b.insertPoint, Instr.cast (castIfDiffers expected b raw).1 raw expected)]) := by
  unfold castIfDiffers
  split <;> simp [Backend.Insert]

theorem loadIfSlot_insertPoint (b : Backend) (v : Value) :
    (loadIfSlot b v).2.insertPoint = b.insertPoint := by
  unfold loadIfSlot
  split <;> rfl

theorem isMath_or_isCmp (e : BinaryExpressionType) (h : e ≠ .Assignment) :
    ASTBinaryExpression._IsMathExpression e = true ∨
      ASTBinaryExpression._IsCmpExpression e = true := by
  cases e <;> first | exact absurd rfl h | decide

/-- The instruction of the operator: none, or one arithmetic or comparison
instruction on the two raw values. -/
theorem createExpression_tail (e : BinaryExpressionType) (h : e ≠ .Assignment)
    (b : Backend) (LHS RHS l r : Value) :
    (ASTBinaryExpression._CreateExpression e b LHS RHS l r).2.emitted = b.emitted ∨
    ∃ res opcode, (ASTBinaryExpression._CreateExpression e b LHS RHS l r).2.emitted
      = b.emitted ++ [(b.insertPoint, Instr.binary res opcode l r)] := by
  cases e <;> first
    | exact absurd rfl h
    | (simp only [ASTBinaryExpression._CreateExpression,
        ASTBinaryExpression._IsMathExpression, ASTBinaryExpression._IsCmpExpression,
        ASTBinaryExpression._CreateMathExpression, ASTBinaryExpression._CreateCmpExpression,
        ASTBinaryExpression.handle, BinaryExpressionType.toInt]
       cases l.getType.isFloatingPointTy <;>
         simp [Backend.CreateBinary, Backend.CreateCmp, Backend.Insert])

/-- C26: for an operator other than the assignment and an expected type that is
an integer, a float or the boolean, the part of `Codegen` after the children
takes the raw values (the load of a slot, the handle otherwise), casts the left
and then the right one exactly when its type differs from the expected type, and
only then creates the instruction of the operator, if any, on the values after
the casts. -/
theorem C26_operands_cast_to_expected (m_Expression : BinaryExpressionType)
    (m_ExpectedType : AbstractType) (b : Backend) (LHS RHS : Value)
    (hop : m_Expression ≠ .Assignment)
    (hty : castingType m_ExpectedType.Get = true) :
    ASTBinaryExpression.operands m_Expression m_ExpectedType b LHS RHS
      = .ok (ASTBinaryExpression._CreateExpression m_Expression
          (castRight m_ExpectedType b LHS RHS).2 LHS RHS
          (castLeft m_ExpectedType b LHS RHS).1 (castRight m_ExpectedType b LHS RHS).1) ∧
    (castRight m_ExpectedType b LHS RHS).2.emitted
      = (rawLeft b LHS RHS).2.emitted
        ++ (if (rawLeft b LHS RHS).1.getType = m_ExpectedType.GetLLVMType then []
            else [(b.insertPoint, Instr.cast (castLeft m_ExpectedType b LHS RHS).1
              (rawLeft b LHS RHS).1 m_ExpectedType)])
        ++ (if (rawRight b RHS).1.getType = m_ExpectedType.GetLLVMType then []
            else [(b.insertPoint, Instr.cast (castRight m_ExpectedType b LHS RHS).1
              (rawRight b RHS).1 m_ExpectedType)]) ∧
    ((ASTBinaryExpression._CreateExpression m_Expression
          (castRight m_ExpectedType b LHS RHS).2 LHS RHS
          (castLeft m_ExpectedType b LHS RHS).1
          (castRight m_ExpectedType b LHS RHS).1).2.emitted
        = (castRight m_ExpectedType b LHS RHS).2.emitted ∨
      ∃ res opcode,
        (ASTBinaryExpression._CreateExpression m_Expression
          (castRight m_ExpectedType b LHS RHS).2 LHS RHS
          (castLeft m_ExpectedType b LHS RHS).1
          (castRight m_ExpectedType b LHS RHS).1).2.emitted
        = (castRight m_ExpectedType b LHS RHS).2.emitted
          ++ [(b.insertPoint, Instr.binary res opcode
            (castLeft m_ExpectedType b LHS RHS).1
            (castRight m_ExpectedType b LHS RHS).1)]) := by
  have hip : (castRight m_ExpectedType b LHS RHS).2.insertPoint = b.insertPoint := by
    simp [castRight, castLeft, rawLeft, rawRight, castIfDiffers_insertPoint,
      loadIfSlot_insertPoint]
  refine ⟨?_, ?_, ?_⟩
  · unfold ASTBinaryExpression.operands
    by_cases hl : LHS.isAlloca = true
    · have hne : (m_Expression != .Assignment) = true := by simpa using hop
      simp only [hl, hne, Bool.and_self, if_true, castSwitch_eq _ _ _ _ hty, Out.ok_bind]
      simp [castRight, castLeft, rawLeft, rawRight, loadIfSlot, hl]
    · have hl2 : LHS.isAlloca = false := by simpa using hl
      simp only [hl2, Bool.false_and, if_false, castSwitch_eq _ _ _ _ hty, Out.ok_bind]
      simp [castRight, castLeft, rawLeft, rawRight, loadIfSlot, hl2]
  · have h1 : (castLeft m_ExpectedType b LHS RHS).2.insertPoint = b.insertPoint := by
      simp [castLeft, rawLeft, rawRight, castIfDiffers_insertPoint, loadIfSlot_insertPoint]
    have h2 : (rawLeft b LHS RHS).2.insertPoint = b.insertPoint := by
      simp [rawLeft, rawRight, loadIfSlot_insertPoint]
    have e1 := castIfDiffers_emitted m_ExpectedType (castLeft m_ExpectedType b LHS RHS).2
      (rawRight b RHS).1
    have e2 := castIfDiffers_emitted m_ExpectedType (rawLeft b LHS RHS).2
      (rawLeft b LHS RHS).1
    rw [h1] at e1
    rw [h2] at e2
    exact e1.trans (by rw [show (castLeft m_ExpectedType b LHS RHS).2.emitted = _ from e2]; rfl)
  · have h := createExpression_tail m_Expression hop (castRight m_ExpectedType b LHS RHS).2
      LHS RHS (castLeft m_ExpectedType b LHS RHS).1 (castRight m_ExpectedType b LHS RHS).1
    rw [hip] at h
    exact h

/-- C26 at the sum of a float constant and an `i32` slot with the expected type
`int32`: the slot is loaded, the constant is cast, the loaded value is not. -/
theorem C26_operands_cast_to_expected_witness :
    BinaryExpressionType.Add ≠ .Assignment ∧
    castingType VariableType.Int32 = true ∧
    ASTBinaryExpression.operands .Add
        { Get := .Int32, GetKind := .RValue, GetUserDefinedType := "" }
        Lowering.start.backend (.constant .float "2.5") (.allocaInst 7 .i32)
      = .ok (some (.instruction 2 .i32),
          { Lowering.start.backend with
            emitted := [
              (none, .load (.instruction 0 .i32) (.allocaInst 7 .i32)),
              (none, .cast (.instruction 1 .i32) (.constant .float "2.5")
                { Get := .Int32, GetKind := .RValue, GetUserDefinedType := "" }),
              (none, .binary (.instruction 2 .i32) .Add (.instruction 1 .i32)
                (.instruction 0 .i32))],
            nextId := 3 }) :=
  ⟨by decide, by decide,
    (C26_operands_cast_to_expected .Add
      { Get := .Int32, GetKind := .RValue, GetUserDefinedType := "" }
      Lowering.start.backend (.constant .float "2.5") (.allocaInst 7 .i32)
      (by decide) (by decide)).1.trans (by decide!)⟩

/-! ## The assignment -/

theorem operands_assignment_non_slot (m_ExpectedType : AbstractType) (b : Backend)
    (LHS RHS : Value) (h : LHS.isAlloca = false) :
    ∃ (raw : Value) (b1 : Backend), b1.insertPoint = b.insertPoint ∧ b1.functions = b.functions ∧
      b1.blocks = b.blocks ∧
      ASTBinaryExpression.operands .Assignment m_ExpectedType b LHS RHS
        = .ok (some (.instruction b1.nextId .void),
            b1.Insert (.store (.instruction b1.nextId .void) raw LHS)) := by
  unfold ASTBinaryExpression.operands
  simp only [h, Bool.false_and, if_false]
  obtain ⟨l1, r1, b1, hc, hip, hf, hb⟩ := castSwitch_ok m_ExpectedType
    (if RHS.isAlloca = true then b.CreateLoad RHS.getAllocatedType RHS else (RHS, b)).2 LHS
    (if RHS.isAlloca = true then b.CreateLoad RHS.getAllocatedType RHS else (RHS, b)).1
  refine ⟨r1, b1, ?_, ?_, ?_, ?_⟩
  · rw [hip]; split <;> rfl
  · rw [hf]; split <;> rfl
  · rw [hb]; split <;> rfl
  · rw [hc]
    rfl

/-- C30: an assignment whose left child lowers to a handle that is no slot
does not halt: `Codegen` returns, and the last instruction it emits is a store
whose target is that handle. -/
theorem C30_assignment_to_non_slot_stores (fuel : Nat) (m_ExpectedType : AbstractType)
    (c0 c1 : ASTNode) (s : Lowering) (l r : Lowered) (LHS RHS : Value)
    (hl : Codegen fuel c1 s = .ok l) (hr : Codegen fuel c0 l.state = .ok r)
    (hL : l.value = some LHS) (hR : r.value = some RHS)
    (hns : LHS.isAlloca = false) :
    ∃ o id raw,
      Codegen (fuel + 1) (.mk (.BinaryExpression .Assignment m_ExpectedType) [c0, c1]) s
        = .ok o ∧
      o.state.backend.emitted.getLast?
        = some (r.state.backend.insertPoint, Instr.store id raw LHS) := by
  obtain ⟨raw, b1, hip, -, -, ho⟩ :=
    operands_assignment_non_slot m_ExpectedType r.state.backend LHS RHS hns
  refine ⟨{ value := some (.instruction b1.nextId .void),
             node := .mk (.BinaryExpression .Assignment m_ExpectedType) [r.node, l.node],
             state := r.state.withBackend
               (b1.Insert (.store (.instruction b1.nextId .void) raw LHS)) },
    .instruction b1.nextId .void, raw, ?_, ?_⟩
  · simp only [Codegen, ASTBinaryExpression.Codegen, hl, hr, hL, hR, ho, Out.ok_bind]
  · simp [Lowering.withBackend, Backend.Insert, hip]

/-- C30 at the assignment `2 = 1` of a literal to a literal. -/
theorem C30_assignment_to_non_slot_stores_witness :
    ∃ o id raw,
      Codegen 2 (.mk (.BinaryExpression .Assignment
          { Get := .Int32, GetKind := .RValue, GetUserDefinedType := "" })
        [.mk (.Literal "1" { Get := .Int32, GetKind := .RValue, GetUserDefinedType := "" }) [],
         .mk (.Literal "2" { Get := .Int32, GetKind := .RValue, GetUserDefinedType := "" }) []])
        Lowering.start = .ok o ∧
      o.state.backend.emitted.getLast?
        = some (none, Instr.store id raw (.constant .i32 "2")) :=
  C30_assignment_to_non_slot_stores 1 _ _ _ Lowering.start
    { value := some (.constant .i32 "2"),
      node := .mk (.Literal "2"
        { Get := .Int32, GetKind := .RValue, GetUserDefinedType := "" }) [],
      state := Lowering.start }
    { value := some (.constant .i32 "1"),
      node := .mk (.Literal "1"
        { Get := .Int32, GetKind := .RValue, GetUserDefinedType := "" }) [],
      state := Lowering.start }
    (.constant .i32 "2") (.constant .i32 "1") (by decide!) (by decide!) rfl rfl rfl

/-! ## The reverse-polish sequence of an expression -/

theorem loop_postorder (t : ExprTree) (rest stack : List ASTNode) :
    ASTExpression.Codegen.loop (t.postorder ++ rest) stack
      = (ASTExpression.Codegen.loop rest (t.assembled :: stack)).bind fun p =>
          .ok (t.linked ++ p.1, p.2) := by
  induction t generalizing rest stack with
  | literal d ty =>
    simp [ExprTree.postorder, ExprTree.assembled, ExprTree.linked,
      ASTExpression.Codegen.loop, ASTNode.GetType, ASTNode.kind]
  | name n =>
    simp [ExprTree.postorder, ExprTree.assembled, ExprTree.linked,
      ASTExpression.Codegen.loop, ASTNode.GetType, ASTNode.kind]
  | binary e ty l r ihl ihr =>
    simp only [ExprTree.postorder, List.append_assoc, ihl, ihr, Out.bind_bind, Out.ok_bind]
    simp only [List.singleton_append, ASTExpression.Codegen.loop, ASTNode.GetType,
      ASTNode.kind, ASTNode.PushChild, ASTNode.GetChildren, List.nil_append,
      ExprTree.assembled, ExprTree.linked]
    simp only [reduceCtorEq, or_self, if_false, List.singleton_append]
    simp [Out.bind_bind]

theorem lower_assembled (t : ExprTree) (fuel : Nat) (s : Lowering) (h : t.depth < fuel) :
    Codegen fuel t.assembled s
      = (t.lower s).bind fun p => .ok { value := p.1, node := t.assembled, state := p.2 } := by
  induction t generalizing fuel s with
  | literal d ty =>
    obtain ⟨n, rfl⟩ : ∃ n, fuel = n + 1 := ⟨fuel - 1, by omega⟩
    rfl
  | name n =>
    obtain ⟨m, rfl⟩ : ∃ m, fuel = m + 1 := ⟨fuel - 1, by omega⟩
    simp only [ExprTree.assembled, Codegen, ExprTree.lower, ASTVariableExpression.Codegen]
    split
    · rfl
    · split <;> rfl
  | binary e ty l r ihl ihr =>
    obtain ⟨n, rfl⟩ : ∃ n, fuel = n + 1 := ⟨fuel - 1, by omega⟩
    have hl : l.depth < n := by simp only [ExprTree.depth] at h; omega
    have hr : r.depth < n := by simp only [ExprTree.depth] at h; omega
    simp only [ExprTree.assembled, Codegen, ASTBinaryExpression.Codegen, ExprTree.lower,
      ihl n _ hl, ihr n _ hr, Out.bind_bind, Out.ok_bind]
    cases l.lower s with
    | ok a =>
      simp only [Out.ok_bind]
      cases r.lower a.2 with
      | ok b =>
        simp only [Out.ok_bind]
        cases a.1 <;> cases b.1 <;> simp [Out.bind_bind]
      | _ => rfl
    | _ => rfl

theorem linked_ne_nil (t : ExprTree) : t.linked ≠ [] := by
  cases t <;> simp [ExprTree.linked]

theorem linked_getLast (t : ExprTree) : t.linked.dropLast ++ [t.assembled] = t.linked := by
  cases t <;> simp [ExprTree.linked, ExprTree.assembled, List.dropLast_append_of_ne_nil]

/-- C25: for every binary expression tree over literals and variable
expressions, the loop of `ASTExpression::Codegen` over the post-order sequence
of the tree leaves exactly one node on the stack, the tree with every operator
holding its right operand as child 0 and its left operand as child 1; and with
enough fuel the `Expression` node lowers as the tree itself does, each operator
on the handles of its own left and right operand. -/
theorem C25_postorder_reassembled (t : ExprTree) (k : Nat) (s : Lowering) :
    ASTExpression.Codegen.loop t.postorder [] = .ok (t.linked, [t.assembled]) ∧
    Codegen (t.depth + 2 + k) (.mk .Expression t.postorder) s
      = (t.lower s).bind fun p =>
          .ok { value := p.1, node := .mk .Expression t.linked, state := p.2 } := by
  have h1 : ASTExpression.Codegen.loop t.postorder [] = .ok (t.linked, [t.assembled]) := by
    have h := loop_postorder t [] []
    simpa [ASTExpression.Codegen.loop] using h
  refine ⟨h1, ?_⟩
  have e : t.depth + 2 + k = (t.depth + 1 + k) + 1 := by omega
  rw [e]
  simp only [Codegen, ASTExpression.Codegen, h1, Out.ok_bind,
    lower_assembled t (t.depth + 1 + k) s (by omega), Out.bind_bind, linked_getLast]

/-! ## The maps -/

theorem mapAt_nil {α : Type} (k : String) : mapAt ([] : List (String × α)) k = none := rfl

theorem mapAt_cons_self {α : Type} (m : List (String × α)) (k : String) (v : α) :
    mapAt ((k, v) :: m) k = some v := by
  simp [mapAt, List.lookup]

theorem mapAt_cons_ne {α : Type} (m : List (String × α)) (a k : String) (v : α)
    (h : k ≠ a) : mapAt ((a, v) :: m) k = mapAt m k := by
  have : (k == a) = false := by simpa using h
  simp [mapAt, List.lookup, this]

theorem mapErase_cons_self {α : Type} (m : List (String × α)) (k : String) (v : α) :
    mapErase ((k, v) :: m) k = mapErase m k := by
  simp [mapErase, List.filter]

theorem mapErase_cons_ne {α : Type} (m : List (String × α)) (a k : String) (v : α)
    (h : a ≠ k) : mapErase ((a, v) :: m) k = (a, v) :: mapErase m k := by
  simp [mapErase, List.filter, h]

theorem mapAt_mapSet_ne {α : Type} (m : List (String × α)) (k k2 : String) (v : α)
    (h : k2 ≠ k) : mapAt (mapSet m k v) k2 = mapAt m k2 := by
  induction m with
  | nil => rw [mapSet, mapAt_cons_ne _ _ _ _ h]
  | cons e m ih =>
    obtain ⟨a, b⟩ := e
    by_cases ha : a = k
    · subst ha
      rw [mapSet, if_pos rfl, mapAt_cons_ne _ _ _ _ h, mapAt_cons_ne _ _ _ _ h]
    · rw [mapSet, if_neg ha]
      by_cases hk : k2 = a
      · subst hk
        rw [mapAt_cons_self, mapAt_cons_self]
      · rw [mapAt_cons_ne _ _ _ _ hk, mapAt_cons_ne _ _ _ _ hk, ih]

theorem mapAt_mapSet_self {α : Type} (m : List (String × α)) (k : String) (v : α) :
    mapAt (mapSet m k v) k = some v := by
  induction m with
  | nil => rw [mapSet, mapAt_cons_self]
  | cons e m ih =>
    obtain ⟨a, b⟩ := e
    by_cases ha : a = k
    · subst ha
      rw [mapSet, if_pos rfl, mapAt_cons_self]
    · rw [mapSet, if_neg ha, mapAt_cons_ne _ _ _ _ (fun e => ha e.symm), ih]

theorem mapAt_mapErase_ne {α : Type} (m : List (String × α)) (k k2 : String)
    (h : k2 ≠ k) : mapAt (mapErase m k) k2 = mapAt m k2 := by
  induction m with
  | nil => rfl
  | cons e m ih =>
    obtain ⟨a, b⟩ := e
    by_cases ha : a = k
    · subst ha
      rw [mapErase_cons_self, ih, mapAt_cons_ne _ _ _ _ h]
    · rw [mapErase_cons_ne _ _ _ _ ha]
      by_cases hk : k2 = a
      · subst hk
        rw [mapAt_cons_self, mapAt_cons_self]
      · rw [mapAt_cons_ne _ _ _ _ hk, mapAt_cons_ne _ _ _ _ hk, ih]

theorem mapAt_mapErase_self {α : Type} (m : List (String × α)) (k : String) :
    mapAt (mapErase m k) k = none := by
  induction m with
  | nil => rfl
  | cons e m ih =>
    obtain ⟨a, b⟩ := e
    by_cases ha : a = k
    · subst ha
      rw [mapErase_cons_self, ih]
    · rw [mapErase_cons_ne _ _ _ _ ha, mapAt_cons_ne _ _ _ _ (fun e => ha e.symm), ih]

theorem mapErase_none {α : Type} (m : List (String × α)) (k k2 : String)
    (h : mapAt m k2 = none) : mapAt (mapErase m k) k2 = none := by
  by_cases hk : k2 = k
  · subst hk
    exact mapAt_mapErase_self m k2
  · rw [mapAt_mapErase_ne m k k2 hk, h]

theorem mapContains_eq {α : Type} (m : List (String × α)) (k : String) :
    mapContains m k = (mapAt m k).isSome := rfl

/-! ## What the builder keeps -/

theorem Steady.steady_refl (b : Backend) : Steady b b := ⟨rfl, rfl⟩

theorem Steady.steady_trans {a b c : Backend} (h1 : Steady a b) (h2 : Steady b c) :
    Steady a c := ⟨h2.1.trans h1.1, h2.2.trans h1.2⟩

theorem steady_insert (b : Backend) (i : Instr) : Steady b (b.Insert i) := ⟨rfl, rfl⟩

theorem steady_castValue {b : Backend} {value : Value} {target : AbstractType}
    {o : Value × Backend} (h : AbstractType.CastValue b value target = .ok o) :
    Steady b o.2 := by
  unfold AbstractType.CastValue at h
  split at h
  · cases h
  · cases h
    exact steady_insert _ _

theorem steady_castRaw {expected : AbstractType} {b : Backend} {raw : Value}
    {o : Value × Backend} (h : ASTBinaryExpression.castRaw expected b raw = .ok o) :
    Steady b o.2 := by
  unfold ASTBinaryExpression.castRaw at h
  split at h
  · exact steady_castValue h
  · cases h
    exact Steady.steady_refl _

theorem steady_castBoth {expected : AbstractType} {b : Backend} {l r : Value}
    {o : Value × Value × Backend} (h : ASTBinaryExpression.castBoth expected b l r = .ok o) :
    Steady b o.2.2 := by
  unfold ASTBinaryExpression.castBoth at h
  obtain ⟨x, hx, h⟩ := Out.bind_eq_ok h
  obtain ⟨y, hy, h⟩ := Out.bind_eq_ok h
  cases h
  exact (steady_castRaw hx).steady_trans (steady_castRaw hy)

theorem steady_castSwitch {expected : AbstractType} {b : Backend} {l r : Value}
    {o : Value × Value × Backend}
    (h : ASTBinaryExpression.castSwitch expected b l r = .ok o) : Steady b o.2.2 := by
  unfold ASTBinaryExpression.castSwitch at h
  split at h
  all_goals first
    | exact steady_castBoth h
    | (cases h; exact Steady.steady_refl _)

theorem steady_createExpression (e : BinaryExpressionType) (b : Backend)
    (LHS RHS l r : Value) :
    Steady b (ASTBinaryExpression._CreateExpression e b LHS RHS l r).2 := by
  cases e <;>
    (simp only [ASTBinaryExpression._CreateExpression,
      ASTBinaryExpression._IsMathExpression, ASTBinaryExpression._IsCmpExpression,
      ASTBinaryExpression._CreateMathExpression, ASTBinaryExpression._CreateCmpExpression,
      ASTBinaryExpression._CreateLoadStoreExpression,
      ASTBinaryExpression.handle, BinaryExpressionType.toInt]
     cases l.getType.isFloatingPointTy <;>
       simp [Steady, Backend.CreateBinary, Backend.CreateCmp, Backend.CreateStore,
         Backend.Insert])

theorem steady_load (b : Backend) (c : Bool) (v : Value) :
    Steady b (if c = true then b.CreateLoad v.getAllocatedType v else (v, b)).2 := by
  cases c
  · exact Steady.steady_refl _
  · exact steady_insert _ _

theorem steady_operands {e : BinaryExpressionType} {expected : AbstractType} {b : Backend}
    {LHS RHS : Value} {o : Option Value × Backend}
    (h : ASTBinaryExpression.operands e expected b LHS RHS = .ok o) : Steady b o.2 := by
  have h0 := steady_load b RHS.isAlloca RHS
  dsimp only [ASTBinaryExpression.operands] at h
  generalize (if RHS.isAlloca = true then b.CreateLoad RHS.getAllocatedType RHS
    else (RHS, b)) = r0 at h h0
  split at h
  · obtain ⟨c, hc, h⟩ := Out.bind_eq_ok h
    cases h
    exact (h0.steady_trans ((steady_insert _ _).steady_trans (steady_castSwitch hc))).steady_trans
      (steady_createExpression _ _ _ _ _ _)
  · split at h
    · cases h
      exact h0.steady_trans (steady_createExpression _ _ _ _ _ _)
    · obtain ⟨c, hc, h⟩ := Out.bind_eq_ok h
      cases h
      exact (h0.steady_trans (steady_castSwitch hc)).steady_trans
        (steady_createExpression _ _ _ _ _ _)

/-! ## What a lowering call keeps -/

theorem Frame.frame_refl (s : Lowering) : Frame s s :=
  ⟨[], by simp, rfl, rfl, fun _ _ h _ => h⟩

theorem Frame.frame_trans {a b c : Lowering} (h1 : Frame a b) (h2 : Frame b c) :
    Frame a c := by
  obtain ⟨f1, hf1, hs1, hi1, hm1⟩ := h1
  obtain ⟨f2, hf2, hs2, hi2, hm2⟩ := h2
  refine ⟨f1 ++ f2, by rw [hf2, hf1, List.append_assoc], hs2.trans hs1, hi2.trans hi1, ?_⟩
  intro k v hk hne
  exact hm2 k v (hm1 k v hk fun g hg => hne g (List.mem_append_left _ hg))
    fun g hg => hne g (List.mem_append_right _ hg)

theorem Frame.of_steady (s : Lowering) {b : Backend} (h : Steady s.backend b) :
    Frame s (s.withBackend b) :=
  ⟨[], by simp [Lowering.withBackend, h.1], rfl, h.2, fun _ _ hk _ => hk⟩

theorem frame_base_loop {cg : Lower} (hcg : Framing cg) (cs : List ASTNode) (s : Lowering)
    (p : List ASTNode × Lowering) (h : ASTNodeBase.Codegen.loop cg cs s = .ok p) :
    Frame s p.2 := by
  induction cs generalizing s p with
  | nil =>
    cases h
    exact Frame.frame_refl _
  | cons c cs ih =>
    simp only [ASTNodeBase.Codegen.loop] at h
    obtain ⟨r, hr, h⟩ := Out.bind_eq_ok h
    obtain ⟨q, hq, h⟩ := Out.bind_eq_ok h
    cases h
    exact (hcg _ _ _ hr).frame_trans (ih _ q hq)

theorem frame_function_children {cg : Lower} (hcg : Framing cg) (cs : List ASTNode)
    (s : Lowering) (p : List ASTNode × Lowering)
    (h : ASTFunctionDecleration.Codegen.children cg cs s = .ok p) : Frame s p.2 := by
  induction cs generalizing s p with
  | nil =>
    cases h
    exact Frame.frame_refl _
  | cons c cs ih =>
    simp only [ASTFunctionDecleration.Codegen.children] at h
    obtain ⟨r, hr, h⟩ := Out.bind_eq_ok h
    split at h
    · cases h
      exact hcg _ _ _ hr
    · obtain ⟨q, hq, h⟩ := Out.bind_eq_ok h
      cases h
      exact (hcg _ _ _ hr).frame_trans (ih _ q hq)

/-! ## The declaration of a function -/

theorem paramaters_spec (m_Name : String) (ps : List Paramater) (k : Nat) (s : Lowering) :
    Steady s.backend (ASTFunctionDecleration.Codegen.paramaters m_Name ps k s).backend ∧
    (ASTFunctionDecleration.Codegen.paramaters m_Name ps k s).s_InsertPoints
      = s.s_InsertPoints ∧
    ∀ key, (∀ p ∈ ps, key ≠ m_Name ++ "::" ++ p.Name) →
      mapAt (ASTFunctionDecleration.Codegen.paramaters m_Name ps k s).s_VariableMap key
        = mapAt s.s_VariableMap key := by
  induction ps generalizing k s with
  | nil => exact ⟨Steady.steady_refl _, rfl, fun _ _ => rfl⟩
  | cons p ps ih =>
    simp only [ASTFunctionDecleration.Codegen.paramaters]
    obtain ⟨h1, h2, h3⟩ := ih (k + 1)
      { s with
        s_VariableMap := mapSet s.s_VariableMap (m_Name ++ "::" ++ p.Name)
          (s.backend.CreateAlloca (GetLLVMVariableType p.Type_.Get) p.Name).1,
        backend := ((s.backend.CreateAlloca (GetLLVMVariableType p.Type_.Get) p.Name).2.CreateStore
          (.argument m_Name k (GetLLVMVariableType p.Type_.Get))
          (s.backend.CreateAlloca (GetLLVMVariableType p.Type_.Get) p.Name).1).2 }
    refine ⟨?_, h2, ?_⟩
    · exact Steady.steady_trans ⟨rfl, rfl⟩ h1
    · intro key hkey
      rw [h3 key fun q hq => hkey q (List.mem_cons_of_mem _ hq)]
      exact mapAt_mapSet_ne _ _ _ _ (hkey p (List.mem_cons_self _ _))

theorem erase_ne (m_Name : String) (ps : List Paramater) (m : List (String × Value))
    (key : String) (h : ∀ p ∈ ps, key ≠ m_Name ++ "::" ++ p.Name) :
    mapAt (ASTFunctionDecleration.Codegen.erase m_Name ps m) key = mapAt m key := by
  induction ps generalizing m with
  | nil => rfl
  | cons p ps ih =>
    simp only [ASTFunctionDecleration.Codegen.erase]
    rw [ih _ fun q hq => h q (List.mem_cons_of_mem _ hq)]
    exact mapAt_mapErase_ne _ _ _ (h p (List.mem_cons_self _ _))

theorem erase_none (m_Name : String) (ps : List Paramater) (m : List (String × Value))
    (key : String) (h : mapAt m key = none) :
    mapAt (ASTFunctionDecleration.Codegen.erase m_Name ps m) key = none := by
  induction ps generalizing m with
  | nil => exact h
  | cons p ps ih =>
    simp only [ASTFunctionDecleration.Codegen.erase]
    exact ih _ (mapErase_none _ _ _ h)

theorem erase_mem (m_Name : String) (ps : List Paramater) (m : List (String × Value))
    (p : Paramater) (h : p ∈ ps) :
    mapAt (ASTFunctionDecleration.Codegen.erase m_Name ps m) (m_Name ++ "::" ++ p.Name)
      = none := by
  induction ps generalizing m with
  | nil => cases h
  | cons q ps ih =>
    simp only [ASTFunctionDecleration.Codegen.erase]
    rcases List.mem_cons.1 h with e | e
    · subst e
      exact erase_none _ _ _ _ (mapAt_mapErase_self _ _)
    · exact ih _ e

theorem function_frame {cg : Lower} (hcg : Framing cg) (m_Name : String)
    (m_ReturnType : VariableType) (m_Paramaters : List Paramater) (cs : List ASTNode)
    (s : Lowering) (r : Lowered)
    (h : ASTFunctionDecleration.Codegen cg m_Name m_ReturnType m_Paramaters cs s = .ok r) :
    (∀ p ∈ m_Paramaters, mapAt r.state.s_VariableMap (m_Name ++ "::" ++ p.Name) = none) ∧
    r.state.s_InsertPoints = s.s_InsertPoints ∧
    r.state.backend.insertPoint = s.backend.insertPoint ∧
    ∃ fs : List IRFunction,
      r.state.backend.functions = s.backend.functions ++
        { name := m_Name, returnType := GetLLVMVariableType m_ReturnType,
          paramTypes := m_Paramaters.map fun p => GetLLVMVariableType p.Type_.Get,
          paramNames := m_Paramaters.map fun p => p.Name } :: fs ∧
      ∀ k v, mapAt s.s_VariableMap k = some v →
        (∀ p ∈ m_Paramaters, k ≠ m_Name ++ "::" ++ p.Name) →
        (∀ g ∈ fs, ∀ q ∈ g.paramNames, k ≠ g.name ++ "::" ++ q) →
        mapAt r.state.s_VariableMap k = some v := by
  dsimp only [ASTFunctionDecleration.Codegen] at h
  split at h
  · cases h
  · obtain ⟨p, hp, h⟩ := Out.bind_eq_ok h
    obtain ⟨s3, hs3, h⟩ := Out.bind_eq_ok h
    obtain ⟨s4, hs4, h⟩ := Out.bind_eq_ok h
    cases h
    obtain ⟨hst, hsp, hmap⟩ := paramaters_spec m_Name m_Paramaters 0
      (ASTFunctionDecleration.Codegen.enter m_Name m_ReturnType m_Paramaters
        { s with s_InsertPoints := s.backend.insertPoint :: s.s_InsertPoints })
    obtain ⟨fs, hf, hip, hins, hm⟩ := frame_function_children hcg cs _ p hp
    have h3 : s3.s_VariableMap
          = ASTFunctionDecleration.Codegen.erase m_Name m_Paramaters p.2.s_VariableMap ∧
        s3.s_InsertPoints = p.2.s_InsertPoints ∧ Steady p.2.backend s3.backend := by
      unfold ASTFunctionDecleration.Codegen.terminate at hs3
      split at hs3
      · split at hs3
        · split at hs3
          · cases hs3
            exact ⟨rfl, rfl, steady_insert _ _⟩
          · cases hs3
            exact ⟨rfl, rfl, Steady.steady_refl _⟩
        · cases hs3
      · cases hs3
        exact ⟨rfl, rfl, Steady.steady_refl _⟩
    obtain ⟨h3m, h3s, h3b⟩ := h3
    unfold ASTFunctionDecleration.Codegen.leave at hs4
    split at hs4
    · rename_i ip rest hstack
      cases hs4
      rw [h3s, hip, hsp] at hstack
      simp only [ASTFunctionDecleration.Codegen.enter, Lowering.withBackend] at hstack
      cases hstack
      refine ⟨?_, rfl, rfl, fs, ?_, ?_⟩
      · intro q hq
        show mapAt s3.s_VariableMap _ = none
        rw [h3m]
        exact erase_mem _ _ _ _ hq
      · show s3.backend.functions = _
        rw [h3b.1, hf, hst.1]
        simp [ASTFunctionDecleration.Codegen.enter, Lowering.withBackend,
          Backend.CreateFunction, Backend.CreateBasicBlock]
      · intro k v hk hne1 hne2
        show mapAt s3.s_VariableMap k = some v
        rw [h3m, erase_ne _ _ _ _ hne1]
        apply hm k v _ hne2
        rw [hmap k hne1]
        exact hk
    · cases hs4

/-! ## Every node keeps the frame -/

theorem frame_binary {cg : Lower} (hcg : Framing cg) (e : BinaryExpressionType)
    (expected : AbstractType) (cs : List ASTNode) (s : Lowering) (r : Lowered)
    (h : ASTBinaryExpression.Codegen cg e expected cs s = .ok r) : Frame s r.state := by
  unfold ASTBinaryExpression.Codegen at h
  split at h
  · obtain ⟨l, hl, h⟩ := Out.bind_eq_ok h
    obtain ⟨r1, hr1, h⟩ := Out.bind_eq_ok h
    split at h
    · obtain ⟨o, ho, h⟩ := Out.bind_eq_ok h
      cases h
      exact ((hcg _ _ _ hl).frame_trans (hcg _ _ _ hr1)).frame_trans
        (Frame.of_steady _ (steady_operands ho))
    · cases h
  · cases h
    exact Frame.frame_refl _

theorem frame_set_new (s : Lowering) (name : String) (v : Value) (b : Backend)
    (hb : Steady s.backend b) (hn : mapContains s.s_VariableMap name = false) :
    Frame s { s with s_VariableMap := mapSet s.s_VariableMap name v, backend := b } := by
  refine ⟨[], by simp [hb.1], rfl, hb.2, ?_⟩
  intro k w hk _
  have hne : k ≠ name := by
    intro e
    subst e
    rw [mapContains_eq, hk] at hn
    cases hn
  show mapAt (mapSet s.s_VariableMap name v) k = some w
  rw [mapAt_mapSet_ne _ _ _ _ hne]
  exact hk

theorem frame_variableDecleration (m_Name : String) (m_Type : AbstractType)
    (cs : List ASTNode) (s : Lowering) (r : Lowered)
    (h : ASTVariableDecleration.Codegen m_Name m_Type cs s = .ok r) : Frame s r.state := by
  unfold ASTVariableDecleration.Codegen at h
  split at h
  · cases h
    exact Frame.frame_refl _
  · rename_i hc
    have hn : mapContains s.s_VariableMap m_Name = false := by simpa using hc
    split at h
    · split at h
      · split at h
        · cases h
          exact frame_set_new _ _ _ _ (steady_insert _ _) hn
        · cases h
      · cases h
    · cases h
      exact frame_set_new _ _ _ _ (steady_insert _ _) hn

theorem frame_variableExpression (m_Name : String) (cs : List ASTNode) (s : Lowering)
    (r : Lowered) (h : ASTVariableExpression.Codegen m_Name cs s = .ok r) :
    Frame s r.state := by
  unfold ASTVariableExpression.Codegen at h
  split at h
  · cases h
    exact Frame.frame_refl _
  · split at h
    · cases h
      exact Frame.frame_refl _
    · cases h

theorem frame_return {cg : Lower} (hcg : Framing cg) (cs : List ASTNode) (s : Lowering)
    (r : Lowered) (h : ASTReturnStatement.Codegen cg cs s = .ok r) : Frame s r.state := by
  unfold ASTReturnStatement.Codegen at h
  split at h
  · obtain ⟨c, hc, h⟩ := Out.bind_eq_ok h
    cases h
    exact (hcg _ _ _ hc).frame_trans (Frame.of_steady _ (steady_insert _ _))
  · cases h
    exact Frame.of_steady _ (steady_insert _ _)

theorem frame_expression {cg : Lower} (hcg : Framing cg) (cs : List ASTNode) (s : Lowering)
    (r : Lowered) (h : ASTExpression.Codegen cg cs s = .ok r) : Frame s r.state := by
  unfold ASTExpression.Codegen at h
  obtain ⟨p, hp, h⟩ := Out.bind_eq_ok h
  split at h
  · obtain ⟨c, hc, h⟩ := Out.bind_eq_ok h
    cases h
    exact hcg _ _ c hc
  · cases h

theorem frame_struct (m_Name : String) (m_Members : List Member) (cs : List ASTNode)
    (s : Lowering) (r : Lowered) (h : ASTStruct.Codegen m_Name m_Members cs s = .ok r) :
    Frame s r.state := by
  unfold ASTStruct.Codegen at h
  obtain ⟨p, hp, h⟩ := Out.bind_eq_ok h
  split at h
  · cases h
    exact ⟨[], by simp [Backend.CreateStructType], rfl, rfl, fun _ _ hk _ => hk⟩
  · cases h

theorem steady_call_cast {expected : List Paramater} {k : Nat} {t : AbstractType}
    {b : Backend} {value : Value} {o : Value × Backend}
    (h : ASTFunctionCall.Codegen.cast expected k t b value = .ok o) : Steady b o.2 := by
  unfold ASTFunctionCall.Codegen.cast at h
  split at h
  · split at h
    · exact steady_castValue h
    · cases h
      exact Steady.steady_refl _
  · cases h

theorem steady_arguments (m : List (String × Value)) (expected : List Paramater)
    (as : List Argument) (k : Nat) (args : List Value) (b : Backend)
    (o : List Value × Backend)
    (h : ASTFunctionCall.Codegen.arguments m expected as k args b = .ok o) :
    Steady b o.2 := by
  induction as generalizing k args b with
  | nil =>
    cases h
    exact Steady.steady_refl _
  | cons a as ih =>
    simp only [ASTFunctionCall.Codegen.arguments] at h
    split at h
    · obtain ⟨v, hv, h⟩ := Out.bind_eq_ok h
      exact (steady_call_cast hv).steady_trans (ih _ _ _ h)
    · split at h
      · obtain ⟨v, hv, h⟩ := Out.bind_eq_ok h
        exact ((steady_insert _ _).steady_trans (steady_call_cast hv)).steady_trans
          (ih _ _ _ h)
      · cases h

theorem getOrInsert_sleep (b : Backend) (name : String) :
    ∃ fs : List IRFunction,
      (b.getOrInsertFunction (ASTFunctionCall.sleepFunction name)).functions
        = b.functions ++ fs ∧
      (b.getOrInsertFunction (ASTFunctionCall.sleepFunction name)).insertPoint
        = b.insertPoint ∧
      ∀ g ∈ fs, g.paramNames = [] := by
  unfold Backend.getOrInsertFunction
  split
  · exact ⟨[], by simp, rfl, by simp⟩
  · exact ⟨[ASTFunctionCall.sleepFunction name], rfl, rfl, by
      simp [ASTFunctionCall.sleepFunction]⟩

theorem frame_call (m_Name : String) (m_Arguments : List Argument) (cs : List ASTNode)
    (s : Lowering) (r : Lowered)
    (h : ASTFunctionCall.Codegen m_Name m_Arguments cs s = .ok r) : Frame s r.state := by
  unfold ASTFunctionCall.Codegen at h
  split at h
  · cases h
  · obtain ⟨a, ha, h⟩ := Out.bind_eq_ok h
    have hs := steady_arguments _ _ _ _ _ _ _ ha
    have key : ∃ fs : List IRFunction,
        (if m_Name = "_sleep" then
            a.2.getOrInsertFunction (ASTFunctionCall.sleepFunction "_sleep")
          else if m_Name = "sleep" then
            a.2.getOrInsertFunction (ASTFunctionCall.sleepFunction "sleep")
          else if m_Name = "nanosleep" then
            a.2.getOrInsertFunction (ASTFunctionCall.sleepFunction "nanosleep")
          else a.2).functions = a.2.functions ++ fs ∧
        (if m_Name = "_sleep" then
            a.2.getOrInsertFunction (ASTFunctionCall.sleepFunction "_sleep")
          else if m_Name = "sleep" then
            a.2.getOrInsertFunction (ASTFunctionCall.sleepFunction "sleep")
          else if m_Name = "nanosleep" then
            a.2.getOrInsertFunction (ASTFunctionCall.sleepFunction "nanosleep")
          else a.2).insertPoint = a.2.insertPoint ∧
        ∀ g ∈ fs, g.paramNames = [] := by
      split
      · exact getOrInsert_sleep _ _
      · split
        · exact getOrInsert_sleep _ _
        · split
          · exact getOrInsert_sleep _ _
          · exact ⟨[], by simp, rfl, by simp⟩
    obtain ⟨fs, hf, hi, hp⟩ := key
    dsimp only at h
    split at h
    · cases h
      refine ⟨fs, ?_, rfl, ?_, fun _ _ hk _ => hk⟩
      · show (Backend.Insert _ _).functions = _
        simp only [Backend.CreateCall, Backend.Insert]
        rw [hf, hs.1]
      · show (Backend.Insert _ _).insertPoint = _
        simp only [Backend.CreateCall, Backend.Insert]
        rw [hi, hs.2]
    · cases h

theorem codegen_frame (fuel : Nat) : Framing (Codegen fuel) := by
  induction fuel with
  | zero =>
    intro n s r h
    cases h
  | succ fuel ih =>
    intro n s r h
    obtain ⟨kind, cs⟩ := n
    cases kind with
    | Base =>
      simp only [Codegen, ASTNodeBase.Codegen] at h
      obtain ⟨p, hp, h⟩ := Out.bind_eq_ok h
      cases h
      exact frame_base_loop ih cs s p hp
    | Literal d t =>
      simp only [Codegen, ASTNodeLiteral.Codegen] at h
      cases h
      exact Frame.frame_refl _
    | BinaryExpression e t => exact frame_binary ih e t cs s r h
    | VariableExpression n => exact frame_variableExpression n cs s r h
    | VariableDecleration n t => exact frame_variableDecleration n t cs s r h
    | FunctionDecleration n rt ps =>
      obtain ⟨-, h2, h3, fs, hf, hm⟩ := function_frame ih n rt ps cs s r h
      refine ⟨_ :: fs, hf, h2, h3, ?_⟩
      intro k v hk hne
      refine hm k v hk ?_ fun g hg => hne g (List.mem_cons_of_mem _ hg)
      intro p hp
      exact hne _ (List.mem_cons_self _ _) p.Name (List.mem_map_of_mem _ hp)
    | ReturnStatement => exact frame_return ih cs s r h
    | Expression => exact frame_expression ih cs s r h
    | Struct n ms => exact frame_struct n ms cs s r h
    | FunctionCall n as => exact frame_call n as cs s r h

/-! ## What a node without a declaration of a function retains -/

theorem declaresFunction_mk (kind : ASTKind) (cs : List ASTNode)
    (h : (ASTNode.mk kind cs).declaresFunction = false) :
    ASTNode.declaresFunctionIn cs = false := by
  rw [ASTNode.declaresFunction, Bool.or_eq_false_iff] at h
  exact h.2

theorem declaresFunctionIn_cons (c : ASTNode) (cs : List ASTNode)
    (h : ASTNode.declaresFunctionIn (c :: cs) = false) :
    c.declaresFunction = false ∧ ASTNode.declaresFunctionIn cs = false := by
  rw [ASTNode.declaresFunctionIn, Bool.or_eq_false_iff] at h
  exact h

theorem declaresFunctionIn_of (c : ASTNode) (cs : List ASTNode)
    (h1 : c.declaresFunction = false) (h2 : ASTNode.declaresFunctionIn cs = false) :
    ASTNode.declaresFunctionIn (c :: cs) = false := by
  rw [ASTNode.declaresFunctionIn, h1, h2]
  rfl

theorem declaresFunctionIn_append (cs ds : List ASTNode)
    (h1 : ASTNode.declaresFunctionIn cs = false) (h2 : ASTNode.declaresFunctionIn ds = false) :
    ASTNode.declaresFunctionIn (cs ++ ds) = false := by
  induction cs with
  | nil => exact h2
  | cons c cs ih =>
    obtain ⟨a, b⟩ := declaresFunctionIn_cons c cs h1
    rw [List.cons_append, ASTNode.declaresFunctionIn, a, ih b]
    rfl

theorem declaresFunction_pushChild (n c : ASTNode) (hn : n.declaresFunction = false)
    (hc : c.declaresFunction = false) : (n.PushChild c).declaresFunction = false := by
  obtain ⟨kind, cs⟩ := n
  have h := hn
  rw [ASTNode.declaresFunction, Bool.or_eq_false_iff] at h
  simp only [ASTNode.PushChild, ASTNode.kind, ASTNode.GetChildren]
  rw [ASTNode.declaresFunction, h.1, Bool.false_or]
  apply declaresFunctionIn_append _ _ h.2
  rw [ASTNode.declaresFunctionIn, hc]
  rfl

theorem Retains.retains_refl (s : Lowering) : Retains s s := fun _ _ h => h

theorem Retains.retains_trans {a b c : Lowering} (h1 : Retains a b) (h2 : Retains b c) :
    Retains a c := fun k v h => h2 k v (h1 k v h)

theorem Retains.of_map {s r : Lowering} (h : r.s_VariableMap = s.s_VariableMap) :
    Retains s r := by
  intro k v hk
  rw [h]
  exact hk

theorem retains_base_loop {cg : Lower} (hcg : Retaining cg) (cs : List ASTNode)
    (hn : ASTNode.declaresFunctionIn cs = false) (s : Lowering)
    (p : List ASTNode × Lowering) (h : ASTNodeBase.Codegen.loop cg cs s = .ok p) :
    Retains s p.2 := by
  induction cs generalizing s p with
  | nil =>
    cases h
    exact Retains.retains_refl _
  | cons c cs ih =>
    obtain ⟨hc, hcs⟩ := declaresFunctionIn_cons c cs hn
    simp only [ASTNodeBase.Codegen.loop] at h
    obtain ⟨r, hr, h⟩ := Out.bind_eq_ok h
    obtain ⟨q, hq, h⟩ := Out.bind_eq_ok h
    cases h
    exact (hcg _ _ _ hc hr).retains_trans (ih hcs _ q hq)

theorem retains_function_children {cg : Lower} (hcg : Retaining cg) (cs : List ASTNode)
    (hn : ASTNode.declaresFunctionIn cs = false) (s : Lowering)
    (p : List ASTNode × Lowering)
    (h : ASTFunctionDecleration.Codegen.children cg cs s = .ok p) : Retains s p.2 := by
  induction cs generalizing s p with
  | nil =>
    cases h
    exact Retains.retains_refl _
  | cons c cs ih =>
    obtain ⟨hc, hcs⟩ := declaresFunctionIn_cons c cs hn
    simp only [ASTFunctionDecleration.Codegen.children] at h
    obtain ⟨r, hr, h⟩ := Out.bind_eq_ok h
    split at h
    · cases h
      exact hcg _ _ _ hc hr
    · obtain ⟨q, hq, h⟩ := Out.bind_eq_ok h
      cases h
      exact (hcg _ _ _ hc hr).retains_trans (ih hcs _ q hq)

theorem retains_binary {cg : Lower} (hcg : Retaining cg) (e : BinaryExpressionType)
    (expected : AbstractType) (cs : List ASTNode)
    (hn : ASTNode.declaresFunctionIn cs = false) (s : Lowering) (r : Lowered)
    (h : ASTBinaryExpression.Codegen cg e expected cs s = .ok r) : Retains s r.state := by
  unfold ASTBinaryExpression.Codegen at h
  split at h
  · rename_i c0 c1
    obtain ⟨h0, hn1⟩ := declaresFunctionIn_cons _ _ hn
    obtain ⟨h1, -⟩ := declaresFunctionIn_cons _ _ hn1
    obtain ⟨l, hl, h⟩ := Out.bind_eq_ok h
    obtain ⟨r1, hr1, h⟩ := Out.bind_eq_ok h
    split at h
    · obtain ⟨o, ho, h⟩ := Out.bind_eq_ok h
      cases h
      exact ((hcg _ _ _ h1 hl).retains_trans (hcg _ _ _ h0 hr1)).retains_trans
        (Retains.of_map rfl)
    · cases h
  · cases h
    exact Retains.retains_refl _

theorem retains_set_new (s : Lowering) (name : String) (v : Value) (b : Backend)
    (hn : mapContains s.s_VariableMap name = false) :
    Retains s { s with s_VariableMap := mapSet s.s_VariableMap name v, backend := b } := by
  intro k w hk
  have hne : k ≠ name := by
    intro e
    subst e
    rw [mapContains_eq, hk] at hn
    cases hn
  show mapAt (mapSet s.s_VariableMap name v) k = some w
  rw [mapAt_mapSet_ne _ _ _ _ hne]
  exact hk

theorem retains_variableDecleration (m_Name : String) (m_Type : AbstractType)
    (cs : List ASTNode) (s : Lowering) (r : Lowered)
    (h : ASTVariableDecleration.Codegen m_Name m_Type cs s = .ok r) : Retains s r.state := by
  unfold ASTVariableDecleration.Codegen at h
  split at h
  · cases h
    exact Retains.retains_refl _
  · rename_i hc
    have hn : mapContains s.s_VariableMap m_Name = false := by simpa using hc
    split at h
    · split at h
      · split at h
        · cases h
          exact retains_set_new _ _ _ _ hn
        · cases h
      · cases h
    · cases h
      exact retains_set_new _ _ _ _ hn

theorem retains_variableExpression (m_Name : String) (cs : List ASTNode) (s : Lowering)
    (r : Lowered) (h : ASTVariableExpression.Codegen m_Name cs s = .ok r) :
    Retains s r.state := by
  unfold ASTVariableExpression.Codegen at h
  split at h
  · cases h
    exact Retains.retains_refl _
  · split at h
    · cases h
      exact Retains.retains_refl _
    · cases h

theorem retains_return {cg : Lower} (hcg : Retaining cg) (cs : List ASTNode)
    (hn : ASTNode.declaresFunctionIn cs = false) (s : Lowering)
    (r : Lowered) (h : ASTReturnStatement.Codegen cg cs s = .ok r) : Retains s r.state := by
  unfold ASTReturnStatement.Codegen at h
  split at h
  · obtain ⟨hc, -⟩ := declaresFunctionIn_cons _ _ hn
    obtain ⟨c, hc2, h⟩ := Out.bind_eq_ok h
    cases h
    exact (hcg _ _ _ hc hc2).retains_trans (Retains.of_map rfl)
  · cases h
    exact Retains.of_map rfl

theorem expression_loop_plain (cs : List ASTNode) (stack : List ASTNode)
    (p : List ASTNode × List ASTNode)
    (hn : ASTNode.declaresFunctionIn cs = false)
    (hs : ASTNode.declaresFunctionIn stack = false)
    (h : ASTExpression.Codegen.loop cs stack = .ok p) :
    ASTNode.declaresFunctionIn p.2 = false := by
  induction cs generalizing stack p with
  | nil =>
    cases h
    exact hs
  | cons c cs ih =>
    obtain ⟨hc, hcs⟩ := declaresFunctionIn_cons c cs hn
    simp only [ASTExpression.Codegen.loop] at h
    split at h
    · obtain ⟨q, hq, h⟩ := Out.bind_eq_ok h
      cases h
      exact ih (c :: stack) q hcs (declaresFunctionIn_of _ _ hc hs) hq
    · split at h
      · split at h
        · rename_i first second rest
          obtain ⟨hf, hs1⟩ := declaresFunctionIn_cons _ _ hs
          obtain ⟨hse, hs2⟩ := declaresFunctionIn_cons _ _ hs1
          obtain ⟨q, hq, h⟩ := Out.bind_eq_ok h
          cases h
          exact ih _ q hcs (declaresFunctionIn_of _ _
            (declaresFunction_pushChild _ _ (declaresFunction_pushChild _ _ hc hf) hse) hs2) hq
        · cases h
      · cases h

theorem retains_expression {cg : Lower} (hcg : Retaining cg) (cs : List ASTNode)
    (hn : ASTNode.declaresFunctionIn cs = false) (s : Lowering)
    (r : Lowered) (h : ASTExpression.Codegen cg cs s = .ok r) : Retains s r.state := by
  unfold ASTExpression.Codegen at h
  obtain ⟨p, hp, h⟩ := Out.bind_eq_ok h
  have hstack := expression_loop_plain cs [] p hn rfl hp
  split at h
  · rename_i top rest htop
    rw [htop] at hstack
    obtain ⟨ht, -⟩ := declaresFunctionIn_cons _ _ hstack
    obtain ⟨c, hc, h⟩ := Out.bind_eq_ok h
    cases h
    exact hcg _ _ c ht hc
  · cases h

theorem retains_struct (m_Name : String) (m_Members : List Member) (cs : List ASTNode)
    (s : Lowering) (r : Lowered) (h : ASTStruct.Codegen m_Name m_Members cs s = .ok r) :
    Retains s r.state := by
  unfold ASTStruct.Codegen at h
  obtain ⟨p, hp, h⟩ := Out.bind_eq_ok h
  split at h
  · cases h
    exact Retains.of_map rfl
  · cases h

theorem retains_call (m_Name : String) (m_Arguments : List Argument) (cs : List ASTNode)
    (s : Lowering) (r : Lowered)
    (h : ASTFunctionCall.Codegen m_Name m_Arguments cs s = .ok r) : Retains s r.state := by
  unfold ASTFunctionCall.Codegen at h
  split at h
  · cases h
  · obtain ⟨a, ha, h⟩ := Out.bind_eq_ok h
    dsimp only at h
    split at h
    · cases h
      exact Retains.of_map rfl
    · cases h

theorem codegen_retains (fuel : Nat) : Retaining (Codegen fuel) := by
  induction fuel with
  | zero =>
    intro n s r _ h
    cases h
  | succ fuel ih =>
    intro n s r hn h
    obtain ⟨kind, cs⟩ := n
    have hcs := declaresFunction_mk kind cs hn
    cases kind with
    | Base =>
      simp only [Codegen, ASTNodeBase.Codegen] at h
      obtain ⟨p, hp, h⟩ := Out.bind_eq_ok h
      cases h
      exact retains_base_loop ih cs hcs s p hp
    | Literal d t =>
      simp only [Codegen, ASTNodeLiteral.Codegen] at h
      cases h
      exact Retains.retains_refl _
    | BinaryExpression e t => exact retains_binary ih e t cs hcs s r h
    | VariableExpression n => exact retains_variableExpression n cs s r h
    | VariableDecleration n t => exact retains_variableDecleration n t cs s r h
    | FunctionDecleration n rt ps =>
      rw [ASTNode.declaresFunction] at hn
      cases hn
    | ReturnStatement => exact retains_return ih cs hcs s r h
    | Expression => exact retains_expression ih cs hcs s r h
    | Struct n ms => exact retains_struct n ms cs s r h
    | FunctionCall n as => exact retains_call n as cs s r h

theorem function_retains {cg : Lower} (hcg : Retaining cg) (m_Name : String)
    (m_ReturnType : VariableType) (m_Paramaters : List Paramater) (cs : List ASTNode)
    (hn : ASTNode.declaresFunctionIn cs = false)
    (s : Lowering) (r : Lowered)
    (h : ASTFunctionDecleration.Codegen cg m_Name m_ReturnType m_Paramaters cs s = .ok r) :
    ∀ k v, mapAt s.s_VariableMap k = some v →
      (∀ p ∈ m_Paramaters, k ≠ m_Name ++ "::" ++ p.Name) →
      mapAt r.state.s_VariableMap k = some v := by
  dsimp only [ASTFunctionDecleration.Codegen] at h
  split at h
  · cases h
  · obtain ⟨p, hp, h⟩ := Out.bind_eq_ok h
    obtain ⟨s3, hs3, h⟩ := Out.bind_eq_ok h
    obtain ⟨s4, hs4, h⟩ := Out.bind_eq_ok h
    cases h
    obtain ⟨-, -, hmap⟩ := paramaters_spec m_Name m_Paramaters 0
      (ASTFunctionDecleration.Codegen.enter m_Name m_ReturnType m_Paramaters
        { s with s_InsertPoints := s.backend.insertPoint :: s.s_InsertPoints })
    have hm := retains_function_children hcg cs hn _ p hp
    have h3 : s3.s_VariableMap
          = ASTFunctionDecleration.Codegen.erase m_Name m_Paramaters p.2.s_VariableMap := by
      unfold ASTFunctionDecleration.Codegen.terminate at hs3
      split at hs3
      · split at hs3
        · split at hs3
          · cases hs3
            rfl
          · cases hs3
            rfl
        · cases hs3
      · cases hs3
        rfl
    unfold ASTFunctionDecleration.Codegen.leave at hs4
    split at hs4
    · cases hs4
      intro k v hk hne
      show mapAt s3.s_VariableMap k = some v
      rw [h3, erase_ne _ _ _ _ hne]
      apply hm k v
      rw [hmap k hne]
      exact hk
    · cases hs4

/-- C28: when lowering the declaration of a function `f` completes, and no
function is declared among the nodes below it (functions are not nested), the
variable map has no key `f::p` of a parameter `p`, every entry that was present
before under another key is still present with the same slot, and the stack of
saved insertion points and the insertion point of the builder are the ones of
the entry. -/
theorem C28_function_restores (fuel : Nat) (m_Name : String) (m_ReturnType : VariableType)
    (m_Paramaters : List Paramater) (cs : List ASTNode) (s : Lowering) (r : Lowered)
    (hn : ASTNode.declaresFunctionIn cs = false)
    (h : Codegen (fuel + 1)
      (.mk (.FunctionDecleration m_Name m_ReturnType m_Paramaters) cs) s = .ok r) :
    (∀ p ∈ m_Paramaters,
      mapContains r.state.s_VariableMap (m_Name ++ "::" ++ p.Name) = false) ∧
    (∀ k v, mapAt s.s_VariableMap k = some v →
      (∀ p ∈ m_Paramaters, k ≠ m_Name ++ "::" ++ p.Name) →
      mapAt r.state.s_VariableMap k = some v) ∧
    r.state.s_InsertPoints = s.s_InsertPoints ∧
    r.state.backend.insertPoint = s.backend.insertPoint := by
  obtain ⟨h1, h2, h3, -⟩ := function_frame (codegen_frame fuel) m_Name m_ReturnType
    m_Paramaters cs s r h
  refine ⟨?_, function_retains (codegen_retains fuel) m_Name m_ReturnType m_Paramaters cs hn
    s r h, h2, h3⟩
  intro p hp
  rw [mapContains_eq, h1 p hp]
  rfl

/-- C28 at the function `f(p : int32)` of type `int32` with the declaration of
the variable `x` as its child, lowered with the variable `a` in the map: the
key `f::p` is not in the map afterwards, and `a` has kept its slot. -/
theorem C28_function_restores_witness :
    ASTNode.declaresFunctionIn
      [.mk (.VariableDecleration "x"
        { Get := .Int32, GetKind := .LValue, GetUserDefinedType := "" }) []] = false ∧
    Codegen 2 (.mk (.FunctionDecleration "f" .Int32
        [{ Name := "p", Type_ := { Get := .Int32, GetKind := .LValue,
                                    GetUserDefinedType := "" } }])
        [.mk (.VariableDecleration "x"
          { Get := .Int32, GetKind := .LValue, GetUserDefinedType := "" }) []])
      { Lowering.start with s_VariableMap := [("a", .allocaInst 9 .i32)] }
      = .ok { value := some (.function "f"),
              node := .mk (.FunctionDecleration "f" .Int32
                [{ Name := "p", Type_ := { Get := .Int32, GetKind := .LValue,
                                            GetUserDefinedType := "" } }])
                [.mk (.VariableDecleration "x"
                  { Get := .Int32, GetKind := .LValue, GetUserDefinedType := "" }) []],
              state :=
                { s_VariableMap := [("a", .allocaInst 9 .i32), ("x", .allocaInst 2 .i32)],
                  s_StructTypes := [], s_InsertPoints := [],
                  s_FunctionToExpectedTypes := [],
                  backend :=
                    { functions := [{ name := "f", returnType := .i32, paramTypes := [.i32],
                                      paramNames := ["p"] }],
                      blocks := [("f", "entry")], structs := [],
                      emitted := [
                        (some 0, .alloca (.allocaInst 0 .i32) "p"),
                        (some 0, .store (.instruction 1 .void) (.argument "f" 0 .i32)
                          (.allocaInst 0 .i32)),
                        (some 0, .alloca (.allocaInst 2 .i32) "x")],
                      insertPoint := none, nextId := 3 } } } ∧
    mapContains [("a", Value.allocaInst 9 .i32), ("x", Value.allocaInst 2 .i32)]
      ("f" ++ "::" ++ "p") = false ∧
    mapAt [("a", Value.allocaInst 9 .i32), ("x", Value.allocaInst 2 .i32)] "a"
      = some (.allocaInst 9 .i32) := by
  have hn : ASTNode.declaresFunctionIn
      [.mk (.VariableDecleration "x"
        { Get := .Int32, GetKind := .LValue, GetUserDefinedType := "" }) []] = false := by
    decide
  have h : Codegen 2 (.mk (.FunctionDecleration "f" .Int32
        [{ Name := "p", Type_ := { Get := .Int32, GetKind := .LValue,
                                    GetUserDefinedType := "" } }])
        [.mk (.VariableDecleration "x"
          { Get := .Int32, GetKind := .LValue, GetUserDefinedType := "" }) []])
      { Lowering.start with s_VariableMap := [("a", .allocaInst 9 .i32)] }
      = .ok { value := some (.function "f"),
              node := .mk (.FunctionDecleration "f" .Int32
                [{ Name := "p", Type_ := { Get := .Int32, GetKind := .LValue,
                                            GetUserDefinedType := "" } }])
                [.mk (.VariableDecleration "x"
                  { Get := .Int32, GetKind := .LValue, GetUserDefinedType := "" }) []],
              state :=
                { s_VariableMap := [("a", .allocaInst 9 .i32), ("x", .allocaInst 2 .i32)],
                  s_StructTypes := [], s_InsertPoints := [],
                  s_FunctionToExpectedTypes := [],
                  backend :=
                    { functions := [{ name := "f", returnType := .i32, paramTypes := [.i32],
                                      paramNames := ["p"] }],
                      blocks := [("f", "entry")], structs := [],
                      emitted := [
                        (some 0, .alloca (.allocaInst 0 .i32) "p"),
                        (some 0, .store (.instruction 1 .void) (.argument "f" 0 .i32)
                          (.allocaInst 0 .i32)),
                        (some 0, .alloca (.allocaInst 2 .i32) "x")],
                      insertPoint := none, nextId := 3 } } } := by
    decide!
  have hc := C28_function_restores 1 "f" .Int32 _ _ _ _ hn h
  exact ⟨hn, h, hc.1 _ (List.mem_cons_self _ _),
    hc.2.1 "a" _ (by decide!) (by decide)⟩

/-! ## A variable that is not declared -/

theorem variableExpression_missing (fuel : Nat) (m_Name : String) (children : List ASTNode)
    (s : Lowering) (h : mapContains s.s_VariableMap m_Name = false) :
    Codegen (fuel + 1) (.mk (.VariableExpression m_Name) children) s
      = .ok { value := none, node := .mk (.VariableExpression m_Name) children, state := s } := by
  simp only [Codegen, ASTVariableExpression.Codegen, h]
  rfl

/-- C31: lowering a variable expression whose name is no key of the variable
map does not halt: it returns the null handle and leaves the state as it was.
A binary expression that gets this null handle for its left or its right
operand halts. -/
theorem C31_missing_variable_returns_null (fuel : Nat) (m_Name : String)
    (children : List ASTNode) (s : Lowering)
    (h : mapContains s.s_VariableMap m_Name = false) :
    Codegen (fuel + 1) (.mk (.VariableExpression m_Name) children) s
      = .ok { value := none, node := .mk (.VariableExpression m_Name) children, state := s } ∧
    (∀ (e : BinaryExpressionType) (t : AbstractType) (c0 : ASTNode) (r : Lowered),
      Codegen (fuel + 1) c0 s = .ok r →
      Codegen (fuel + 2) (.mk (.BinaryExpression e t)
        [c0, .mk (.VariableExpression m_Name) children]) s = .halt) ∧
    (∀ (e : BinaryExpressionType) (t : AbstractType) (c1 : ASTNode) (l : Lowered),
      Codegen (fuel + 1) c1 s = .ok l →
      mapContains l.state.s_VariableMap m_Name = false →
      Codegen (fuel + 2) (.mk (.BinaryExpression e t)
        [.mk (.VariableExpression m_Name) children, c1]) s = .halt) := by
  refine ⟨variableExpression_missing fuel m_Name children s h, ?_, ?_⟩
  · intro e t c0 r hr
    rw [Codegen]
    simp only [ASTBinaryExpression.Codegen, variableExpression_missing fuel m_Name children s h,
      Out.ok_bind, hr]
  · intro e t c1 l hl hm
    rw [Codegen]
    simp only [ASTBinaryExpression.Codegen, hl, Out.ok_bind,
      variableExpression_missing fuel m_Name children l.state hm]
    cases l.value <;> rfl

/-- C31 at the variable `x` on the initial state, alone and as the left operand
of `x + 1`. -/
theorem C31_missing_variable_returns_null_witness :
    mapContains Lowering.start.s_VariableMap "x" = false ∧
    Codegen 1 (.mk (.VariableExpression "x") []) Lowering.start
      = .ok { value := none, node := .mk (.VariableExpression "x") [],
              state := Lowering.start } ∧
    Codegen 2 (.mk (.BinaryExpression .Add
        { Get := .Int32, GetKind := .RValue, GetUserDefinedType := "" })
      [.mk (.Literal "1" { Get := .Int32, GetKind := .RValue, GetUserDefinedType := "" }) [],
       .mk (.VariableExpression "x") []]) Lowering.start = .halt :=
  ⟨by decide!,
    (C31_missing_variable_returns_null 0 "x" [] Lowering.start (by decide!)).1,
    (C31_missing_variable_returns_null 0 "x" [] Lowering.start (by decide!)).2.1 .Add _ _
      { value := some (.constant .i32 "1"),
        node := .mk (.Literal "1"
          { Get := .Int32, GetKind := .RValue, GetUserDefinedType := "" }) [],
        state := Lowering.start } (by decide!)⟩

/-- C31, the counterexample: a return statement whose child is the variable `x`,
which is not declared, is lowered without a halt; the null handle comes back
from the child and the statement emits a return of nothing. -/
theorem C31_counterexample :
    Codegen 2 (.mk .ReturnStatement [.mk (.VariableExpression "x") []]) Lowering.start
      = .ok { value := some (.instruction 0 .void),
              node := .mk .ReturnStatement [.mk (.VariableExpression "x") []],
              state := Lowering.start.withBackend
                { Lowering.start.backend with
                  emitted := [(none, .ret (.instruction 0 .void) none)]
                  nextId := 1 } } := by
  decide!

/-! ## The declaration of a record -/

theorem members_run (records : List (String × ObjectReferenceInfo)) :
    ∀ (ms : List Member) (types : List (Option IRType)) (Indices : List (String × Nat))
      (k : Nat),
      (∀ m ∈ ms, (memberType records m).isSome = true) →
      ASTStruct.Codegen.members records ms types Indices k
        = .ok (types ++ ms.map (memberType records), indexMembers Indices ms k) := by
  intro ms
  induction ms with
  | nil => intro types Indices k _; simp [ASTStruct.Codegen.members, indexMembers]
  | cons m ms ih =>
    intro types Indices k h
    have hm := h m (by simp)
    simp only [ASTStruct.Codegen.members, indexMembers]
    by_cases hu : m.Field.Get = .UserDefinedType
    · simp only [memberType, hu, if_true] at hm
      cases hr : mapAt records m.Field.GetUserDefinedType with
      | none => rw [hr] at hm; cases hm
      | some info =>
        have hc : mapContains records m.Field.GetUserDefinedType = true := by
          rw [mapContains_eq, hr]; rfl
        simp only [hu, if_true, hc, hr]
        rw [ih _ _ _ fun x hx => h x (by simp [hx])]
        simp [memberType, hu, hr]
    · simp only [hu, if_false]
      rw [ih _ _ _ fun x hx => h x (by simp [hx])]
      simp [memberType, hu]

theorem members_halt (records : List (String × ObjectReferenceInfo)) :
    ∀ (ms : List Member) (types : List (Option IRType)) (Indices : List (String × Nat))
      (k : Nat),
      (∃ m ∈ ms, m.Field.Get = .UserDefinedType ∧
        mapContains records m.Field.GetUserDefinedType = false) →
      ASTStruct.Codegen.members records ms types Indices k = .halt := by
  intro ms
  induction ms with
  | nil => intro _ _ _ h; obtain ⟨m, hm, -⟩ := h; cases hm
  | cons m ms ih =>
    intro types Indices k h
    simp only [ASTStruct.Codegen.members]
    by_cases hu : m.Field.Get = .UserDefinedType
    · by_cases hc : mapContains records m.Field.GetUserDefinedType = true
      · simp only [hu, if_true, hc]
        obtain ⟨x, hx, hxu, hxc⟩ := h
        have hx2 : x ∈ ms := by
          rcases List.mem_cons.1 hx with e | e
          · subst e; rw [hc] at hxc; cases hxc
          · exact e
        cases hr : mapAt records m.Field.GetUserDefinedType with
        | none => rfl
        | some info => exact ih _ _ _ ⟨x, hx2, hxu, hxc⟩
      · simp [hu, hc]
    · simp only [hu, if_false]
      obtain ⟨x, hx, hxu, hxc⟩ := h
      have hx2 : x ∈ ms := by
        rcases List.mem_cons.1 hx with e | e
        · subst e; exact absurd hxu hu
        · exact e
      exact ih _ _ _ ⟨x, hx2, hxu, hxc⟩

theorem mapSet_length_new {α : Type} (m : List (String × α)) (k : String) (v : α)
    (h : mapAt m k = none) : (mapSet m k v).length = m.length + 1 := by
  induction m with
  | nil => rfl
  | cons e m ih =>
    obtain ⟨a, b⟩ := e
    by_cases ha : a = k
    · subst ha
      rw [mapAt_cons_self] at h
      cases h
    · rw [mapAt_cons_ne _ _ _ _ (fun e => ha e.symm)] at h
      rw [mapSet, if_neg ha]
      simp [ih h]

theorem indexMembers_spec :
    ∀ (ms : List Member) (Indices : List (String × Nat)) (k : Nat),
      (ms.map fun m => m.Name).Nodup →
      (∀ m ∈ ms, mapAt Indices m.Name = none) →
      (indexMembers Indices ms k).length = Indices.length + ms.length ∧
      (∀ key, (∀ m ∈ ms, key ≠ m.Name) →
        mapAt (indexMembers Indices ms k) key = mapAt Indices key) ∧
      ∀ (i : Nat) (h : i < ms.length),
        mapAt (indexMembers Indices ms k) (ms.get ⟨i, h⟩).Name = some (k + i) := by
  intro ms
  induction ms with
  | nil =>
    intro Indices k _ _
    exact ⟨rfl, fun _ _ => rfl, fun i h => absurd h (by simp)⟩
  | cons m ms ih =>
    intro Indices k hnd hnew
    simp only [List.map_cons, List.nodup_cons, List.mem_map, not_exists, not_and] at hnd
    obtain ⟨hm, hnd⟩ := hnd
    have hnew2 : ∀ x ∈ ms, mapAt (mapSet Indices m.Name k) x.Name = none := by
      intro x hx
      rw [mapAt_mapSet_ne _ _ _ _ (fun e => hm x hx e)]
      exact hnew x (by simp [hx])
    obtain ⟨h1, h2, h3⟩ := ih (mapSet Indices m.Name k) (k + 1) hnd hnew2
    simp only [indexMembers]
    refine ⟨?_, ?_, ?_⟩
    · rw [h1, mapSet_length_new _ _ _ (hnew m (by simp))]
      simp
      omega
    · intro key hkey
      rw [h2 key fun x hx => hkey x (by simp [hx])]
      exact mapAt_mapSet_ne _ _ _ _ (hkey m (by simp))
    · intro i hi
      cases i with
      | zero =>
        simp only [List.get_eq_getElem, List.getElem_cons_zero, Nat.add_zero]
        rw [h2 m.Name fun x hx e => hm x hx e.symm]
        exact mapAt_mapSet_self _ _ _
      | succ i =>
        have := h3 i (by simpa using hi)
        simp only [List.get_eq_getElem, List.getElem_cons_succ] at this ⊢
        rw [this]
        congr 1
        omega

theorem filterMap_id_some {α : Type} (l : List (Option α))
    (h : ∀ x ∈ l, x.isSome = true) : (l.filterMap id).map some = l := by
  induction l with
  | nil => rfl
  | cons x l ih =>
    cases x with
    | none => exact absurd (h none (by simp)) (by simp)
    | some a =>
      simp only [List.filterMap_cons, id, List.map_cons]
      rw [ih fun y hy => h y (by simp [hy])]

theorem all_isSome {α : Type} (l : List (Option α)) (h : ∀ x ∈ l, x.isSome = true) :
    l.all Option.isSome = true := by
  simpa [List.all_eq_true] using h

/-- C32: lowering a record whose members have pairwise distinct names and types
that are primitive or recorded with a layout stores under the name of the
record a descriptor with a new layout and with the ordinal `i` for the name of
the member `i`, as many ordinals as members; the new layout lists the IR types
of the members in the order of the declaration.  If a member has a user-defined
type that is no key of the records, `Codegen` halts; it writes the records only
at its end, so they are as they were. -/
theorem C32_struct_descriptor (fuel : Nat) (m_Name : String) (m_Members : List Member)
    (children : List ASTNode) (s : Lowering) :
    ((∀ m ∈ m_Members, (memberType s.s_StructTypes m).isSome = true) →
      (m_Members.map fun m => m.Name).Nodup →
      ∃ (r : Lowered) (layout : List IRType),
        Codegen (fuel + 1) (.mk (.Struct m_Name m_Members) children) s = .ok r ∧
        mapAt r.state.s_StructTypes m_Name
          = some { Struct := some s.backend.structs.length,
                   Indices := indexMembers [] m_Members 0 } ∧
        r.state.backend.structs = s.backend.structs ++ [layout] ∧
        layout.map some = m_Members.map (memberType s.s_StructTypes) ∧
        (indexMembers [] m_Members 0).length = m_Members.length ∧
        ∀ (i : Nat) (h : i < m_Members.length),
          mapAt (indexMembers [] m_Members 0) (m_Members.get ⟨i, h⟩).Name = some i) ∧
    ((∃ m ∈ m_Members, m.Field.Get = .UserDefinedType ∧
        mapContains s.s_StructTypes m.Field.GetUserDefinedType = false) →
      Codegen (fuel + 1) (.mk (.Struct m_Name m_Members) children) s = .halt) := by
  constructor
  · intro hall hnd
    have hrun := members_run s.s_StructTypes m_Members [] [] 0 hall
    have hs : ∀ x ∈ m_Members.map (memberType s.s_StructTypes), x.isSome = true := by
      intro x hx
      obtain ⟨m, hm, rfl⟩ := List.mem_map.1 hx
      exact hall m hm
    obtain ⟨h1, -, h3⟩ := indexMembers_spec m_Members [] 0 hnd (fun _ _ => rfl)
    refine ⟨{ value := none, node := .mk (.Struct m_Name m_Members) children,
              state := { s with
                s_StructTypes := mapSet s.s_StructTypes m_Name
                  { Struct := some (s.backend.CreateStructType
                      ((m_Members.map (memberType s.s_StructTypes)).filterMap id)).1,
                    Indices := indexMembers [] m_Members 0 }
                backend := (s.backend.CreateStructType
                  ((m_Members.map (memberType s.s_StructTypes)).filterMap id)).2 } },
      (m_Members.map (memberType s.s_StructTypes)).filterMap id, ?_, ?_, ?_,
      filterMap_id_some _ hs, by simpa using h1, fun i h => by simpa using h3 i h⟩
    · simp only [Codegen, ASTStruct.Codegen, hrun, Out.ok_bind, List.nil_append,
        all_isSome _ hs, if_true]
    · exact mapAt_mapSet_self _ _ _
    · rfl
  · intro h
    simp only [Codegen, ASTStruct.Codegen, members_halt s.s_StructTypes m_Members [] [] 0 h]
    rfl

/-- C32 at the record `P` with the members `x : int32` and `y : float32` on the
initial state, and at the record `R` with a member of the type `Q`, which is
not declared. -/
theorem C32_struct_descriptor_witness :
    (∃ (r : Lowered) (layout : List IRType),
      Codegen 1 (.mk (.Struct "P"
          [{ Name := "x", Field := { Get := .Int32, GetKind := .LValue,
                                      GetUserDefinedType := "" } },
           { Name := "y", Field := { Get := .Float32, GetKind := .LValue,
                                      GetUserDefinedType := "" } }]) [])
        Lowering.start = .ok r ∧
      mapAt r.state.s_StructTypes "P"
        = some { Struct := some 0, Indices := [("x", 0), ("y", 1)] } ∧
      r.state.backend.structs = [layout] ∧
      layout.map some = [some .i32, some .float]) ∧
    Codegen 1 (.mk (.Struct "R"
        [{ Name := "q", Field := { Get := .UserDefinedType, GetKind := .LValue,
                                    GetUserDefinedType := "Q" } }]) [])
      Lowering.start = .halt := by
  obtain ⟨h1, h2⟩ := C32_struct_descriptor 0 "P"
    [{ Name := "x", Field := { Get := .Int32, GetKind := .LValue,
                                GetUserDefinedType := "" } },
     { Name := "y", Field := { Get := .Float32, GetKind := .LValue,
                                GetUserDefinedType := "" } }] [] Lowering.start
  obtain ⟨r, layout, e1, e2, e3, e4, -, -⟩ := h1 (by decide) (by decide)
  refine ⟨⟨r, layout, e1, e2, e3, e4⟩, ?_⟩
  exact (C32_struct_descriptor 0 "R"
    [{ Name := "q", Field := { Get := .UserDefinedType, GetKind := .LValue,
                                GetUserDefinedType := "Q" } }] [] Lowering.start).2
    ⟨_, List.mem_cons_self _ _, rfl, by decide⟩

/-! ## An expression lowered twice -/

theorem loop_linked (t : ExprTree) (rest stack : List ASTNode) :
    ASTExpression.Codegen.loop (t.linked ++ rest) stack
      = (ASTExpression.Codegen.loop rest (t.relinked :: stack)).bind fun p =>
          .ok (t.relinkedList ++ p.1, p.2) := by
  induction t generalizing rest stack with
  | literal d ty =>
    simp [ExprTree.linked, ExprTree.relinked, ExprTree.relinkedList,
      ASTExpression.Codegen.loop, ASTNode.GetType, ASTNode.kind]
  | name n =>
    simp [ExprTree.linked, ExprTree.relinked, ExprTree.relinkedList,
      ASTExpression.Codegen.loop, ASTNode.GetType, ASTNode.kind]
  | binary e ty l r ihl ihr =>
    simp only [ExprTree.linked, List.append_assoc, ihl, ihr, Out.bind_bind, Out.ok_bind]
    simp only [List.singleton_append, ASTExpression.Codegen.loop, ASTNode.GetType,
      ASTNode.kind, ASTNode.PushChild, ASTNode.GetChildren, List.nil_append,
      ExprTree.assembled, ExprTree.relinked, ExprTree.relinkedList]
    simp only [reduceCtorEq, or_self, if_false, List.singleton_append]
    simp [Out.bind_bind]

theorem relinkedList_last (t : ExprTree) :
    t.relinkedList.dropLast ++ [t.relinked] = t.relinkedList := by
  cases t <;> simp [ExprTree.relinkedList, ExprTree.relinked, List.dropLast_append_of_ne_nil]

theorem expression_relowered (e : BinaryExpressionType) (ty : AbstractType)
    (l r : ExprTree) (k : Nat) (s : Lowering) :
    Codegen (k + 2) (.mk .Expression (ExprTree.binary e ty l r).linked) s
      = .ok { value := none,
              node := .mk .Expression (ExprTree.binary e ty l r).relinkedList,
              state := s } := by
  have h := loop_linked (.binary e ty l r) [] []
  simp only [List.append_nil, ASTExpression.Codegen.loop, Out.ok_bind] at h
  rw [Codegen]
  simp only [ASTExpression.Codegen, h, Out.ok_bind]
  rw [show (ExprTree.binary e ty l r).relinked
      = .mk (.BinaryExpression e ty) [r.assembled, l.assembled, r.relinked, l.relinked]
    from rfl]
  rw [Codegen]
  simp only [ASTBinaryExpression.Codegen, Out.ok_bind]
  rw [← show (ExprTree.binary e ty l r).relinked
      = .mk (.BinaryExpression e ty) [r.assembled, l.assembled, r.relinked, l.relinked]
    from rfl, relinkedList_last]

theorem expression_first_node (t : ExprTree) (k : Nat) (s : Lowering) (r1 : Lowered)
    (h : Codegen (t.depth + 2 + k) (.mk .Expression t.postorder) s = .ok r1) :
    r1.node = .mk .Expression t.linked := by
  have h1 : ASTExpression.Codegen.loop t.postorder [] = .ok (t.linked, [t.assembled]) := by
    have h := loop_postorder t [] []
    simpa [ASTExpression.Codegen.loop] using h
  have e : t.depth + 2 + k = (t.depth + 1 + k) + 1 := by omega
  rw [e] at h
  simp only [Codegen, ASTExpression.Codegen, h1, Out.ok_bind,
    lower_assembled t (t.depth + 1 + k) s (by omega), Out.bind_bind, linked_getLast] at h
  obtain ⟨p, -, hp⟩ := Out.bind_eq_ok h
  cases hp
  rfl

/-- C36: when the `Expression` node of a tree with an operator at its root has
been lowered, its operator children hold the operands the loop attached; a
second lowering of the node attaches operands again, the operator at the root
then has four children, and `Codegen` returns the null handle without an
instruction, on whatever state. -/
theorem C36_second_lowering_emits_nothing (e : BinaryExpressionType) (ty : AbstractType)
    (l r : ExprTree) (k : Nat) (s : Lowering) (r1 : Lowered)
    (h : Codegen ((ExprTree.binary e ty l r).depth + 2 + k)
      (.mk .Expression (ExprTree.binary e ty l r).postorder) s = .ok r1) :
    r1.node = .mk .Expression (ExprTree.binary e ty l r).linked ∧
    (ExprTree.binary e ty l r).relinked.GetChildren.length = 4 ∧
    ∀ (j : Nat) (s2 : Lowering),
      Codegen (j + 2) r1.node s2
        = .ok { value := none,
                node := .mk .Expression (ExprTree.binary e ty l r).relinkedList,
                state := s2 } := by
  have hn := expression_first_node (.binary e ty l r) k s r1 h
  refine ⟨hn, rfl, ?_⟩
  intro j s2
  rw [hn]
  exact expression_relowered e ty l r j s2

/-- C36 at the expression `1 2 +` of type `int32`: the first lowering emits the
addition, the second lowering of the node it leaves emits nothing and returns
the null handle. -/
theorem C36_second_lowering_emits_nothing_witness :
    Codegen 3 (.mk .Expression
        [.mk (.Literal "1" { Get := .Int32, GetKind := .RValue, GetUserDefinedType := "" }) [],
         .mk (.Literal "2" { Get := .Int32, GetKind := .RValue, GetUserDefinedType := "" }) [],
         .mk (.BinaryExpression .Add
           { Get := .Int32, GetKind := .RValue, GetUserDefinedType := "" }) []])
      Lowering.start
      = .ok { value := some (.instruction 0 .i32),
              node := .mk .Expression (ExprTree.binary .Add
                { Get := .Int32, GetKind := .RValue, GetUserDefinedType := "" }
                (.literal "1" { Get := .Int32, GetKind := .RValue, GetUserDefinedType := "" })
                (.literal "2" { Get := .Int32, GetKind := .RValue,
                                GetUserDefinedType := "" })).linked,
              state := Lowering.start.withBackend
                { Lowering.start.backend with
                  emitted := [(none, .binary (.instruction 0 .i32) .Add
                    (.constant .i32 "1") (.constant .i32 "2"))]
                  nextId := 1 } } ∧
    Codegen 2 (.mk .Expression (ExprTree.binary .Add
          { Get := .Int32, GetKind := .RValue, GetUserDefinedType := "" }
          (.literal "1" { Get := .Int32, GetKind := .RValue, GetUserDefinedType := "" })
          (.literal "2" { Get := .Int32, GetKind := .RValue,
                          GetUserDefinedType := "" })).linked)
        (Lowering.start.withBackend
          { Lowering.start.backend with
            emitted := [(none, .binary (.instruction 0 .i32) .Add
              (.constant .i32 "1") (.constant .i32 "2"))]
            nextId := 1 })
      = .ok { value := none,
              node := .mk .Expression (ExprTree.binary .Add
                { Get := .Int32, GetKind := .RValue, GetUserDefinedType := "" }
                (.literal "1" { Get := .Int32, GetKind := .RValue, GetUserDefinedType := "" })
                (.literal "2" { Get := .Int32, GetKind := .RValue,
                                GetUserDefinedType := "" })).relinkedList,
              state := Lowering.start.withBackend
                { Lowering.start.backend with
                  emitted := [(none, .binary (.instruction 0 .i32) .Add
                    (.constant .i32 "1") (.constant .i32 "2"))]
                  nextId := 1 } } := by
  have h : Codegen ((ExprTree.binary .Add
          { Get := .Int32, GetKind := .RValue, GetUserDefinedType := "" }
          (.literal "1" { Get := .Int32, GetKind := .RValue, GetUserDefinedType := "" })
          (.literal "2" { Get := .Int32, GetKind := .RValue,
                          GetUserDefinedType := "" })).depth + 2 + 0)
      (.mk .Expression (ExprTree.binary .Add
          { Get := .Int32, GetKind := .RValue, GetUserDefinedType := "" }
          (.literal "1" { Get := .Int32, GetKind := .RValue, GetUserDefinedType := "" })
          (.literal "2" { Get := .Int32, GetKind := .RValue,
                          GetUserDefinedType := "" })).postorder)
      Lowering.start
      = .ok { value := some (.instruction 0 .i32),
              node := .mk .Expression (ExprTree.binary .Add
                { Get := .Int32, GetKind := .RValue, GetUserDefinedType := "" }
                (.literal "1" { Get := .Int32, GetKind := .RValue, GetUserDefinedType := "" })
                (.literal "2" { Get := .Int32, GetKind := .RValue,
                                GetUserDefinedType := "" })).linked,
              state := Lowering.start.withBackend
                { Lowering.start.backend with
                  emitted := [(none, .binary (.instruction 0 .i32) .Add
                    (.constant .i32 "1") (.constant .i32 "2"))]
                  nextId := 1 } } := by
    decide!
  exact ⟨h, (C36_second_lowering_emits_nothing _ _ _ _ 0 _ _ h).2.2 0 _⟩

/-! ## A call with more arguments than parameters -/

theorem cast_in_range (expected : List Paramater) (k : Nat) (t : AbstractType) (b : Backend)
    (value : Value) (hk : k < expected.length)
    (hn : ∀ p ∈ expected, p.Type_.Get ≠ .None) :
    ∃ v, ASTFunctionCall.Codegen.cast expected k t b value = .ok v := by
  unfold ASTFunctionCall.Codegen.cast
  rw [List.get?_eq_get hk]
  simp only []
  split
  · unfold AbstractType.CastValue
    rw [if_neg (hn _ (List.get_mem _ _ _))]
    exact ⟨_, rfl⟩
  · exact ⟨_, rfl⟩

theorem arguments_past_end (m : List (String × Value)) (expected : List Paramater)
    (hn : ∀ p ∈ expected, p.Type_.Get ≠ .None) :
    ∀ (as : List Argument) (k : Nat) (args : List Value) (b : Backend),
      (∀ a ∈ as, a.Field.GetKind = .RValue) → k ≤ expected.length →
      expected.length < k + as.length →
      ASTFunctionCall.Codegen.arguments m expected as k args b = .undefined := by
  intro as
  induction as with
  | nil =>
    intro k args b _ h1 h2
    simp at h2
    omega
  | cons a as ih =>
    intro k args b hr h1 h2
    simp only [ASTFunctionCall.Codegen.arguments, hr a (by simp), if_true]
    by_cases hk : k < expected.length
    · obtain ⟨v, hv⟩ := cast_in_range expected k a.Field b
        (GetLLVMConstant a.Field a.Data) hk hn
      rw [hv, Out.ok_bind]
      exact ih (k + 1) _ _ (fun x hx => hr x (by simp [hx])) hk
        (by simp at h2; omega)
    · have hk2 : expected.get? k = none := List.get?_eq_none.2 (by omega)
      simp only [ASTFunctionCall.Codegen.cast, hk2]
      rfl

/-- C37: a call of a registered function with more arguments than the function
has parameters, the arguments literals and no parameter of type `None`, reads
the parameter list past its end: the behaviour of `Codegen` is undefined, it
neither halts nor returns. -/
theorem C37_arguments_past_parameters (fuel : Nat) (m_Name : String)
    (m_Arguments : List Argument) (children : List ASTNode) (s : Lowering)
    (expected : List Paramater)
    (hreg : mapAt s.s_FunctionToExpectedTypes m_Name = some expected)
    (hn : ∀ p ∈ expected, p.Type_.Get ≠ .None)
    (hr : ∀ a ∈ m_Arguments, a.Field.GetKind = .RValue)
    (hlen : expected.length < m_Arguments.length) :
    Codegen (fuel + 1) (.mk (.FunctionCall m_Name m_Arguments) children) s = .undefined := by
  simp only [Codegen, ASTFunctionCall.Codegen, hreg]
  rw [arguments_past_end s.s_VariableMap expected hn m_Arguments 0 [] s.backend hr
    (Nat.zero_le _) (by omega)]
  rfl

/-- C37 at the function `f(p : int32)`, registered by its constructor, called
with the two literals `1` and `2`. -/
theorem C37_arguments_past_parameters_witness :
    mapAt (ASTFunctionDecleration.new "f" .None
        [{ Name := "p", Type_ := { Get := .Int32, GetKind := .LValue,
                                    GetUserDefinedType := "" } }]
        Lowering.start).2.s_FunctionToExpectedTypes "f"
      = some [{ Name := "p", Type_ := { Get := .Int32, GetKind := .LValue,
                                         GetUserDefinedType := "" } }] ∧
    Codegen 1 (.mk (.FunctionCall "f"
        [{ Field := { Get := .Int32, GetKind := .RValue, GetUserDefinedType := "" },
           Data := "1" },
         { Field := { Get := .Int32, GetKind := .RValue, GetUserDefinedType := "" },
           Data := "2" }]) [])
      (ASTFunctionDecleration.new "f" .None
        [{ Name := "p", Type_ := { Get := .Int32, GetKind := .LValue,
                                    GetUserDefinedType := "" } }]
        Lowering.start).2 = .undefined :=
  ⟨by decide!,
    C37_arguments_past_parameters 0 "f" _ [] _
      [{ Name := "p", Type_ := { Get := .Int32, GetKind := .LValue,
                                  GetUserDefinedType := "" } }]
      (by decide!) (by decide) (by decide) (by decide)⟩

end clear
